import Mathlib

/-!
# quickshift: core detection and remainder attachment

A shallow embedding of `src/cpp/quickshift` (`graph_basic.cpp`, `graph.cpp`,
`cluster_remaining.cpp`, `compute_cores.cpp`) and theorems about it.

Conventions of the embedding.

* A `std::shared_ptr` to a node is the position of the node in the arena that
  owns it (`GraphBasic::M`, `Graph::nodes`); the null pointer is `none`.
* `double` values that the caller passes are rationals: finite, no NaN.
  Comparisons of doubles are exact. What the arithmetic on doubles returns is
  fixed by the hardware and the libraries, not by the sources, and is a
  parameter: `SquaredNorm` for the squared norm of `cluster_remaining`, whose
  result is a number or `+infinity` (`none` in a distance vector, like the
  `+infinity` the code writes itself), and `Arith` for the sum, difference,
  product, quotient and `std::pow` of `compute_cores`. The theorems hold for
  every such arithmetic that keeps the laws stated with them; `squaredNorm`
  and `Arith.exact` are the instances without rounding.
* `int` values that are read from the caller's arrays are `Int`; positions the
  code itself counts (loop indices, arena positions, ranks) are `Nat`.
* A call either returns a value or fails. Reads and writes outside an array,
  a null dereference and the wrap-around of `size() - 1` on an empty vector
  are `Fault.undefined`; recursion or a loop that does not come back is
  `Fault.diverged` (the fuel of the model ran out).
* `std::unordered_set` / `std::unordered_map` are lists without repetition; the
  iteration order of a set is the order of insertion.
* Console output and the progress bar have no effect on the result and are
  left out; the progress bar iterates `0, 1, ..., n - 1`.
-/

namespace quickshift

/-- Ways in which code that throws nothing can still fail to produce a value. -/
inductive Fault where
  /-- Out-of-bounds access, null dereference, unsigned wrap-around. -/
  | undefined
  /-- Unbounded recursion or loop. -/
  | diverged
  deriving DecidableEq, Repr

/-- Ways in which a call of an entry point ends without returning a value. The
two `throw` statements of the sources are in the entry points themselves. -/
inductive Failure where
  /-- A `std::length_error`: the one thrown by the size check of
  `cluster_remaining`, and the one thrown by the constructor of `modal_sets`
  when the `int` number of elements is negative, which the conversion to
  `size_t` turns into a number above `max_size()`. -/
  | length_error
  /-- The `std::runtime_error` thrown by the size check of `compute_cores`. -/
  | runtime_error
  /-- A fault below the entry point. -/
  | fault (f : Fault)
  deriving DecidableEq, Repr

/-- A possibly null pointer to a node: the arena position of the node. -/
abbrev Ptr := Option Nat

abbrev VectorXd := List ℚ
abbrev VectorXi := List Int
abbrev RowMatrixXd := List (List ℚ)
abbrev RowMatrixXi := List (List Int)

/-- Read `v[k]` for an `int` index `k`; outside the vector the read is undefined. -/
def readAt {α : Type} (v : List α) (k : Int) : Except Fault α :=
  if k < 0 then .error .undefined
  else
    match v[k.toNat]? with
    | some a => .ok a
    | none => .error .undefined

/-! ## GraphBasic (`graph_basic.cpp`) -/

/-- Modelled from the spec: `node_basic.hpp` is not among the sources. A node of
the basic disjoint-set forest owns an integer payload `index`, a `rank` and the
link to its parent (null for a root); it is `Node` of `node.hpp` without the
child set. -/
structure NodeBasic where
  index : Int
  rank : Nat
  parent : Ptr
  deriving DecidableEq, Repr

/-- The basic disjoint-set structure: `M[i]` is the node of point `i`. -/
structure GraphBasic where
  M : List NodeBasic
  deriving DecidableEq, Repr

/-- `GraphBasic::GraphBasic(n)`: `n` parentless nodes of rank 0, node `i` with
payload `i`. -/
def GraphBasic.new (n : Nat) : GraphBasic :=
  ⟨(List.range n).map fun (i : Nat) => (⟨(i : Int), 0, none⟩ : NodeBasic)⟩

/-- The assignment `node->parent = p` for the node at position `x`. -/
def GraphBasic.set_parent (g : GraphBasic) (x : Nat) (p : Ptr) : GraphBasic :=
  match g.M[x]? with
  | none => g
  | some nd => ⟨g.M.set x { nd with parent := p }⟩

/-- The increment `node->rank++` for the node at position `x`. -/
def GraphBasic.incr_rank (g : GraphBasic) (x : Nat) : GraphBasic :=
  match g.M[x]? with
  | none => g
  | some nd => ⟨g.M.set x { nd with rank := nd.rank + 1 }⟩

/-- `GraphBasic::get_root` with a bound on the depth of the recursion. -/
def GraphBasic.get_root_fuel : Nat → GraphBasic → Ptr → Except Fault (GraphBasic × Ptr)
  | _, g, none => .ok (g, none)
  | 0, _, some _ => .error .diverged
  | fuel + 1, g, some x =>
    match g.M[x]? with
    | none => .error .undefined
    | some nd =>
      match nd.parent with
      | none => .ok (g, some x)
      | some p =>
        match GraphBasic.get_root_fuel fuel g (some p) with
        | .error e => .error e
        | .ok (g1, r) => .ok (g1.set_parent x r, r)

/-- `GraphBasic::get_root`: the recursion may go as deep as there are nodes. -/
def GraphBasic.get_root (g : GraphBasic) (node : Ptr) : Except Fault (GraphBasic × Ptr) :=
  GraphBasic.get_root_fuel g.M.length g node

/-- The part of `GraphBasic::add_edge` after both roots are known. -/
def GraphBasic.link (g : GraphBasic) (root1 root2 : Ptr) : Except Fault GraphBasic :=
  match root1, root2 with
  | some r1, some r2 =>
    if r1 ≠ r2 then
      match g.M[r1]?, g.M[r2]? with
      | some n1, some n2 =>
        let g3 := if n1.rank > n2.rank then g.set_parent r2 (some r1)
                  else g.set_parent r1 (some r2)
        .ok (if n1.rank = n2.rank then g3.incr_rank r2 else g3)
      | _, _ => .error .undefined
    else .ok g
  | _, _ => .ok g

/-- `GraphBasic::add_edge`. -/
def GraphBasic.add_edge (g : GraphBasic) (node1 node2 : Int) : Except Fault GraphBasic :=
  if node1 < 0 ∨ node2 < 0 then .ok g
  else
    match g.get_root (some node1.toNat) with
    | .error e => .error e
    | .ok (g1, root1) =>
      match g1.get_root (some node2.toNat) with
      | .error e => .error e
      | .ok (g2, root2) => g2.link root1 root2

/-! ## cluster_remaining (`cluster_remaining.cpp`) -/

/-- `v.maxCoeff()` of Eigen; undefined on an empty vector. -/
def maxCoeff : List Int → Except Fault Int
  | [] => .error .undefined
  | a :: rest => .ok (rest.foldl max a)

/-- The loop filling `modal_sets` (lines 58-62), over the point indices `is`. -/
def fill_modal_sets (cores : VectorXi) :
    List Nat → List (List Int) → Except Fault (List (List Int))
  | [], ms => .ok ms
  | i :: rest, ms =>
    match cores[i]? with
    | none => .error .undefined
    | some c =>
      if c ≥ 0 then
        match ms[c.toNat]? with
        | none => .error .undefined
        | some grp => fill_modal_sets cores rest (ms.set c.toNat (grp ++ [(i : Int)]))
      else fill_modal_sets cores rest ms

/-- The inner loop of lines 64-66 on a non-empty group: one edge between each
member and the next. -/
def chain_group (g : GraphBasic) : List Int → Except Fault GraphBasic
  | a :: b :: rest =>
    match g.add_edge a b with
    | .error e => .error e
    | .ok g1 => chain_group g1 (b :: rest)
  | _ => .ok g

/-- The loop of lines 63-67. On an empty group `size() - 1` wraps around and
the body reads past the end of the group. -/
def chain_modal_sets (g : GraphBasic) : List (List Int) → Except Fault GraphBasic
  | [] => .ok g
  | [] :: _ => .error .undefined
  | (a :: grp) :: rest =>
    match chain_group g (a :: grp) with
    | .error e => .error e
    | .ok g1 => chain_modal_sets g1 rest

/-- The scan of lines 79-84: the first entry of the neighbor row whose radius is
strictly smaller than `ri`, or `-1`. -/
def scan_neighbors (radii : VectorXd) (ri : ℚ) : List Int → Except Fault Int
  | [] => .ok (-1)
  | k :: rest =>
    match readAt radii k with
    | .error e => .error e
    | .ok rk => if rk < ri then .ok k else scan_neighbors radii ri rest

/-- The value in double arithmetic of `(a - b).squaredNorm()` for two rows `a`
and `b` of the dataset, `none` being `+infinity`: a library function of Eigen,
taken as a parameter. The rows hold finite doubles, so the result is a finite
double that is not negative, or `+infinity` when the sum of squares
overflows. -/
abbrev SquaredNorm := List ℚ → List ℚ → Option ℚ

/-- The squared norm of the difference of two rows where the doubles compute
it without rounding: the sum of squares when that is below
`2^1024 - 2^970`, from where on round-to-nearest gives `+infinity`. -/
def squaredNorm : SquaredNorm := fun a b =>
  if (List.zipWith (fun x y => (x - y) * (x - y)) a b).sum <
      (((2 ^ 1024 - 2 ^ 970 : Nat) : Int) : ℚ) then
    some (List.zipWith (fun x y => (x - y) * (x - y)) a b).sum
  else none

/-- Strict order of distances, `none` being `+infinity`. -/
def dist_lt : Option ℚ → Option ℚ → Bool
  | some a, some b => decide (a < b)
  | some _, none => true
  | none, _ => false

/-- The visitor of `dist.minCoeff(&index)`: position and value of the first
smallest coefficient among `best` (at `bi`) and `rest` (starting at `j`). -/
def minCoeff_visit : List (Option ℚ) → Nat → Nat → Option ℚ → Nat
  | [], _, bi, _ => bi
  | d :: rest, j, bi, best =>
    if dist_lt d best then minCoeff_visit rest (j + 1) j d
    else minCoeff_visit rest (j + 1) bi best

/-- `dist.minCoeff(&index)`: the index written; undefined on an empty vector. -/
def minCoeff_index : List (Option ℚ) → Except Fault Int
  | [] => .error .undefined
  | d :: rest => .ok ((minCoeff_visit rest 1 0 d : Nat) : Int)

/-- The loop of lines 94-98 over `j = 0, ..., n_points - 1`: a point whose radius
is not below `ri` becomes unreachable. -/
def mask_dist (radii : VectorXd) (ri : ℚ) :
    List Nat → List (Option ℚ) → Except Fault (List (Option ℚ))
  | [], dist => .ok dist
  | j :: rest, dist =>
    match radii[j]? with
    | none => .error .undefined
    | some rj =>
      if rj ≥ ri then
        if j < dist.length then mask_dist radii ri rest (dist.set j none)
        else .error .undefined
      else mask_dist radii ri rest dist

/-- The fallback of lines 85-104 for point `i` with radius `ri` and row `xi`:
the index that `minCoeff` writes for the distances computed by `norm`, once
those of the points whose radius is not below `ri` are set to `+infinity`; or
`-1` when no point has a radius below `ri`. -/
def fallback (norm : SquaredNorm) (dataset : RowMatrixXd) (radii : VectorXd) (n_points : Nat)
    (xi : List ℚ) (ri : ℚ) : Except Fault Int :=
  if radii.any (fun r => decide (r < ri)) then
    match mask_dist radii ri (List.range n_points)
        (dataset.map fun row => norm row xi) with
    | .error e => .error e
    | .ok dist =>
      match minCoeff_index dist with
      | .error e => .error e
      | .ok index => if index > -1 then .ok index else .ok (-1)
  else .ok (-1)

/-- The value of `next` that the body of the loop of lines 71-125 computes for
an unassigned point `i` (lines 75-119). -/
def ascent_target (norm : SquaredNorm) (dataset : RowMatrixXd) (radii : VectorXd)
    (neighbors : RowMatrixXi) (i : Nat) : Except Fault Int :=
  match radii[i]?, neighbors[i]?, dataset[i]? with
  | some ri, some row, some xi =>
    match scan_neighbors radii ri row with
    | .error e => .error e
    | .ok next =>
      if next < 0 then fallback norm dataset radii dataset.length xi ri
      else .ok next
  | _, _, _ => .error .undefined

/-- The loop of lines 71-125 over the point indices `is`. -/
def build_edges (norm : SquaredNorm) (dataset : RowMatrixXd) (radii : VectorXd)
    (neighbors : RowMatrixXi) (cores : VectorXi) :
    List Nat → GraphBasic → Except Fault GraphBasic
  | [], g => .ok g
  | i :: rest, g =>
    match cores[i]? with
    | none => .error .undefined
    | some c =>
      if c ≥ 0 then build_edges norm dataset radii neighbors cores rest g
      else
        match ascent_target norm dataset radii neighbors i with
        | .error e => .error e
        | .ok next =>
          if next < 0 then build_edges norm dataset radii neighbors cores rest g
          else
            match g.add_edge (i : Int) next with
            | .error e => .error e
            | .ok g1 => build_edges norm dataset radii neighbors cores rest g1

/-- The state of the labelling loop of lines 127-140. -/
structure Labelling where
  graphb : GraphBasic
  label_mapping : List (Int × Int)
  n_clusters : Int
  result : VectorXi
  deriving DecidableEq, Repr

/-- The loop of lines 131-140 over the point indices `is`. -/
def assign_clusters : List Nat → Labelling → Except Fault Labelling
  | [], s => .ok s
  | i :: rest, s =>
    match s.graphb.M[i]? with
    | none => .error .undefined
    | some _ =>
      match s.graphb.get_root (some i) with
      | .error e => .error e
      | .ok (_, none) => .error .undefined
      | .ok (g1, some r) =>
        match g1.M[r]? with
        | none => .error .undefined
        | some nd =>
          let label := nd.index
          if i < s.result.length then
            match s.label_mapping.lookup label with
            | some v =>
              assign_clusters rest
                { s with graphb := g1, result := s.result.set i v }
            | none =>
              assign_clusters rest
                { graphb := g1
                  label_mapping := (label, s.n_clusters) :: s.label_mapping
                  n_clusters := s.n_clusters + 1
                  result := s.result.set i s.n_clusters }
          else .error .undefined

/-- Lines 43-125 of `cluster_remaining`: the forest `graphb` once all unions
are done. -/
def cluster_remaining_forest (norm : SquaredNorm) (dataset : RowMatrixXd) (radii : VectorXd)
    (neighbors : RowMatrixXi) (cores : VectorXi) : Except Failure GraphBasic :=
  let n_points := dataset.length
  if neighbors.length ≠ n_points then .error .length_error
  else
    let graphb := GraphBasic.new n_points
    match maxCoeff cores with
    | .error e => .error (.fault e)
    | .ok mx =>
      let n_chosen_clusters := mx + 1
      if n_chosen_clusters < 0 then .error .length_error
      else
        match fill_modal_sets cores (List.range n_points)
            (List.replicate n_chosen_clusters.toNat []) with
        | .error e => .error (.fault e)
        | .ok modal_sets =>
          match chain_modal_sets graphb modal_sets with
          | .error e => .error (.fault e)
          | .ok g1 =>
            match build_edges norm dataset radii neighbors cores (List.range n_points) g1 with
            | .error e => .error (.fault e)
            | .ok g2 => .ok g2

/-- `quickshift::cluster_remaining`. -/
def cluster_remaining (norm : SquaredNorm) (dataset : RowMatrixXd) (radii : VectorXd)
    (neighbors : RowMatrixXi) (cores : VectorXi) : Except Failure VectorXi :=
  match cluster_remaining_forest norm dataset radii neighbors cores with
  | .error e => .error e
  | .ok g2 =>
    match assign_clusters (List.range dataset.length)
        ⟨g2, [], 0, List.replicate dataset.length (-1)⟩ with
    | .error e => .error (.fault e)
    | .ok s => .ok s.result

/-! ## Graph (`graph.cpp`, `graph.hpp`, `node.hpp`) -/

/-- `Node` of `node.hpp`; `children` is the `std::unordered_set<Ptr>`. -/
structure Node where
  index : Int
  rank : Nat
  parent : Ptr
  children : List Nat
  deriving DecidableEq, Repr

/-- `Graph` of `graph.hpp`. `nodes` is the arena; in `M` the entry of a key is
the first pair with that key. -/
structure Graph where
  nodes : List Node
  M : List (Int × Ptr)
  intersecting_sets : List Nat
  deriving DecidableEq, Repr

/-- `Graph() = default`. -/
def Graph.empty : Graph := ⟨[], [], []⟩

/-- `s.insert(x)` / `s.emplace(x)` on an unordered set. -/
def set_insert (s : List Nat) (x : Nat) : List Nat :=
  if x ∈ s then s else s ++ [x]

/-- An assignment to fields of the node at position `x`. -/
def Graph.modify_node (g : Graph) (x : Nat) (f : Node → Node) : Graph :=
  match g.nodes[x]? with
  | none => g
  | some nd => { g with nodes := g.nodes.set x (f nd) }

/-- `M[n]`: the pointer stored for key `n`, null when the key is absent. -/
def Graph.at (g : Graph) (n : Int) : Ptr :=
  match g.M.lookup n with
  | some p => p
  | none => none

/-- `Graph::get_root` with a bound on the depth of the recursion. The node is
dereferenced at once, so a null argument is undefined. -/
def Graph.get_root_fuel : Nat → Graph → Ptr → Except Fault (Graph × Nat)
  | _, _, none => .error .undefined
  | 0, _, some _ => .error .diverged
  | fuel + 1, g, some x =>
    match g.nodes[x]? with
    | none => .error .undefined
    | some nd =>
      match nd.parent with
      | some p =>
        let g1 := g.modify_node p fun pn => { pn with children := pn.children.erase x }
        match Graph.get_root_fuel fuel g1 (some p) with
        | .error e => .error e
        | .ok (g2, r) =>
          let g3 := g2.modify_node x fun n => { n with parent := some r }
          .ok (g3.modify_node r fun rn => { rn with children := set_insert rn.children x }, r)
      | none => .ok (g, x)

/-- `Graph::get_root`: the recursion may go as deep as there are nodes. -/
def Graph.get_root (g : Graph) (node : Ptr) : Except Fault (Graph × Nat) :=
  Graph.get_root_fuel g.nodes.length g node

/-- `Graph::add_node`. -/
def Graph.add_node (g : Graph) (idx : Int) : Graph :=
  { g with
    nodes := g.nodes ++ [⟨idx, 0, none, []⟩]
    M := (idx, some g.nodes.length) :: g.M }

/-- `Graph::merge_components`. -/
def Graph.merge_components (g : Graph) (parent child : Nat) : Graph :=
  let g1 := g.modify_node child fun n => { n with parent := some parent }
  let g2 := g1.modify_node parent fun n => { n with children := set_insert n.children child }
  let g3 : Graph :=
    if child ∈ g2.intersecting_sets then
      { g2 with intersecting_sets := set_insert (g2.intersecting_sets.erase child) parent }
    else g2
  match g3.nodes[parent]?, g3.nodes[child]? with
  | some pn, some cn =>
    if pn.rank = cn.rank then g3.modify_node parent fun n => { n with rank := n.rank + 1 }
    else g3
  | _, _ => g3

/-- `Graph::add_edge`. -/
def Graph.add_edge (g : Graph) (node1 node2 : Int) : Except Fault Graph :=
  match g.get_root (g.at node1) with
  | .error e => .error e
  | .ok (g1, root1) =>
    match g1.get_root (g1.at node2) with
    | .error e => .error e
    | .ok (g2, root2) =>
      if root1 ≠ root2 then
        match g2.nodes[root1]?, g2.nodes[root2]? with
        | some n1, some n2 =>
          if n1.rank > n2.rank then .ok (g2.merge_components root1 root2)
          else .ok (g2.merge_components root2 root1)
        | _, _ => .error .undefined
      else .ok g2

/-- The `while` loop of `Graph::get_connected_component`, with a bound on the
number of iterations; the head of the list is the back of `node_stack`. -/
def Graph.traverse (g : Graph) : Nat → List Nat → List Int → Except Fault (List Int)
  | _, [], conn_comp => .ok conn_comp
  | 0, _ :: _, _ => .error .diverged
  | fuel + 1, top :: node_stack, conn_comp =>
    match g.nodes[top]? with
    | none => .error .undefined
    | some nd =>
      Graph.traverse g fuel (nd.children.foldl (fun s c => c :: s) node_stack)
        (conn_comp ++ [nd.index])

/-- `Graph::get_connected_component`: every node is popped at most once. -/
def Graph.get_connected_component (g : Graph) (n : Int) : Except Fault (Graph × List Int) :=
  match g.get_root (g.at n) with
  | .error e => .error e
  | .ok (g1, root) =>
    match g1.traverse g1.nodes.length [root] [] with
    | .error e => .error e
    | .ok conn_comp => .ok (g1, conn_comp)

/-- `Graph::component_seen`. -/
def Graph.component_seen (g : Graph) (n : Int) : Except Fault (Graph × Bool) :=
  match g.get_root (g.at n) with
  | .error e => .error e
  | .ok (g1, root) =>
    if root ∈ g1.intersecting_sets then .ok (g1, true)
    else .ok ({ g1 with intersecting_sets := g1.intersecting_sets ++ [root] }, false)

/-! ## compute_cores (`compute_cores.cpp`) -/

/-- `KnnPoint` of `compute_cores.cpp`. -/
structure KnnPoint where
  dist : ℚ
  idx : Int
  deriving DecidableEq, Repr

/-- `std::binary_search` on a sorted range: whether `x` occurs in it. -/
def binary_search (sorted_row : List Int) (x : Int) : Bool :=
  sorted_row.contains x

/-- The loop of lines 90-97 over the raw neighbor row of the pruned point `p`. -/
def add_mutual_edges (sorted_neigbors : RowMatrixXi) (p : Int) :
    List Int → Graph → Except Fault Graph
  | [], g => .ok g
  | neighbor_idx :: rest, g =>
    if (g.M.lookup neighbor_idx).isSome then
      match readAt sorted_neigbors neighbor_idx with
      | .error e => .error e
      | .ok srow =>
        if binary_search srow p then
          match g.add_edge p neighbor_idx with
          | .error e => .error e
          | .ok g1 => add_mutual_edges sorted_neigbors p rest g1
        else add_mutual_edges sorted_neigbors p rest g
    else add_mutual_edges sorted_neigbors p rest g

/-- The double arithmetic of `compute_cores`, taken as a parameter: the sum,
difference, product and quotient as the hardware rounds them, and `std::pow`.
The arguments that occur are finite doubles; a result `+infinity` is
represented by a number above every double, which the comparisons of the
sweep do not tell apart from it. -/
structure Arith where
  add : ℚ → ℚ → ℚ
  sub : ℚ → ℚ → ℚ
  mul : ℚ → ℚ → ℚ
  div : ℚ → ℚ → ℚ
  pow : ℚ → ℚ → ℚ

/-- The arithmetic without rounding, with a given `std::pow`. -/
def Arith.exact (pow : ℚ → ℚ → ℚ) : Arith :=
  ⟨fun x y => x + y, fun x y => x - y, fun x y => x * y, fun x y => x / y, pow⟩

/-- The `while` loop of lines 85-99 at a sweep position whose radius is `di`;
`grow` is `pow(1 + epsilon, 1 / dim)` and `mul` the product of doubles. Returns
the graph and `last_pruned`. -/
def prune_loop (mul : ℚ → ℚ → ℚ) (grow : ℚ) (neighbors sorted_neigbors : RowMatrixXi) (knn_radii : List KnnPoint)
    (n_points : Nat) (di : ℚ) : Nat → Graph → Nat → Except Fault (Graph × Nat)
  | 0, _, _ => .error .diverged
  | fuel + 1, g, last_pruned =>
    if last_pruned < n_points then
      match knn_radii[last_pruned]? with
      | none => .error .undefined
      | some kp =>
        if mul grow di > kp.dist then
          match readAt neighbors kp.idx with
          | .error e => .error e
          | .ok row =>
            match add_mutual_edges sorted_neigbors kp.idx row (g.add_node kp.idx) with
            | .error e => .error e
            | .ok g1 =>
              prune_loop mul grow neighbors sorted_neigbors knn_radii n_points di fuel g1
                (last_pruned + 1)
        else .ok (g, last_pruned)
    else .ok (g, last_pruned)

/-- The variables of `compute_cores` that the consideration step changes. -/
structure Chosen where
  graph : Graph
  m_hat : List Int
  cluster_membership : List Int
  n_chosen_points : Nat
  n_chosen_clusters : Int
  last_considered : Nat
  deriving DecidableEq, Repr

/-- The loop of lines 104-109 over the members of a component. -/
def collect (radii : VectorXd) (di : ℚ) (n_chosen_clusters : Int) :
    List Int → List Int → List Int → Nat → Except Fault (List Int × List Int × Nat)
  | [], m_hat, cluster_membership, n_chosen_points =>
    .ok (m_hat, cluster_membership, n_chosen_points)
  | comp_idx :: rest, m_hat, cluster_membership, n_chosen_points =>
    match readAt radii comp_idx with
    | .error e => .error e
    | .ok r =>
      if r ≤ di then
        if n_chosen_points < cluster_membership.length ∧ n_chosen_points < m_hat.length then
          collect radii di n_chosen_clusters rest (m_hat.set n_chosen_points comp_idx)
            (cluster_membership.set n_chosen_points n_chosen_clusters) (n_chosen_points + 1)
        else .error .undefined
      else collect radii di n_chosen_clusters rest m_hat cluster_membership n_chosen_points

/-- The `while` loop of lines 101-113 at a sweep position whose radius is `di`;
`shrink` is `pow(1 - beta, 1 / dim)` and `mul` the product of doubles. -/
def consider_loop (mul : ℚ → ℚ → ℚ) (shrink : ℚ) (radii : VectorXd) (knn_radii : List KnnPoint) (di : ℚ) :
    Nat → Chosen → Except Fault Chosen
  | 0, _ => .error .diverged
  | fuel + 1, s =>
    match knn_radii[s.last_considered]? with
    | none => .error .undefined
    | some kp =>
      if mul di shrink > kp.dist then
        match s.graph.component_seen kp.idx with
        | .error e => .error e
        | .ok (g1, true) =>
          consider_loop mul shrink radii knn_radii di fuel
            { s with graph := g1, last_considered := s.last_considered + 1 }
        | .ok (g1, false) =>
          match g1.get_connected_component kp.idx with
          | .error e => .error e
          | .ok (g2, res) =>
            match collect radii di s.n_chosen_clusters res s.m_hat s.cluster_membership
                s.n_chosen_points with
            | .error e => .error e
            | .ok (m_hat, cluster_membership, n_chosen_points) =>
              consider_loop mul shrink radii knn_radii di fuel
                { graph := g2
                  m_hat := m_hat
                  cluster_membership := cluster_membership
                  n_chosen_points := n_chosen_points
                  n_chosen_clusters := s.n_chosen_clusters + 1
                  last_considered := s.last_considered + 1 }
      else .ok s

/-- The sweep of lines 84-114 over the positions `is` of the sorted order.
Neither `while` loop can run more than `n_points + 1` times without reading
past the end of `knn_radii`. -/
def sweep (mul : ℚ → ℚ → ℚ) (grow shrink : ℚ) (radii : VectorXd) (neighbors sorted_neigbors : RowMatrixXi)
    (knn_radii : List KnnPoint) (n_points : Nat) :
    List Nat → Chosen → Nat → Except Fault (Chosen × Nat)
  | [], s, last_pruned => .ok (s, last_pruned)
  | i :: rest, s, last_pruned =>
    match knn_radii[i]? with
    | none => .error .undefined
    | some ki =>
      match prune_loop mul grow neighbors sorted_neigbors knn_radii n_points ki.dist
          (n_points + 1) s.graph last_pruned with
      | .error e => .error e
      | .ok (g1, last_pruned1) =>
        match consider_loop mul shrink radii knn_radii ki.dist (n_points + 1)
            { s with graph := g1 } with
        | .error e => .error e
        | .ok s1 =>
          sweep mul grow shrink radii neighbors sorted_neigbors knn_radii n_points rest s1
            last_pruned1

/-- The loop of lines 118-120 over `i = 0, ..., n_chosen_points - 1`. -/
def scatter (m_hat cluster_membership : List Int) : List Nat → VectorXi → Except Fault VectorXi
  | [], result => .ok result
  | i :: rest, result =>
    match m_hat[i]?, cluster_membership[i]? with
    | some p, some c =>
      if 0 ≤ p ∧ p.toNat < result.length then
        scatter m_hat cluster_membership rest (result.set p.toNat c)
      else .error .undefined
    | _, _ => .error .undefined

/-- Lines 52-114 of `compute_cores`: the variables after the sweep. What the
sources do not fix is a parameter: `ar` is the double arithmetic with
`std::pow`, and `sort` is the `std::sort` of line 65, which orders `knn_radii`
by `dist` and may put points of equal radius in any order. -/
def compute_cores_sweep (ar : Arith) (sort : List KnnPoint → List KnnPoint) (dim : Int)
    (radii : VectorXd) (neighbors : RowMatrixXi) (beta epsilon : ℚ) :
    Except Failure Chosen :=
  let n_points := radii.length
  if n_points ≠ neighbors.length then .error .runtime_error
  else
    let knn_radii := sort (List.zipWith (fun (r : ℚ) (i : Nat) => (⟨r, (i : Int)⟩ : KnnPoint))
      radii (List.range n_points))
    let sorted_neigbors := neighbors.map fun row => row.insertionSort (· ≤ ·)
    match sweep ar.mul (ar.pow (ar.add 1 epsilon) (ar.div 1 dim))
        (ar.pow (ar.sub 1 beta) (ar.div 1 dim)) radii neighbors
        sorted_neigbors knn_radii n_points (List.range n_points)
        ⟨Graph.empty, List.replicate n_points 0, List.replicate n_points 0, 0, 0, 0⟩ 0 with
    | .error e => .error (.fault e)
    | .ok (s, _) => .ok s

/-- `quickshift::compute_cores`. -/
def compute_cores (ar : Arith) (sort : List KnnPoint → List KnnPoint) (dim : Int)
    (radii : VectorXd) (neighbors : RowMatrixXi) (beta epsilon : ℚ) :
    Except Failure VectorXi :=
  match compute_cores_sweep ar sort dim radii neighbors beta epsilon with
  | .error e => .error e
  | .ok s =>
    match scatter s.m_hat s.cluster_membership (List.range s.n_chosen_points)
        (List.replicate radii.length (-1)) with
    | .error e => .error (.fault e)
    | .ok result => .ok result

/-- A stable insertion sort by `dist`: one admissible behaviour of the
`std::sort` call of line 65. -/
def stable_sort (l : List KnnPoint) : List KnnPoint :=
  l.insertionSort fun a b => a.dist ≤ b.dist

/-- The power function at exponent one, where `std::pow` is the identity. -/
def pow_one (x _y : ℚ) : ℚ := x

deriving instance DecidableEq for Except

/-! ## Vocabulary of the statements -/

/-- `Reach par x r`: following the parent links `par` from `x` ends at the
parentless node `r`. -/
inductive Reach (par : Nat → Option Nat) : Nat → Nat → Prop
  | root {x : Nat} : par x = none → Reach par x x
  | step {x p r : Nat} : par x = some p → Reach par p r → Reach par x r

/-- The parent link of the node at position `x` of the basic forest. -/
def GraphBasic.par (g : GraphBasic) (x : Nat) : Option Nat :=
  match g.M[x]? with
  | some nd => nd.parent
  | none => none

/-- The rank of the node at position `x` of the basic forest. -/
def GraphBasic.rk (g : GraphBasic) (x : Nat) : Nat :=
  match g.M[x]? with
  | some nd => nd.rank
  | none => 0

/-- The number of parentless nodes of the basic forest. -/
def GraphBasic.roots (g : GraphBasic) : Nat :=
  g.M.countP fun nd => nd.parent.isNone

/-- The states of the basic forest that the operations keep to: node `i` has
payload `i`, parents are nodes of the forest and have a larger rank than their
children, and a rank never exceeds the number of unions made so far. -/
structure GraphBasic.Wf (g : GraphBasic) : Prop where
  index_eq : ∀ (x : Nat) (nd : NodeBasic), g.M[x]? = some nd → nd.index = (x : Int)
  parent_lt : ∀ x p, g.par x = some p → p < g.M.length
  rank_lt : ∀ x p, g.par x = some p → g.rk x < g.rk p
  rank_roots : ∀ x, x < g.M.length → g.rk x + g.roots ≤ g.M.length

/-- `g2` has the sets of `g`: the same nodes, ranks and number of roots, and
every node resolves to the same root. -/
structure GraphBasic.Compressed (g g2 : GraphBasic) : Prop where
  length_eq : g2.M.length = g.M.length
  reach_iff : ∀ y s, Reach g2.par y s ↔ Reach g.par y s
  roots_eq : g2.roots = g.roots
  rk_eq : ∀ y, g2.rk y = g.rk y

/-- Points `x` and `y` are in the same set of the basic forest. -/
def GraphBasic.SameSet (g : GraphBasic) (x y : Nat) : Prop :=
  ∃ r, Reach g.par x r ∧ Reach g.par y r

/-- The root that `get_root` returns for point `i`. -/
def GraphBasic.find (g : GraphBasic) (i : Nat) : Except Fault Ptr :=
  match g.get_root (some i) with
  | .error e => .error e
  | .ok (_, r) => .ok r

/-- `g2` has the nodes of `g`, and sets that contain the sets of `g`. -/
structure GraphBasic.Coarser (g g2 : GraphBasic) : Prop where
  length_eq : g2.M.length = g.M.length
  mono : ∀ x y, g.SameSet x y → g2.SameSet x y

/-- The inputs `cluster_remaining` is meant for: `n ≥ 1` points; one neighbor
row, one radius and one core entry per point; neighbor indices that are point
indices; core entries that are the sentinel `-1` or a cluster id, every id up
to the largest one being held by some point. -/
structure ValidInput (dataset : RowMatrixXd) (radii : VectorXd) (neighbors : RowMatrixXi)
    (cores : VectorXi) : Prop where
  n_pos : 0 < dataset.length
  rows_eq : neighbors.length = dataset.length
  radii_len : radii.length = dataset.length
  cores_len : cores.length = dataset.length
  nbr_range : ∀ row ∈ neighbors, ∀ k ∈ row, 0 ≤ k ∧ k < (dataset.length : Int)
  cores_ge : ∀ c ∈ cores, -1 ≤ c
  cores_cover : ∀ c ∈ cores, ∀ k : Int, 0 ≤ k → k ≤ c → k ∈ cores

/-- The state of the labelling loop of `cluster_remaining` once the points
`0, ..., i - 1` are labelled, `g0` being the forest the loop started from. -/
structure LabelInv (g0 : GraphBasic) (s : Labelling) (i : Nat) : Prop where
  wf : s.graphb.Wf
  comp : g0.Compressed s.graphb
  len : s.result.length = g0.M.length
  nonneg : 0 ≤ s.n_clusters
  bounds : ∀ (k v : Int), s.label_mapping.lookup k = some v → 0 ≤ v ∧ v < s.n_clusters
  inj : ∀ (k1 k2 v : Int), s.label_mapping.lookup k1 = some v →
    s.label_mapping.lookup k2 = some v → k1 = k2
  used : ∀ (k v : Int), s.label_mapping.lookup k = some v →
    ∃ j r, j < i ∧ Reach g0.par j r ∧ k = (r : Int) ∧ s.result[j]? = some v
  surj : ∀ v : Int, 0 ≤ v → v < s.n_clusters → ∃ k, s.label_mapping.lookup k = some v
  labelled : ∀ j r, j < i → Reach g0.par j r →
    ∃ v, s.label_mapping.lookup (r : Int) = some v ∧ s.result[j]? = some v
  first : ∀ (j : Nat) (v : Int), j < i → s.result[j]? = some v →
    (j = 0 ∧ v = 0) ∨ ∃ (j2 : Nat) (v2 : Int), j2 < j ∧ s.result[j2]? = some v2 ∧ v ≤ v2 + 1

/-- `Anc par y r`: `r` is `y` or an ancestor of `y` along the parent links. -/
inductive Anc (par : Nat → Option Nat) : Nat → Nat → Prop
  | self {y : Nat} : Anc par y y
  | step {y p r : Nat} : par y = some p → Anc par p r → Anc par y r

/-- The parent link of the node at position `x` of the component graph. -/
def Graph.par (g : Graph) (x : Nat) : Option Nat :=
  match g.nodes[x]? with
  | some nd => nd.parent
  | none => none

/-- The rank of the node at position `x` of the component graph. -/
def Graph.rk (g : Graph) (x : Nat) : Nat :=
  match g.nodes[x]? with
  | some nd => nd.rank
  | none => 0

/-- The child set of the node at position `x` of the component graph. -/
def Graph.kids (g : Graph) (x : Nat) : List Nat :=
  match g.nodes[x]? with
  | some nd => nd.children
  | none => []

/-- The payload of the node at position `x` of the component graph. -/
def Graph.payload (g : Graph) (x : Nat) : Option Int :=
  match g.nodes[x]? with
  | some nd => some nd.index
  | none => none

/-- The number of parentless nodes of the component graph. -/
def Graph.roots (g : Graph) : Nat :=
  g.nodes.countP fun nd => nd.parent.isNone

/-- The parent links of the component graph form a forest: parents are nodes
of the graph and have a larger rank than their children, and a rank never
exceeds the number of unions made so far. -/
structure Graph.Forest (g : Graph) : Prop where
  parent_lt : ∀ x p, g.par x = some p → p < g.nodes.length
  rank_lt : ∀ x p, g.par x = some p → g.rk x < g.rk p
  rank_roots : ∀ x, x < g.nodes.length → g.rk x + g.roots ≤ g.nodes.length

/-- The child sets are those of the parent links, except that the nodes of
`detached` are in no child set (they are on the path `get_root` is
compressing). -/
structure Graph.KidsOk (g : Graph) (detached : List Nat) : Prop where
  kids_iff : ∀ x y, y ∈ g.kids x ↔ (g.par y = some x ∧ y ∉ detached)
  kids_nodup : ∀ x, (g.kids x).Nodup

/-- The map `M` and the seen-set fit the nodes: every node is the entry of its
payload in `M`, every entry of `M` is a node with that payload, and the seen-set
holds parentless nodes, each once. -/
structure Graph.Registry (g : Graph) : Prop where
  key_node : ∀ (x : Nat) (nd : Node), g.nodes[x]? = some nd →
    g.M.lookup nd.index = some (some x)
  node_key : ∀ (k : Int) (p : Ptr), g.M.lookup k = some p →
    ∃ x nd, p = some x ∧ g.nodes[x]? = some nd ∧ nd.index = k
  seen_root : ∀ r ∈ g.intersecting_sets, r < g.nodes.length ∧ g.par r = none
  seen_nodup : g.intersecting_sets.Nodup

/-- The states of the component graph that the operations keep to. -/
structure Graph.Wf (g : Graph) : Prop where
  forest : g.Forest
  kids : g.KidsOk []
  registry : g.Registry

/-- `g2` has the nodes, payloads, ranks, map and seen-set of `g`, and every
node resolves to the same root. -/
structure Graph.Compressed (g g2 : Graph) : Prop where
  length_eq : g2.nodes.length = g.nodes.length
  reach_iff : ∀ y s, Reach g2.par y s ↔ Reach g.par y s
  roots_eq : g2.roots = g.roots
  rk_eq : ∀ y, g2.rk y = g.rk y
  payload_eq : ∀ y, g2.payload y = g.payload y
  M_eq : g2.M = g.M
  seen_eq : g2.intersecting_sets = g.intersecting_sets

/-- The state of the traversal of `get_connected_component` started at `root`:
`stack` is `node_stack` and `visited` the nodes whose payload is already in
`conn_comp`. No node of the stack is below another one, no visited node is
below a node of the stack, and the nodes below `root` are the visited ones and
those below a node of the stack. -/
structure Graph.DfsInv (g : Graph) (root : Nat) (stack visited : List Nat) : Prop where
  stack_nodup : stack.Nodup
  stack_lt : ∀ s ∈ stack, s < g.nodes.length
  stack_apart : ∀ s ∈ stack, ∀ t ∈ stack, Anc g.par s t → s = t
  visited_apart : ∀ v ∈ visited, ∀ s ∈ stack, ¬ Anc g.par v s
  visited_nodup : visited.Nodup
  visited_lt : ∀ v ∈ visited, v < g.nodes.length
  cover : ∀ y, Anc g.par y root ↔ (y ∈ visited ∨ ∃ s ∈ stack, Anc g.par y s)

/-- The seen-set after `merge_components parent child`. -/
def merged_seen (seen : List Nat) (parent child : Nat) : List Nat :=
  if child ∈ seen then set_insert (seen.erase child) parent else seen

/-- The point with payload `p` is a node of the graph and its component has been
marked as seen. -/
def Graph.SeenPoint (g : Graph) (p : Int) : Prop :=
  ∃ x r, g.M.lookup p = some (some x) ∧ Reach g.par x r ∧ r ∈ g.intersecting_sets

/-- The points with payloads `p` and `q` are nodes of one component. -/
def Graph.Connected (g : Graph) (p q : Int) : Prop :=
  ∃ x y r, g.M.lookup p = some (some x) ∧ g.M.lookup q = some (some y) ∧
    Reach g.par x r ∧ Reach g.par y r

/-- What `std::pow` guarantees for a positive exponent, as far as the sweep
needs it: a base above 1 gives a value above 1, a base strictly between 0 and 1
gives a value strictly between 0 and 1. -/
def PowLaw (pow : ℚ → ℚ → ℚ) : Prop :=
  ∀ x y : ℚ, 0 < y → (1 < x → 1 < pow x y) ∧ (0 < x → x < 1 → 0 < pow x y ∧ pow x y < 1)

/-- What the sweep needs of the double arithmetic on the radii it is given,
true of round-to-nearest, which is monotone and leaves a double as it is, and
of a `std::pow` that is faithful at the value 1: a quotient `1 / d` with
`d ≥ 1` is positive; `pow(1 + e, y)` is at least 1 and `pow(1 - b, y)` at most 1
for `e > 0`, `0 < b < 1` and `y > 0`; the product of a non-negative radius with
a factor that is at least 1 is not below the radius, and with a factor that is
at most 1 it is not above the radius. -/
structure ArithLaw (ar : Arith) (radii : VectorXd) : Prop where
  div_pos : ∀ d : ℚ, 1 ≤ d → 0 < ar.div 1 d
  grow_ge : ∀ e y : ℚ, 0 < e → 0 < y → 1 ≤ ar.pow (ar.add 1 e) y
  shrink_le : ∀ b y : ℚ, 0 < b → b < 1 → 0 < y → ar.pow (ar.sub 1 b) y ≤ 1
  mul_ge : ∀ g : ℚ, 1 ≤ g → ∀ r ∈ radii, 0 ≤ r → r ≤ ar.mul g r
  mul_le : ∀ s : ℚ, s ≤ 1 → ∀ r ∈ radii, 0 ≤ r → ar.mul r s ≤ r

/-- The sorted array `knn_radii` of `compute_cores`: one entry per point, each
holding a point index and the radius of that point, no index twice, radii in
ascending order. -/
structure KnnSorted (radii : VectorXd) (knn_radii : List KnnPoint) : Prop where
  len : knn_radii.length = radii.length
  entry : ∀ (j : Nat) (kp : KnnPoint), knn_radii[j]? = some kp →
    ∃ m : Nat, kp.idx = (m : Int) ∧ radii[m]? = some kp.dist
  idx_nodup : (knn_radii.map fun kp => kp.idx).Nodup
  sorted : knn_radii.Pairwise fun a b => a.dist ≤ b.dist

/-- The state of the sweep of `compute_cores` between two steps: the graph
holds the first `last_pruned` points of the sorted order, the collected points
are in seen components and pairwise distinct, and every cluster id handed out
so far labels at least one collected point. -/
structure SweepInv (knn_radii : List KnnPoint) (s : Chosen) (last_pruned : Nat) : Prop where
  wf : s.graph.Wf
  pruned_le : last_pruned ≤ knn_radii.length
  nodes_len : s.graph.nodes.length = last_pruned
  in_graph : ∀ q : Int, (s.graph.M.lookup q).isSome ↔
    ∃ (j : Nat) (kp : KnnPoint), j < last_pruned ∧ knn_radii[j]? = some kp ∧ kp.idx = q
  m_hat_len : s.m_hat.length = knn_radii.length
  cm_len : s.cluster_membership.length = knn_radii.length
  chosen_le : s.n_chosen_points ≤ knn_radii.length
  collected_seen : ∀ (t : Nat) (p : Int), t < s.n_chosen_points → s.m_hat[t]? = some p →
    s.graph.SeenPoint p
  collected_nodup : (s.m_hat.take s.n_chosen_points).Nodup
  ids : ∀ t : Nat, t < s.n_chosen_points →
    ∃ c : Int, s.cluster_membership[t]? = some c ∧ 0 ≤ c ∧ c < s.n_chosen_clusters
  ids_used : ∀ c : Int, 0 ≤ c → c < s.n_chosen_clusters →
    ∃ t : Nat, t < s.n_chosen_points ∧ s.cluster_membership[t]? = some c
  clusters_nonneg : 0 ≤ s.n_chosen_clusters

/-- What the `std::sort` call of line 65 guarantees: the result is a
rearrangement of the input in which no element has a smaller `dist` than an
element before it. -/
def SortsByDist (sort : List KnnPoint → List KnnPoint) : Prop :=
  ∀ l, (sort l).Perm l ∧ (sort l).Pairwise (fun a b => a.dist ≤ b.dist)

/-- A valid input of `compute_cores`: non-negative radii, one neighbor row per
point, neighbor indices that are point indices, `0 < beta < 1`, `epsilon > 0`
and `dim ≥ 1`. -/
structure CoresInput (dim : Int) (radii : VectorXd) (neighbors : RowMatrixXi)
    (beta epsilon : ℚ) : Prop where
  radii_nonneg : ∀ r ∈ radii, 0 ≤ r
  rows_eq : neighbors.length = radii.length
  nbr_range : ∀ row ∈ neighbors, ∀ j ∈ row, 0 ≤ j ∧ j < (radii.length : Int)
  beta_pos : 0 < beta
  beta_lt : beta < 1
  epsilon_pos : 0 < epsilon
  dim_pos : 1 ≤ dim

/-- The four points of the literal scenario before sorting. -/
def scenario_knn : List KnnPoint := [⟨1, 0⟩, ⟨1 / 2, 1⟩, ⟨1 / 2, 2⟩, ⟨2, 3⟩]

/-! ## Call sequences on the basic forest -/

/-- A call of the interface of `GraphBasic` by a user of the class. -/
inductive GraphBasic.Call where
  | add_edge (node1 node2 : Int)
  | get_root (node : Ptr)
  deriving DecidableEq, Repr

/-- The forest after one call; the value the call returns is dropped. -/
def GraphBasic.call (g : GraphBasic) : GraphBasic.Call → Except Fault GraphBasic
  | .add_edge node1 node2 => g.add_edge node1 node2
  | .get_root node =>
    match g.get_root node with
    | .error e => .error e
    | .ok (g1, _) => .ok g1

/-- The forest after a sequence of calls. -/
def GraphBasic.calls : GraphBasic → List GraphBasic.Call → Except Fault GraphBasic
  | g, [] => .ok g
  | g, c :: cs =>
    match g.call c with
    | .error e => .error e
    | .ok g1 => GraphBasic.calls g1 cs

/-- The forests of size `n` that calls of `add_edge` and `get_root` make of
`GraphBasic(n)`. -/
def GraphBasic.Reachable (n : Nat) (g : GraphBasic) : Prop :=
  ∃ cs, (GraphBasic.new n).calls cs = .ok g

/-- The arguments of the call are indices of points: `add_edge` on two indices
in `[0, n)` or with a negative argument, `get_root` on the node of an index in
`[0, n)` or on the null pointer. -/
def GraphBasic.Call.InRange (n : Nat) : GraphBasic.Call → Prop
  | .add_edge node1 node2 =>
    (node1 < 0 ∨ node2 < 0) ∨ (node1 < (n : Int) ∧ node2 < (n : Int))
  | .get_root node => ∀ x, node = some x → x < n

/-! ## Call sequences on the component graph -/

/-- A call of the interface of `Graph` by a user of the class. -/
inductive Graph.Call where
  | add_node (idx : Int)
  | add_edge (node1 node2 : Int)
  | get_root (node : Ptr)
  | get_connected_component (n : Int)
  | component_seen (n : Int)
  deriving DecidableEq, Repr

/-- The graph after one call; the value the call returns is dropped. -/
def Graph.call (g : Graph) : Graph.Call → Except Fault Graph
  | .add_node idx => .ok (g.add_node idx)
  | .add_edge node1 node2 => g.add_edge node1 node2
  | .get_root node =>
    match g.get_root node with
    | .error e => .error e
    | .ok (g1, _) => .ok g1
  | .get_connected_component n =>
    match g.get_connected_component n with
    | .error e => .error e
    | .ok (g1, _) => .ok g1
  | .component_seen n =>
    match g.component_seen n with
    | .error e => .error e
    | .ok (g1, _) => .ok g1

/-- The graph after a sequence of calls. -/
def Graph.calls : Graph → List Graph.Call → Except Fault Graph
  | g, [] => .ok g
  | g, c :: cs =>
    match g.call c with
    | .error e => .error e
    | .ok g1 => Graph.calls g1 cs

/-- The payloads that the `add_node` calls of a sequence add, in order. -/
def Graph.added : List Graph.Call → List Int
  | [] => []
  | .add_node idx :: cs => idx :: Graph.added cs
  | _ :: cs => Graph.added cs

/-- The pairs of payloads that the `add_edge` calls of a sequence union. -/
def Graph.edges : List Graph.Call → List (Int × Int)
  | [] => []
  | .add_edge node1 node2 :: cs => (node1, node2) :: Graph.edges cs
  | _ :: cs => Graph.edges cs

/-- The payloads that a sequence of calls passes to `component_seen`. -/
def Graph.marked : List Graph.Call → List Int
  | [] => []
  | .component_seen n :: cs => n :: Graph.marked cs
  | _ :: cs => Graph.marked cs

/-- The graph `g` is what the calls `cs`, whose `add_node` calls have pairwise
distinct payloads, make of the empty graph. -/
def Graph.Reachable (cs : List Graph.Call) (g : Graph) : Prop :=
  Graph.empty.calls cs = .ok g ∧ (Graph.added cs).Nodup

/-- `Linked E p q`: the payloads `p` and `q` are joined by a chain of edges of
`E`, each taken in either direction. -/
inductive Linked (E : Int → Int → Prop) : Int → Int → Prop
  | same (p : Int) : Linked E p p
  | edge {a b : Int} : E a b → Linked E a b
  | flip {a b : Int} : Linked E a b → Linked E b a
  | chain {a b c : Int} : Linked E a b → Linked E b c → Linked E a c

/-- What a sequence of calls says about the graph it makes of the empty graph:
the payloads of the graph are those added, two payloads are in one component
exactly when a chain of `add_edge` calls joins them, and a component is seen
exactly when it holds a payload that was passed to `component_seen`. -/
structure Graph.HistInv (cs : List Graph.Call) (g : Graph) : Prop where
  wf : g.Wf
  keys : ∀ p : Int, (∃ x, g.M.lookup p = some (some x)) ↔ p ∈ Graph.added cs
  edges_in : ∀ a b : Int, (a, b) ∈ Graph.edges cs →
    a ∈ Graph.added cs ∧ b ∈ Graph.added cs
  conn : ∀ p q : Int, g.Connected p q ↔
    (p ∈ Graph.added cs ∧ q ∈ Graph.added cs ∧
      Linked (fun a b => (a, b) ∈ Graph.edges cs) p q)
  seen : ∀ p : Int, g.SeenPoint p ↔ ∃ m ∈ Graph.marked cs, g.Connected p m
  marked_in : ∀ m ∈ Graph.marked cs, m ∈ Graph.added cs

/-! ## The ascent links of `cluster_remaining` -/

/-- The fallback of lines 85-104 descends: whenever it runs for an unassigned
point `i` (no index of the neighbor row of `i` has a strictly smaller radius)
and some point has a strictly smaller radius than `i`, the computed squared
distance to `i` of at least one such point is finite, or point 0, the index
that `minCoeff` writes when every entry is `+infinity`, has a strictly smaller
radius than `i`. -/
def FallbackDescends (norm : SquaredNorm) (dataset : RowMatrixXd) (radii : VectorXd)
    (neighbors : RowMatrixXi) (cores : VectorXi) : Prop :=
  ∀ (i : Nat) (c : Int) (ri : ℚ) (xi : List ℚ) (row : List Int),
    cores[i]? = some c → c < 0 → radii[i]? = some ri → dataset[i]? = some xi →
    neighbors[i]? = some row →
    (∀ k ∈ row, ∀ rk, radii[k.toNat]? = some rk → ¬ rk < ri) →
    (∃ r ∈ radii, r < ri) →
    (∃ (j : Nat) (rj : ℚ) (xj : List ℚ) (dj : ℚ), radii[j]? = some rj ∧ rj < ri ∧
      dataset[j]? = some xj ∧ norm xj xi = some dj) ∨
    ∃ r0, radii[0]? = some r0 ∧ r0 < ri

/-! ## The graph of the sweep of `compute_cores` -/

/-- What the comparison of two values of `epsilon` needs of `std::pow`: for a
positive exponent it does not decrease when the positive base grows. -/
def PowMono (pow : ℚ → ℚ → ℚ) : Prop :=
  ∀ x1 x2 y : ℚ, 0 < y → 0 < x1 → x1 ≤ x2 → pow x1 y ≤ pow x2 y

/-- What the comparison of two values of `epsilon` needs of the double
arithmetic on the radii it is given: `pow(1 + e, y)` does not decrease when
`e` grows, and the product with a non-negative radius does not decrease when
the other factor grows. -/
structure ArithMono (ar : Arith) (radii : VectorXd) : Prop where
  grow_mono : ∀ e1 e2 y : ℚ, 0 < y → 0 < e1 → e1 ≤ e2 →
    ar.pow (ar.add 1 e1) y ≤ ar.pow (ar.add 1 e2) y
  mul_mono : ∀ g1 g2 : ℚ, g1 ≤ g2 → ∀ r ∈ radii, 0 ≤ r → ar.mul g1 r ≤ ar.mul g2 r

/-- The point `p` is one of the first `lp` points of the sorted order. -/
def Among (knn_radii : List KnnPoint) (lp : Nat) (p : Int) : Prop :=
  ∃ (j : Nat) (kp : KnnPoint), j < lp ∧ knn_radii[j]? = some kp ∧ kp.idx = p

/-- A mutual k-NN edge among the first `lp` points of the sorted order: each of
the two points is in the neighbor row of the other. -/
def MutualEdge (neighbors : RowMatrixXi) (knn_radii : List KnnPoint) (lp : Nat)
    (p q : Int) : Prop :=
  Among knn_radii lp p ∧ Among knn_radii lp q ∧
    (∃ row, readAt neighbors p = .ok row ∧ q ∈ row) ∧
    (∃ row, readAt neighbors q = .ok row ∧ p ∈ row)

/-- What the cursors say about the graph of the sweep: the components are those
of the mutual k-NN edges among the pruned points, a component is seen exactly
when it holds a point the consideration cursor has passed, and every such
point is pruned and had a radius below the threshold of some sweep position. -/
structure SweepHist (mul : ℚ → ℚ → ℚ) (shrink : ℚ) (neighbors : RowMatrixXi) (knn_radii : List KnnPoint)
    (s : Chosen) (last_pruned : Nat) : Prop where
  conn : ∀ p q : Int, s.graph.Connected p q ↔
    (Among knn_radii last_pruned p ∧ Among knn_radii last_pruned q ∧
      Linked (MutualEdge neighbors knn_radii last_pruned) p q)
  seen : ∀ p : Int, s.graph.SeenPoint p ↔
    ∃ (l : Nat) (kl : KnnPoint), l < s.last_considered ∧ knn_radii[l]? = some kl ∧
      s.graph.Connected p kl.idx
  considered : ∀ (l : Nat) (kl : KnnPoint), l < s.last_considered → knn_radii[l]? = some kl →
    l < last_pruned ∧
      ∃ (i : Nat) (ki : KnnPoint), knn_radii[i]? = some ki ∧ mul ki.dist shrink > kl.dist

/-! ## The cursor reads of the sweep of `compute_cores` -/

/-- One evaluation of the condition of the `while` loop of lines 101-113, which
reads `knn_radii[last_considered]`: the sweep position `i`, the two cursors at
that moment, whether the condition held, so that the body ran on the point that
was read, and whether the body then found the component of that point not seen
before and extracted it. -/
structure CursorRead where
  i : Nat
  last_considered : Nat
  last_pruned : Nat
  entered : Bool
  fresh : Bool
  deriving DecidableEq, Repr

/-- Put a read in front of the reads of the rest of a run. -/
def CursorRead.before (r : CursorRead) :
    Except Fault (Chosen × List CursorRead) → Except Fault (Chosen × List CursorRead)
  | .error e => .error e
  | .ok (t, rs) => .ok (t, r :: rs)

/-- The loop `consider_loop` at sweep position `i`, together with the record of
its reads of `knn_radii[last_considered]`, in the order in which they happen. -/
def consider_loop_reads (mul : ℚ → ℚ → ℚ) (shrink : ℚ) (radii : VectorXd) (knn_radii : List KnnPoint) (di : ℚ)
    (i last_pruned : Nat) : Nat → Chosen → Except Fault (Chosen × List CursorRead)
  | 0, _ => .error .diverged
  | fuel + 1, s =>
    match knn_radii[s.last_considered]? with
    | none => .error .undefined
    | some kp =>
      if mul di shrink > kp.dist then
        match s.graph.component_seen kp.idx with
        | .error e => .error e
        | .ok (g1, true) =>
          CursorRead.before ⟨i, s.last_considered, last_pruned, true, false⟩
            (consider_loop_reads mul shrink radii knn_radii di i last_pruned fuel
              { s with graph := g1, last_considered := s.last_considered + 1 })
        | .ok (g1, false) =>
          match g1.get_connected_component kp.idx with
          | .error e => .error e
          | .ok (g2, res) =>
            match collect radii di s.n_chosen_clusters res s.m_hat s.cluster_membership
                s.n_chosen_points with
            | .error e => .error e
            | .ok (m_hat, cluster_membership, n_chosen_points) =>
              CursorRead.before ⟨i, s.last_considered, last_pruned, true, true⟩
                (consider_loop_reads mul shrink radii knn_radii di i last_pruned fuel
                  { graph := g2
                    m_hat := m_hat
                    cluster_membership := cluster_membership
                    n_chosen_points := n_chosen_points
                    n_chosen_clusters := s.n_chosen_clusters + 1
                    last_considered := s.last_considered + 1 })
      else .ok (s, [⟨i, s.last_considered, last_pruned, false, false⟩])

/-- The sweep `sweep`, together with the record of the reads of its
consideration loops. -/
def sweep_reads (mul : ℚ → ℚ → ℚ) (grow shrink : ℚ) (radii : VectorXd) (neighbors sorted_neigbors : RowMatrixXi)
    (knn_radii : List KnnPoint) (n_points : Nat) :
    List Nat → Chosen → Nat → Except Fault (Chosen × Nat × List CursorRead)
  | [], s, last_pruned => .ok (s, last_pruned, [])
  | i :: rest, s, last_pruned =>
    match knn_radii[i]? with
    | none => .error .undefined
    | some ki =>
      match prune_loop mul grow neighbors sorted_neigbors knn_radii n_points ki.dist
          (n_points + 1) s.graph last_pruned with
      | .error e => .error e
      | .ok (g1, last_pruned1) =>
        match consider_loop_reads mul shrink radii knn_radii ki.dist i last_pruned1 (n_points + 1)
            { s with graph := g1 } with
        | .error e => .error e
        | .ok (s1, rs) =>
          match sweep_reads mul grow shrink radii neighbors sorted_neigbors knn_radii n_points rest
              s1 last_pruned1 with
          | .error e => .error e
          | .ok (t, last_pruned2, rs2) => .ok (t, last_pruned2, rs ++ rs2)

/-- The sweep of `compute_cores` as in `compute_cores_sweep`, together with the
final value of `last_pruned` and the record of the reads of
`knn_radii[last_considered]`. -/
def compute_cores_reads (ar : Arith) (sort : List KnnPoint → List KnnPoint) (dim : Int)
    (radii : VectorXd) (neighbors : RowMatrixXi) (beta epsilon : ℚ) :
    Except Failure (Chosen × Nat × List CursorRead) :=
  let n_points := radii.length
  if n_points ≠ neighbors.length then .error .runtime_error
  else
    let knn_radii := sort (List.zipWith (fun (r : ℚ) (i : Nat) => (⟨r, (i : Int)⟩ : KnnPoint))
      radii (List.range n_points))
    let sorted_neigbors := neighbors.map fun row => row.insertionSort (· ≤ ·)
    match sweep_reads ar.mul (ar.pow (ar.add 1 epsilon) (ar.div 1 dim))
        (ar.pow (ar.sub 1 beta) (ar.div 1 dim)) radii neighbors
        sorted_neigbors knn_radii n_points (List.range n_points)
        ⟨Graph.empty, List.replicate n_points 0, List.replicate n_points 0, 0, 0, 0⟩ 0 with
    | .error e => .error (.fault e)
    | .ok r => .ok r

/-- The body of the consideration loop, run at the read `r`, extracts a
component and collects point `p`: the component of the point read was not seen
before, `p` is among the points pruned so far and is joined to the point read
by mutual k-NN edges among them, and the radius of `p` is at most the radius at
the sweep position. -/
def Collects (radii : VectorXd) (neighbors : RowMatrixXi) (knn_radii : List KnnPoint)
    (r : CursorRead) (p : Int) : Prop :=
  r.fresh = true ∧ ∃ ki kl : KnnPoint, knn_radii[r.i]? = some ki ∧
    knn_radii[r.last_considered]? = some kl ∧ Among knn_radii r.last_pruned p ∧
    Linked (MutualEdge neighbors knn_radii r.last_pruned) kl.idx p ∧
    radii.getD p.toNat 0 ≤ ki.dist

/-- At the read `r` the component of the point read holds a point that the
consideration cursor has passed: the point read is joined by mutual k-NN edges
among the points pruned so far to a point at a position of the sorted order
before `last_considered`. -/
def SeenBefore (neighbors : RowMatrixXi) (knn_radii : List KnnPoint) (r : CursorRead) : Prop :=
  ∃ (l : Nat) (kl kr : KnnPoint), l < r.last_considered ∧ knn_radii[l]? = some kl ∧
    knn_radii[r.last_considered]? = some kr ∧
    Linked (MutualEdge neighbors knn_radii r.last_pruned) kr.idx kl.idx

/-- What the sweep keeps to at a read `r` of `knn_radii[last_considered]`: the
read is in bounds and not beyond the first point that is not pruned; when the
body runs, and when the pruning condition holds of
the point at the sweep position itself, the point read is pruned; the body runs
exactly when the radius read is below the computed threshold, and it extracts
a component exactly when it runs and the component was not seen before. -/
structure ReadOk (mul : ℚ → ℚ → ℚ) (grow shrink : ℚ) (neighbors : RowMatrixXi)
    (knn_radii : List KnnPoint) (r : CursorRead) : Prop where
  i_lt : r.i < knn_radii.length
  lc_le : r.last_considered ≤ r.i
  lp_le : r.last_pruned ≤ knn_radii.length
  lc_le_lp : r.last_considered ≤ r.last_pruned
  entered_lt : r.entered = true →
    r.last_considered < r.last_pruned ∧ r.last_considered < r.i
  pruned_lt : ∀ ki : KnnPoint, knn_radii[r.i]? = some ki → mul grow ki.dist > ki.dist →
    r.last_considered < r.last_pruned
  entered_iff : ∀ ki kl : KnnPoint, knn_radii[r.i]? = some ki →
    knn_radii[r.last_considered]? = some kl →
    (r.entered = true ↔ mul ki.dist shrink > kl.dist)
  fresh_iff : r.fresh = true ↔ (r.entered = true ∧ ¬ SeenBefore neighbors knn_radii r)

/-! ## The sinks of the ascent of `cluster_remaining` -/

/-- Point `u` is unassigned and no point of the dataset has a strictly smaller
radius. -/
def minimal_unassigned (radii : VectorXd) (cores : VectorXi) (u : Nat) : Bool :=
  match cores[u]?, radii[u]? with
  | some c, some ru => decide (c < 0) && radii.all fun r => decide (¬ r < ru)
  | _, _ => false

/-- Point `s` belongs to a sink of the ascent: it is a point of a core cluster,
or an unassigned point for which no point of the dataset has a strictly smaller
radius. -/
def IsSink (radii : VectorXd) (cores : VectorXi) (s : Nat) : Prop :=
  (∃ c : Int, cores[s]? = some c ∧ 0 ≤ c) ∨ minimal_unassigned radii cores s = true

/-- `Ascends norm dataset radii neighbors cores x y`: the links that the loop of
lines 71-125 makes, followed from point `x` through unassigned points, pass
through point `y`. -/
inductive Ascends (norm : SquaredNorm) (dataset : RowMatrixXd) (radii : VectorXd) (neighbors : RowMatrixXi)
    (cores : VectorXi) : Nat → Nat → Prop
  | here (x : Nat) : Ascends norm dataset radii neighbors cores x x
  | link {x y : Nat} {c t : Int} : cores[x]? = some c → c < 0 →
      ascent_target norm dataset radii neighbors x = .ok t → 0 ≤ t →
      Ascends norm dataset radii neighbors cores t.toNat y →
      Ascends norm dataset radii neighbors cores x y

/-- The ascent from every point of the dataset reaches a sink: following the
links that the loop of lines 71-125 makes, one arrives at a core point or at an
unassigned point for which no point has a strictly smaller radius. -/
def AscentReaches (norm : SquaredNorm) (dataset : RowMatrixXd) (radii : VectorXd)
    (neighbors : RowMatrixXi) (cores : VectorXi) : Prop :=
  ∀ x, x < dataset.length →
    ∃ s, Ascends norm dataset radii neighbors cores x s ∧ IsSink radii cores s

theorem Reach.root_none {par : Nat → Option Nat} {x r : Nat} (h : Reach par x r) :
    par r = none := by
  induction h with
  | root h0 => exact h0
  | step _ _ ih => exact ih

theorem Reach.unique {par : Nat → Option Nat} {x r s : Nat} (h1 : Reach par x r)
    (h2 : Reach par x s) : r = s := by
  induction h1 with
  | root h0 =>
    cases h2 with
    | root _ => rfl
    | step hp _ => rw [h0] at hp; cases hp
  | step hp _ ih =>
    cases h2 with
    | root h0 => rw [h0] at hp; cases hp
    | step hp2 hr2 =>
      rw [hp] at hp2; cases hp2
      exact ih hr2

theorem Reach.self_of_root {par : Nat → Option Nat} {x s : Nat} (h0 : par x = none)
    (h : Reach par x s) : s = x :=
  Reach.unique h (Reach.root h0)

theorem Reach.congr {par par2 : Nat → Option Nat} (hp : ∀ y, par2 y = par y) {x r : Nat}
    (h : Reach par x r) : Reach par2 x r := by
  induction h with
  | root h0 => exact Reach.root (by rw [hp]; exact h0)
  | step h1 _ ih => exact Reach.step (by rw [hp]; exact h1) ih

/-- Redirecting a node that is not a root to the root it reaches changes no
resolved root. -/
theorem reach_compress {par par2 : Nat → Option Nat} {x r : Nat} (hx : Reach par x r)
    (hne : x ≠ r) (h2 : ∀ y, par2 y = if y = x then some r else par y) (y s : Nat) :
    Reach par2 y s ↔ Reach par y s := by
  have hr0 : par r = none := hx.root_none
  have hr2 : par2 r = none := by rw [h2, if_neg (Ne.symm hne)]; exact hr0
  constructor
  · intro h
    induction h with
    | root h0 =>
      next y =>
      by_cases hy : y = x
      · rw [h2, if_pos hy] at h0; cases h0
      · rw [h2, if_neg hy] at h0; exact Reach.root h0
    | step h1 hr ih =>
      next y p s =>
      by_cases hy : y = x
      · rw [h2, if_pos hy] at h1
        cases h1
        have : s = r := Reach.self_of_root hr0 ih
        subst this; subst hy; exact hx
      · rw [h2, if_neg hy] at h1
        exact Reach.step h1 ih
  · intro h
    induction h with
    | root h0 =>
      next y =>
      have hy : y ≠ x := by
        rintro rfl
        cases hx with
        | root _ => exact hne rfl
        | step hp _ => rw [h0] at hp; cases hp
      exact Reach.root (by rw [h2, if_neg hy]; exact h0)
    | step h1 hr ih =>
      next y p s =>
      by_cases hy : y = x
      · subst hy
        have hs : s = r := Reach.unique (Reach.step h1 hr) hx
        subst hs
        exact Reach.step (by rw [h2, if_pos rfl]) (Reach.root hr2)
      · exact Reach.step (by rw [h2, if_neg hy]; exact h1) ih

/-- Hanging the root `r1` under another root `r2` redirects exactly the nodes
that resolved to `r1`. -/
theorem reach_link {par par2 : Nat → Option Nat} {r1 r2 : Nat} (h1 : par r1 = none)
    (h2 : par r2 = none) (hne : r1 ≠ r2)
    (hp : ∀ y, par2 y = if y = r1 then some r2 else par y) (y s : Nat) :
    Reach par2 y s ↔ ∃ t, Reach par y t ∧ s = if t = r1 then r2 else t := by
  have hr2 : par2 r2 = none := by rw [hp, if_neg (Ne.symm hne)]; exact h2
  constructor
  · intro h
    induction h with
    | root h0 =>
      next y =>
      by_cases hy : y = r1
      · rw [hp, if_pos hy] at h0; cases h0
      · rw [hp, if_neg hy] at h0
        exact ⟨y, Reach.root h0, by rw [if_neg hy]⟩
    | step hq hr ih =>
      next y p s =>
      by_cases hy : y = r1
      · rw [hp, if_pos hy] at hq
        cases hq
        have hs : s = r2 := Reach.self_of_root hr2 hr
        subst hs; subst hy
        exact ⟨y, Reach.root h1, by rw [if_pos rfl]⟩
      · rw [hp, if_neg hy] at hq
        obtain ⟨t, ht, hs⟩ := ih
        exact ⟨t, Reach.step hq ht, hs⟩
  · rintro ⟨t, ht, rfl⟩
    induction ht with
    | root h0 =>
      next y =>
      by_cases hy : y = r1
      · rw [if_pos hy]
        exact Reach.step (by rw [hp, if_pos hy]) (Reach.root hr2)
      · rw [if_neg hy]
        exact Reach.root (by rw [hp, if_neg hy]; exact h0)
    | step hq hr ih =>
      next y p t =>
      have hy : y ≠ r1 := by
        rintro rfl
        rw [h1] at hq; cases hq
      exact Reach.step (by rw [hp, if_neg hy]; exact hq) ih

/-! ## The basic forest: how an assignment changes the view -/

theorem GraphBasic.par_eq_some {g : GraphBasic} {x p : Nat} (h : g.par x = some p) :
    ∃ nd, g.M[x]? = some nd ∧ nd.parent = some p := by
  unfold GraphBasic.par at h
  split at h
  · next nd hnd => exact ⟨nd, hnd, h⟩
  · cases h

theorem GraphBasic.lt_of_par {g : GraphBasic} {x p : Nat} (h : g.par x = some p) :
    x < g.M.length := by
  obtain ⟨nd, hnd, _⟩ := GraphBasic.par_eq_some h
  exact (List.getElem?_eq_some.1 hnd).1

theorem GraphBasic.length_set_parent (g : GraphBasic) (x : Nat) (p : Ptr) :
    (g.set_parent x p).M.length = g.M.length := by
  unfold GraphBasic.set_parent
  split <;> simp

theorem GraphBasic.getElem?_set_parent (g : GraphBasic) (x : Nat) (p : Ptr) (y : Nat) :
    (g.set_parent x p).M[y]? =
      if y = x then (g.M[x]?).map (fun nd => { nd with parent := p }) else g.M[y]? := by
  unfold GraphBasic.set_parent
  split
  · next h =>
    by_cases hy : y = x
    · subst hy; simp [h]
    · simp [hy]
  · next nd h =>
    have hx : x < g.M.length := (List.getElem?_eq_some.1 h).1
    by_cases hy : y = x
    · subst hy; simp [h, List.getElem?_set, hx]
    · simp [hy, List.getElem?_set, Ne.symm hy]

theorem GraphBasic.par_set_parent (g : GraphBasic) (x : Nat) (p : Ptr) (y : Nat)
    (hx : x < g.M.length) :
    (g.set_parent x p).par y = if y = x then p else g.par y := by
  unfold GraphBasic.par
  rw [GraphBasic.getElem?_set_parent]
  by_cases hy : y = x
  · subst hy
    simp [List.getElem?_eq_getElem hx]
  · simp [hy]

theorem GraphBasic.rk_set_parent (g : GraphBasic) (x : Nat) (p : Ptr) (y : Nat) :
    (g.set_parent x p).rk y = g.rk y := by
  unfold GraphBasic.rk
  rw [GraphBasic.getElem?_set_parent]
  by_cases hy : y = x
  · subst hy
    cases h : g.M[y]? <;> simp
  · simp [hy]

theorem GraphBasic.index_set_parent {g : GraphBasic} (x : Nat) (p : Ptr)
    (h : ∀ (y : Nat) (nd : NodeBasic), g.M[y]? = some nd → nd.index = (y : Int)) :
    ∀ (y : Nat) (nd : NodeBasic), (g.set_parent x p).M[y]? = some nd → nd.index = (y : Int) := by
  intro y nd hy
  rw [GraphBasic.getElem?_set_parent] at hy
  by_cases hyx : y = x
  · subst hyx
    rw [if_pos rfl] at hy
    cases h0 : g.M[y]? with
    | none => rw [h0] at hy; cases hy
    | some nd0 =>
      rw [h0] at hy
      simp at hy
      subst hy
      exact h y nd0 h0
  · rw [if_neg hyx] at hy
    exact h y nd hy

theorem GraphBasic.roots_set_parent (g : GraphBasic) (x : Nat) (p : Ptr)
    (hx : x < g.M.length) :
    (g.set_parent x p).roots + (if (g.par x).isNone then 1 else 0) =
      g.roots + (if p.isNone then 1 else 0) := by
  unfold GraphBasic.roots GraphBasic.set_parent GraphBasic.par
  rw [List.getElem?_eq_getElem hx]
  simp only
  rw [List.countP_set _ _ _ _ hx]
  have hle := List.boole_getElem_le_countP (fun nd : NodeBasic => nd.parent.isNone) g.M x hx
  simp only at hle ⊢
  split_ifs at hle ⊢ <;> omega

theorem GraphBasic.length_incr_rank (g : GraphBasic) (x : Nat) :
    (g.incr_rank x).M.length = g.M.length := by
  unfold GraphBasic.incr_rank
  split <;> simp

theorem GraphBasic.getElem?_incr_rank (g : GraphBasic) (x : Nat) (y : Nat) :
    (g.incr_rank x).M[y]? =
      if y = x then (g.M[x]?).map (fun nd => { nd with rank := nd.rank + 1 }) else g.M[y]? := by
  unfold GraphBasic.incr_rank
  split
  · next h =>
    by_cases hy : y = x
    · subst hy; simp [h]
    · simp [hy]
  · next nd h =>
    have hx : x < g.M.length := (List.getElem?_eq_some.1 h).1
    by_cases hy : y = x
    · subst hy; simp [h, List.getElem?_set, hx]
    · simp [hy, List.getElem?_set, Ne.symm hy]

theorem GraphBasic.par_incr_rank (g : GraphBasic) (x : Nat) (y : Nat) :
    (g.incr_rank x).par y = g.par y := by
  unfold GraphBasic.par
  rw [GraphBasic.getElem?_incr_rank]
  by_cases hy : y = x
  · subst hy
    cases h : g.M[y]? <;> simp
  · simp [hy]

theorem GraphBasic.rk_incr_rank (g : GraphBasic) (x : Nat) (y : Nat) (hx : x < g.M.length) :
    (g.incr_rank x).rk y = if y = x then g.rk y + 1 else g.rk y := by
  unfold GraphBasic.rk
  rw [GraphBasic.getElem?_incr_rank]
  by_cases hy : y = x
  · subst hy
    simp [List.getElem?_eq_getElem hx]
  · simp [hy]

theorem GraphBasic.index_incr_rank {g : GraphBasic} (x : Nat)
    (h : ∀ (y : Nat) (nd : NodeBasic), g.M[y]? = some nd → nd.index = (y : Int)) :
    ∀ (y : Nat) (nd : NodeBasic), (g.incr_rank x).M[y]? = some nd → nd.index = (y : Int) := by
  intro y nd hy
  rw [GraphBasic.getElem?_incr_rank] at hy
  by_cases hyx : y = x
  · subst hyx
    rw [if_pos rfl] at hy
    cases h0 : g.M[y]? with
    | none => rw [h0] at hy; cases hy
    | some nd0 =>
      rw [h0] at hy
      simp at hy
      subst hy
      exact h y nd0 h0
  · rw [if_neg hyx] at hy
    exact h y nd hy

theorem GraphBasic.roots_incr_rank (g : GraphBasic) (x : Nat) :
    (g.incr_rank x).roots = g.roots := by
  unfold GraphBasic.roots GraphBasic.incr_rank
  split
  · rfl
  · next nd h =>
    have hx : x < g.M.length := (List.getElem?_eq_some.1 h).1
    have hnd : g.M[x] = nd := (List.getElem?_eq_some.1 h).2
    simp only
    rw [List.countP_set _ _ _ _ hx]
    have hle := List.boole_getElem_le_countP (fun nd : NodeBasic => nd.parent.isNone) g.M x hx
    simp only [hnd] at hle ⊢
    split_ifs at hle ⊢ <;> omega

/-! ## The basic forest: well-formed states -/

theorem GraphBasic.par_none_of_ge {g : GraphBasic} {x : Nat} (h : g.M.length ≤ x) :
    g.par x = none := by
  unfold GraphBasic.par
  rw [List.getElem?_eq_none h]

theorem GraphBasic.Wf.reach_lt {g : GraphBasic} (hwf : g.Wf) {x r : Nat}
    (h : Reach g.par x r) (hx : x < g.M.length) : r < g.M.length := by
  induction h with
  | root _ => exact hx
  | step hp _ ih => exact ih (hwf.parent_lt _ _ hp)

theorem GraphBasic.Wf.reach_rank {g : GraphBasic} (hwf : g.Wf) {x r : Nat}
    (h : Reach g.par x r) : x = r ∨ g.rk x < g.rk r := by
  induction h with
  | root _ => exact Or.inl rfl
  | step hp _ ih =>
    have h1 := hwf.rank_lt _ _ hp
    rcases ih with rfl | h2
    · exact Or.inr h1
    · exact Or.inr (lt_trans h1 h2)

theorem GraphBasic.Wf.exists_reach {g : GraphBasic} (hwf : g.Wf) (x : Nat) :
    ∃ r, Reach g.par x r := by
  by_cases hx : x < g.M.length
  · generalize hn : g.M.length - g.rk x = n
    induction n using Nat.strong_induction_on generalizing x with
    | _ n ih =>
      cases hp : g.par x with
      | none => exact ⟨x, Reach.root hp⟩
      | some p =>
        have h1 := hwf.rank_lt _ _ hp
        have h2 := hwf.parent_lt _ _ hp
        have h3 := hwf.rank_roots p h2
        obtain ⟨r, hr⟩ := ih (g.M.length - g.rk p) (by omega) p h2 rfl
        exact ⟨r, Reach.step hp hr⟩
  · exact ⟨x, Reach.root (GraphBasic.par_none_of_ge (not_lt.1 hx))⟩

theorem GraphBasic.roots_pos_of_root {g : GraphBasic} {r : Nat} (hr : r < g.M.length)
    (h0 : g.par r = none) : 0 < g.roots := by
  unfold GraphBasic.roots
  rw [List.countP_pos_iff]
  refine ⟨g.M[r], List.getElem_mem _, ?_⟩
  unfold GraphBasic.par at h0
  rw [List.getElem?_eq_getElem hr] at h0
  simp only at h0
  simp [h0]

theorem GraphBasic.Wf.roots_pos {g : GraphBasic} (hwf : g.Wf) {x : Nat}
    (hx : x < g.M.length) : 0 < g.roots := by
  obtain ⟨r, hr⟩ := hwf.exists_reach x
  exact GraphBasic.roots_pos_of_root (hwf.reach_lt hr hx) hr.root_none

theorem GraphBasic.Wf.rank_lt_length {g : GraphBasic} (hwf : g.Wf) {x : Nat}
    (hx : x < g.M.length) : g.rk x < g.M.length := by
  have h1 := hwf.rank_roots x hx
  have h2 := hwf.roots_pos hx
  omega

theorem GraphBasic.Compressed.refl (g : GraphBasic) : g.Compressed g :=
  ⟨rfl, fun _ _ => Iff.rfl, rfl, fun _ => rfl⟩

theorem GraphBasic.Compressed.trans {g g1 g2 : GraphBasic} (h1 : g.Compressed g1)
    (h2 : g1.Compressed g2) : g.Compressed g2 :=
  ⟨h2.length_eq.trans h1.length_eq, fun y s => (h2.reach_iff y s).trans (h1.reach_iff y s),
    h2.roots_eq.trans h1.roots_eq, fun y => (h2.rk_eq y).trans (h1.rk_eq y)⟩

theorem GraphBasic.Compressed.same_set {g g1 : GraphBasic} (h : g.Compressed g1) (x y : Nat) :
    g1.SameSet x y ↔ g.SameSet x y := by
  unfold GraphBasic.SameSet
  constructor
  · rintro ⟨r, h1, h2⟩
    exact ⟨r, (h.reach_iff _ _).1 h1, (h.reach_iff _ _).1 h2⟩
  · rintro ⟨r, h1, h2⟩
    exact ⟨r, (h.reach_iff _ _).2 h1, (h.reach_iff _ _).2 h2⟩

/-- One step of path compression keeps the state well formed and keeps the
sets. -/
theorem GraphBasic.Wf.compress {g : GraphBasic} (hwf : g.Wf) {x r : Nat}
    (hx : Reach g.par x r) (hne : x ≠ r) :
    (g.set_parent x (some r)).Wf ∧ g.Compressed (g.set_parent x (some r)) := by
  obtain ⟨p, hp⟩ : ∃ p, g.par x = some p := by
    cases hx with
    | root _ => exact absurd rfl hne
    | step hp _ => exact ⟨_, hp⟩
  have hxl : x < g.M.length := GraphBasic.lt_of_par hp
  have hrl : r < g.M.length := hwf.reach_lt hx hxl
  have hpar : ∀ y, (g.set_parent x (some r)).par y = if y = x then some r else g.par y :=
    fun y => GraphBasic.par_set_parent g x (some r) y hxl
  have hroots : (g.set_parent x (some r)).roots = g.roots := by
    have := GraphBasic.roots_set_parent g x (some r) hxl
    rw [hp] at this
    simpa using this
  have hlen := GraphBasic.length_set_parent g x (some r)
  have hrk := GraphBasic.rk_set_parent g x (some r)
  refine ⟨⟨GraphBasic.index_set_parent x (some r) hwf.index_eq, ?_, ?_, ?_⟩,
    ⟨hlen, reach_compress hx hne hpar, hroots, hrk⟩⟩
  · intro y q hq
    rw [hlen]
    rw [hpar] at hq
    by_cases hy : y = x
    · rw [if_pos hy] at hq; cases hq; exact hrl
    · rw [if_neg hy] at hq; exact hwf.parent_lt _ _ hq
  · intro y q hq
    rw [hrk, hrk]
    rw [hpar] at hq
    by_cases hy : y = x
    · rw [if_pos hy] at hq; cases hq
      subst hy
      rcases hwf.reach_rank hx with h | h
      · exact absurd h hne
      · exact h
    · rw [if_neg hy] at hq; exact hwf.rank_lt _ _ hq
  · intro y hy
    rw [hlen] at hy ⊢
    rw [hrk, hroots]
    exact hwf.rank_roots y hy

/-- `get_root` on a well-formed state: with enough fuel it returns the root
the node reaches, in a well-formed state with the same sets. -/
theorem GraphBasic.get_root_fuel_spec {g : GraphBasic} (hwf : g.Wf) :
    ∀ (fuel x : Nat), x < g.M.length → g.M.length + 1 ≤ fuel + g.rk x + g.roots →
      ∃ g1 r, g.get_root_fuel fuel (some x) = .ok (g1, some r) ∧ Reach g.par x r ∧
        g1.Wf ∧ g.Compressed g1 := by
  intro fuel
  induction fuel with
  | zero =>
    intro x hx hf
    have := hwf.rank_roots x hx
    omega
  | succ f ih =>
    intro x hx hf
    have hnd : g.M[x]? = some g.M[x] := List.getElem?_eq_getElem hx
    cases hp : g.par x with
    | none =>
      refine ⟨g, x, ?_, Reach.root hp, hwf, GraphBasic.Compressed.refl g⟩
      unfold GraphBasic.par at hp
      rw [hnd] at hp
      simp only at hp
      simp only [GraphBasic.get_root_fuel, hnd, hp]
    | some p =>
      have h1 := hwf.rank_lt _ _ hp
      have h2 := hwf.parent_lt _ _ hp
      obtain ⟨g1, r, hg1, hr, hwf1, hc1⟩ := ih p h2 (by omega)
      have hxr : Reach g.par x r := Reach.step hp hr
      have hne : x ≠ r := by
        rintro rfl
        rw [hr.root_none] at hp; cases hp
      have hxr1 : Reach g1.par x r := (hc1.reach_iff _ _).2 hxr
      obtain ⟨hwf2, hc2⟩ := hwf1.compress hxr1 hne
      refine ⟨g1.set_parent x (some r), r, ?_, hxr, hwf2, hc1.trans hc2⟩
      unfold GraphBasic.par at hp
      rw [hnd] at hp
      simp only at hp
      simp only [GraphBasic.get_root_fuel, hnd, hp, hg1]

theorem GraphBasic.get_root_spec {g : GraphBasic} (hwf : g.Wf) {x : Nat}
    (hx : x < g.M.length) :
    ∃ g1 r, g.get_root (some x) = .ok (g1, some r) ∧ Reach g.par x r ∧
      g1.Wf ∧ g.Compressed g1 := by
  have := hwf.roots_pos hx
  exact GraphBasic.get_root_fuel_spec hwf g.M.length x hx (by omega)

/-! ## The basic forest: unions -/

/-- A state that differs from a well-formed one by one root hung under another
root of larger (possibly just raised) rank is well formed. -/
theorem GraphBasic.Wf.of_link {g g4 : GraphBasic} (hwf : g.Wf) {a b : Nat}
    (hb : g.par b = none) (hbl : b < g.M.length)
    (hlen : g4.M.length = g.M.length)
    (hidx : ∀ (y : Nat) (nd : NodeBasic), g4.M[y]? = some nd → nd.index = (y : Int))
    (hpar : ∀ y, g4.par y = if y = a then some b else g.par y)
    (hrk1 : ∀ y, g.rk y ≤ g4.rk y) (hrk2 : ∀ y, g4.rk y ≤ g.rk y + 1)
    (hrk3 : ∀ y, y ≠ b → g4.rk y = g.rk y) (hab : g.rk a < g4.rk b) (hne : a ≠ b)
    (hroots : g4.roots + 1 = g.roots) : g4.Wf := by
  refine ⟨hidx, ?_, ?_, ?_⟩
  · intro y q hq
    rw [hlen]
    rw [hpar] at hq
    by_cases hy : y = a
    · rw [if_pos hy] at hq; cases hq; exact hbl
    · rw [if_neg hy] at hq; exact hwf.parent_lt _ _ hq
  · intro y q hq
    rw [hpar] at hq
    by_cases hy : y = a
    · rw [if_pos hy] at hq; cases hq
      subst hy
      rw [hrk3 y hne]
      exact hab
    · rw [if_neg hy] at hq
      have hyb : y ≠ b := by
        rintro rfl
        rw [hb] at hq; cases hq
      rw [hrk3 y hyb]
      exact lt_of_lt_of_le (hwf.rank_lt _ _ hq) (hrk1 q)
  · intro y hy
    rw [hlen] at hy ⊢
    have h1 := hwf.rank_roots y hy
    have h2 := hrk2 y
    omega

theorem GraphBasic.rk_eq_of_getElem? {g : GraphBasic} {x : Nat} {nd : NodeBasic}
    (h : g.M[x]? = some nd) : g.rk x = nd.rank := by
  unfold GraphBasic.rk
  rw [h]

/-- `link` on two roots of a well-formed state. -/
theorem GraphBasic.link_spec {g : GraphBasic} (hwf : g.Wf) {r1 r2 : Nat}
    (h1 : g.par r1 = none) (h2 : g.par r2 = none) (hl1 : r1 < g.M.length)
    (hl2 : r2 < g.M.length) :
    ∃ g4, g.link (some r1) (some r2) = .ok g4 ∧ g4.Wf ∧ g4.M.length = g.M.length ∧
      (r1 = r2 → g4 = g) ∧
      (r1 ≠ r2 → ∃ a b, ((a = r1 ∧ b = r2) ∨ (a = r2 ∧ b = r1)) ∧
        ∀ y s, Reach g4.par y s ↔ ∃ t, Reach g.par y t ∧ s = if t = a then b else t) := by
  by_cases hne : r1 = r2
  · refine ⟨g, ?_, hwf, rfl, fun _ => rfl, fun h => absurd hne h⟩
    simp [GraphBasic.link, hne]
  · have hn1 : g.M[r1]? = some g.M[r1] := List.getElem?_eq_getElem hl1
    have hn2 : g.M[r2]? = some g.M[r2] := List.getElem?_eq_getElem hl2
    have hk1 : g.rk r1 = g.M[r1].rank := GraphBasic.rk_eq_of_getElem? hn1
    have hk2 : g.rk r2 = g.M[r2].rank := GraphBasic.rk_eq_of_getElem? hn2
    have hpos : 0 < g.roots := GraphBasic.roots_pos_of_root hl1 h1
    simp only [GraphBasic.link, ne_eq, hne, not_false_eq_true, if_true, hn1, hn2]
    by_cases hgt : g.M[r1].rank > g.M[r2].rank
    · -- the second root goes under the first
      have hneq : ¬ g.M[r1].rank = g.M[r2].rank := by omega
      simp only [hgt, if_true, hneq, if_false]
      have hpar := fun y => GraphBasic.par_set_parent g r2 (some r1) y hl2
      have hrk := GraphBasic.rk_set_parent g r2 (some r1)
      have hroots : (g.set_parent r2 (some r1)).roots + 1 = g.roots := by
        have := GraphBasic.roots_set_parent g r2 (some r1) hl2
        rw [h2] at this
        simpa using this
      refine ⟨_, rfl, ?_, GraphBasic.length_set_parent _ _ _, fun h => h.elim,
        fun _ => ⟨r2, r1, Or.inr ⟨rfl, rfl⟩, reach_link h2 h1 (Ne.symm hne) hpar⟩⟩
      exact hwf.of_link h1 hl1 (GraphBasic.length_set_parent _ _ _)
        (GraphBasic.index_set_parent _ _ hwf.index_eq) hpar (fun y => by rw [hrk])
        (fun y => by rw [hrk]; omega) (fun y _ => hrk y) (by rw [hrk]; omega) (Ne.symm hne)
        hroots
    · -- the first root goes under the second
      simp only [hgt, if_false]
      have hpar := fun y => GraphBasic.par_set_parent g r1 (some r2) y hl1
      have hrk := GraphBasic.rk_set_parent g r1 (some r2)
      have hlen := GraphBasic.length_set_parent g r1 (some r2)
      have hroots : (g.set_parent r1 (some r2)).roots + 1 = g.roots := by
        have := GraphBasic.roots_set_parent g r1 (some r2) hl1
        rw [h1] at this
        simpa using this
      by_cases heq : g.M[r1].rank = g.M[r2].rank
      · simp only [heq, if_true]
        have hl2' : r2 < (g.set_parent r1 (some r2)).M.length := by rw [hlen]; exact hl2
        have hpar4 : ∀ y, ((g.set_parent r1 (some r2)).incr_rank r2).par y =
            if y = r1 then some r2 else g.par y := by
          intro y
          rw [GraphBasic.par_incr_rank, hpar]
        have hrk4 : ∀ y, ((g.set_parent r1 (some r2)).incr_rank r2).rk y =
            if y = r2 then g.rk y + 1 else g.rk y := by
          intro y
          rw [GraphBasic.rk_incr_rank _ _ _ hl2', hrk]
        refine ⟨_, rfl, ?_, by rw [GraphBasic.length_incr_rank, hlen], fun h => h.elim,
          fun _ => ⟨r1, r2, Or.inl ⟨rfl, rfl⟩, reach_link h1 h2 hne hpar4⟩⟩
        refine hwf.of_link h2 hl2 (by rw [GraphBasic.length_incr_rank, hlen])
          (GraphBasic.index_incr_rank _ (GraphBasic.index_set_parent _ _ hwf.index_eq)) hpar4
          ?_ ?_ ?_ ?_ hne ?_
        · intro y; rw [hrk4]; split <;> omega
        · intro y; rw [hrk4]; split <;> omega
        · intro y hy; rw [hrk4, if_neg hy]
        · rw [hrk4, if_pos rfl]; omega
        · rw [GraphBasic.roots_incr_rank]; exact hroots
      · simp only [heq, if_false]
        refine ⟨_, rfl, ?_, hlen, fun h => h.elim,
          fun _ => ⟨r1, r2, Or.inl ⟨rfl, rfl⟩, reach_link h1 h2 hne hpar⟩⟩
        exact hwf.of_link h2 hl2 hlen
          (GraphBasic.index_set_parent _ _ hwf.index_eq) hpar (fun y => by rw [hrk])
          (fun y => by rw [hrk]; omega) (fun y _ => hrk y) (by rw [hrk]; omega) hne hroots

theorem GraphBasic.SameSet.self_same {g : GraphBasic} (hwf : g.Wf) (x : Nat) : g.SameSet x x := by
  obtain ⟨r, hr⟩ := hwf.exists_reach x
  exact ⟨r, hr, hr⟩

theorem GraphBasic.SameSet.symm {g : GraphBasic} {x y : Nat} (h : g.SameSet x y) :
    g.SameSet y x := by
  obtain ⟨r, h1, h2⟩ := h
  exact ⟨r, h2, h1⟩

theorem GraphBasic.SameSet.join {g : GraphBasic} {x y z : Nat} (h1 : g.SameSet x y)
    (h2 : g.SameSet y z) : g.SameSet x z := by
  obtain ⟨r, hx, hy⟩ := h1
  obtain ⟨s, hy2, hz⟩ := h2
  have : r = s := Reach.unique hy hy2
  subst this
  exact ⟨r, hx, hz⟩

theorem GraphBasic.same_set_iff_root {g : GraphBasic} {x y r : Nat} (hy : Reach g.par y r) :
    g.SameSet x y ↔ Reach g.par x r := by
  constructor
  · rintro ⟨s, hx, hy2⟩
    have : s = r := Reach.unique hy2 hy
    subst this; exact hx
  · intro hx; exact ⟨r, hx, hy⟩

/-- `add_edge` on a well-formed state joins the sets of its two arguments and
nothing else. -/
theorem GraphBasic.add_edge_spec {g : GraphBasic} (hwf : g.Wf) {a b : Nat}
    (ha : a < g.M.length) (hb : b < g.M.length) :
    ∃ g4, g.add_edge (a : Int) (b : Int) = .ok g4 ∧ g4.Wf ∧ g4.M.length = g.M.length ∧
      ∀ x y, g4.SameSet x y ↔
        (g.SameSet x y ∨ (g.SameSet x a ∧ g.SameSet y b) ∨ (g.SameSet x b ∧ g.SameSet y a)) := by
  obtain ⟨g1, r1, hg1, hr1, hwf1, hc1⟩ := GraphBasic.get_root_spec hwf ha
  have hb1 : b < g1.M.length := by rw [hc1.length_eq]; exact hb
  obtain ⟨g2, r2, hg2, hr2, hwf2, hc2⟩ := GraphBasic.get_root_spec hwf1 hb1
  have hc := hc1.trans hc2
  have hr1' : Reach g2.par a r1 := (hc.reach_iff _ _).2 hr1
  have hr2' : Reach g2.par b r2 := (hc2.reach_iff _ _).2 hr2
  have ha2 : a < g2.M.length := by rw [hc.length_eq]; exact ha
  have hb2 : b < g2.M.length := by rw [hc.length_eq]; exact hb
  obtain ⟨g4, hg4, hwf4, hlen4, heq4, hne4⟩ := GraphBasic.link_spec hwf2 hr1'.root_none
    hr2'.root_none (hwf2.reach_lt hr1' ha2) (hwf2.reach_lt hr2' hb2)
  have hna : ¬ ((a : Int) < 0 ∨ (b : Int) < 0) := by omega
  refine ⟨g4, ?_, hwf4, hlen4.trans hc.length_eq, ?_⟩
  · simp only [GraphBasic.add_edge, hna, if_false, Int.toNat_ofNat, hg1, hg2, hg4]
  · intro x y
    rw [← hc.same_set x y, ← hc.same_set x a, ← hc.same_set y b, ← hc.same_set x b,
      ← hc.same_set y a]
    rw [GraphBasic.same_set_iff_root hr1', GraphBasic.same_set_iff_root hr2',
      GraphBasic.same_set_iff_root hr1', GraphBasic.same_set_iff_root hr2']
    obtain ⟨rx, hrx⟩ := hwf2.exists_reach x
    obtain ⟨ry, hry⟩ := hwf2.exists_reach y
    have hxy : g2.SameSet x y ↔ rx = ry := by
      constructor
      · rintro ⟨s, h1, h2⟩
        rw [Reach.unique hrx h1, Reach.unique hry h2]
      · rintro rfl; exact ⟨rx, hrx, hry⟩
    have hx1 : ∀ r, Reach g2.par x r ↔ rx = r :=
      fun r => ⟨fun h => Reach.unique hrx h, fun h => h ▸ hrx⟩
    have hy1 : ∀ r, Reach g2.par y r ↔ ry = r :=
      fun r => ⟨fun h => Reach.unique hry h, fun h => h ▸ hry⟩
    rw [hxy, hx1, hx1, hy1, hy1]
    by_cases hne : r1 = r2
    · rw [heq4 hne, hxy]
      subst hne
      constructor
      · intro h; exact Or.inl h
      · rintro (h | ⟨h1, h2⟩ | ⟨h1, h2⟩)
        · exact h
        · rw [h1, h2]
        · rw [h1, h2]
    · obtain ⟨a0, b0, hab, hreach⟩ := hne4 hne
      have key : g4.SameSet x y ↔
          (if rx = a0 then b0 else rx) = (if ry = a0 then b0 else ry) := by
        constructor
        · rintro ⟨s, h1, h2⟩
          obtain ⟨t1, ht1, hs1⟩ := (hreach _ _).1 h1
          obtain ⟨t2, ht2, hs2⟩ := (hreach _ _).1 h2
          rw [← Reach.unique hrx ht1] at hs1
          rw [← Reach.unique hry ht2] at hs2
          rw [← hs1, ← hs2]
        · intro h
          exact ⟨_, (hreach _ _).2 ⟨rx, hrx, rfl⟩, (hreach _ _).2 ⟨ry, hry, h⟩⟩
      rw [key]
      rcases hab with ⟨h3, h4⟩ | ⟨h3, h4⟩
      · split_ifs <;> omega
      · split_ifs <;> omega

/-! ## The forest of `cluster_remaining` before the labelling -/

theorem GraphBasic.new_length (n : Nat) : (GraphBasic.new n).M.length = n := by
  simp [GraphBasic.new]

theorem GraphBasic.new_getElem? (n x : Nat) (nd : NodeBasic)
    (h : (GraphBasic.new n).M[x]? = some nd) : nd = ⟨(x : Int), 0, none⟩ := by
  simp only [GraphBasic.new, List.getElem?_map] at h
  by_cases hx : x < n
  · rw [List.getElem?_range hx] at h
    simp at h
    exact h.symm
  · rw [List.getElem?_eq_none (by simpa using hx)] at h
    simp at h

theorem GraphBasic.new_par (n x : Nat) : (GraphBasic.new n).par x = none := by
  unfold GraphBasic.par
  split
  · next nd h => rw [GraphBasic.new_getElem? n x nd h]
  · rfl

theorem GraphBasic.new_rk (n x : Nat) : (GraphBasic.new n).rk x = 0 := by
  unfold GraphBasic.rk
  split
  · next nd h => rw [GraphBasic.new_getElem? n x nd h]
  · rfl

theorem GraphBasic.new_roots (n : Nat) : (GraphBasic.new n).roots = n := by
  unfold GraphBasic.roots GraphBasic.new
  rw [List.countP_map]
  rw [List.countP_eq_length.2]
  · simp
  · intro a _
    simp

theorem GraphBasic.new_wf (n : Nat) : (GraphBasic.new n).Wf := by
  refine ⟨?_, ?_, ?_, ?_⟩
  · intro x nd h
    rw [GraphBasic.new_getElem? n x nd h]
  · intro x p h
    rw [GraphBasic.new_par] at h; cases h
  · intro x p h
    rw [GraphBasic.new_par] at h; cases h
  · intro x _
    rw [GraphBasic.new_rk, GraphBasic.new_roots, GraphBasic.new_length]
    omega

theorem GraphBasic.Coarser.self (g : GraphBasic) : g.Coarser g :=
  ⟨rfl, fun _ _ h => h⟩

theorem GraphBasic.Coarser.chain {g g1 g2 : GraphBasic} (h1 : g.Coarser g1)
    (h2 : g1.Coarser g2) : g.Coarser g2 :=
  ⟨h2.length_eq.trans h1.length_eq, fun x y h => h2.mono x y (h1.mono x y h)⟩

/-- `add_edge` between two nodes of a well-formed forest: the forest stays well
formed, no set is split, and the two nodes end in one set. -/
theorem GraphBasic.add_edge_coarser {g : GraphBasic} (hwf : g.Wf) {a b : Nat}
    (ha : a < g.M.length) (hb : b < g.M.length) :
    ∃ g4, g.add_edge (a : Int) (b : Int) = .ok g4 ∧ g4.Wf ∧ g.Coarser g4 ∧ g4.SameSet a b := by
  obtain ⟨g4, h1, h2, h3, h4⟩ := GraphBasic.add_edge_spec hwf ha hb
  refine ⟨g4, h1, h2, ⟨h3, fun x y h => (h4 x y).2 (Or.inl h)⟩, ?_⟩
  exact (h4 a b).2 (Or.inr (Or.inl ⟨GraphBasic.SameSet.self_same hwf a, GraphBasic.SameSet.self_same hwf b⟩))

/-- The chaining of one group. -/
theorem chain_group_spec : ∀ (grp : List Nat) (g : GraphBasic), g.Wf →
    (∀ x ∈ grp, x < g.M.length) →
    ∃ g1, chain_group g (grp.map Int.ofNat) = .ok g1 ∧ g1.Wf ∧ g.Coarser g1 ∧
      ∀ x ∈ grp, ∀ y ∈ grp, g1.SameSet x y := by
  intro grp
  induction grp with
  | nil =>
    intro g hwf _
    exact ⟨g, rfl, hwf, GraphBasic.Coarser.self g, fun x hx => by cases hx⟩
  | cons a rest ih =>
    intro g hwf hlt
    cases rest with
    | nil =>
      refine ⟨g, rfl, hwf, GraphBasic.Coarser.self g, ?_⟩
      intro x hx y hy
      simp only [List.mem_singleton] at hx hy
      subst hx; subst hy
      exact GraphBasic.SameSet.self_same hwf _
    | cons b rest =>
      have ha : a < g.M.length := hlt a (List.mem_cons_self _ _)
      have hb : b < g.M.length := hlt b (List.mem_cons_of_mem _ (List.mem_cons_self _ _))
      obtain ⟨g1, hg1, hwf1, hc1, hab⟩ := GraphBasic.add_edge_coarser hwf ha hb
      obtain ⟨g2, hg2, hwf2, hc2, hall⟩ := ih g1 hwf1 (by
        intro x hx
        rw [hc1.length_eq]
        exact hlt x (List.mem_cons_of_mem _ hx))
      refine ⟨g2, ?_, hwf2, hc1.chain hc2, ?_⟩
      · simp only [List.map_cons, chain_group]
        have hg1' : g.add_edge (Int.ofNat a) (Int.ofNat b) = .ok g1 := hg1
        rw [hg1']
        exact hg2
      · have hab2 : g2.SameSet a b := hc2.mono _ _ hab
        have hb_mem : b ∈ b :: rest := List.mem_cons_self _ _
        have key : ∀ x ∈ a :: b :: rest, g2.SameSet x b := by
          intro x hx
          rcases List.mem_cons.1 hx with rfl | hx
          · exact hab2
          · exact hall x hx b hb_mem
        intro x hx y hy
        exact (key x hx).join (key y hy).symm

/-- The chaining of all groups, none of which is empty. -/
theorem chain_modal_sets_spec : ∀ (ms : List (List Nat)) (g : GraphBasic), g.Wf →
    (∀ grp ∈ ms, grp ≠ [] ∧ ∀ x ∈ grp, x < g.M.length) →
    ∃ g1, chain_modal_sets g (ms.map fun grp => grp.map Int.ofNat) = .ok g1 ∧ g1.Wf ∧
      g.Coarser g1 ∧ ∀ grp ∈ ms, ∀ x ∈ grp, ∀ y ∈ grp, g1.SameSet x y := by
  intro ms
  induction ms with
  | nil =>
    intro g hwf _
    exact ⟨g, rfl, hwf, GraphBasic.Coarser.self g, fun grp h => by cases h⟩
  | cons grp rest ih =>
    intro g hwf hms
    obtain ⟨hne, hlt⟩ := hms grp (List.mem_cons_self _ _)
    obtain ⟨g1, hg1, hwf1, hc1, hall1⟩ := chain_group_spec grp g hwf hlt
    obtain ⟨g2, hg2, hwf2, hc2, hall2⟩ := ih g1 hwf1 (by
      intro grp2 h2
      obtain ⟨h3, h4⟩ := hms grp2 (List.mem_cons_of_mem _ h2)
      exact ⟨h3, fun x hx => by rw [hc1.length_eq]; exact h4 x hx⟩)
    refine ⟨g2, ?_, hwf2, hc1.chain hc2, ?_⟩
    · cases grp with
      | nil => exact absurd rfl hne
      | cons a grp =>
        simp only [List.map_cons, chain_modal_sets]
        simp only [List.map_cons] at hg1
        rw [hg1]
        exact hg2
    · intro grp2 h2 x hx y hy
      rcases List.mem_cons.1 h2 with rfl | h2
      · exact hc2.mono _ _ (hall1 x hx y hy)
      · exact hall2 grp2 h2 x hx y hy

/-! ## The groups of core points -/

/-- The loop filling `modal_sets` appends to group `c` the points of core id
`c`, in the order in which it meets them. -/
theorem fill_modal_sets_spec (cores : VectorXi) : ∀ (is : List Nat) (ms0 : List (List Int)),
    (∀ i ∈ is, ∃ c, cores[i]? = some c ∧ (0 ≤ c → c.toNat < ms0.length)) →
    ∃ ms, fill_modal_sets cores is ms0 = .ok ms ∧ ms.length = ms0.length ∧
      ∀ (c : Nat) (grp0 : List Int), ms0[c]? = some grp0 →
        ms[c]? = some (grp0 ++
          (is.filter fun i => decide (cores[i]? = some (c : Int))).map Int.ofNat) := by
  intro is
  induction is with
  | nil =>
    intro ms0 _
    exact ⟨ms0, rfl, rfl, fun c grp0 h => by simpa using h⟩
  | cons i rest ih =>
    intro ms0 h
    obtain ⟨ci, hci, hlt⟩ := h i (List.mem_cons_self _ _)
    by_cases hc0 : 0 ≤ ci
    · have hlt' := hlt hc0
      have hgrp : ms0[ci.toNat]? = some ms0[ci.toNat] := List.getElem?_eq_getElem hlt'
      obtain ⟨ms, hms, hlen, hall⟩ := ih (ms0.set ci.toNat (ms0[ci.toNat] ++ [(i : Int)])) (by
        intro j hj
        obtain ⟨cj, hcj, hj2⟩ := h j (List.mem_cons_of_mem _ hj)
        exact ⟨cj, hcj, by simpa using hj2⟩)
      refine ⟨ms, ?_, by simpa using hlen, ?_⟩
      · simp only [fill_modal_sets, hci, ge_iff_le, hc0, if_true, hgrp]
        exact hms
      · intro c grp0 hc
        by_cases hcc : c = ci.toNat
        · subst hcc
          have h1 : (ms0.set ci.toNat (ms0[ci.toNat] ++ [(i : Int)]))[ci.toNat]? =
              some (ms0[ci.toNat] ++ [(i : Int)]) := by
            simp [List.getElem?_set, hlt']
          rw [hall _ _ h1]
          have h2 : grp0 = ms0[ci.toNat] := by
            rw [hgrp] at hc; cases hc; rfl
          have h3 : ((ci.toNat : Nat) : Int) = ci := Int.toNat_of_nonneg hc0
          simp [List.filter_cons, hci, h3, h2]
        · have h1 : (ms0.set ci.toNat (ms0[ci.toNat] ++ [(i : Int)]))[c]? = some grp0 := by
            rw [List.getElem?_set_ne (Ne.symm hcc)]; exact hc
          rw [hall _ _ h1]
          have h3 : ci ≠ (c : Int) := by
            intro h4
            apply hcc
            rw [h4]; simp
          simp [List.filter_cons, hci, h3]
    · obtain ⟨ms, hms, hlen, hall⟩ := ih ms0 (by
        intro j hj
        exact h j (List.mem_cons_of_mem _ hj))
      refine ⟨ms, ?_, hlen, ?_⟩
      · simp only [fill_modal_sets, hci, ge_iff_le, hc0, if_false]
        exact hms
      · intro c grp0 hc
        rw [hall _ _ hc]
        have h3 : ci ≠ (c : Int) := by omega
        simp [List.filter_cons, hci, h3]

/-! ## The ascent target -/

/-- The scan of a neighbor row returns the first entry of strictly smaller
radius, or `-1` when the row has none. -/
theorem scan_neighbors_spec (radii : VectorXd) (ri : ℚ) : ∀ (row : List Int),
    (∀ k ∈ row, 0 ≤ k ∧ k.toNat < radii.length) →
    (∃ t pre post rt, row = pre ++ t :: post ∧
        (∀ k ∈ pre, ∀ rk, radii[k.toNat]? = some rk → ¬ rk < ri) ∧
        radii[t.toNat]? = some rt ∧ rt < ri ∧ scan_neighbors radii ri row = .ok t) ∨
    ((∀ k ∈ row, ∀ rk, radii[k.toNat]? = some rk → ¬ rk < ri) ∧
        scan_neighbors radii ri row = .ok (-1)) := by
  intro row
  induction row with
  | nil =>
    intro _
    exact Or.inr ⟨fun k hk => (by cases hk), rfl⟩
  | cons k rest ih =>
    intro h
    obtain ⟨hk0, hkl⟩ := h k (List.mem_cons_self _ _)
    have hrd : readAt radii k = .ok radii[k.toNat] := by
      simp [readAt, not_lt.2 hk0, List.getElem?_eq_getElem hkl]
    by_cases hlt : radii[k.toNat] < ri
    · refine Or.inl ⟨k, [], rest, radii[k.toNat], rfl, fun x hx => (by cases hx),
        List.getElem?_eq_getElem hkl, hlt, ?_⟩
      simp [scan_neighbors, hrd, hlt]
    · have hstep : scan_neighbors radii ri (k :: rest) = scan_neighbors radii ri rest := by
        simp [scan_neighbors, hrd, hlt]
      have hkk : ∀ rk, radii[k.toNat]? = some rk → ¬ rk < ri := by
        intro rk hrk
        rw [List.getElem?_eq_getElem hkl] at hrk
        cases hrk; exact hlt
      rcases ih (fun x hx => h x (List.mem_cons_of_mem _ hx)) with
        ⟨t, pre, post, rt, h1, h2, h3, h4, h5⟩ | ⟨h1, h2⟩
      · refine Or.inl ⟨t, k :: pre, post, rt, by rw [h1]; rfl, ?_, h3, h4, by rw [hstep]; exact h5⟩
        intro x hx
        rcases List.mem_cons.1 hx with rfl | hx
        · exact hkk
        · exact h2 x hx
      · refine Or.inr ⟨?_, by rw [hstep]; exact h2⟩
        intro x hx
        rcases List.mem_cons.1 hx with rfl | hx
        · exact hkk
        · exact h1 x hx

theorem dist_lt_irrefl (a : Option ℚ) : dist_lt a a = false := by
  cases a <;> simp [dist_lt]

theorem dist_lt_of_lt_of_not {a b v : Option ℚ} (h1 : dist_lt a b = true)
    (h2 : dist_lt v b = false) : dist_lt v a = false := by
  cases a <;> cases b <;> cases v <;> simp [dist_lt] at h1 h2 ⊢
  linarith

/-- The visitor of `minCoeff` ends on a position whose coefficient no
coefficient is smaller than. -/
theorem minCoeff_visit_spec (d : List (Option ℚ)) : ∀ (rest : List (Option ℚ)) (j bi : Nat)
    (best : Option ℚ), d.drop j = rest → bi < j → j ≤ d.length → d[bi]? = some best →
    (∀ (k : Nat) (v : Option ℚ), k < j → d[k]? = some v → dist_lt v best = false) →
    ∃ m, minCoeff_visit rest j bi best < d.length ∧
      d[minCoeff_visit rest j bi best]? = some m ∧
      ∀ (k : Nat) (v : Option ℚ), d[k]? = some v → dist_lt v m = false := by
  intro rest
  induction rest with
  | nil =>
    intro j bi best hdrop hbi hj hbest hmin
    have hjl : d.length ≤ j := by
      have := congrArg List.length hdrop
      simp at this
      omega
    refine ⟨best, by simp only [minCoeff_visit]; omega, by simpa [minCoeff_visit] using hbest, ?_⟩
    intro k v hk
    have hkl : k < d.length := (List.getElem?_eq_some.1 hk).1
    exact hmin k v (by omega) hk
  | cons x rest ih =>
    intro j bi best hdrop hbi hj hbest hmin
    have hjl : j < d.length := by
      have := congrArg List.length hdrop
      simp at this
      omega
    have hxj : d[j]? = some x := by
      have := congrArg (fun l => l[0]?) hdrop
      simpa using this
    have hdrop' : d.drop (j + 1) = rest := by
      have := congrArg List.tail hdrop
      simpa using this
    simp only [minCoeff_visit]
    by_cases hlt : dist_lt x best = true
    · rw [if_pos hlt]
      refine ih (j + 1) j x hdrop' (by omega) (by omega) hxj ?_
      intro k v hk hv
      by_cases hkj : k = j
      · subst hkj
        rw [hxj] at hv; cases hv
        exact dist_lt_irrefl _
      · exact dist_lt_of_lt_of_not hlt (hmin k v (by omega) hv)
    · rw [if_neg hlt]
      refine ih (j + 1) bi best hdrop' (by omega) (by omega) hbest ?_
      intro k v hk hv
      by_cases hkj : k = j
      · subst hkj
        rw [hxj] at hv; cases hv
        simpa using hlt
      · exact hmin k v (by omega) hv

theorem minCoeff_index_spec (d : List (Option ℚ)) (hd : d ≠ []) :
    ∃ (idx : Nat) (m : Option ℚ), minCoeff_index d = .ok (idx : Int) ∧ idx < d.length ∧
      d[idx]? = some m ∧ ∀ (k : Nat) (v : Option ℚ), d[k]? = some v → dist_lt v m = false := by
  cases d with
  | nil => exact absurd rfl hd
  | cons x rest =>
    obtain ⟨m, h1, h2, h3⟩ := minCoeff_visit_spec (x :: rest) rest 1 0 x rfl (by omega)
      (by simp) (by simp) (by
        intro k v hk hv
        have : k = 0 := by omega
        subst this
        simp at hv
        subst hv
        exact dist_lt_irrefl _)
    exact ⟨_, m, rfl, h1, h2, h3⟩

/-- The masking loop sets to infinity the distance of every point whose radius
is not below `ri`, and leaves the other distances as they are. -/
theorem mask_dist_spec (radii : VectorXd) (ri : ℚ) : ∀ (is : List Nat) (dist : List (Option ℚ)),
    (∀ j ∈ is, j < radii.length ∧ j < dist.length) →
    ∃ d, mask_dist radii ri is dist = .ok d ∧ d.length = dist.length ∧
      ∀ j, d[j]? = if j ∈ is ∧ j < dist.length ∧ (∀ rj, radii[j]? = some rj → ri ≤ rj)
        then some none else dist[j]? := by
  intro is
  induction is with
  | nil =>
    intro dist _
    exact ⟨dist, rfl, rfl, fun j => by simp⟩
  | cons i rest ih =>
    intro dist h
    obtain ⟨hir, hid⟩ := h i (List.mem_cons_self _ _)
    have hri : radii[i]? = some radii[i] := List.getElem?_eq_getElem hir
    by_cases hge : radii[i] ≥ ri
    · obtain ⟨d, hd, hlen, hall⟩ := ih (dist.set i none) (by
        intro j hj
        have := h j (List.mem_cons_of_mem _ hj)
        simpa using this)
      refine ⟨d, ?_, by simpa using hlen, ?_⟩
      · simp only [mask_dist, hri, hge, if_true, hid]
        exact hd
      · intro j
        rw [hall j]
        by_cases hji : j = i
        · subst hji
          have hcond : ∀ rj, radii[j]? = some rj → ri ≤ rj := by
            intro rj hrj
            rw [hri] at hrj; cases hrj; exact hge
          rw [if_pos (⟨List.mem_cons_self _ _, hid, hcond⟩ : _ ∧ _ ∧ _)]
          split
          · rfl
          · simp [List.getElem?_set, hid]
        · simp [hji, List.getElem?_set_ne (Ne.symm hji)]
    · obtain ⟨d, hd, hlen, hall⟩ := ih dist (by
        intro j hj
        exact h j (List.mem_cons_of_mem _ hj))
      refine ⟨d, ?_, hlen, ?_⟩
      · simp only [mask_dist, hri, hge, if_false]
        exact hd
      · intro j
        rw [hall j]
        by_cases hji : j = i
        · subst hji
          have hcond : ¬ ∀ rj, radii[j]? = some rj → ri ≤ rj := by
            intro hc
            exact hge (hc _ hri)
          simp [hcond]
        · simp [hji]

theorem fallback_none (norm : SquaredNorm) (dataset : RowMatrixXd) (radii : VectorXd)
    (xi : List ℚ) (ri : ℚ) (h : ¬ ∃ r ∈ radii, r < ri) :
    fallback norm dataset radii dataset.length xi ri = .ok (-1) := by
  have hany : radii.any (fun r => decide (r < ri)) = false := by
    rw [Bool.eq_false_iff]
    intro ht
    rw [List.any_eq_true] at ht
    obtain ⟨r, hr, hlt⟩ := ht
    exact h ⟨r, hr, by simpa using hlt⟩
  simp [fallback, hany]

/-- The visitor of `minCoeff` keeps its first index on entries that are all
`+infinity`. -/
theorem minCoeff_visit_all_inf : ∀ (rest : List (Option ℚ)) (j bi : Nat),
    (∀ v ∈ rest, v = none) → minCoeff_visit rest j bi none = bi := by
  intro rest
  induction rest with
  | nil =>
    intro j bi _
    rfl
  | cons x rest ih =>
    intro j bi h
    have hx : x = none := h x (List.mem_cons_self _ _)
    subst hx
    simp only [minCoeff_visit, dist_lt]
    exact ih (j + 1) bi (fun v hv => h v (List.mem_cons_of_mem _ hv))

/-- The distances that the fallback hands to `minCoeff`: `+infinity` for a
point whose radius is not below `ri`, the computed distance for the others. -/
theorem fallback_entries (norm : SquaredNorm) (dataset : RowMatrixXd) (radii : VectorXd)
    (xi : List ℚ) (ri : ℚ) (hlen : radii.length = dataset.length) :
    ∃ d, mask_dist radii ri (List.range dataset.length) (dataset.map fun row => norm row xi) =
        .ok d ∧ d.length = dataset.length ∧
      ∀ (j : Nat) (rj : ℚ) (xj : List ℚ), radii[j]? = some rj → dataset[j]? = some xj →
        d[j]? = if ri ≤ rj then some none else some (norm xj xi) := by
  obtain ⟨d, hd, hdlen, hall⟩ := mask_dist_spec radii ri (List.range dataset.length)
    (dataset.map fun row => norm row xi) (by
      intro j hj
      rw [List.mem_range] at hj
      simp only [List.length_map]
      omega)
  simp only [List.length_map] at hdlen
  refine ⟨d, hd, hdlen, ?_⟩
  intro j rj xj hrj hxj
  have hjl : j < dataset.length := (List.getElem?_eq_some.1 hxj).1
  rw [hall j]
  by_cases hle : ri ≤ rj
  · rw [if_pos hle, if_pos]
    refine ⟨List.mem_range.2 hjl, by simpa using hjl, ?_⟩
    intro rj2 h2
    rw [hrj] at h2; cases h2; exact hle
  · rw [if_neg hle, if_neg]
    · simp [hxj]
    · rintro ⟨_, _, h3⟩
      exact hle (h3 rj hrj)

/-- The fallback, when some point has a radius below `ri`, returns the index of
a point, whatever the computed distances are. -/
theorem fallback_range (norm : SquaredNorm) (dataset : RowMatrixXd) (radii : VectorXd)
    (xi : List ℚ) (ri : ℚ) (hlen : radii.length = dataset.length) (h : ∃ r ∈ radii, r < ri) :
    ∃ t : Nat, fallback norm dataset radii dataset.length xi ri = .ok (t : Int) ∧
      t < dataset.length := by
  have hany : radii.any (fun r => decide (r < ri)) = true := by
    rw [List.any_eq_true]
    obtain ⟨r, hr, hlt⟩ := h
    exact ⟨r, hr, by simpa using hlt⟩
  obtain ⟨r0, hr0, _⟩ := h
  obtain ⟨j0, hj0, _⟩ := List.getElem_of_mem hr0
  obtain ⟨d, hd, hdlen, _⟩ := fallback_entries norm dataset radii xi ri hlen
  have hdne : d ≠ [] := by
    intro h0
    rw [h0] at hdlen
    simp at hdlen
    omega
  obtain ⟨idx, m, hidx, hidxl, _, _⟩ := minCoeff_index_spec d hdne
  refine ⟨idx, ?_, by omega⟩
  have hpos : ((idx : Nat) : Int) > -1 := by omega
  simp only [fallback, hany, if_true, hd, hidx, hpos]

/-- The fallback, when some point has a radius below `ri` and the computed
distance of every such point is `+infinity`: all entries handed to `minCoeff`
are `+infinity` and the index written is 0. -/
theorem fallback_overflow (norm : SquaredNorm) (dataset : RowMatrixXd) (radii : VectorXd)
    (xi : List ℚ) (ri : ℚ) (hlen : radii.length = dataset.length) (h : ∃ r ∈ radii, r < ri)
    (hinf : ∀ (j : Nat) (rj : ℚ) (xj : List ℚ), radii[j]? = some rj → rj < ri →
      dataset[j]? = some xj → norm xj xi = none) :
    fallback norm dataset radii dataset.length xi ri = .ok 0 := by
  have hany : radii.any (fun r => decide (r < ri)) = true := by
    rw [List.any_eq_true]
    obtain ⟨r, hr, hlt⟩ := h
    exact ⟨r, hr, by simpa using hlt⟩
  obtain ⟨d, hd, hdlen, hentry⟩ := fallback_entries norm dataset radii xi ri hlen
  have hall : ∀ v ∈ d, v = none := by
    intro v hv
    obtain ⟨j, hj, hjv⟩ := List.getElem_of_mem hv
    have hjd : j < dataset.length := by omega
    have hjr : j < radii.length := by omega
    have := hentry j radii[j] dataset[j] (List.getElem?_eq_getElem hjr)
      (List.getElem?_eq_getElem hjd)
    rw [List.getElem?_eq_getElem hj, hjv] at this
    by_cases hle : ri ≤ radii[j]
    · rw [if_pos hle] at this
      exact Option.some.inj this
    · rw [if_neg hle, hinf j radii[j] dataset[j] (List.getElem?_eq_getElem hjr)
        (not_le.1 hle) (List.getElem?_eq_getElem hjd)] at this
      exact Option.some.inj this
  cases d with
  | nil =>
    obtain ⟨r0, hr0, _⟩ := h
    obtain ⟨j0, hj0, _⟩ := List.getElem_of_mem hr0
    simp at hdlen
    omega
  | cons x rest =>
    have hx : x = none := hall x (List.mem_cons_self _ _)
    subst hx
    have hv := minCoeff_visit_all_inf rest 1 0 (fun v hv => hall v (List.mem_cons_of_mem _ hv))
    simp only [fallback, hany, if_true, hd, minCoeff_index, hv]
    rfl

theorem ascent_target_of_scan {norm : SquaredNorm} {dataset : RowMatrixXd} {radii : VectorXd}
    {neighbors : RowMatrixXi} {i : Nat} {ri : ℚ} {row : List Int} {xi : List ℚ} {t : Int}
    (h1 : radii[i]? = some ri) (h2 : neighbors[i]? = some row) (h3 : dataset[i]? = some xi)
    (h4 : scan_neighbors radii ri row = .ok t) (h5 : 0 ≤ t) :
    ascent_target norm dataset radii neighbors i = .ok t := by
  simp only [ascent_target, h1, h2, h3, h4, not_lt.2 h5, if_false]

theorem ascent_target_of_fallback {norm : SquaredNorm} {dataset : RowMatrixXd} {radii : VectorXd}
    {neighbors : RowMatrixXi} {i : Nat} {ri : ℚ} {row : List Int} {xi : List ℚ}
    (h1 : radii[i]? = some ri) (h2 : neighbors[i]? = some row) (h3 : dataset[i]? = some xi)
    (h4 : scan_neighbors radii ri row = .ok (-1)) :
    ascent_target norm dataset radii neighbors i = fallback norm dataset radii dataset.length xi ri := by
  have : ((-1 : Int) < 0) := by decide
  simp only [ascent_target, h1, h2, h3, h4, this, if_true]

/-- On a valid input the ascent target of a point is `-1` or a point of the
dataset, whatever the computed distances are. -/
theorem ascent_target_range {norm : SquaredNorm} {dataset : RowMatrixXd} {radii : VectorXd}
    {neighbors : RowMatrixXi} {cores : VectorXi} (hv : ValidInput dataset radii neighbors cores)
    {i : Nat} (hi : i < dataset.length) :
    ∃ t, ascent_target norm dataset radii neighbors i = .ok t ∧
      (t = -1 ∨ (0 ≤ t ∧ t.toNat < dataset.length)) := by
  have hir : i < radii.length := by rw [hv.radii_len]; exact hi
  have hin : i < neighbors.length := by rw [hv.rows_eq]; exact hi
  have h1 : radii[i]? = some radii[i] := List.getElem?_eq_getElem hir
  have h2 : neighbors[i]? = some neighbors[i] := List.getElem?_eq_getElem hin
  have h3 : dataset[i]? = some dataset[i] := List.getElem?_eq_getElem hi
  have hrow : ∀ k ∈ neighbors[i], 0 ≤ k ∧ k.toNat < radii.length := by
    intro k hk
    obtain ⟨hk0, hk1⟩ := hv.nbr_range neighbors[i] (List.getElem_mem _) k hk
    rw [hv.radii_len]
    exact ⟨hk0, by omega⟩
  rcases scan_neighbors_spec radii radii[i] neighbors[i] hrow with
    ⟨t, pre, post, rt, hsplit, _, hrt, hlt, hscan⟩ | ⟨_, hscan⟩
  · have ht : t ∈ neighbors[i] := by rw [hsplit]; simp
    obtain ⟨ht0, htl⟩ := hrow t ht
    refine ⟨t, ascent_target_of_scan h1 h2 h3 hscan ht0, Or.inr ⟨ht0, ?_⟩⟩
    rw [← hv.radii_len]; exact htl
  · rw [ascent_target_of_fallback h1 h2 h3 hscan]
    by_cases hex : ∃ r ∈ radii, r < radii[i]
    · obtain ⟨t, hf, htl⟩ := fallback_range norm dataset radii dataset[i] radii[i]
        hv.radii_len hex
      exact ⟨t, hf, Or.inr ⟨by omega, by simpa using htl⟩⟩
    · exact ⟨-1, fallback_none norm dataset radii dataset[i] radii[i] hex, Or.inl rfl⟩

/-- The loop building the ascent edges: the forest stays well formed, no set
is split, and every unassigned point that has an ascent target ends in the set
of its target. -/
theorem build_edges_spec {norm : SquaredNorm} {dataset : RowMatrixXd} {radii : VectorXd}
    {neighbors : RowMatrixXi} {cores : VectorXi} (hv : ValidInput dataset radii neighbors cores) :
    ∀ (is : List Nat) (g : GraphBasic), g.Wf → g.M.length = dataset.length →
      (∀ i ∈ is, i < dataset.length) →
      ∃ g1, build_edges norm dataset radii neighbors cores is g = .ok g1 ∧ g1.Wf ∧ g.Coarser g1 ∧
        ∀ i ∈ is, ∀ (c t : Int), cores[i]? = some c → c < 0 →
          ascent_target norm dataset radii neighbors i = .ok t → 0 ≤ t → g1.SameSet i t.toNat := by
  intro is
  induction is with
  | nil =>
    intro g hwf _ _
    exact ⟨g, rfl, hwf, GraphBasic.Coarser.self g, fun i hi => by cases hi⟩
  | cons i rest ih =>
    intro g hwf hlen his
    have hi : i < dataset.length := his i (List.mem_cons_self _ _)
    have hic : i < cores.length := by rw [hv.cores_len]; exact hi
    have hc : cores[i]? = some cores[i] := List.getElem?_eq_getElem hic
    have hrest : ∀ j ∈ rest, j < dataset.length := fun j hj => his j (List.mem_cons_of_mem _ hj)
    by_cases hc0 : cores[i] ≥ 0
    · obtain ⟨g1, hg1, hwf1, hco1, hall1⟩ := ih g hwf hlen hrest
      refine ⟨g1, ?_, hwf1, hco1, ?_⟩
      · simp only [build_edges, hc, hc0, if_true]
        exact hg1
      · intro j hj c t hcj hneg htgt ht0
        rcases List.mem_cons.1 hj with rfl | hj
        · rw [hc] at hcj; cases hcj
          omega
        · exact hall1 j hj c t hcj hneg htgt ht0
    · obtain ⟨t, htgt, ht⟩ := @ascent_target_range norm _ _ _ _ hv _ hi
      by_cases ht0 : t < 0
      · obtain ⟨g1, hg1, hwf1, hco1, hall1⟩ := ih g hwf hlen hrest
        refine ⟨g1, ?_, hwf1, hco1, ?_⟩
        · simp only [build_edges, hc, hc0, if_false, htgt, ht0, if_true]
          exact hg1
        · intro j hj c t2 hcj hneg htgt2 ht2
          rcases List.mem_cons.1 hj with rfl | hj
          · rw [htgt] at htgt2; cases htgt2
            omega
          · exact hall1 j hj c t2 hcj hneg htgt2 ht2
      · have htl : t.toNat < dataset.length := by
          rcases ht with rfl | ⟨_, h⟩
          · exact absurd (by decide) ht0
          · exact h
        have htn : ((t.toNat : Nat) : Int) = t := Int.toNat_of_nonneg (by omega)
        obtain ⟨g1, hg1, hwf1, hco1, hsame⟩ := GraphBasic.add_edge_coarser hwf
          (a := i) (b := t.toNat) (by rw [hlen]; exact hi) (by rw [hlen]; exact htl)
        rw [htn] at hg1
        obtain ⟨g2, hg2, hwf2, hco2, hall2⟩ := ih g1 hwf1 (by rw [hco1.length_eq]; exact hlen)
          hrest
        refine ⟨g2, ?_, hwf2, hco1.chain hco2, ?_⟩
        · simp only [build_edges, hc, hc0, if_false, htgt, ht0, hg1]
          exact hg2
        · intro j hj c t2 hcj hneg htgt2 ht2
          rcases List.mem_cons.1 hj with rfl | hj
          · rw [htgt] at htgt2; cases htgt2
            exact hco2.mono _ _ hsame
          · exact hall2 j hj c t2 hcj hneg htgt2 ht2

/-! ## The labelling loop -/

theorem lookup_cons_eq (k a v : Int) (l : List (Int × Int)) :
    ((k, v) :: l).lookup a = if a = k then some v else l.lookup a := by
  by_cases h : a = k
  · subst h
    simp [List.lookup]
  · have : (a == k) = false := by simpa using h
    simp [List.lookup, this, h]

theorem LabelInv.init {g : GraphBasic} (hwf : g.Wf) :
    LabelInv g ⟨g, [], 0, List.replicate g.M.length (-1)⟩ 0 := by
  refine ⟨hwf, GraphBasic.Compressed.refl g, by simp, le_refl _, ?_, ?_, ?_, ?_, ?_, ?_⟩
  · intro k v h; simp at h
  · intro k1 k2 v h; simp at h
  · intro k v h; simp at h
  · intro v h1 h2; simp only at h2; omega
  · intro j r h; omega
  · intro j v h; omega

/-- One turn of the labelling loop. -/
theorem LabelInv.step {g0 : GraphBasic} {s : Labelling} {i : Nat} (hinv : LabelInv g0 s i)
    (hi : i < g0.M.length) (rest : List Nat) :
    ∃ s1, assign_clusters (i :: rest) s = assign_clusters rest s1 ∧ LabelInv g0 s1 (i + 1) := by
  have hil : i < s.graphb.M.length := by rw [hinv.comp.length_eq]; exact hi
  obtain ⟨g1, r, hg1, hr, hwf1, hc1⟩ := GraphBasic.get_root_spec hinv.wf hil
  have hr0 : Reach g0.par i r := (hinv.comp.reach_iff _ _).1 hr
  have hrl : r < g1.M.length := by
    rw [hc1.length_eq]; exact hinv.wf.reach_lt hr hil
  have hnd : g1.M[r]? = some g1.M[r] := List.getElem?_eq_getElem hrl
  have hidx : g1.M[r].index = (r : Int) := hwf1.index_eq r _ hnd
  have hires : i < s.result.length := by rw [hinv.len]; exact hi
  have hMi : s.graphb.M[i]? = some s.graphb.M[i] := List.getElem?_eq_getElem hil
  have hcomp : g0.Compressed g1 := hinv.comp.trans hc1
  cases hlk : s.label_mapping.lookup (r : Int) with
  | some v =>
    refine ⟨{ s with graphb := g1, result := s.result.set i v }, ?_, ?_⟩
    · simp only [assign_clusters, hMi, hg1, hnd, hidx, hires, if_true, hlk]
    · refine ⟨hwf1, hcomp, by simpa using hinv.len, hinv.nonneg, hinv.bounds, hinv.inj, ?_,
        hinv.surj, ?_, ?_⟩
      · intro k w hk
        obtain ⟨j, rj, hj, hrj, hkr, hres⟩ := hinv.used k w hk
        refine ⟨j, rj, by omega, hrj, hkr, ?_⟩
        show (s.result.set i v)[j]? = some w
        rw [List.getElem?_set_ne (by omega)]; exact hres
      · intro j rj hj hrj
        by_cases hji : j = i
        · subst hji
          have : rj = r := Reach.unique hrj hr0
          subst this
          refine ⟨v, hlk, ?_⟩
          show (s.result.set j v)[j]? = some v
          simp [List.getElem?_set, hires]
        · obtain ⟨w, hw1, hw2⟩ := hinv.labelled j rj (by omega) hrj
          refine ⟨w, hw1, ?_⟩
          show (s.result.set i v)[j]? = some w
          rw [List.getElem?_set_ne (Ne.symm hji)]; exact hw2
      · intro j w hj hw
        have hw' : (s.result.set i v)[j]? = some w := hw
        by_cases hji : j = i
        · subst hji
          have hwv : w = v := by
            simp [List.getElem?_set, hires] at hw'
            exact hw'.symm
          subst hwv
          obtain ⟨j2, r2, hj2, _, _, hres2⟩ := hinv.used _ _ hlk
          refine Or.inr ⟨j2, w, hj2, ?_, by omega⟩
          show (s.result.set j w)[j2]? = some w
          rw [List.getElem?_set_ne (by omega)]; exact hres2
        · rw [List.getElem?_set_ne (Ne.symm hji)] at hw'
          rcases hinv.first j w (by omega) hw' with h | ⟨j2, v2, h1, h2, h3⟩
          · exact Or.inl h
          · refine Or.inr ⟨j2, v2, h1, ?_, h3⟩
            show (s.result.set i v)[j2]? = some v2
            rw [List.getElem?_set_ne (by omega)]; exact h2
  | none =>
    refine ⟨{ graphb := g1
              label_mapping := ((r : Int), s.n_clusters) :: s.label_mapping
              n_clusters := s.n_clusters + 1
              result := s.result.set i s.n_clusters }, ?_, ?_⟩
    · simp only [assign_clusters, hMi, hg1, hnd, hidx, hires, if_true, hlk]
    · have hnn := hinv.nonneg
      refine ⟨hwf1, hcomp, by simpa using hinv.len, ?_, ?_, ?_, ?_, ?_, ?_, ?_⟩
      · show 0 ≤ s.n_clusters + 1
        omega
      · intro k v hk
        show 0 ≤ v ∧ v < s.n_clusters + 1
        have hk' : (((r : Int), s.n_clusters) :: s.label_mapping).lookup k = some v := hk
        rw [lookup_cons_eq] at hk'
        by_cases hkr : k = (r : Int)
        · rw [if_pos hkr] at hk'; cases hk'
          omega
        · rw [if_neg hkr] at hk'
          have := hinv.bounds k v hk'
          omega
      · intro k1 k2 v h1 h2
        have h1' : (((r : Int), s.n_clusters) :: s.label_mapping).lookup k1 = some v := h1
        have h2' : (((r : Int), s.n_clusters) :: s.label_mapping).lookup k2 = some v := h2
        rw [lookup_cons_eq] at h1' h2'
        by_cases hk1 : k1 = (r : Int) <;> by_cases hk2 : k2 = (r : Int)
        · rw [hk1, hk2]
        · rw [if_pos hk1] at h1'; rw [if_neg hk2] at h2'
          cases h1'
          have := hinv.bounds k2 _ h2'
          omega
        · rw [if_neg hk1] at h1'; rw [if_pos hk2] at h2'
          cases h2'
          have := hinv.bounds k1 _ h1'
          omega
        · rw [if_neg hk1] at h1'; rw [if_neg hk2] at h2'
          exact hinv.inj k1 k2 v h1' h2'
      · intro k v hk
        have hk' : (((r : Int), s.n_clusters) :: s.label_mapping).lookup k = some v := hk
        rw [lookup_cons_eq] at hk'
        by_cases hkr : k = (r : Int)
        · rw [if_pos hkr] at hk'; cases hk'
          refine ⟨i, r, by omega, hr0, hkr, ?_⟩
          show (s.result.set i s.n_clusters)[i]? = some s.n_clusters
          simp [List.getElem?_set, hires]
        · rw [if_neg hkr] at hk'
          obtain ⟨j, rj, hj, hrj, hkj, hres⟩ := hinv.used k v hk'
          refine ⟨j, rj, by omega, hrj, hkj, ?_⟩
          show (s.result.set i s.n_clusters)[j]? = some v
          rw [List.getElem?_set_ne (by omega)]; exact hres
      · intro v hv0 hv1
        have hv1' : v < s.n_clusters + 1 := hv1
        show ∃ k, (((r : Int), s.n_clusters) :: s.label_mapping).lookup k = some v
        by_cases hvn : v = s.n_clusters
        · exact ⟨(r : Int), by rw [lookup_cons_eq, if_pos rfl, hvn]⟩
        · obtain ⟨k, hk⟩ := hinv.surj v hv0 (by omega)
          refine ⟨k, ?_⟩
          rw [lookup_cons_eq, if_neg]
          · exact hk
          · intro hkr
            rw [hkr, hlk] at hk; cases hk
      · intro j rj hj hrj
        show ∃ v, (((r : Int), s.n_clusters) :: s.label_mapping).lookup (rj : Int) = some v ∧
          (s.result.set i s.n_clusters)[j]? = some v
        by_cases hji : j = i
        · subst hji
          have : rj = r := Reach.unique hrj hr0
          subst this
          exact ⟨s.n_clusters, by rw [lookup_cons_eq, if_pos rfl],
            by simp [List.getElem?_set, hires]⟩
        · obtain ⟨w, hw1, hw2⟩ := hinv.labelled j rj (by omega) hrj
          refine ⟨w, ?_, ?_⟩
          · rw [lookup_cons_eq, if_neg]
            · exact hw1
            · intro hkr
              rw [hkr, hlk] at hw1; cases hw1
          · rw [List.getElem?_set_ne (Ne.symm hji)]; exact hw2
      · intro j w hj hw
        have hw' : (s.result.set i s.n_clusters)[j]? = some w := hw
        show (j = 0 ∧ w = 0) ∨ ∃ (j2 : Nat) (v2 : Int), j2 < j ∧
          (s.result.set i s.n_clusters)[j2]? = some v2 ∧ w ≤ v2 + 1
        by_cases hji : j = i
        · subst hji
          have hwv : w = s.n_clusters := by
            simp [List.getElem?_set, hires] at hw'
            exact hw'.symm
          subst hwv
          by_cases hn0 : s.n_clusters = 0
          · left
            refine ⟨?_, hn0⟩
            by_contra hj0
            obtain ⟨r0, hr0'⟩ := hinv.wf.exists_reach 0
            have hr00 : Reach g0.par 0 r0 := (hinv.comp.reach_iff _ _).1 hr0'
            obtain ⟨v0, hv0, _⟩ := hinv.labelled 0 r0 (by omega) hr00
            have := hinv.bounds _ _ hv0
            omega
          · right
            obtain ⟨k, hk⟩ := hinv.surj (s.n_clusters - 1) (by omega) (by omega)
            obtain ⟨j2, r2, hj2, _, _, hres2⟩ := hinv.used _ _ hk
            refine ⟨j2, s.n_clusters - 1, hj2, ?_, by omega⟩
            rw [List.getElem?_set_ne (by omega)]; exact hres2
        · rw [List.getElem?_set_ne (Ne.symm hji)] at hw'
          rcases hinv.first j w (by omega) hw' with h | ⟨j2, v2, h1, h2, h3⟩
          · exact Or.inl h
          · refine Or.inr ⟨j2, v2, h1, ?_, h3⟩
            rw [List.getElem?_set_ne (by omega)]; exact h2

/-- The labelling loop over the points `i, ..., i + k - 1`. -/
theorem LabelInv.run {g0 : GraphBasic} : ∀ (k i : Nat) (s : Labelling), LabelInv g0 s i →
    i + k ≤ g0.M.length →
    ∃ s1, assign_clusters (List.range' i k) s = .ok s1 ∧ LabelInv g0 s1 (i + k) := by
  intro k
  induction k with
  | zero =>
    intro i s hinv _
    exact ⟨s, rfl, hinv⟩
  | succ k ih =>
    intro i s hinv hle
    obtain ⟨s1, hs1, hinv1⟩ := hinv.step (by omega) (List.range' (i + 1) k)
    obtain ⟨s2, hs2, hinv2⟩ := ih (i + 1) s1 hinv1 (by omega)
    have hik : i + 1 + k = i + (k + 1) := by omega
    refine ⟨s2, ?_, hik ▸ hinv2⟩
    rw [List.range'_succ, hs1]
    exact hs2

/-- The labelling loop of `cluster_remaining` on a well-formed forest. -/
theorem assign_clusters_spec {g : GraphBasic} (hwf : g.Wf) :
    ∃ s, assign_clusters (List.range g.M.length)
        ⟨g, [], 0, List.replicate g.M.length (-1)⟩ = .ok s ∧ LabelInv g s g.M.length := by
  obtain ⟨s, hs, hinv⟩ := LabelInv.run g.M.length 0 _ (LabelInv.init hwf) (by omega)
  refine ⟨s, ?_, by simpa using hinv⟩
  rw [List.range_eq_range']
  exact hs

/-! ## `cluster_remaining` on a valid input -/

theorem foldl_max_spec : ∀ (rest : List Int) (a : Int),
    rest.foldl max a ∈ a :: rest ∧ ∀ c ∈ a :: rest, c ≤ rest.foldl max a := by
  intro rest
  induction rest with
  | nil =>
    intro a
    simp
  | cons b rest ih =>
    intro a
    obtain ⟨h1, h2⟩ := ih (max a b)
    simp only [List.foldl_cons]
    constructor
    · rcases List.mem_cons.1 h1 with h | h
      · rw [h]
        rcases max_choice a b with h3 | h3
        · rw [h3]; simp
        · rw [h3]; simp
      · exact List.mem_cons_of_mem _ (List.mem_cons_of_mem _ h)
    · intro c hc
      rcases List.mem_cons.1 hc with rfl | hc
      · exact le_trans (le_max_left _ _) (h2 _ (List.mem_cons_self _ _))
      · rcases List.mem_cons.1 hc with rfl | hc
        · exact le_trans (le_max_right _ _) (h2 _ (List.mem_cons_self _ _))
        · exact h2 c (List.mem_cons_of_mem _ hc)

theorem maxCoeff_spec {cores : List Int} (h : cores ≠ []) :
    ∃ mx, maxCoeff cores = .ok mx ∧ mx ∈ cores ∧ ∀ c ∈ cores, c ≤ mx := by
  cases cores with
  | nil => exact absurd rfl h
  | cons a rest =>
    obtain ⟨h1, h2⟩ := foldl_max_spec rest a
    exact ⟨_, rfl, h1, h2⟩

/-- The forest of `cluster_remaining` after all unions, on a valid input: it is
well formed, every core cluster is inside one set, and every unassigned point
that has an ascent target is in the set of its target. -/
theorem cluster_remaining_forest_spec {norm : SquaredNorm} {dataset : RowMatrixXd} {radii : VectorXd}
    {neighbors : RowMatrixXi} {cores : VectorXi}
    (hv : ValidInput dataset radii neighbors cores) :
    ∃ g, cluster_remaining_forest norm dataset radii neighbors cores = .ok g ∧ g.Wf ∧
      g.M.length = dataset.length ∧
      (∀ (i j : Nat) (c : Int), cores[i]? = some c → cores[j]? = some c → 0 ≤ c →
        g.SameSet i j) ∧
      (∀ (i : Nat) (c t : Int), i < dataset.length → cores[i]? = some c → c < 0 →
        ascent_target norm dataset radii neighbors i = .ok t → 0 ≤ t → g.SameSet i t.toNat) := by
  have hne : cores ≠ [] := by
    intro h0
    have := hv.cores_len
    rw [h0] at this
    have := hv.n_pos
    simp at *
    omega
  obtain ⟨mx, hmx, hmem, hle⟩ := maxCoeff_spec hne
  have hmx1 : -1 ≤ mx := hv.cores_ge mx hmem
  have hK : ¬ (mx + 1 < 0) := by omega
  -- the groups
  obtain ⟨ms, hms, hmslen, hmsall⟩ := fill_modal_sets_spec cores (List.range dataset.length)
    (List.replicate (mx + 1).toNat []) (by
      intro i hi
      rw [List.mem_range] at hi
      have hic : i < cores.length := by rw [hv.cores_len]; exact hi
      refine ⟨cores[i], List.getElem?_eq_getElem hic, ?_⟩
      intro h0
      have := hle cores[i] (List.getElem_mem _)
      simp only [List.length_replicate]
      omega)
  simp only [List.length_replicate] at hmslen
  have hmsNat : ms = ((List.range (mx + 1).toNat).map fun (c : Nat) =>
      (List.range dataset.length).filter fun i => decide (cores[i]? = some (c : Int))).map
      fun grp => grp.map Int.ofNat := by
    apply List.ext_getElem?
    intro c
    by_cases hc : c < (mx + 1).toNat
    · rw [hmsall c [] (by simp [hc])]
      simp [List.getElem?_range hc, hc]
    · rw [List.getElem?_eq_none (by omega), List.getElem?_eq_none (by simp; omega)]
  have hgroups : ∀ grp ∈ (List.range (mx + 1).toNat).map (fun (c : Nat) =>
      (List.range dataset.length).filter fun i => decide (cores[i]? = some (c : Int))),
      grp ≠ [] ∧ ∀ x ∈ grp, x < (GraphBasic.new dataset.length).M.length := by
    intro grp hgrp
    rw [List.mem_map] at hgrp
    obtain ⟨c, hc, rfl⟩ := hgrp
    rw [List.mem_range] at hc
    constructor
    · have hcm : (c : Int) ∈ cores := hv.cores_cover mx hmem c (by omega) (by omega)
      obtain ⟨i, hi, hic⟩ := List.getElem_of_mem hcm
      have hmemi : i ∈ (List.range dataset.length).filter
          fun i => decide (cores[i]? = some (c : Int)) := by
        rw [List.mem_filter]
        refine ⟨List.mem_range.2 (by rw [← hv.cores_len]; exact hi), ?_⟩
        simp [List.getElem?_eq_getElem hi, hic]
      exact List.ne_nil_of_mem hmemi
    · intro x hx
      rw [GraphBasic.new_length]
      exact List.mem_range.1 (List.mem_filter.1 hx).1
  obtain ⟨g1, hg1, hwf1, hco1, hsame1⟩ := chain_modal_sets_spec _ _
    (GraphBasic.new_wf dataset.length) hgroups
  rw [← hmsNat] at hg1
  have hlen1 : g1.M.length = dataset.length := by
    rw [hco1.length_eq, GraphBasic.new_length]
  obtain ⟨g2, hg2, hwf2, hco2, hsame2⟩ := @build_edges_spec norm _ _ _ _ hv (List.range dataset.length) g1
    hwf1 hlen1 (fun i hi => List.mem_range.1 hi)
  refine ⟨g2, ?_, hwf2, by rw [hco2.length_eq, hlen1], ?_, ?_⟩
  · simp only [cluster_remaining_forest, ne_eq, hv.rows_eq, not_true_eq_false, if_false, hmx,
      hK, hms, hg1, hg2]
  · intro i j c hi hj hc
    apply hco2.mono
    have hil : i < dataset.length := by
      rw [← hv.cores_len]; exact (List.getElem?_eq_some.1 hi).1
    have hjl : j < dataset.length := by
      rw [← hv.cores_len]; exact (List.getElem?_eq_some.1 hj).1
    have hcle : c ≤ mx := hle c (List.getElem?_mem hi)
    have hcn : ((c.toNat : Nat) : Int) = c := Int.toNat_of_nonneg hc
    refine hsame1 ((List.range dataset.length).filter
      fun i => decide (cores[i]? = some ((c.toNat : Nat) : Int))) ?_ i ?_ j ?_
    · rw [List.mem_map]
      exact ⟨c.toNat, List.mem_range.2 (by omega), rfl⟩
    · rw [List.mem_filter]
      exact ⟨List.mem_range.2 hil, by simp [hi, hcn]⟩
    · rw [List.mem_filter]
      exact ⟨List.mem_range.2 hjl, by simp [hj, hcn]⟩
  · intro i c t hi hc hneg htgt ht
    exact hsame2 i (List.mem_range.2 hi) c t hc hneg htgt ht

/-- What the labelling loop leaves behind, read off its invariant. -/
theorem LabelInv.final {g : GraphBasic} {s : Labelling} (hinv : LabelInv g s g.M.length)
    (hwf : g.Wf) :
    s.result.length = g.M.length ∧
    (∀ i, i < g.M.length → ∃ v, s.result[i]? = some v ∧ 0 ≤ v ∧ v < s.n_clusters) ∧
    (∀ v : Int, 0 ≤ v → v < s.n_clusters → v ∈ s.result) ∧
    (∀ i j, i < g.M.length → j < g.M.length →
      (s.result[i]? = s.result[j]? ↔ g.SameSet i j)) := by
  refine ⟨hinv.len, ?_, ?_, ?_⟩
  · intro i hi
    obtain ⟨r, hr⟩ := hwf.exists_reach i
    obtain ⟨v, hv1, hv2⟩ := hinv.labelled i r hi hr
    exact ⟨v, hv2, hinv.bounds _ _ hv1⟩
  · intro v h0 h1
    obtain ⟨k, hk⟩ := hinv.surj v h0 h1
    obtain ⟨j, r, _, _, _, hres⟩ := hinv.used k v hk
    exact List.getElem?_mem hres
  · intro i j hi hj
    obtain ⟨ri, hri⟩ := hwf.exists_reach i
    obtain ⟨rj, hrj⟩ := hwf.exists_reach j
    obtain ⟨vi, hvi1, hvi2⟩ := hinv.labelled i ri hi hri
    obtain ⟨vj, hvj1, hvj2⟩ := hinv.labelled j rj hj hrj
    rw [hvi2, hvj2]
    constructor
    · intro h
      have hv : vi = vj := by simpa using h
      subst hv
      have hk := hinv.inj _ _ _ hvi1 hvj1
      have : ri = rj := by exact_mod_cast hk
      subst this
      exact ⟨ri, hri, hrj⟩
    · rintro ⟨r, h1, h2⟩
      have e1 : ri = r := Reach.unique hri h1
      have e2 : rj = r := Reach.unique hrj h2
      subst e1; subst e2
      rw [hvi1] at hvj1
      rw [hvj1]

/-- `cluster_remaining` on a valid input returns the result of the labelling
loop run on the forest after all unions. -/
theorem cluster_remaining_spec {norm : SquaredNorm} {dataset : RowMatrixXd} {radii : VectorXd}
    {neighbors : RowMatrixXi} {cores : VectorXi}
    (hv : ValidInput dataset radii neighbors cores) :
    ∃ g s, cluster_remaining_forest norm dataset radii neighbors cores = .ok g ∧ g.Wf ∧
      g.M.length = dataset.length ∧
      cluster_remaining norm dataset radii neighbors cores = .ok s.result ∧
      LabelInv g s g.M.length := by
  obtain ⟨g, hg, hwf, hlen, _, _⟩ := cluster_remaining_forest_spec hv
  obtain ⟨s, hs, hinv⟩ := assign_clusters_spec hwf
  refine ⟨g, s, hg, hwf, hlen, ?_, hinv⟩
  rw [hlen] at hs
  simp only [cluster_remaining, hg, hs]

theorem GraphBasic.find_spec {g : GraphBasic} (hwf : g.Wf) {i : Nat} (hi : i < g.M.length) :
    ∃ r, g.find i = .ok (some r) ∧ Reach g.par i r := by
  obtain ⟨g1, r, h1, h2, _, _⟩ := GraphBasic.get_root_spec hwf hi
  exact ⟨r, by simp only [GraphBasic.find, h1], h2⟩

theorem GraphBasic.find_eq_iff {g : GraphBasic} (hwf : g.Wf) {i j : Nat}
    (hi : i < g.M.length) (hj : j < g.M.length) :
    g.find i = g.find j ↔ g.SameSet i j := by
  obtain ⟨ri, h1, h2⟩ := GraphBasic.find_spec hwf hi
  obtain ⟨rj, h3, h4⟩ := GraphBasic.find_spec hwf hj
  rw [h1, h3]
  constructor
  · intro h
    have : ri = rj := by simpa using h
    subst this
    exact ⟨ri, h2, h4⟩
  · rintro ⟨r, h5, h6⟩
    rw [Reach.unique h2 h5, Reach.unique h4 h6]

/-! ## Claims about `cluster_remaining` -/

/-- The literal scenario with the core assignment `[0, 0, 0, -1]` is a valid
input of `cluster_remaining`. -/
theorem valid_scenario :
    ValidInput [[0], [1], [2], [3]] [1, 1 / 2, 1 / 2, 2] [[1], [0, 2], [1, 3], [2]]
      [0, 0, 0, -1] := by
  refine ⟨by decide, by decide, by decide, by decide, by decide, by decide, ?_⟩
  intro c hc k h0 h1
  simp only [List.mem_cons, List.mem_singleton, List.not_mem_nil, or_false] at hc
  have : k = 0 := by omega
  subst this
  simp

/-- C1. On a valid input with at least one point `cluster_remaining` returns a
vector with one entry per point whose set of values is exactly
`{0, ..., m - 1}` for some `m ≥ 1`. -/
theorem cluster_remaining_labels_dense {norm : SquaredNorm} {dataset : RowMatrixXd} {radii : VectorXd}
    {neighbors : RowMatrixXi} {cores : VectorXi}
    (hv : ValidInput dataset radii neighbors cores) :
    ∃ (out : VectorXi) (m : Int), cluster_remaining norm dataset radii neighbors cores = .ok out ∧
      out.length = dataset.length ∧ 1 ≤ m ∧ ∀ v : Int, v ∈ out ↔ (0 ≤ v ∧ v < m) := by
  obtain ⟨g, s, _, hwf, hlen, hout, hinv⟩ := cluster_remaining_spec hv
  obtain ⟨h1, h2, h3, _⟩ := hinv.final hwf
  refine ⟨s.result, s.n_clusters, hout, by rw [h1, hlen], ?_, ?_⟩
  · obtain ⟨v, _, hv0, hv1⟩ := h2 0 (by rw [hlen]; exact hv.n_pos)
    omega
  · intro v
    constructor
    · intro hmem
      obtain ⟨i, hi⟩ := List.mem_iff_getElem?.1 hmem
      have hil : i < g.M.length := by
        rw [← h1]; exact (List.getElem?_eq_some.1 hi).1
      obtain ⟨w, hw, hw0, hw1⟩ := h2 i hil
      rw [hi] at hw; cases hw
      exact ⟨hw0, hw1⟩
    · rintro ⟨h0, hm⟩
      exact h3 v h0 hm

/-- Witness of C1 on the literal scenario. -/
theorem cluster_remaining_labels_dense_witness :
    ∃ (out : VectorXi) (m : Int),
      cluster_remaining squaredNorm [[0], [1], [2], [3]] [1, 1 / 2, 1 / 2, 2] [[1], [0, 2], [1, 3], [2]]
        [0, 0, 0, -1] = .ok out ∧
      out.length = ([[0], [1], [2], [3]] : RowMatrixXd).length ∧ 1 ≤ m ∧
      ∀ v : Int, v ∈ out ↔ (0 ≤ v ∧ v < m) :=
  cluster_remaining_labels_dense valid_scenario

/-- C2. On a valid input the labels follow the roots of the forest left by the
unions, in the order in which the roots are first met: every point resolves to
a root, two points get the same label exactly when `get_root` returns the same
root for both, point 0 gets label 0, and the label of a later point is at most
one more than the label of some earlier point. -/
theorem cluster_remaining_first_encounter {norm : SquaredNorm} {dataset : RowMatrixXd} {radii : VectorXd}
    {neighbors : RowMatrixXi} {cores : VectorXi}
    (hv : ValidInput dataset radii neighbors cores) :
    ∃ (g : GraphBasic) (out : VectorXi),
      cluster_remaining_forest norm dataset radii neighbors cores = .ok g ∧
      cluster_remaining norm dataset radii neighbors cores = .ok out ∧
      (∀ i, i < dataset.length → ∃ r, g.find i = .ok (some r)) ∧
      (∀ i j, i < dataset.length → j < dataset.length →
        (out[i]? = out[j]? ↔ g.find i = g.find j)) ∧
      out[0]? = some 0 ∧
      (∀ (i : Nat) (v : Int), 0 < i → out[i]? = some v →
        ∃ (j : Nat) (w : Int), j < i ∧ out[j]? = some w ∧ v ≤ w + 1) := by
  obtain ⟨g, s, hg, hwf, hlen, hout, hinv⟩ := cluster_remaining_spec hv
  obtain ⟨h1, h2, _, h4⟩ := hinv.final hwf
  refine ⟨g, s.result, hg, hout, ?_, ?_, ?_, ?_⟩
  · intro i hi
    obtain ⟨r, hr, _⟩ := GraphBasic.find_spec hwf (by rw [hlen]; exact hi)
    exact ⟨r, hr⟩
  · intro i j hi hj
    have hi' : i < g.M.length := by rw [hlen]; exact hi
    have hj' : j < g.M.length := by rw [hlen]; exact hj
    rw [h4 i j hi' hj', GraphBasic.find_eq_iff hwf hi' hj']
  · have h0 : 0 < g.M.length := by rw [hlen]; exact hv.n_pos
    obtain ⟨v, hv1, _, _⟩ := h2 0 h0
    rcases hinv.first 0 v h0 hv1 with ⟨_, hv0⟩ | ⟨j2, _, hj2, _⟩
    · rw [hv1, hv0]
    · omega
  · intro i v hi hiv
    have hil : i < g.M.length := by
      rw [← h1]; exact (List.getElem?_eq_some.1 hiv).1
    rcases hinv.first i v hil hiv with ⟨hi0, _⟩ | h
    · omega
    · exact h

/-- Witness of C2 on the literal scenario. -/
theorem cluster_remaining_first_encounter_witness :
    ∃ (g : GraphBasic) (out : VectorXi),
      cluster_remaining_forest squaredNorm [[0], [1], [2], [3]] [1, 1 / 2, 1 / 2, 2]
        [[1], [0, 2], [1, 3], [2]] [0, 0, 0, -1] = .ok g ∧
      cluster_remaining squaredNorm [[0], [1], [2], [3]] [1, 1 / 2, 1 / 2, 2] [[1], [0, 2], [1, 3], [2]]
        [0, 0, 0, -1] = .ok out ∧
      (∀ i, i < ([[0], [1], [2], [3]] : RowMatrixXd).length → ∃ r, g.find i = .ok (some r)) ∧
      (∀ i j, i < ([[0], [1], [2], [3]] : RowMatrixXd).length →
        j < ([[0], [1], [2], [3]] : RowMatrixXd).length →
        (out[i]? = out[j]? ↔ g.find i = g.find j)) ∧
      out[0]? = some 0 ∧
      (∀ (i : Nat) (v : Int), 0 < i → out[i]? = some v →
        ∃ (j : Nat) (w : Int), j < i ∧ out[j]? = some w ∧ v ≤ w + 1) :=
  cluster_remaining_first_encounter valid_scenario

/-- Two points of a valid input that are in one set of the forest after the
unions get the same label. -/
theorem same_label_of_same_set {norm : SquaredNorm} {dataset : RowMatrixXd} {radii : VectorXd}
    {neighbors : RowMatrixXi} {cores : VectorXi}
    (hv : ValidInput dataset radii neighbors cores) :
    ∃ (g : GraphBasic) (out : VectorXi),
      cluster_remaining_forest norm dataset radii neighbors cores = .ok g ∧
      cluster_remaining norm dataset radii neighbors cores = .ok out ∧
      ∀ i j, i < dataset.length → j < dataset.length → g.SameSet i j →
        ∃ v, out[i]? = some v ∧ out[j]? = some v := by
  obtain ⟨g, s, hg, hwf, hlen, hout, hinv⟩ := cluster_remaining_spec hv
  obtain ⟨_, h2, _, h4⟩ := hinv.final hwf
  refine ⟨g, s.result, hg, hout, ?_⟩
  intro i j hi hj hsame
  have hi' : i < g.M.length := by rw [hlen]; exact hi
  have hj' : j < g.M.length := by rw [hlen]; exact hj
  obtain ⟨v, hv1, _, _⟩ := h2 i hi'
  refine ⟨v, hv1, ?_⟩
  rw [← (h4 i j hi' hj').2 hsame]
  exact hv1

/-- C3. On a valid input any two points with the same non-negative core id get
the same final label. -/
theorem core_cluster_one_label {norm : SquaredNorm} {dataset : RowMatrixXd} {radii : VectorXd}
    {neighbors : RowMatrixXi} {cores : VectorXi}
    (hv : ValidInput dataset radii neighbors cores) :
    ∃ out : VectorXi, cluster_remaining norm dataset radii neighbors cores = .ok out ∧
      ∀ (i j : Nat) (c : Int), cores[i]? = some c → cores[j]? = some c → 0 ≤ c →
        ∃ v, out[i]? = some v ∧ out[j]? = some v := by
  obtain ⟨g, hg, _, _, hcore, _⟩ := cluster_remaining_forest_spec hv
  obtain ⟨g2, out, hg2, hout, hsame⟩ := same_label_of_same_set hv
  rw [hg] at hg2; cases hg2
  refine ⟨out, hout, ?_⟩
  intro i j c hi hj hc
  have hil : i < dataset.length := by
    rw [← hv.cores_len]; exact (List.getElem?_eq_some.1 hi).1
  have hjl : j < dataset.length := by
    rw [← hv.cores_len]; exact (List.getElem?_eq_some.1 hj).1
  exact hsame i j hil hjl (hcore i j c hi hj hc)

/-- Witness of C3 on the literal scenario. -/
theorem core_cluster_one_label_witness :
    ∃ out : VectorXi,
      cluster_remaining squaredNorm [[0], [1], [2], [3]] [1, 1 / 2, 1 / 2, 2] [[1], [0, 2], [1, 3], [2]]
        [0, 0, 0, -1] = .ok out ∧
      ∀ (i j : Nat) (c : Int), ([0, 0, 0, -1] : VectorXi)[i]? = some c →
        ([0, 0, 0, -1] : VectorXi)[j]? = some c → 0 ≤ c →
        ∃ v, out[i]? = some v ∧ out[j]? = some v :=
  core_cluster_one_label valid_scenario

/-- C4. On a valid input, for an unassigned point `i` whose neighbor row holds
an index of strictly smaller radius: the scan of the row returns the first such
entry `t` (no entry before it has a smaller radius), this entry is the ascent
target (the fallback is not evaluated), its radius is strictly smaller than
that of `i`, and `i` gets the final label of `t`. A point with a non-negative
core id leaves the forest as it is in its turn of the edge-building loop. -/
theorem neighbor_ascent {norm : SquaredNorm} {dataset : RowMatrixXd} {radii : VectorXd}
    {neighbors : RowMatrixXi} {cores : VectorXi}
    (hv : ValidInput dataset radii neighbors cores) (i : Nat) (ci : Int) (ri : ℚ)
    (row : List Int) (hci : cores[i]? = some ci) (hneg : ci < 0) (hri : radii[i]? = some ri)
    (hrow : neighbors[i]? = some row)
    (hex : ∃ k ∈ row, ∃ rk, radii[k.toNat]? = some rk ∧ rk < ri) :
    (∃ (t : Int) (pre post : List Int) (rt : ℚ) (out : VectorXi) (v : Int),
      row = pre ++ t :: post ∧
      (∀ k ∈ pre, ∀ rk, radii[k.toNat]? = some rk → ¬ rk < ri) ∧
      0 ≤ t ∧ radii[t.toNat]? = some rt ∧ rt < ri ∧
      scan_neighbors radii ri row = .ok t ∧
      ascent_target norm dataset radii neighbors i = .ok t ∧
      cluster_remaining norm dataset radii neighbors cores = .ok out ∧
      out[i]? = some v ∧ out[t.toNat]? = some v) ∧
    (∀ (j : Nat) (c : Int) (rest : List Nat) (g : GraphBasic), cores[j]? = some c → 0 ≤ c →
      build_edges norm dataset radii neighbors cores (j :: rest) g =
        build_edges norm dataset radii neighbors cores rest g) := by
  constructor
  · have hil : i < dataset.length := by
      rw [← hv.cores_len]; exact (List.getElem?_eq_some.1 hci).1
    have hrowmem : row ∈ neighbors := List.getElem?_mem hrow
    have hrange : ∀ k ∈ row, 0 ≤ k ∧ k.toNat < radii.length := by
      intro k hk
      obtain ⟨hk0, hk1⟩ := hv.nbr_range row hrowmem k hk
      rw [hv.radii_len]
      exact ⟨hk0, by omega⟩
    rcases scan_neighbors_spec radii ri row hrange with
      ⟨t, pre, post, rt, hsplit, hpre, hrt, hlt, hscan⟩ | ⟨hnone, _⟩
    · have ht : t ∈ row := by rw [hsplit]; simp
      obtain ⟨ht0, htl⟩ := hrange t ht
      have htgt : ascent_target norm dataset radii neighbors i = .ok t :=
        ascent_target_of_scan hri hrow (List.getElem?_eq_getElem hil) hscan ht0
      obtain ⟨g, hg, _, _, _, hasc⟩ := cluster_remaining_forest_spec hv
      obtain ⟨g2, out, hg2, hout, hsame⟩ := same_label_of_same_set hv
      rw [hg] at hg2; cases hg2
      obtain ⟨v, hv1, hv2⟩ := hsame i t.toNat hil (by rw [← hv.radii_len]; exact htl)
        (hasc i ci t hil hci hneg htgt ht0)
      exact ⟨t, pre, post, rt, out, v, hsplit, hpre, ht0, hrt, hlt, hscan, htgt, hout, hv1, hv2⟩
    · obtain ⟨k, hk, rk, hrk, hlt⟩ := hex
      exact absurd hlt (hnone k hk rk hrk)
  · intro j c rest g hc h0
    simp only [build_edges, hc, ge_iff_le, h0, if_true]

/-- Witness of C4 on the literal scenario: point 3, whose row is `[2]`. -/
theorem neighbor_ascent_witness :
    (∃ (t : Int) (pre post : List Int) (rt : ℚ) (out : VectorXi) (v : Int),
      [2] = pre ++ t :: post ∧
      (∀ k ∈ pre, ∀ rk, ([1, 1 / 2, 1 / 2, 2] : VectorXd)[k.toNat]? = some rk → ¬ rk < 2) ∧
      0 ≤ t ∧ ([1, 1 / 2, 1 / 2, 2] : VectorXd)[t.toNat]? = some rt ∧ rt < 2 ∧
      scan_neighbors [1, 1 / 2, 1 / 2, 2] 2 [2] = .ok t ∧
      ascent_target squaredNorm [[0], [1], [2], [3]] [1, 1 / 2, 1 / 2, 2] [[1], [0, 2], [1, 3], [2]] 3 =
        .ok t ∧
      cluster_remaining squaredNorm [[0], [1], [2], [3]] [1, 1 / 2, 1 / 2, 2] [[1], [0, 2], [1, 3], [2]]
        [0, 0, 0, -1] = .ok out ∧
      out[3]? = some v ∧ out[t.toNat]? = some v) ∧
    (∀ (j : Nat) (c : Int) (rest : List Nat) (g : GraphBasic),
      ([0, 0, 0, -1] : VectorXi)[j]? = some c → 0 ≤ c →
      build_edges squaredNorm [[0], [1], [2], [3]] [1, 1 / 2, 1 / 2, 2] [[1], [0, 2], [1, 3], [2]]
        [0, 0, 0, -1] (j :: rest) g =
      build_edges squaredNorm [[0], [1], [2], [3]] [1, 1 / 2, 1 / 2, 2] [[1], [0, 2], [1, 3], [2]]
        [0, 0, 0, -1] rest g) :=
  neighbor_ascent valid_scenario 3 (-1) 2 [2] (by decide) (by decide) (by simp) (by decide)
    ⟨2, by simp, 1 / 2, by simp, by norm_num⟩

theorem compute_cores_sweep_mismatch_iff (ar : Arith) (sort : List KnnPoint → List KnnPoint)
    (dim : Int) (radii : VectorXd) (neighbors : RowMatrixXi) (beta epsilon : ℚ) :
    compute_cores_sweep ar sort dim radii neighbors beta epsilon = .error .runtime_error ↔
      neighbors.length ≠ radii.length := by
  unfold compute_cores_sweep
  by_cases h : radii.length = neighbors.length
  · simp only [ne_eq, h, not_true_eq_false, if_false]
    constructor
    · intro h2
      split at h2 <;> cases h2
    · intro h2; exact h2.elim
  · simp only [ne_eq, h, not_false_eq_true, if_true, true_iff]
    exact fun h2 => h h2.symm

theorem cluster_remaining_forest_length_error_iff (norm : SquaredNorm) (dataset : RowMatrixXd)
    (radii : VectorXd) (neighbors : RowMatrixXi) (cores : VectorXi) :
    cluster_remaining_forest norm dataset radii neighbors cores = .error .length_error ↔
      (neighbors.length ≠ dataset.length ∨ ∃ mx, maxCoeff cores = .ok mx ∧ mx + 1 < 0) := by
  unfold cluster_remaining_forest
  by_cases h : neighbors.length = dataset.length
  · simp only [ne_eq, h, not_true_eq_false, if_false, false_or]
    cases hm : maxCoeff cores with
    | error e =>
      simp only
      constructor
      · intro h2
        cases h2
      · rintro ⟨mx, h2, _⟩
        cases h2
    | ok mx =>
      simp only
      by_cases hneg : mx + 1 < 0
      · rw [if_pos hneg]
        exact ⟨fun _ => ⟨mx, rfl, hneg⟩, fun _ => rfl⟩
      · rw [if_neg hneg]
        constructor
        · intro h2
          repeat' split at h2
          all_goals cases h2
        · rintro ⟨mx2, h2, h3⟩
          cases h2
          exact absurd h3 hneg
  · simp [h]

theorem cluster_remaining_forest_mismatch (norm : SquaredNorm) (dataset : RowMatrixXd)
    (radii : VectorXd) (neighbors : RowMatrixXi) (cores : VectorXi)
    (h : neighbors.length ≠ dataset.length) :
    cluster_remaining_forest norm dataset radii neighbors cores = .error .length_error :=
  (cluster_remaining_forest_length_error_iff norm dataset radii neighbors cores).2 (Or.inl h)

theorem compute_cores_mismatch_iff (ar : Arith) (sort : List KnnPoint → List KnnPoint)
    (dim : Int) (radii : VectorXd) (neighbors : RowMatrixXi) (beta epsilon : ℚ) :
    compute_cores ar sort dim radii neighbors beta epsilon = .error .runtime_error ↔
      neighbors.length ≠ radii.length := by
  rw [← compute_cores_sweep_mismatch_iff ar sort dim radii neighbors beta epsilon]
  unfold compute_cores
  constructor
  · intro h
    split at h
    · next e he => cases h; exact he
    · split at h <;> cases h
  · intro h
    rw [h]

theorem cluster_remaining_length_error_iff (norm : SquaredNorm) (dataset : RowMatrixXd)
    (radii : VectorXd) (neighbors : RowMatrixXi) (cores : VectorXi) :
    cluster_remaining norm dataset radii neighbors cores = .error .length_error ↔
      (neighbors.length ≠ dataset.length ∨ ∃ mx, maxCoeff cores = .ok mx ∧ mx + 1 < 0) := by
  rw [← cluster_remaining_forest_length_error_iff norm dataset radii neighbors cores]
  unfold cluster_remaining
  constructor
  · intro h
    split at h
    · next e he => cases h; exact he
    · split at h <;> cases h
  · intro h
    rw [h]

theorem cluster_remaining_mismatch (norm : SquaredNorm) (dataset : RowMatrixXd)
    (radii : VectorXd) (neighbors : RowMatrixXi) (cores : VectorXi)
    (h : neighbors.length ≠ dataset.length) :
    cluster_remaining norm dataset radii neighbors cores = .error .length_error :=
  (cluster_remaining_length_error_iff norm dataset radii neighbors cores).2 (Or.inl h)

/-- Core entries that are the sentinel or an id give the constructor of
`modal_sets` a number of elements that is not negative. -/
theorem modal_sets_size_nonneg {cores : VectorXi} (hc : ∀ c ∈ cores, -1 ≤ c) :
    ¬ ∃ mx, maxCoeff cores = .ok mx ∧ mx + 1 < 0 := by
  rintro ⟨mx, h1, h2⟩
  have hne : cores ≠ [] := by
    intro h0
    rw [h0] at h1
    cases h1
  obtain ⟨mx2, h3, h4, _⟩ := maxCoeff_spec hne
  rw [h1] at h3
  cases h3
  have := hc mx h4
  omega

/-- The claim of C7 fails on two points with one neighbor row each and the core
entries `[-5, -5]`: the row counts agree, and `cluster_remaining` ends in a
`std::length_error` all the same, thrown by the constructor of `modal_sets`
for `cores.maxCoeff() + 1 = -4` elements. -/
theorem negative_cores_length_error :
    ([[1], [0]] : RowMatrixXi).length = ([[0], [1]] : RowMatrixXd).length ∧
    maxCoeff [-5, -5] = .ok (-5) ∧
    cluster_remaining squaredNorm [[0], [1]] [1, 2] [[1], [0]] [-5, -5] =
      .error .length_error := by
  decide!

/-- C7, amended. `compute_cores` (and already the part of it that builds the
graph) ends in its size-mismatch error exactly when the row count of the
neighbor matrix differs from the length of `radii`. `cluster_remaining` (and
already the part of it that builds the forest) ends in a `std::length_error`
whenever the row count of the neighbor matrix differs from the row count of
`dataset`; for core entries below the largest `int`, so that
`cores.maxCoeff() + 1` does not overflow, it ends in a `std::length_error`
exactly when the row counts differ, where the error is that of the size check,
or the row counts agree and `cores.maxCoeff() + 1` is negative, where it is
that of the constructor of `modal_sets`; so for such core entries that are all
at least `-1` it does exactly when the row counts differ. An error carries no
result vector. -/
theorem size_mismatch_exact (norm : SquaredNorm) (ar : Arith)
    (sort : List KnnPoint → List KnnPoint)
    (dim : Int) (dataset : RowMatrixXd) (radii : VectorXd) (neighbors : RowMatrixXi)
    (cores : VectorXi) (beta epsilon : ℚ) :
    (compute_cores ar sort dim radii neighbors beta epsilon = .error .runtime_error ↔
      neighbors.length ≠ radii.length) ∧
    (compute_cores_sweep ar sort dim radii neighbors beta epsilon = .error .runtime_error ↔
      neighbors.length ≠ radii.length) ∧
    (neighbors.length ≠ dataset.length →
      cluster_remaining norm dataset radii neighbors cores = .error .length_error ∧
      cluster_remaining_forest norm dataset radii neighbors cores = .error .length_error) ∧
    ((∀ c ∈ cores, c < 2147483647) →
      (cluster_remaining norm dataset radii neighbors cores = .error .length_error ↔
        (neighbors.length ≠ dataset.length ∨ ∃ mx, maxCoeff cores = .ok mx ∧ mx + 1 < 0)) ∧
      (cluster_remaining_forest norm dataset radii neighbors cores = .error .length_error ↔
        (neighbors.length ≠ dataset.length ∨ ∃ mx, maxCoeff cores = .ok mx ∧ mx + 1 < 0))) ∧
    ((∀ c ∈ cores, -1 ≤ c ∧ c < 2147483647) →
      (cluster_remaining norm dataset radii neighbors cores = .error .length_error ↔
        neighbors.length ≠ dataset.length) ∧
      (cluster_remaining_forest norm dataset radii neighbors cores = .error .length_error ↔
        neighbors.length ≠ dataset.length)) := by
  refine ⟨compute_cores_mismatch_iff ar sort dim radii neighbors beta epsilon,
    compute_cores_sweep_mismatch_iff ar sort dim radii neighbors beta epsilon, ?_, ?_, ?_⟩
  · intro h
    exact ⟨(cluster_remaining_length_error_iff norm dataset radii neighbors cores).2 (Or.inl h),
      (cluster_remaining_forest_length_error_iff norm dataset radii neighbors cores).2
        (Or.inl h)⟩
  · intro _
    exact ⟨cluster_remaining_length_error_iff norm dataset radii neighbors cores,
      cluster_remaining_forest_length_error_iff norm dataset radii neighbors cores⟩
  · intro hc
    have hn := modal_sets_size_nonneg (fun c hcm => (hc c hcm).1)
    rw [cluster_remaining_length_error_iff, cluster_remaining_forest_length_error_iff]
    exact ⟨⟨fun h => h.resolve_right hn, Or.inl⟩, ⟨fun h => h.resolve_right hn, Or.inl⟩⟩

/-- Witness of C7, amended: one point without a neighbor row, with a core
entry that is an id. -/
theorem size_mismatch_exact_witness :
    (∀ c ∈ ([0] : VectorXi), -1 ≤ c ∧ c < 2147483647) ∧
    (cluster_remaining squaredNorm [[0]] [1] [] [0] = .error .length_error ↔
      ([] : RowMatrixXi).length ≠ ([[0]] : RowMatrixXd).length) ∧
    (cluster_remaining_forest squaredNorm [[0]] [1] [] [0] = .error .length_error ↔
      ([] : RowMatrixXi).length ≠ ([[0]] : RowMatrixXd).length) :=
  ⟨by decide, (size_mismatch_exact squaredNorm (Arith.exact pow_one) stable_sort 1 [[0]] [1] []
    [0] (1 / 10) (1 / 10)).2.2.2.2 (by decide)⟩

/-- C8, the claim as stated fails: two points, a neighbor matrix of two rows and
three radii. The row count of `neighbors` differs from the length of `radii`,
and `cluster_remaining` returns labels. -/
theorem radii_length_not_checked :
    ([[1], [0]] : RowMatrixXi).length ≠ ([1, 2, 3] : VectorXd).length ∧
    cluster_remaining squaredNorm [[0], [1]] [1, 2, 3] [[1], [0]] [0, -1] = .ok [0, 0] := by
  decide!

/-- C8 as amended: `cluster_remaining` compares the row count of `neighbors`
with the row count of `dataset` only, and `compute_cores` compares it with the
length of `radii`; a mismatch there ends the call in the size-mismatch error
whatever the other arguments are, and no output exists. -/
theorem mismatch_fails (norm : SquaredNorm) (ar : Arith) (sort : List KnnPoint → List KnnPoint)
    (dim : Int) (dataset : RowMatrixXd) (radii : VectorXd) (neighbors : RowMatrixXi)
    (cores : VectorXi) (beta epsilon : ℚ) :
    (neighbors.length ≠ dataset.length →
      cluster_remaining norm dataset radii neighbors cores = .error .length_error ∧
      ∀ out, cluster_remaining norm dataset radii neighbors cores ≠ .ok out) ∧
    (neighbors.length ≠ radii.length →
      compute_cores ar sort dim radii neighbors beta epsilon = .error .runtime_error ∧
      ∀ out, compute_cores ar sort dim radii neighbors beta epsilon ≠ .ok out) := by
  constructor
  · intro h
    have h1 := cluster_remaining_mismatch norm dataset radii neighbors cores h
    exact ⟨h1, fun out h2 => by rw [h1] at h2; cases h2⟩
  · intro h
    have h1 := (compute_cores_mismatch_iff ar sort dim radii neighbors beta epsilon).2 h
    exact ⟨h1, fun out h2 => by rw [h1] at h2; cases h2⟩

/-- Witness of C8 as amended: one point, no neighbor row. -/
theorem mismatch_fails_witness :
    (([] : RowMatrixXi).length ≠ ([[0]] : RowMatrixXd).length ∧
      cluster_remaining squaredNorm [[0]] [1] [] [0] = .error .length_error) ∧
    (([] : RowMatrixXi).length ≠ ([1] : VectorXd).length ∧
      compute_cores (Arith.exact pow_one) stable_sort 1 [1] [] (1 / 10) (1 / 10) = .error .runtime_error) :=
  ⟨⟨by decide, ((mismatch_fails squaredNorm (Arith.exact pow_one) stable_sort 1 [[0]] [1] [] [0] (1 / 10) (1 / 10)).1
      (by decide)).1⟩,
    ⟨by decide, ((mismatch_fails squaredNorm (Arith.exact pow_one) stable_sort 1 [[0]] [1] [] [0] (1 / 10) (1 / 10)).2
      (by decide)).1⟩⟩

/-! ## The literal scenario -/

theorem stable_sort_sorts : SortsByDist stable_sort := by
  intro l
  have : IsTotal KnnPoint (fun a b => a.dist ≤ b.dist) := ⟨fun a b => le_total a.dist b.dist⟩
  have : IsTrans KnnPoint (fun a b => a.dist ≤ b.dist) :=
    ⟨fun a b c h1 h2 => le_trans h1 h2⟩
  exact ⟨List.perm_insertionSort _ l, List.sorted_insertionSort _ l⟩

theorem scenario_orders :
    ∀ l ∈ scenario_knn.permutations', l.Pairwise (fun a b => a.dist ≤ b.dist) →
      l = [⟨1 / 2, 1⟩, ⟨1 / 2, 2⟩, ⟨1, 0⟩, ⟨2, 3⟩] ∨
      l = [⟨1 / 2, 2⟩, ⟨1 / 2, 1⟩, ⟨1, 0⟩, ⟨2, 3⟩] := by
  decide!

theorem scenario_sorted {sort : List KnnPoint → List KnnPoint} (hs : SortsByDist sort) :
    sort scenario_knn = [⟨1 / 2, 1⟩, ⟨1 / 2, 2⟩, ⟨1, 0⟩, ⟨2, 3⟩] ∨
    sort scenario_knn = [⟨1 / 2, 2⟩, ⟨1 / 2, 1⟩, ⟨1, 0⟩, ⟨2, 3⟩] :=
  scenario_orders _ (List.mem_permutations'.2 (hs scenario_knn).1) (hs scenario_knn).2

theorem scenario_sweep_eq (pow : ℚ → ℚ → ℚ) (sort : List KnnPoint → List KnnPoint)
    (hp : ∀ x, pow x 1 = x) :
    compute_cores (Arith.exact pow) sort 1 [1, 1 / 2, 1 / 2, 2] [[1], [0, 2], [1, 3], [2]]
        (1 / 10) (1 / 10) =
      compute_cores (Arith.exact pow_one) (fun _ => sort scenario_knn) 1 [1, 1 / 2, 1 / 2, 2]
        [[1], [0, 2], [1, 3], [2]] (1 / 10) (1 / 10) := by
  have e1 : (1 : ℚ) / ((1 : Int) : ℚ) = 1 := by norm_num
  simp only [compute_cores, compute_cores_sweep, Arith.exact, e1, hp, pow_one]
  rfl

/-- On the literal scenario `compute_cores` returns `[0, 0, 0, -1]`, whatever
order the sort gives to the two points of radius 0.5. -/
theorem scenario_cores (pow : ℚ → ℚ → ℚ) (sort : List KnnPoint → List KnnPoint)
    (hp : ∀ x, pow x 1 = x) (hs : SortsByDist sort) :
    compute_cores (Arith.exact pow) sort 1 [1, 1 / 2, 1 / 2, 2] [[1], [0, 2], [1, 3], [2]]
        (1 / 10) (1 / 10) = .ok [0, 0, 0, -1] := by
  rw [scenario_sweep_eq pow sort hp]
  rcases scenario_sorted hs with h | h
  · rw [h]; decide!
  · rw [h]; decide!

theorem scenario_target (norm : SquaredNorm) (a b c d : List ℚ) :
    ascent_target norm [a, b, c, d] [1, 1 / 2, 1 / 2, 2] [[1], [0, 2], [1, 3], [2]] 3 = .ok 2 := by
  have h : scan_neighbors [1, 1 / 2, 1 / 2, 2] 2 [2] = .ok 2 := by decide!
  simp only [ascent_target, List.getElem?_cons_succ, List.getElem?_cons_zero, h]
  rfl

theorem scenario_edges (norm : SquaredNorm) (a b c d : List ℚ) (g : GraphBasic) :
    build_edges norm [a, b, c, d] [1, 1 / 2, 1 / 2, 2] [[1], [0, 2], [1, 3], [2]] [0, 0, 0, -1]
      [0, 1, 2, 3] g = (g.add_edge 3 2) := by
  simp only [build_edges, List.getElem?_cons_succ, List.getElem?_cons_zero, scenario_target]
  simp
  cases g.add_edge 3 2 <;> rfl

/-- On the literal scenario with the core assignment `[0, 0, 0, -1]`,
`cluster_remaining` returns label 0 for every point, whatever the coordinates
of the four points are. -/
theorem scenario_labels (norm : SquaredNorm) (dataset : RowMatrixXd) (h : dataset.length = 4) :
    cluster_remaining norm dataset [1, 1 / 2, 1 / 2, 2] [[1], [0, 2], [1, 3], [2]] [0, 0, 0, -1] =
      .ok [0, 0, 0, 0] := by
  obtain ⟨a, b, c, d, rfl⟩ : ∃ a b c d, dataset = [a, b, c, d] := by
    match dataset, h with
    | [a, b, c, d], _ => exact ⟨a, b, c, d, rfl⟩
  have hr : List.range 4 = [0, 1, 2, 3] := by decide
  have hf : cluster_remaining_forest norm [a, b, c, d] [1, 1 / 2, 1 / 2, 2]
      [[1], [0, 2], [1, 3], [2]] [0, 0, 0, -1] =
      cluster_remaining_forest squaredNorm [[], [], [], []] [1, 1 / 2, 1 / 2, 2]
      [[1], [0, 2], [1, 3], [2]] [0, 0, 0, -1] := by
    simp only [cluster_remaining_forest, List.length_cons, List.length_nil, hr, scenario_edges]
  simp only [cluster_remaining, hf, List.length_cons, List.length_nil]
  decide!

/-- C9, the claim as stated fails: on the literal scenario `compute_cores`
returns `[0, 0, 0, -1]`, so point 0 is not left unassigned. -/
theorem scenario_point0_assigned :
    compute_cores (Arith.exact pow_one) stable_sort 1 [1, 1 / 2, 1 / 2, 2] [[1], [0, 2], [1, 3], [2]]
      (1 / 10) (1 / 10) = .ok [0, 0, 0, -1] ∧
    ¬ ∃ (out : VectorXi) (c : Int),
      compute_cores (Arith.exact pow_one) stable_sort 1 [1, 1 / 2, 1 / 2, 2] [[1], [0, 2], [1, 3], [2]]
        (1 / 10) (1 / 10) = .ok out ∧
      out[1]? = some c ∧ out[2]? = some c ∧ 0 ≤ c ∧ out[0]? = some (-1) ∧
      out[3]? = some (-1) := by
  have h : compute_cores (Arith.exact pow_one) stable_sort 1 [1, 1 / 2, 1 / 2, 2] [[1], [0, 2], [1, 3], [2]]
      (1 / 10) (1 / 10) = .ok [0, 0, 0, -1] := by decide!
  refine ⟨h, ?_⟩
  rintro ⟨out, c, hout, _, _, _, h0, _⟩
  rw [h] at hout
  cases hout
  simp at h0

/-- C9 as amended: on the literal scenario `compute_cores` gives points 0, 1
and 2 the core id 0 and leaves point 3 alone unassigned, for every power
function that is the identity at exponent 1 and every sort by radius. -/
theorem scenario_cores_assigned (pow : ℚ → ℚ → ℚ) (sort : List KnnPoint → List KnnPoint)
    (hp : ∀ x, pow x 1 = x) (hs : SortsByDist sort) :
    compute_cores (Arith.exact pow) sort 1 [1, 1 / 2, 1 / 2, 2] [[1], [0, 2], [1, 3], [2]]
        (1 / 10) (1 / 10) = .ok [0, 0, 0, -1] :=
  scenario_cores pow sort hp hs

/-- Witness of C9 as amended: the identity at exponent 1 and the stable
insertion sort. -/
theorem scenario_cores_assigned_witness :
    compute_cores (Arith.exact pow_one) stable_sort 1 [1, 1 / 2, 1 / 2, 2] [[1], [0, 2], [1, 3], [2]]
      (1 / 10) (1 / 10) = .ok [0, 0, 0, -1] :=
  scenario_cores_assigned pow_one stable_sort (fun _ => rfl) stable_sort_sorts

/-- C10. On the literal scenario, with any coordinates for the four points,
`compute_cores` followed by `cluster_remaining` on its output gives label 0 to
all four points. -/
theorem scenario_one_cluster (norm : SquaredNorm) (pow : ℚ → ℚ → ℚ) (sort : List KnnPoint → List KnnPoint)
    (hp : ∀ x, pow x 1 = x) (hs : SortsByDist sort) (dataset : RowMatrixXd)
    (h : dataset.length = 4) :
    ∃ cores : VectorXi,
      compute_cores (Arith.exact pow) sort 1 [1, 1 / 2, 1 / 2, 2] [[1], [0, 2], [1, 3], [2]]
        (1 / 10) (1 / 10) = .ok cores ∧
      cluster_remaining norm dataset [1, 1 / 2, 1 / 2, 2] [[1], [0, 2], [1, 3], [2]] cores =
        .ok [0, 0, 0, 0] :=
  ⟨[0, 0, 0, -1], scenario_cores pow sort hp hs, scenario_labels norm dataset h⟩

/-- Witness of C10: the four points at 0, 1, 2 and 3 on a line. -/
theorem scenario_one_cluster_witness :
    ∃ cores : VectorXi,
      compute_cores (Arith.exact pow_one) stable_sort 1 [1, 1 / 2, 1 / 2, 2] [[1], [0, 2], [1, 3], [2]]
        (1 / 10) (1 / 10) = .ok cores ∧
      cluster_remaining squaredNorm [[0], [1], [2], [3]] [1, 1 / 2, 1 / 2, 2] [[1], [0, 2], [1, 3], [2]]
        cores = .ok [0, 0, 0, 0] :=
  scenario_one_cluster squaredNorm pow_one stable_sort (fun _ => rfl) stable_sort_sorts
    [[0], [1], [2], [3]] (by decide)

/-! ## The component graph: how an assignment changes the view -/

theorem Graph.length_modify_node (g : Graph) (x : Nat) (f : Node → Node) :
    (g.modify_node x f).nodes.length = g.nodes.length := by
  unfold Graph.modify_node
  split <;> simp

theorem Graph.M_modify_node (g : Graph) (x : Nat) (f : Node → Node) :
    (g.modify_node x f).M = g.M := by
  unfold Graph.modify_node
  split <;> rfl

theorem Graph.seen_modify_node (g : Graph) (x : Nat) (f : Node → Node) :
    (g.modify_node x f).intersecting_sets = g.intersecting_sets := by
  unfold Graph.modify_node
  split <;> rfl

theorem Graph.getElem?_modify_node (g : Graph) (x : Nat) (f : Node → Node) (y : Nat) :
    (g.modify_node x f).nodes[y]? = if y = x then (g.nodes[x]?).map f else g.nodes[y]? := by
  unfold Graph.modify_node
  split
  · next h =>
    by_cases hy : y = x
    · subst hy; simp [h]
    · simp [hy]
  · next nd h =>
    have hx : x < g.nodes.length := (List.getElem?_eq_some.1 h).1
    by_cases hy : y = x
    · subst hy; simp [h, List.getElem?_set, hx]
    · simp [hy, List.getElem?_set, Ne.symm hy]

theorem Graph.par_modify_node_same (g : Graph) (x : Nat) (f : Node → Node)
    (hf : ∀ nd, (f nd).parent = nd.parent) (y : Nat) :
    (g.modify_node x f).par y = g.par y := by
  unfold Graph.par
  rw [Graph.getElem?_modify_node]
  by_cases hy : y = x
  · subst hy
    cases h : g.nodes[y]? <;> simp [hf]
  · simp [hy]

theorem Graph.rk_modify_node_same (g : Graph) (x : Nat) (f : Node → Node)
    (hf : ∀ nd, (f nd).rank = nd.rank) (y : Nat) :
    (g.modify_node x f).rk y = g.rk y := by
  unfold Graph.rk
  rw [Graph.getElem?_modify_node]
  by_cases hy : y = x
  · subst hy
    cases h : g.nodes[y]? <;> simp [hf]
  · simp [hy]

theorem Graph.kids_modify_node_same (g : Graph) (x : Nat) (f : Node → Node)
    (hf : ∀ nd, (f nd).children = nd.children) (y : Nat) :
    (g.modify_node x f).kids y = g.kids y := by
  unfold Graph.kids
  rw [Graph.getElem?_modify_node]
  by_cases hy : y = x
  · subst hy
    cases h : g.nodes[y]? <;> simp [hf]
  · simp [hy]

theorem Graph.payload_modify_node (g : Graph) (x : Nat) (f : Node → Node)
    (hf : ∀ nd, (f nd).index = nd.index) (y : Nat) :
    (g.modify_node x f).payload y = g.payload y := by
  unfold Graph.payload
  rw [Graph.getElem?_modify_node]
  by_cases hy : y = x
  · subst hy
    cases h : g.nodes[y]? <;> simp [hf]
  · simp [hy]

theorem Graph.roots_modify_node_same (g : Graph) (x : Nat) (f : Node → Node)
    (hf : ∀ nd, (f nd).parent = nd.parent) :
    (g.modify_node x f).roots = g.roots := by
  unfold Graph.roots Graph.modify_node
  split
  · rfl
  · next nd h =>
    have hx : x < g.nodes.length := (List.getElem?_eq_some.1 h).1
    have hnd : g.nodes[x] = nd := (List.getElem?_eq_some.1 h).2
    simp only
    rw [List.countP_set _ _ _ _ hx]
    have hle := List.boole_getElem_le_countP (fun nd : Node => nd.parent.isNone) g.nodes x hx
    simp only [hnd, hf] at hle ⊢
    split_ifs at hle ⊢ <;> omega

theorem Graph.kids_modify_children (g : Graph) (x : Nat) (h : List Nat → List Nat) (y : Nat)
    (hx : x < g.nodes.length) :
    (g.modify_node x fun n => { n with children := h n.children }).kids y =
      if y = x then h (g.kids x) else g.kids y := by
  unfold Graph.kids
  rw [Graph.getElem?_modify_node]
  by_cases hy : y = x
  · subst hy
    simp [List.getElem?_eq_getElem hx]
  · simp [hy]

theorem Graph.par_modify_parent (g : Graph) (x : Nat) (p : Ptr) (y : Nat)
    (hx : x < g.nodes.length) :
    (g.modify_node x fun n => { n with parent := p }).par y =
      if y = x then p else g.par y := by
  unfold Graph.par
  rw [Graph.getElem?_modify_node]
  by_cases hy : y = x
  · subst hy
    simp [List.getElem?_eq_getElem hx]
  · simp [hy]

theorem Graph.roots_modify_parent (g : Graph) (x : Nat) (p : Ptr) (hx : x < g.nodes.length) :
    (g.modify_node x fun n => { n with parent := p }).roots +
        (if (g.par x).isNone then 1 else 0) =
      g.roots + (if p.isNone then 1 else 0) := by
  unfold Graph.roots Graph.modify_node Graph.par
  rw [List.getElem?_eq_getElem hx]
  simp only
  rw [List.countP_set _ _ _ _ hx]
  have hle := List.boole_getElem_le_countP (fun nd : Node => nd.parent.isNone) g.nodes x hx
  simp only at hle ⊢
  split_ifs at hle ⊢ <;> omega

theorem Graph.rk_modify_rank (g : Graph) (x : Nat) (y : Nat) (hx : x < g.nodes.length) :
    (g.modify_node x fun n => { n with rank := n.rank + 1 }).rk y =
      if y = x then g.rk y + 1 else g.rk y := by
  unfold Graph.rk
  rw [Graph.getElem?_modify_node]
  by_cases hy : y = x
  · subst hy
    simp [List.getElem?_eq_getElem hx]
  · simp [hy]

theorem Graph.getElem?_index_modify_node (g : Graph) (x : Nat) (f : Node → Node)
    (hf : ∀ nd, (f nd).index = nd.index) (y : Nat) (nd : Node)
    (h : (g.modify_node x f).nodes[y]? = some nd) :
    ∃ nd0, g.nodes[y]? = some nd0 ∧ nd0.index = nd.index := by
  rw [Graph.getElem?_modify_node] at h
  by_cases hy : y = x
  · subst hy
    rw [if_pos rfl] at h
    cases h0 : g.nodes[y]? with
    | none => rw [h0] at h; cases h
    | some nd0 =>
      rw [h0] at h
      simp at h
      subst h
      exact ⟨nd0, rfl, (hf nd0).symm⟩
  · rw [if_neg hy] at h
    exact ⟨nd, h, rfl⟩

/-! ## The component graph: the forest of parent links -/

theorem Graph.cg_par_eq_some {g : Graph} {x p : Nat} (h : g.par x = some p) :
    x < g.nodes.length := by
  unfold Graph.par at h
  split at h
  · next nd hnd => exact (List.getElem?_eq_some.1 hnd).1
  · cases h

theorem Graph.cg_par_none_of_ge {g : Graph} {x : Nat} (h : g.nodes.length ≤ x) :
    g.par x = none := by
  unfold Graph.par
  rw [List.getElem?_eq_none h]

theorem Graph.kids_nil_of_ge {g : Graph} {x : Nat} (h : g.nodes.length ≤ x) :
    g.kids x = [] := by
  unfold Graph.kids
  rw [List.getElem?_eq_none h]

theorem Graph.Forest.cg_reach_lt {g : Graph} (hf : g.Forest) {x r : Nat}
    (h : Reach g.par x r) (hx : x < g.nodes.length) : r < g.nodes.length := by
  induction h with
  | root _ => exact hx
  | step hp _ ih => exact ih (hf.parent_lt _ _ hp)

theorem Graph.Forest.cg_reach_rank {g : Graph} (hf : g.Forest) {x r : Nat}
    (h : Reach g.par x r) : x = r ∨ g.rk x < g.rk r := by
  induction h with
  | root _ => exact Or.inl rfl
  | step hp _ ih =>
    have h1 := hf.rank_lt _ _ hp
    rcases ih with rfl | h2
    · exact Or.inr h1
    · exact Or.inr (lt_trans h1 h2)

theorem Graph.Forest.cg_exists_reach {g : Graph} (hf : g.Forest) (x : Nat) :
    ∃ r, Reach g.par x r := by
  by_cases hx : x < g.nodes.length
  · generalize hn : g.nodes.length - g.rk x = n
    induction n using Nat.strong_induction_on generalizing x with
    | _ n ih =>
      cases hp : g.par x with
      | none => exact ⟨x, Reach.root hp⟩
      | some p =>
        have h1 := hf.rank_lt _ _ hp
        have h2 := hf.parent_lt _ _ hp
        have h3 := hf.rank_roots p h2
        obtain ⟨r, hr⟩ := ih (g.nodes.length - g.rk p) (by omega) p h2 rfl
        exact ⟨r, Reach.step hp hr⟩
  · exact ⟨x, Reach.root (Graph.cg_par_none_of_ge (not_lt.1 hx))⟩

theorem Graph.cg_roots_pos_of_root {g : Graph} {r : Nat} (hr : r < g.nodes.length)
    (h0 : g.par r = none) : 0 < g.roots := by
  unfold Graph.roots
  rw [List.countP_pos_iff]
  refine ⟨g.nodes[r], List.getElem_mem _, ?_⟩
  unfold Graph.par at h0
  rw [List.getElem?_eq_getElem hr] at h0
  simp only at h0
  simp [h0]

theorem Graph.Forest.cg_roots_pos {g : Graph} (hf : g.Forest) {x : Nat}
    (hx : x < g.nodes.length) : 0 < g.roots := by
  obtain ⟨r, hr⟩ := hf.cg_exists_reach x
  exact Graph.cg_roots_pos_of_root (hf.cg_reach_lt hr hx) hr.root_none

theorem Graph.Compressed.rfl_graph (g : Graph) : g.Compressed g :=
  ⟨rfl, fun _ _ => Iff.rfl, rfl, fun _ => rfl, fun _ => rfl, rfl, rfl⟩

theorem Graph.Compressed.trans_graph {g g1 g2 : Graph} (h1 : g.Compressed g1)
    (h2 : g1.Compressed g2) : g.Compressed g2 :=
  ⟨h2.length_eq.trans h1.length_eq, fun y s => (h2.reach_iff y s).trans (h1.reach_iff y s),
    h2.roots_eq.trans h1.roots_eq, fun y => (h2.rk_eq y).trans (h1.rk_eq y),
    fun y => (h2.payload_eq y).trans (h1.payload_eq y), h2.M_eq.trans h1.M_eq,
    h2.seen_eq.trans h1.seen_eq⟩

/-! ## The component graph: `get_root` -/

theorem mem_set_insert (s : List Nat) (x y : Nat) : y ∈ set_insert s x ↔ y ∈ s ∨ y = x := by
  unfold set_insert
  split
  · next h =>
    constructor
    · intro hy; exact Or.inl hy
    · rintro (hy | rfl)
      · exact hy
      · exact h
  · simp

theorem nodup_set_insert {s : List Nat} (hs : s.Nodup) (x : Nat) : (set_insert s x).Nodup := by
  unfold set_insert
  split
  · exact hs
  · next h =>
    rw [List.nodup_append]
    refine ⟨hs, List.nodup_singleton x, ?_⟩
    intro a ha hb
    simp only [List.mem_singleton] at hb
    subst hb
    exact h ha

theorem Graph.Forest.of_same {g g2 : Graph} (hf : g.Forest)
    (hlen : g2.nodes.length = g.nodes.length) (hpar : ∀ y, g2.par y = g.par y)
    (hrk : ∀ y, g2.rk y = g.rk y) (hroots : g2.roots = g.roots) : g2.Forest := by
  refine ⟨?_, ?_, ?_⟩
  · intro x p h
    rw [hlen]; rw [hpar] at h
    exact hf.parent_lt x p h
  · intro x p h
    rw [hrk, hrk]; rw [hpar] at h
    exact hf.rank_lt x p h
  · intro x hx
    rw [hrk, hroots, hlen]; rw [hlen] at hx
    exact hf.rank_roots x hx

theorem Graph.Forest.cg_compress {g g3 : Graph} (hf : g.Forest) {x r : Nat}
    (hx : Reach g.par x r) (hne : x ≠ r) (hxl : x < g.nodes.length)
    (hlen : g3.nodes.length = g.nodes.length)
    (hpar : ∀ y, g3.par y = if y = x then some r else g.par y)
    (hrk : ∀ y, g3.rk y = g.rk y) (hroots : g3.roots = g.roots) : g3.Forest := by
  have hrl : r < g.nodes.length := hf.cg_reach_lt hx hxl
  refine ⟨?_, ?_, ?_⟩
  · intro y q hq
    rw [hlen]
    rw [hpar] at hq
    by_cases hy : y = x
    · rw [if_pos hy] at hq; cases hq; exact hrl
    · rw [if_neg hy] at hq; exact hf.parent_lt _ _ hq
  · intro y q hq
    rw [hrk, hrk]
    rw [hpar] at hq
    by_cases hy : y = x
    · rw [if_pos hy] at hq; cases hq
      subst hy
      rcases hf.cg_reach_rank hx with h | h
      · exact absurd h hne
      · exact h
    · rw [if_neg hy] at hq; exact hf.rank_lt _ _ hq
  · intro y hy
    rw [hlen] at hy ⊢
    rw [hrk, hroots]
    exact hf.rank_roots y hy

/-- `Graph::get_root` on a forest whose child sets are consistent except for
the nodes of `D`, which are below `x`: with enough fuel it returns the root
that `x` reaches, and leaves a forest of the same kind with the same sets. -/
theorem Graph.cg_get_root_fuel_spec : ∀ (fuel : Nat) (g : Graph) (D : List Nat) (x : Nat),
    g.Forest → g.KidsOk D → x < g.nodes.length → (∀ d ∈ D, g.rk d < g.rk x) →
    g.nodes.length + 1 ≤ fuel + g.rk x + g.roots →
    ∃ g1 r, g.get_root_fuel fuel (some x) = .ok (g1, r) ∧ Reach g.par x r ∧ g1.Forest ∧
      g1.KidsOk D ∧ g.Compressed g1 := by
  intro fuel
  induction fuel with
  | zero =>
    intro g D x hf _ hx _ hfuel
    have := hf.rank_roots x hx
    omega
  | succ f ih =>
    intro g D x hf hk hx hD hfuel
    have hnd : g.nodes[x]? = some g.nodes[x] := List.getElem?_eq_getElem hx
    cases hp : g.par x with
    | none =>
      refine ⟨g, x, ?_, Reach.root hp, hf, hk, Graph.Compressed.rfl_graph g⟩
      unfold Graph.par at hp
      rw [hnd] at hp
      simp only at hp
      simp only [Graph.get_root_fuel, hnd, hp]
    | some p =>
      have hrkp := hf.rank_lt _ _ hp
      have hpl := hf.parent_lt _ _ hp
      have hxD : x ∉ D := fun h => lt_irrefl _ (hD x h)
      -- the node leaves the child set of its parent
      have hpar1 := Graph.par_modify_node_same g p
        (fun pn => { pn with children := pn.children.erase x }) (fun _ => rfl)
      have hrk1 := Graph.rk_modify_node_same g p
        (fun pn => { pn with children := pn.children.erase x }) (fun _ => rfl)
      have hroots1 := Graph.roots_modify_node_same g p
        (fun pn => { pn with children := pn.children.erase x }) (fun _ => rfl)
      have hlen1 := Graph.length_modify_node g p
        (fun pn => { pn with children := pn.children.erase x })
      have hkids1 := fun y => Graph.kids_modify_children g p (fun l => l.erase x) y hpl
      have hpay1 := Graph.payload_modify_node g p
        (fun pn => { pn with children := pn.children.erase x }) (fun _ => rfl)
      generalize hg1 : g.modify_node p
        (fun pn => { pn with children := pn.children.erase x }) = g1 at *
      have hf1 : g1.Forest := hf.of_same hlen1 hpar1 hrk1 hroots1
      have hk1 : g1.KidsOk (x :: D) := by
        refine ⟨?_, ?_⟩
        · intro z y
          rw [hkids1, hpar1]
          by_cases hz : z = p
          · subst hz
            rw [if_pos rfl, (hk.kids_nodup z).mem_erase_iff, hk.kids_iff]
            simp only [List.mem_cons, not_or]
            tauto
          · rw [if_neg hz, hk.kids_iff]
            simp only [List.mem_cons, not_or]
            constructor
            · rintro ⟨h1, h2⟩
              refine ⟨h1, ?_, h2⟩
              rintro rfl
              rw [hp] at h1
              cases h1
              exact hz rfl
            · rintro ⟨h1, _, h2⟩
              exact ⟨h1, h2⟩
        · intro z
          rw [hkids1]
          split
          · exact (hk.kids_nodup _).erase _
          · exact hk.kids_nodup _
      obtain ⟨g2, r, hg2, hr, hf2, hk2, hc2⟩ := ih g1 (x :: D) p hf1 hk1 (by rw [hlen1]; exact hpl)
        (by
          intro d hd
          rw [hrk1, hrk1]
          rcases List.mem_cons.1 hd with rfl | hd
          · exact hrkp
          · exact lt_trans (hD d hd) hrkp)
        (by rw [hlen1, hrk1, hroots1]; omega)
      have hc1 : g.Compressed g1 :=
        ⟨hlen1, fun y s => ⟨fun h => Reach.congr (fun y => (hpar1 y).symm) h,
          fun h => Reach.congr hpar1 h⟩, hroots1, hrk1, hpay1,
          by rw [← hg1]; exact Graph.M_modify_node _ _ _,
          by rw [← hg1]; exact Graph.seen_modify_node _ _ _⟩
      have hc12 : g.Compressed g2 := hc1.trans_graph hc2
      have hxr : Reach g.par x r := Reach.step hp ((hc1.reach_iff _ _).1 hr)
      have hne : x ≠ r := by
        rintro rfl
        rw [hxr.root_none] at hp; cases hp
      have hxr2 : Reach g2.par x r := (hc12.reach_iff _ _).2 hxr
      have hx2 : x < g2.nodes.length := by rw [hc12.length_eq]; exact hx
      have hr2 : r < g2.nodes.length := hf2.cg_reach_lt hxr2 hx2
      -- the node is hung under the root
      have hpar3 := fun y => Graph.par_modify_parent g2 x (some r) y hx2
      have hrk3 := Graph.rk_modify_node_same g2 x
        (fun n => { n with parent := some r }) (fun _ => rfl)
      have hkids3 := Graph.kids_modify_node_same g2 x
        (fun n => { n with parent := some r }) (fun _ => rfl)
      have hlen3 := Graph.length_modify_node g2 x (fun n => { n with parent := some r })
      have hpay3 := Graph.payload_modify_node g2 x
        (fun n => { n with parent := some r }) (fun _ => rfl)
      have hroots3 : (g2.modify_node x fun n => { n with parent := some r }).roots = g2.roots := by
        have h := Graph.roots_modify_parent g2 x (some r) hx2
        have hsome : ∃ q, g2.par x = some q := by
          cases hxr2 with
          | root _ => exact absurd rfl hne
          | step hq _ => exact ⟨_, hq⟩
        obtain ⟨q, hq⟩ := hsome
        rw [hq] at h
        simpa using h
      have hM3 := Graph.M_modify_node g2 x (fun n => { n with parent := some r })
      have hS3 := Graph.seen_modify_node g2 x (fun n => { n with parent := some r })
      generalize hg3 : g2.modify_node x (fun n => { n with parent := some r }) = g3 at *
      have hf3 : g3.Forest := hf2.cg_compress hxr2 hne hx2 hlen3 hpar3 hrk3 hroots3
      have hr3 : r < g3.nodes.length := by rw [hlen3]; exact hr2
      -- and enters the child set of the root
      have hpar4 := Graph.par_modify_node_same g3 r
        (fun rn => { rn with children := set_insert rn.children x }) (fun _ => rfl)
      have hrk4 := Graph.rk_modify_node_same g3 r
        (fun rn => { rn with children := set_insert rn.children x }) (fun _ => rfl)
      have hroots4 := Graph.roots_modify_node_same g3 r
        (fun rn => { rn with children := set_insert rn.children x }) (fun _ => rfl)
      have hlen4 := Graph.length_modify_node g3 r
        (fun rn => { rn with children := set_insert rn.children x })
      have hkids4 := fun y => Graph.kids_modify_children g3 r (fun l => set_insert l x) y hr3
      have hpay4 := Graph.payload_modify_node g3 r
        (fun rn => { rn with children := set_insert rn.children x }) (fun _ => rfl)
      have hM4 := Graph.M_modify_node g3 r
        (fun rn => { rn with children := set_insert rn.children x })
      have hS4 := Graph.seen_modify_node g3 r
        (fun rn => { rn with children := set_insert rn.children x })
      refine ⟨g3.modify_node r (fun rn => { rn with children := set_insert rn.children x }), r,
        ?_, hxr, hf3.of_same hlen4 hpar4 hrk4 hroots4, ?_, ?_⟩
      · unfold Graph.par at hp
        rw [hnd] at hp
        simp only at hp
        simp only [Graph.get_root_fuel, hnd, hp, hg1, hg2, hg3]
      · refine ⟨?_, ?_⟩
        · intro z y
          rw [hkids4, hpar4, hpar3]
          simp only [hkids3]
          by_cases hy : y = x
          · subst hy
            rw [if_pos rfl]
            by_cases hz : z = r
            · subst hz
              rw [if_pos rfl, mem_set_insert]
              simp [hxD]
            · rw [if_neg hz, hk2.kids_iff]
              simp only [List.mem_cons, true_or, not_true_eq_false, and_false, false_iff]
              rintro ⟨h1, _⟩
              cases h1
              exact hz rfl
          · rw [if_neg hy]
            have hmem : (y ∈ if z = r then set_insert (g2.kids r) x else g2.kids z) ↔
                y ∈ g2.kids z := by
              by_cases hz : z = r
              · subst hz
                rw [if_pos rfl, mem_set_insert]
                simp [hy]
              · rw [if_neg hz]
            rw [hmem, hk2.kids_iff]
            simp only [List.mem_cons, not_or]
            tauto
        · intro z
          rw [hkids4]
          simp only [hkids3]
          split
          · exact nodup_set_insert (hk2.kids_nodup _) x
          · exact hk2.kids_nodup _
      · refine ⟨by rw [hlen4, hlen3]; exact hc12.length_eq, ?_, by
          rw [hroots4, hroots3]; exact hc12.roots_eq, fun y => by
          rw [hrk4, hrk3]; exact hc12.rk_eq y, fun y => by
          rw [hpay4, hpay3]; exact hc12.payload_eq y, by
          rw [hM4, hM3]; exact hc12.M_eq, by
          rw [hS4, hS3]; exact hc12.seen_eq⟩
        intro y s
        have e3 : Reach g3.par y s ↔ Reach g2.par y s := reach_compress hxr2 hne hpar3 y s
        have e4 : Reach (g3.modify_node r
            (fun rn => { rn with children := set_insert rn.children x })).par y s ↔
            Reach g3.par y s :=
          ⟨fun h => Reach.congr (fun y => (hpar4 y).symm) h, fun h => Reach.congr hpar4 h⟩
        exact e4.trans (e3.trans (hc12.reach_iff y s))

/-! ## The component graph: well-formed states and the operations -/

theorem Graph.Registry.registry_of_compressed {g g1 : Graph} (hr : g.Registry) (hc : g.Compressed g1) :
    g1.Registry := by
  refine ⟨?_, ?_, ?_, ?_⟩
  · intro x nd h
    have hp := hc.payload_eq x
    unfold Graph.payload at hp
    rw [h] at hp
    simp only at hp
    cases h0 : g.nodes[x]? with
    | none => rw [h0] at hp; cases hp
    | some nd0 =>
      rw [h0] at hp
      simp only [Option.some.injEq] at hp
      rw [hc.M_eq, hp]
      exact hr.key_node x nd0 h0
  · intro k p h
    rw [hc.M_eq] at h
    obtain ⟨x, nd, hp, hnd, hk⟩ := hr.node_key k p h
    have hpay := hc.payload_eq x
    unfold Graph.payload at hpay
    rw [hnd] at hpay
    cases h1 : g1.nodes[x]? with
    | none => rw [h1] at hpay; cases hpay
    | some nd1 =>
      rw [h1] at hpay
      simp only [Option.some.injEq] at hpay
      exact ⟨x, nd1, hp, h1, by rw [hpay, hk]⟩
  · intro r hr1
    rw [hc.seen_eq] at hr1
    obtain ⟨h1, h2⟩ := hr.seen_root r hr1
    exact ⟨by rw [hc.length_eq]; exact h1, ((hc.reach_iff r r).2 (Reach.root h2)).root_none⟩
  · rw [hc.seen_eq]; exact hr.seen_nodup

/-- `Graph::get_root` on a well-formed graph. -/
theorem Graph.cg_get_root_spec {g : Graph} (hwf : g.Wf) {x : Nat} (hx : x < g.nodes.length) :
    ∃ g1 r, g.get_root (some x) = .ok (g1, r) ∧ Reach g.par x r ∧ g1.Wf ∧ g.Compressed g1 := by
  have hpos := hwf.forest.cg_roots_pos hx
  obtain ⟨g1, r, h1, h2, h3, h4, h5⟩ := Graph.cg_get_root_fuel_spec g.nodes.length g [] x
    hwf.forest hwf.kids hx (fun d hd => by cases hd) (by omega)
  exact ⟨g1, r, h1, h2, ⟨h3, h4, hwf.registry.registry_of_compressed h5⟩, h5⟩

theorem Graph.at_of_lookup {g : Graph} {p : Int} {x : Nat}
    (h : g.M.lookup p = some (some x)) : g.at p = some x := by
  simp only [Graph.at, h]

theorem Graph.Registry.lookup_lt {g : Graph} (hr : g.Registry) {p : Int} {x : Nat}
    (h : g.M.lookup p = some (some x)) : x < g.nodes.length ∧ g.payload x = some p := by
  obtain ⟨y, nd, hy, hnd, hk⟩ := hr.node_key p _ h
  cases hy
  refine ⟨(List.getElem?_eq_some.1 hnd).1, ?_⟩
  simp only [Graph.payload, hnd, hk]

theorem Graph.Registry.lookup_of_payload {g : Graph} (hr : g.Registry) {p : Int} {x : Nat}
    (h : g.payload x = some p) : g.M.lookup p = some (some x) := by
  unfold Graph.payload at h
  cases h0 : g.nodes[x]? with
  | none => rw [h0] at h; cases h
  | some nd =>
    rw [h0] at h
    simp only [Option.some.injEq] at h
    rw [← h]
    exact hr.key_node x nd h0

theorem Graph.SeenPoint.seen_of_compressed {g g1 : Graph} (hc : g.Compressed g1) {p : Int} :
    g1.SeenPoint p ↔ g.SeenPoint p := by
  unfold Graph.SeenPoint
  constructor
  · rintro ⟨x, r, h1, h2, h3⟩
    exact ⟨x, r, by rw [← hc.M_eq]; exact h1, (hc.reach_iff _ _).1 h2, by
      rw [← hc.seen_eq]; exact h3⟩
  · rintro ⟨x, r, h1, h2, h3⟩
    exact ⟨x, r, by rw [hc.M_eq]; exact h1, (hc.reach_iff _ _).2 h2, by
      rw [hc.seen_eq]; exact h3⟩

theorem Graph.Connected.connected_of_compressed {g g1 : Graph} (hc : g.Compressed g1) {p q : Int} :
    g1.Connected p q ↔ g.Connected p q := by
  unfold Graph.Connected
  constructor
  · rintro ⟨x, y, r, h1, h2, h3, h4⟩
    exact ⟨x, y, r, by rw [← hc.M_eq]; exact h1, by rw [← hc.M_eq]; exact h2,
      (hc.reach_iff _ _).1 h3, (hc.reach_iff _ _).1 h4⟩
  · rintro ⟨x, y, r, h1, h2, h3, h4⟩
    exact ⟨x, y, r, by rw [hc.M_eq]; exact h1, by rw [hc.M_eq]; exact h2,
      (hc.reach_iff _ _).2 h3, (hc.reach_iff _ _).2 h4⟩

/-! ### `add_node` -/

theorem Graph.getElem?_add_node (g : Graph) (k : Int) (y : Nat) :
    (g.add_node k).nodes[y]? =
      if y = g.nodes.length then some ⟨k, 0, none, []⟩ else g.nodes[y]? := by
  simp only [Graph.add_node]
  by_cases hy : y = g.nodes.length
  · subst hy
    simp
  · rw [if_neg hy]
    by_cases hlt : y < g.nodes.length
    · rw [List.getElem?_append_left hlt]
    · rw [List.getElem?_eq_none (by simp; omega), List.getElem?_eq_none (by omega)]

theorem Graph.par_add_node (g : Graph) (k : Int) (y : Nat) :
    (g.add_node k).par y = g.par y := by
  unfold Graph.par
  rw [Graph.getElem?_add_node]
  by_cases hy : y = g.nodes.length
  · subst hy
    simp
  · rw [if_neg hy]

theorem Graph.rk_add_node (g : Graph) (k : Int) (y : Nat) :
    (g.add_node k).rk y = g.rk y := by
  unfold Graph.rk
  rw [Graph.getElem?_add_node]
  by_cases hy : y = g.nodes.length
  · subst hy
    simp
  · rw [if_neg hy]

theorem Graph.kids_add_node (g : Graph) (k : Int) (y : Nat) :
    (g.add_node k).kids y = g.kids y := by
  unfold Graph.kids
  rw [Graph.getElem?_add_node]
  by_cases hy : y = g.nodes.length
  · subst hy
    simp
  · rw [if_neg hy]

theorem Graph.roots_add_node (g : Graph) (k : Int) : (g.add_node k).roots = g.roots + 1 := by
  simp [Graph.roots, Graph.add_node, List.countP_append]

theorem Graph.length_add_node (g : Graph) (k : Int) :
    (g.add_node k).nodes.length = g.nodes.length + 1 := by
  simp [Graph.add_node]

theorem Graph.lookup_add_node (g : Graph) (k q : Int) :
    (g.add_node k).M.lookup q = if q = k then some (some g.nodes.length) else g.M.lookup q := by
  simp only [Graph.add_node]
  by_cases h : q = k
  · subst h
    simp [List.lookup]
  · have : (q == k) = false := by simpa using h
    simp [List.lookup, this, h]

/-- `add_node` with a payload that is not yet in the graph keeps the graph well
formed; the new node is a component of its own that is not seen. -/
theorem Graph.add_node_wf {g : Graph} (hwf : g.Wf) {k : Int} (hk : g.M.lookup k = none) :
    (g.add_node k).Wf := by
  have hpar := Graph.par_add_node g k
  have hrk := Graph.rk_add_node g k
  have hkids := Graph.kids_add_node g k
  have hlen := Graph.length_add_node g k
  have hroots := Graph.roots_add_node g k
  refine ⟨⟨?_, ?_, ?_⟩, ⟨?_, ?_⟩, ⟨?_, ?_, ?_, ?_⟩⟩
  · intro x p h
    rw [hpar] at h
    have := hwf.forest.parent_lt x p h
    omega
  · intro x p h
    rw [hpar] at h
    rw [hrk, hrk]
    exact hwf.forest.rank_lt x p h
  · intro x hx
    rw [hrk, hroots, hlen]
    by_cases hxl : x < g.nodes.length
    · have := hwf.forest.rank_roots x hxl
      omega
    · have h0 : g.rk x = 0 := by
        unfold Graph.rk
        rw [List.getElem?_eq_none (by omega)]
      have hle : g.roots ≤ g.nodes.length := List.countP_le_length _
      omega
  · intro x y
    rw [hkids, hpar]
    exact hwf.kids.kids_iff x y
  · intro x
    rw [hkids]
    exact hwf.kids.kids_nodup x
  · intro x nd h
    rw [Graph.getElem?_add_node] at h
    rw [Graph.lookup_add_node]
    by_cases hx : x = g.nodes.length
    · rw [if_pos hx] at h
      cases h
      rw [if_pos rfl, hx]
    · rw [if_neg hx] at h
      have h1 := hwf.registry.key_node x nd h
      rw [if_neg]
      · exact h1
      · intro h2
        rw [h2, hk] at h1
        cases h1
  · intro q p h
    rw [Graph.lookup_add_node] at h
    by_cases hq : q = k
    · rw [if_pos hq] at h
      cases h
      refine ⟨g.nodes.length, ⟨k, 0, none, []⟩, rfl, ?_, hq.symm⟩
      rw [Graph.getElem?_add_node, if_pos rfl]
    · rw [if_neg hq] at h
      obtain ⟨x, nd, h1, h2, h3⟩ := hwf.registry.node_key q p h
      refine ⟨x, nd, h1, ?_, h3⟩
      rw [Graph.getElem?_add_node, if_neg]
      · exact h2
      · have := (List.getElem?_eq_some.1 h2).1
        omega
  · intro r hr
    have hr' : r ∈ g.intersecting_sets := hr
    obtain ⟨h1, h2⟩ := hwf.registry.seen_root r hr'
    exact ⟨by rw [hlen]; omega, by rw [hpar]; exact h2⟩
  · exact hwf.registry.seen_nodup

theorem Graph.SeenPoint.add_node {g : Graph} {k : Int}
    (hk : g.M.lookup k = none) {p : Int} (h : g.SeenPoint p) : (g.add_node k).SeenPoint p := by
  obtain ⟨x, r, h1, h2, h3⟩ := h
  refine ⟨x, r, ?_, Reach.congr (Graph.par_add_node g k) h2, h3⟩
  rw [Graph.lookup_add_node, if_neg]
  · exact h1
  · intro hpk
    rw [hpk, hk] at h1
    cases h1

/-! ### `merge_components` and `add_edge` -/

theorem Graph.view_with_seen (g : Graph) (s : List Nat) :
    (∀ y, ({ g with intersecting_sets := s } : Graph).par y = g.par y) ∧
    (∀ y, ({ g with intersecting_sets := s } : Graph).rk y = g.rk y) ∧
    (∀ y, ({ g with intersecting_sets := s } : Graph).kids y = g.kids y) ∧
    (∀ y, ({ g with intersecting_sets := s } : Graph).payload y = g.payload y) ∧
    ({ g with intersecting_sets := s } : Graph).roots = g.roots :=
  ⟨fun _ => rfl, fun _ => rfl, fun _ => rfl, fun _ => rfl, rfl⟩

theorem Graph.cg_rk_eq_of_getElem? {g : Graph} {x : Nat} {nd : Node}
    (h : g.nodes[x]? = some nd) : g.rk x = nd.rank := by
  unfold Graph.rk
  rw [h]

/-- What `merge_components` changes, field by field. -/
theorem Graph.merge_components_view (g : Graph) {parent child : Nat}
    (hp : parent < g.nodes.length) (hc : child < g.nodes.length) :
    (g.merge_components parent child).nodes.length = g.nodes.length ∧
    (∀ y, (g.merge_components parent child).par y =
      if y = child then some parent else g.par y) ∧
    (∀ y, (g.merge_components parent child).rk y =
      if y = parent ∧ g.rk parent = g.rk child then g.rk y + 1 else g.rk y) ∧
    (∀ z, (g.merge_components parent child).kids z =
      if z = parent then set_insert (g.kids parent) child else g.kids z) ∧
    (∀ y, (g.merge_components parent child).payload y = g.payload y) ∧
    (g.merge_components parent child).roots + (if (g.par child).isNone then 1 else 0) =
      g.roots ∧
    (g.merge_components parent child).M = g.M ∧
    (g.merge_components parent child).intersecting_sets =
      merged_seen g.intersecting_sets parent child := by
  -- the child gets its parent
  have hpar1 := fun y => Graph.par_modify_parent g child (some parent) y hc
  have hrk1 := Graph.rk_modify_node_same g child
    (fun n => { n with parent := some parent }) (fun _ => rfl)
  have hkids1 := Graph.kids_modify_node_same g child
    (fun n => { n with parent := some parent }) (fun _ => rfl)
  have hlen1 := Graph.length_modify_node g child (fun n => { n with parent := some parent })
  have hpay1 := Graph.payload_modify_node g child
    (fun n => { n with parent := some parent }) (fun _ => rfl)
  have hroots1 := Graph.roots_modify_parent g child (some parent) hc
  have hM1 := Graph.M_modify_node g child (fun n => { n with parent := some parent })
  have hS1 := Graph.seen_modify_node g child (fun n => { n with parent := some parent })
  unfold Graph.merge_components
  generalize g.modify_node child (fun n => { n with parent := some parent }) = g1 at *
  have hp1 : parent < g1.nodes.length := by rw [hlen1]; exact hp
  -- the parent gets its child
  have hpar2 := Graph.par_modify_node_same g1 parent
    (fun n => { n with children := set_insert n.children child }) (fun _ => rfl)
  have hrk2 := Graph.rk_modify_node_same g1 parent
    (fun n => { n with children := set_insert n.children child }) (fun _ => rfl)
  have hkids2 := fun y => Graph.kids_modify_children g1 parent (fun l => set_insert l child) y hp1
  have hlen2 := Graph.length_modify_node g1 parent
    (fun n => { n with children := set_insert n.children child })
  have hpay2 := Graph.payload_modify_node g1 parent
    (fun n => { n with children := set_insert n.children child }) (fun _ => rfl)
  have hroots2 := Graph.roots_modify_node_same g1 parent
    (fun n => { n with children := set_insert n.children child }) (fun _ => rfl)
  have hM2 := Graph.M_modify_node g1 parent
    (fun n => { n with children := set_insert n.children child })
  have hS2 := Graph.seen_modify_node g1 parent
    (fun n => { n with children := set_insert n.children child })
  simp only
  generalize g1.modify_node parent
    (fun n => { n with children := set_insert n.children child }) = g2 at *
  -- the seen-set
  have hview3 : ∃ g3 : Graph, g3 = (if child ∈ g2.intersecting_sets then
        { g2 with intersecting_sets := set_insert (g2.intersecting_sets.erase child) parent }
      else g2) ∧ g3.nodes = g2.nodes ∧ g3.M = g2.M ∧
      g3.intersecting_sets = merged_seen g.intersecting_sets parent child := by
    refine ⟨_, rfl, ?_, ?_, ?_⟩
    · split <;> rfl
    · split <;> rfl
    · unfold merged_seen
      rw [← hS1, ← hS2]
      split <;> rfl
  obtain ⟨g3, hg3, hn3, hM3, hS3⟩ := hview3
  rw [← hg3]
  have hpar3 : ∀ y, g3.par y = g2.par y := fun y => by unfold Graph.par; rw [hn3]
  have hrk3 : ∀ y, g3.rk y = g2.rk y := fun y => by unfold Graph.rk; rw [hn3]
  have hkids3 : ∀ y, g3.kids y = g2.kids y := fun y => by unfold Graph.kids; rw [hn3]
  have hpay3 : ∀ y, g3.payload y = g2.payload y := fun y => by unfold Graph.payload; rw [hn3]
  have hroots3 : g3.roots = g2.roots := by unfold Graph.roots; rw [hn3]
  have hlen3 : g3.nodes.length = g.nodes.length := by rw [hn3, hlen2, hlen1]
  have hp3 : parent < g3.nodes.length := by rw [hlen3]; exact hp
  have hc3 : child < g3.nodes.length := by rw [hlen3]; exact hc
  have hnp : g3.nodes[parent]? = some g3.nodes[parent] := List.getElem?_eq_getElem hp3
  have hnc : g3.nodes[child]? = some g3.nodes[child] := List.getElem?_eq_getElem hc3
  have hkp : g3.nodes[parent].rank = g.rk parent := by
    rw [← Graph.cg_rk_eq_of_getElem? hnp, hrk3, hrk2, hrk1]
  have hkc : g3.nodes[child].rank = g.rk child := by
    rw [← Graph.cg_rk_eq_of_getElem? hnc, hrk3, hrk2, hrk1]
  have hparAll : ∀ y, g3.par y = if y = child then some parent else g.par y := by
    intro y; rw [hpar3, hpar2, hpar1]
  have hkidsAll : ∀ z, g3.kids z =
      if z = parent then set_insert (g.kids parent) child else g.kids z := by
    intro z
    rw [hkids3, hkids2]
    split
    · rw [hkids1]
    · rw [hkids1]
  have hrootsAll : g3.roots + (if (g.par child).isNone then 1 else 0) = g.roots := by
    rw [hroots3, hroots2]
    simpa using hroots1
  rw [hnp, hnc]
  simp only [hkp, hkc]
  by_cases heq : g.rk parent = g.rk child
  · rw [if_pos heq]
    have hpar4 := Graph.par_modify_node_same g3 parent
      (fun n => { n with rank := n.rank + 1 }) (fun _ => rfl)
    have hrk4 := fun y => Graph.rk_modify_rank g3 parent y hp3
    have hkids4 := Graph.kids_modify_node_same g3 parent
      (fun n => { n with rank := n.rank + 1 }) (fun _ => rfl)
    have hlen4 := Graph.length_modify_node g3 parent (fun n => { n with rank := n.rank + 1 })
    have hpay4 := Graph.payload_modify_node g3 parent
      (fun n => { n with rank := n.rank + 1 }) (fun _ => rfl)
    have hroots4 := Graph.roots_modify_node_same g3 parent
      (fun n => { n with rank := n.rank + 1 }) (fun _ => rfl)
    have hM4 := Graph.M_modify_node g3 parent (fun n => { n with rank := n.rank + 1 })
    have hS4 := Graph.seen_modify_node g3 parent (fun n => { n with rank := n.rank + 1 })
    refine ⟨by rw [hlen4, hlen3], fun y => by rw [hpar4, hparAll], ?_,
      fun z => by rw [hkids4, hkidsAll], fun y => by rw [hpay4, hpay3, hpay2, hpay1],
      by rw [hroots4]; exact hrootsAll, by rw [hM4, hM3, hM2, hM1], by rw [hS4, hS3]⟩
    intro y
    rw [hrk4, hrk3, hrk2, hrk1]
    by_cases hy : y = parent
    · rw [if_pos hy, if_pos ⟨hy, heq⟩]
    · rw [if_neg hy, if_neg]
      exact fun h => hy h.1
  · rw [if_neg heq]
    refine ⟨hlen3, hparAll, ?_, hkidsAll, fun y => by rw [hpay3, hpay2, hpay1], hrootsAll,
      by rw [hM3, hM2, hM1], hS3⟩
    intro y
    rw [hrk3, hrk2, hrk1, if_neg]
    exact fun h => heq h.2

theorem Graph.Registry.of_payload {g g2 : Graph} (hr : g.Registry)
    (hpay : ∀ y, g2.payload y = g.payload y) (hM : g2.M = g.M)
    (hseen : ∀ r ∈ g2.intersecting_sets, r < g2.nodes.length ∧ g2.par r = none)
    (hnodup : g2.intersecting_sets.Nodup) : g2.Registry := by
  refine ⟨?_, ?_, hseen, hnodup⟩
  · intro x nd h
    have hp := hpay x
    unfold Graph.payload at hp
    rw [h] at hp
    simp only at hp
    cases h0 : g.nodes[x]? with
    | none => rw [h0] at hp; cases hp
    | some nd0 =>
      rw [h0] at hp
      simp only [Option.some.injEq] at hp
      rw [hM, hp]
      exact hr.key_node x nd0 h0
  · intro k p h
    rw [hM] at h
    obtain ⟨x, nd, hp, hnd, hk⟩ := hr.node_key k p h
    have hpay1 := hpay x
    unfold Graph.payload at hpay1
    rw [hnd] at hpay1
    cases h1 : g2.nodes[x]? with
    | none => rw [h1] at hpay1; cases hpay1
    | some nd1 =>
      rw [h1] at hpay1
      simp only [Option.some.injEq] at hpay1
      exact ⟨x, nd1, hp, h1, by rw [hpay1, hk]⟩

theorem mem_merged_seen {seen : List Nat} (hs : seen.Nodup) (parent child r : Nat) :
    r ∈ merged_seen seen parent child ↔
      (r ∈ seen ∧ r ≠ child) ∨ (r = parent ∧ child ∈ seen) := by
  unfold merged_seen
  split
  · next h =>
    rw [mem_set_insert, hs.mem_erase_iff]
    tauto
  · next h =>
    constructor
    · intro hr
      exact Or.inl ⟨hr, fun e => h (e ▸ hr)⟩
    · rintro (⟨hr, _⟩ | ⟨_, hc⟩)
      · exact hr
      · exact absurd hc h

theorem nodup_merged_seen {seen : List Nat} (hs : seen.Nodup) (parent child : Nat) :
    (merged_seen seen parent child).Nodup := by
  unfold merged_seen
  split
  · exact nodup_set_insert (hs.erase _) _
  · exact hs

/-- `merge_components` of two distinct roots, the child of rank at most that of
the parent: the graph stays well formed, and the nodes that resolved to the
child now resolve to the parent. -/
theorem Graph.merge_components_spec {g : Graph} (hwf : g.Wf) {parent child : Nat}
    (hp : parent < g.nodes.length) (hc : child < g.nodes.length) (hne : child ≠ parent)
    (hp0 : g.par parent = none) (hc0 : g.par child = none)
    (hrank : g.rk child ≤ g.rk parent) :
    (g.merge_components parent child).Wf ∧
    (∀ y s, Reach (g.merge_components parent child).par y s ↔
      ∃ t, Reach g.par y t ∧ s = if t = child then parent else t) := by
  obtain ⟨hlen, hpar, hrk, hkids, hpay, hroots, hM, hS⟩ := Graph.merge_components_view g hp hc
  rw [hc0] at hroots
  simp only [Option.isNone_none, if_true] at hroots
  generalize g.merge_components parent child = g4 at *
  have hreach := reach_link hc0 hp0 hne hpar
  refine ⟨⟨⟨?_, ?_, ?_⟩, ⟨?_, ?_⟩, ?_⟩, hreach⟩
  · intro y q hq
    rw [hlen]
    rw [hpar] at hq
    by_cases hy : y = child
    · rw [if_pos hy] at hq; cases hq; exact hp
    · rw [if_neg hy] at hq; exact hwf.forest.parent_lt _ _ hq
  · intro y q hq
    rw [hpar] at hq
    by_cases hy : y = child
    · rw [if_pos hy] at hq; cases hq
      subst hy
      rw [hrk, hrk, if_neg (fun h => hne h.1)]
      split
      · omega
      · next h =>
        have : g.rk parent ≠ g.rk y := fun e => h ⟨rfl, e⟩
        omega
    · rw [if_neg hy] at hq
      have hyp : y ≠ parent := by
        rintro rfl
        rw [hp0] at hq; cases hq
      rw [hrk, hrk, if_neg (fun h => hyp h.1)]
      have := hwf.forest.rank_lt _ _ hq
      split <;> omega
  · intro y hy
    rw [hlen] at hy ⊢
    have h1 := hwf.forest.rank_roots y hy
    rw [hrk]
    split <;> omega
  · intro z y
    rw [hkids, hpar]
    simp only [List.not_mem_nil, not_false_eq_true, and_true]
    by_cases hy : y = child
    · subst hy
      rw [if_pos rfl]
      by_cases hz : z = parent
      · subst hz
        rw [if_pos rfl, mem_set_insert]
        simp
      · rw [if_neg hz]
        have := (hwf.kids.kids_iff z y)
        simp only [List.not_mem_nil, not_false_eq_true, and_true] at this
        rw [this, hc0]
        simp only [Option.some.injEq, false_iff]
        simp only [reduceCtorEq, false_iff]
        exact fun h => hz h.symm
    · rw [if_neg hy]
      have hmem : (y ∈ if z = parent then set_insert (g.kids parent) child else g.kids z) ↔
          y ∈ g.kids z := by
        by_cases hz : z = parent
        · subst hz
          rw [if_pos rfl, mem_set_insert]
          simp [hy]
        · rw [if_neg hz]
      rw [hmem]
      have := (hwf.kids.kids_iff z y)
      simpa using this
  · intro z
    rw [hkids]
    split
    · exact nodup_set_insert (hwf.kids.kids_nodup _) _
    · exact hwf.kids.kids_nodup _
  · refine hwf.registry.of_payload hpay hM ?_ ?_
    · intro r hr
      rw [hS, mem_merged_seen hwf.registry.seen_nodup] at hr
      rw [hlen, hpar]
      rcases hr with ⟨h1, h2⟩ | ⟨h1, _⟩
      · obtain ⟨h3, h4⟩ := hwf.registry.seen_root r h1
        exact ⟨h3, by rw [if_neg h2]; exact h4⟩
      · subst h1
        exact ⟨hp, by rw [if_neg (Ne.symm hne)]; exact hp0⟩
    · rw [hS]
      exact nodup_merged_seen hwf.registry.seen_nodup _ _

/-- After `merge_components` a point whose component was seen is still in a
seen component, and connected points stay connected. -/
theorem Graph.merge_components_mono {g : Graph} (hwf : g.Wf) {parent child : Nat}
    (hp : parent < g.nodes.length) (hc : child < g.nodes.length) (hne : child ≠ parent)
    (hp0 : g.par parent = none) (hc0 : g.par child = none)
    (hrank : g.rk child ≤ g.rk parent) :
    (∀ p, g.SeenPoint p → (g.merge_components parent child).SeenPoint p) ∧
    (∀ p q, g.Connected p q → (g.merge_components parent child).Connected p q) ∧
    (∀ (p q : Int) (x y : Nat), g.M.lookup p = some (some x) → g.M.lookup q = some (some y) →
      (Reach g.par x child ∧ Reach g.par y parent ∨ Reach g.par x parent ∧ Reach g.par y child) →
      (g.merge_components parent child).Connected p q) := by
  obtain ⟨_, hreach⟩ := Graph.merge_components_spec hwf hp hc hne hp0 hc0 hrank
  obtain ⟨_, _, _, _, _, _, hM, hS⟩ := Graph.merge_components_view g hp hc
  generalize g.merge_components parent child = g4 at *
  refine ⟨?_, ?_, ?_⟩
  · rintro p ⟨x, r, h1, h2, h3⟩
    refine ⟨x, if r = child then parent else r, by rw [hM]; exact h1,
      (hreach _ _).2 ⟨r, h2, rfl⟩, ?_⟩
    rw [hS, mem_merged_seen hwf.registry.seen_nodup]
    by_cases hr : r = child
    · rw [if_pos hr]
      exact Or.inr ⟨rfl, hr ▸ h3⟩
    · rw [if_neg hr]
      exact Or.inl ⟨h3, hr⟩
  · rintro p q ⟨x, y, r, h1, h2, h3, h4⟩
    exact ⟨x, y, if r = child then parent else r, by rw [hM]; exact h1, by rw [hM]; exact h2,
      (hreach _ _).2 ⟨r, h3, rfl⟩, (hreach _ _).2 ⟨r, h4, rfl⟩⟩
  · intro p q x y h1 h2 h
    refine ⟨x, y, parent, by rw [hM]; exact h1, by rw [hM]; exact h2, ?_, ?_⟩
    · rcases h with ⟨h3, _⟩ | ⟨h3, _⟩
      · exact (hreach _ _).2 ⟨child, h3, by rw [if_pos rfl]⟩
      · exact (hreach _ _).2 ⟨parent, h3, by rw [if_neg (Ne.symm hne)]⟩
    · rcases h with ⟨_, h4⟩ | ⟨_, h4⟩
      · exact (hreach _ _).2 ⟨parent, h4, by rw [if_neg (Ne.symm hne)]⟩
      · exact (hreach _ _).2 ⟨child, h4, by rw [if_pos rfl]⟩

theorem Graph.SeenPoint.refl_connected {g : Graph} (hwf : g.Wf) {p : Int} {x : Nat}
    (h : g.M.lookup p = some (some x)) : g.Connected p p := by
  obtain ⟨r, hr⟩ := hwf.forest.cg_exists_reach x
  exact ⟨x, x, r, h, h, hr, hr⟩

/-- `Graph::add_edge` between two points of a well-formed graph: the graph
stays well formed with the same nodes, the two points end in one component,
connected points stay connected and seen components stay seen. -/
theorem Graph.cg_add_edge_spec {g : Graph} (hwf : g.Wf) {a b : Int} {x y : Nat}
    (ha : g.M.lookup a = some (some x)) (hb : g.M.lookup b = some (some y)) :
    ∃ g4, g.add_edge a b = .ok g4 ∧ g4.Wf ∧ g4.nodes.length = g.nodes.length ∧ g4.M = g.M ∧
      (∀ z, g4.payload z = g.payload z) ∧
      (∀ p, g.SeenPoint p → g4.SeenPoint p) ∧
      (∀ p q, g.Connected p q → g4.Connected p q) ∧ g4.Connected a b := by
  have hx := (hwf.registry.lookup_lt ha).1
  have hy := (hwf.registry.lookup_lt hb).1
  obtain ⟨g1, r1, hg1, hr1, hwf1, hc1⟩ := Graph.cg_get_root_spec hwf hx
  have hb1 : g1.M.lookup b = some (some y) := by rw [hc1.M_eq]; exact hb
  have hy1 : y < g1.nodes.length := by rw [hc1.length_eq]; exact hy
  obtain ⟨g2, r2, hg2, hr2, hwf2, hc2⟩ := Graph.cg_get_root_spec hwf1 hy1
  have hc := hc1.trans_graph hc2
  have hr1' : Reach g2.par x r1 := (hc.reach_iff _ _).2 hr1
  have hr2' : Reach g2.par y r2 := (hc2.reach_iff _ _).2 hr2
  have hx2 : x < g2.nodes.length := by rw [hc.length_eq]; exact hx
  have hy2 : y < g2.nodes.length := by rw [hc.length_eq]; exact hy
  have hl1 : r1 < g2.nodes.length := hwf2.forest.cg_reach_lt hr1' hx2
  have hl2 : r2 < g2.nodes.length := hwf2.forest.cg_reach_lt hr2' hy2
  have ha2 : g2.M.lookup a = some (some x) := by rw [hc.M_eq]; exact ha
  have hb2 : g2.M.lookup b = some (some y) := by rw [hc.M_eq]; exact hb
  by_cases hne : r1 = r2
  · refine ⟨g2, by
      simp only [Graph.add_edge, Graph.at_of_lookup ha, hg1, Graph.at_of_lookup hb1, hg2, ne_eq,
        hne, not_true_eq_false, if_false], hwf2, hc.length_eq, hc.M_eq, hc.payload_eq,
      fun p h => (Graph.SeenPoint.seen_of_compressed hc).2 h,
      fun p q h => (Graph.Connected.connected_of_compressed hc).2 h, ?_⟩
    subst hne
    exact ⟨x, y, r1, ha2, hb2, hr1', hr2'⟩
  · have hn1 : g2.nodes[r1]? = some g2.nodes[r1] := List.getElem?_eq_getElem hl1
    have hn2 : g2.nodes[r2]? = some g2.nodes[r2] := List.getElem?_eq_getElem hl2
    have hk1 : g2.rk r1 = g2.nodes[r1].rank := Graph.cg_rk_eq_of_getElem? hn1
    have hk2 : g2.rk r2 = g2.nodes[r2].rank := Graph.cg_rk_eq_of_getElem? hn2
    by_cases hgt : g2.nodes[r1].rank > g2.nodes[r2].rank
    · have hres : g.add_edge a b = .ok (g2.merge_components r1 r2) := by
        simp only [Graph.add_edge, Graph.at_of_lookup ha, hg1, Graph.at_of_lookup hb1, hg2, ne_eq,
          hne, not_false_eq_true, if_true, hn1, hn2, hgt]
      obtain ⟨hwf4, _⟩ := Graph.merge_components_spec hwf2 hl1 hl2 (Ne.symm hne)
        hr1'.root_none hr2'.root_none (by omega)
      obtain ⟨hs4, hcn4, hab4⟩ := Graph.merge_components_mono hwf2 hl1 hl2 (Ne.symm hne)
        hr1'.root_none hr2'.root_none (by omega)
      obtain ⟨hlen, _, _, _, hpay, _, hM, _⟩ := Graph.merge_components_view g2 hl1 hl2
      exact ⟨_, hres, hwf4, by rw [hlen, hc.length_eq], by rw [hM, hc.M_eq],
        fun z => by rw [hpay, hc.payload_eq],
        fun p h => hs4 p ((Graph.SeenPoint.seen_of_compressed hc).2 h),
        fun p q h => hcn4 p q ((Graph.Connected.connected_of_compressed hc).2 h),
        hab4 a b x y ha2 hb2 (Or.inr ⟨hr1', hr2'⟩)⟩
    · have hres : g.add_edge a b = .ok (g2.merge_components r2 r1) := by
        simp only [Graph.add_edge, Graph.at_of_lookup ha, hg1, Graph.at_of_lookup hb1, hg2, ne_eq,
          hne, not_false_eq_true, if_true, hn1, hn2, hgt, if_false]
      obtain ⟨hwf4, _⟩ := Graph.merge_components_spec hwf2 hl2 hl1 hne
        hr2'.root_none hr1'.root_none (by omega)
      obtain ⟨hs4, hcn4, hab4⟩ := Graph.merge_components_mono hwf2 hl2 hl1 hne
        hr2'.root_none hr1'.root_none (by omega)
      obtain ⟨hlen, _, _, _, hpay, _, hM, _⟩ := Graph.merge_components_view g2 hl2 hl1
      exact ⟨_, hres, hwf4, by rw [hlen, hc.length_eq], by rw [hM, hc.M_eq],
        fun z => by rw [hpay, hc.payload_eq],
        fun p h => hs4 p ((Graph.SeenPoint.seen_of_compressed hc).2 h),
        fun p q h => hcn4 p q ((Graph.Connected.connected_of_compressed hc).2 h),
        hab4 a b x y ha2 hb2 (Or.inl ⟨hr1', hr2'⟩)⟩

/-! ### `component_seen` -/

/-- `Graph::component_seen` on a point of a well-formed graph: it answers
whether the component of the point was seen before, and afterwards the seen
points are those seen before and those of this component. -/
theorem Graph.component_seen_spec {g : Graph} (hwf : g.Wf) {a : Int} {x : Nat}
    (ha : g.M.lookup a = some (some x)) :
    ∃ g1 b, g.component_seen a = .ok (g1, b) ∧ g1.Wf ∧ g1.nodes.length = g.nodes.length ∧
      g1.M = g.M ∧ (∀ z, g1.payload z = g.payload z) ∧
      (∀ y s, Reach g1.par y s ↔ Reach g.par y s) ∧
      (b = true ↔ g.SeenPoint a) ∧
      (∀ q, g1.SeenPoint q ↔ (g.SeenPoint q ∨ g.Connected a q)) := by
  have hx := (hwf.registry.lookup_lt ha).1
  obtain ⟨g1, r, hg1, hr, hwf1, hc1⟩ := Graph.cg_get_root_spec hwf hx
  have hr1 : Reach g1.par x r := (hc1.reach_iff _ _).2 hr
  have hrl : r < g1.nodes.length := hwf1.forest.cg_reach_lt hr1 (by rw [hc1.length_eq]; exact hx)
  by_cases hmem : r ∈ g1.intersecting_sets
  · have hseen : g.SeenPoint a := ⟨x, r, ha, hr, by rw [← hc1.seen_eq]; exact hmem⟩
    refine ⟨g1, true, ?_, hwf1, hc1.length_eq, hc1.M_eq, hc1.payload_eq, hc1.reach_iff,
      ⟨fun _ => hseen, fun _ => rfl⟩, ?_⟩
    · simp only [Graph.component_seen, Graph.at_of_lookup ha, hg1, hmem, if_true]
    · intro q
      rw [Graph.SeenPoint.seen_of_compressed hc1]
      constructor
      · intro h; exact Or.inl h
      · rintro (h | ⟨x2, y, r2, h1, h2, h3, h4⟩)
        · exact h
        · rw [ha] at h1
          cases h1
          have : r2 = r := Reach.unique h3 hr
          subst this
          exact ⟨y, r2, h2, h4, by rw [← hc1.seen_eq]; exact hmem⟩
  · have hnot : ¬ g.SeenPoint a := by
      rintro ⟨x2, r2, h1, h2, h3⟩
      rw [ha] at h1
      cases h1
      have : r2 = r := Reach.unique h2 hr
      subst this
      exact hmem (by rw [hc1.seen_eq]; exact h3)
    refine ⟨{ g1 with intersecting_sets := g1.intersecting_sets ++ [r] }, false, ?_, ?_,
      hc1.length_eq, hc1.M_eq, hc1.payload_eq, hc1.reach_iff,
      ⟨fun h => (by cases h), fun h => absurd h hnot⟩, ?_⟩
    · simp only [Graph.component_seen, Graph.at_of_lookup ha, hg1, hmem, if_false]
    · refine ⟨⟨hwf1.forest.parent_lt, hwf1.forest.rank_lt, hwf1.forest.rank_roots⟩,
        ⟨hwf1.kids.kids_iff, hwf1.kids.kids_nodup⟩,
        ⟨hwf1.registry.key_node, hwf1.registry.node_key, ?_, ?_⟩⟩
      · intro r2 hr2
        have hr2' : r2 ∈ g1.intersecting_sets ++ [r] := hr2
        rw [List.mem_append, List.mem_singleton] at hr2'
        rcases hr2' with h | rfl
        · exact hwf1.registry.seen_root r2 h
        · exact ⟨hrl, hr1.root_none⟩
      · show (g1.intersecting_sets ++ [r]).Nodup
        rw [List.nodup_append]
        refine ⟨hwf1.registry.seen_nodup, List.nodup_singleton r, ?_⟩
        intro a2 h1 h2
        simp only [List.mem_singleton] at h2
        subst h2
        exact hmem h1
    · intro q
      constructor
      · rintro ⟨y, s, h1, h2, h3⟩
        have h3' : s ∈ g1.intersecting_sets ++ [r] := h3
        have h1' : g.M.lookup q = some (some y) := by rw [← hc1.M_eq]; exact h1
        have h2' : Reach g.par y s := (hc1.reach_iff _ _).1 h2
        rw [List.mem_append, List.mem_singleton] at h3'
        rcases h3' with h | rfl
        · exact Or.inl ⟨y, s, h1', h2', by rw [← hc1.seen_eq]; exact h⟩
        · exact Or.inr ⟨x, y, s, ha, h1', hr, h2'⟩
      · rintro (⟨y, s, h1, h2, h3⟩ | ⟨x2, y, r2, h1, h2, h3, h4⟩)
        · refine ⟨y, s, by rw [← hc1.M_eq] at h1; exact h1, (hc1.reach_iff _ _).2 h2, ?_⟩
          show s ∈ g1.intersecting_sets ++ [r]
          rw [List.mem_append]
          exact Or.inl (by rw [hc1.seen_eq]; exact h3)
        · rw [ha] at h1
          cases h1
          have : r2 = r := Reach.unique h3 hr
          subst this
          refine ⟨y, r2, by rw [← hc1.M_eq] at h2; exact h2, (hc1.reach_iff _ _).2 h4, ?_⟩
          show r2 ∈ g1.intersecting_sets ++ [r2]
          simp

/-! ### `get_connected_component` -/

theorem Anc.trans_anc {par : Nat → Option Nat} {y p r : Nat} (h1 : Anc par y p)
    (h2 : Anc par p r) : Anc par y r := by
  induction h1 with
  | self => exact h2
  | step hp _ ih => exact Anc.step hp (ih h2)

theorem Anc.of_reach {par : Nat → Option Nat} {y r : Nat} (h : Reach par y r) :
    Anc par y r := by
  induction h with
  | root _ => exact Anc.self
  | step hp _ ih => exact Anc.step hp ih

theorem Anc.to_reach {par : Nat → Option Nat} {y r : Nat} (h : Anc par y r)
    (h0 : par r = none) : Reach par y r := by
  induction h with
  | self => exact Reach.root h0
  | step hp _ ih => exact Reach.step hp (ih h0)

theorem Graph.Forest.anc_rank {g : Graph} (hf : g.Forest) {y r : Nat}
    (h : Anc g.par y r) : y = r ∨ g.rk y < g.rk r := by
  induction h with
  | self => exact Or.inl rfl
  | step hp _ ih =>
    have h1 := hf.rank_lt _ _ hp
    rcases ih with rfl | h2
    · exact Or.inr h1
    · exact Or.inr (lt_trans h1 h2)

theorem Graph.Wf.kid_iff {g : Graph} (hwf : g.Wf) (s c : Nat) :
    c ∈ g.kids s ↔ g.par c = some s := by
  have := hwf.kids.kids_iff s c
  simpa using this

theorem Graph.Wf.anc_iff_kids {g : Graph} (hwf : g.Wf) (y s : Nat) :
    Anc g.par y s ↔ (y = s ∨ ∃ c ∈ g.kids s, Anc g.par y c) := by
  constructor
  · intro h
    induction h with
    | self => exact Or.inl rfl
    | step hp _ ih =>
      rcases ih with h | ⟨c, hc, hyc⟩
      · exact Or.inr ⟨_, (hwf.kid_iff _ _).2 (h ▸ hp), Anc.self⟩
      · exact Or.inr ⟨c, hc, Anc.step hp hyc⟩
  · rintro (rfl | ⟨c, hc, hyc⟩)
    · exact Anc.self
    · exact hyc.trans_anc (Anc.step ((hwf.kid_iff _ _).1 hc) Anc.self)

theorem foldl_cons_eq (l rest : List Nat) :
    l.foldl (fun s c => c :: s) rest = l.reverse ++ rest := by
  induction l generalizing rest with
  | nil => rfl
  | cons a l ih => simp [List.foldl_cons, ih]

theorem length_le_of_nodup_lt {l : List Nat} {n : Nat} (hl : l.Nodup)
    (hlt : ∀ v ∈ l, v < n) : l.length ≤ n := by
  have hsub : l ⊆ List.range n := fun v hv => List.mem_range.2 (hlt v hv)
  have := (List.subperm_of_subset hl hsub).length_le
  simpa using this

/-- One turn of the traversal loop keeps its invariant. -/
theorem Graph.DfsInv.dfs_step {g : Graph} (hwf : g.Wf) {root top : Nat} {rest V : List Nat}
    (h : g.DfsInv root (top :: rest) V) :
    g.DfsInv root ((g.kids top).foldl (fun s c => c :: s) rest) (V ++ [top]) := by
  rw [foldl_cons_eq]
  have htop : top ∈ top :: rest := List.mem_cons_self _ _
  have hrest : ∀ s ∈ rest, s ∈ top :: rest := fun s hs => List.mem_cons_of_mem _ hs
  have hkid_anc : ∀ c ∈ g.kids top, Anc g.par c top :=
    fun c hc => Anc.step ((hwf.kid_iff _ _).1 hc) Anc.self
  have hkid_rk : ∀ c ∈ g.kids top, g.rk c < g.rk top :=
    fun c hc => hwf.forest.rank_lt _ _ ((hwf.kid_iff _ _).1 hc)
  have hkid_rest : ∀ c ∈ g.kids top, c ∉ rest := by
    intro c hc hcr
    have e := h.stack_apart c (hrest c hcr) top htop (hkid_anc c hc)
    have hlt := hkid_rk c hc
    rw [e] at hlt
    exact lt_irrefl _ hlt
  have htop_rest : top ∉ rest := (List.nodup_cons.1 h.stack_nodup).1
  -- an ancestor of a child of `top` is the child, or an ancestor of `top`
  have hup : ∀ c ∈ g.kids top, ∀ t, Anc g.par c t → c = t ∨ Anc g.par top t := by
    intro c hc t hct
    cases hct with
    | self => exact Or.inl rfl
    | step hp hrest2 =>
      rw [(hwf.kid_iff _ _).1 hc] at hp
      cases hp
      exact Or.inr hrest2
  refine ⟨?_, ?_, ?_, ?_, ?_, ?_, ?_⟩
  · rw [List.nodup_append]
    refine ⟨List.nodup_reverse.2 (hwf.kids.kids_nodup top),
      (List.nodup_cons.1 h.stack_nodup).2, ?_⟩
    intro c hc hcr
    exact hkid_rest c (List.mem_reverse.1 hc) hcr
  · intro s hs
    rw [List.mem_append, List.mem_reverse] at hs
    rcases hs with hs | hs
    · exact Graph.cg_par_eq_some ((hwf.kid_iff _ _).1 hs)
    · exact h.stack_lt s (hrest s hs)
  · intro s hs t ht hst
    rw [List.mem_append, List.mem_reverse] at hs ht
    rcases hs with hs | hs <;> rcases ht with ht | ht
    · rcases hup s hs t hst with h1 | h1
      · exact h1
      · rcases hwf.forest.anc_rank h1 with h2 | h2
        · have := hkid_rk t ht
          rw [h2] at this
          omega
        · have := hkid_rk t ht
          omega
    · rcases hup s hs t hst with h1 | h1
      · exact absurd (h1 ▸ ht) (hkid_rest s hs)
      · have := h.stack_apart top htop t (hrest t ht) h1
        exact absurd (this ▸ ht) htop_rest
    · have h1 := h.stack_apart s (hrest s hs) top htop (hst.trans_anc (hkid_anc t ht))
      exact absurd (h1 ▸ hs) htop_rest
    · exact h.stack_apart s (hrest s hs) t (hrest t ht) hst
  · intro v hv s hs hvs
    rw [List.mem_append, List.mem_singleton] at hv
    rw [List.mem_append, List.mem_reverse] at hs
    rcases hv with hv | rfl <;> rcases hs with hs | hs
    · exact h.visited_apart v hv top htop (hvs.trans_anc (hkid_anc s hs))
    · exact h.visited_apart v hv s (hrest s hs) hvs
    · rcases hwf.forest.anc_rank hvs with h2 | h2
      · have := hkid_rk s hs
        rw [← h2] at this
        omega
      · have := hkid_rk s hs
        omega
    · have := h.stack_apart v htop s (hrest s hs) hvs
      exact htop_rest (this ▸ hs)
  · rw [List.nodup_append]
    refine ⟨h.visited_nodup, List.nodup_singleton top, ?_⟩
    intro v hv hv2
    simp only [List.mem_singleton] at hv2
    subst hv2
    exact h.visited_apart v hv v htop Anc.self
  · intro v hv
    rw [List.mem_append, List.mem_singleton] at hv
    rcases hv with hv | rfl
    · exact h.visited_lt v hv
    · exact h.stack_lt v htop
  · intro y
    rw [h.cover y]
    constructor
    · rintro (hy | ⟨s, hs, hys⟩)
      · exact Or.inl (List.mem_append_left _ hy)
      · rcases List.mem_cons.1 hs with rfl | hs
        · rcases (hwf.anc_iff_kids y s).1 hys with rfl | ⟨c, hc, hyc⟩
          · exact Or.inl (by simp)
          · exact Or.inr ⟨c, by simp [hc], hyc⟩
        · exact Or.inr ⟨s, by simp [hs], hys⟩
    · rintro (hy | ⟨s, hs, hys⟩)
      · rw [List.mem_append, List.mem_singleton] at hy
        rcases hy with hy | rfl
        · exact Or.inl hy
        · exact Or.inr ⟨y, htop, Anc.self⟩
      · rw [List.mem_append, List.mem_reverse] at hs
        rcases hs with hs | hs
        · exact Or.inr ⟨top, htop, hys.trans_anc (hkid_anc s hs)⟩
        · exact Or.inr ⟨s, hrest s hs, hys⟩

/-- The traversal loop, run with enough fuel from a state that satisfies the
invariant, ends; the payloads it appends are those of the nodes that remained
to be visited. -/
theorem Graph.traverse_spec {g : Graph} (hwf : g.Wf) (root : Nat) :
    ∀ (fuel : Nat) (stack V : List Nat) (acc : List Int), g.DfsInv root stack V →
      V.map g.payload = acc.map some → g.nodes.length ≤ fuel + V.length →
      ∃ (res : List Int) (Vf : List Nat), g.traverse fuel stack acc = .ok res ∧
        Vf.map g.payload = res.map some ∧ Vf.Nodup ∧ ∀ y, y ∈ Vf ↔ Anc g.par y root := by
  intro fuel
  induction fuel with
  | zero =>
    intro stack V acc hinv hacc hfuel
    cases stack with
    | nil =>
      refine ⟨acc, V, rfl, hacc, hinv.visited_nodup, ?_⟩
      intro y
      rw [hinv.cover y]
      simp
    | cons top rest =>
      exfalso
      have hstep := hinv.dfs_step hwf
      have := length_le_of_nodup_lt hstep.visited_nodup hstep.visited_lt
      simp at this
      omega
  | succ f ih =>
    intro stack V acc hinv hacc hfuel
    cases stack with
    | nil =>
      refine ⟨acc, V, rfl, hacc, hinv.visited_nodup, ?_⟩
      intro y
      rw [hinv.cover y]
      simp
    | cons top rest =>
      have htl : top < g.nodes.length := hinv.stack_lt top (List.mem_cons_self _ _)
      have hnd : g.nodes[top]? = some g.nodes[top] := List.getElem?_eq_getElem htl
      have hkids : g.kids top = g.nodes[top].children := by
        simp only [Graph.kids, hnd]
      have hpay : g.payload top = some g.nodes[top].index := by
        simp only [Graph.payload, hnd]
      obtain ⟨res, Vf, h1, h2, h3, h4⟩ := ih _ (V ++ [top]) (acc ++ [g.nodes[top].index])
        (hinv.dfs_step hwf) (by simp [hacc, hpay]) (by simp; omega)
      refine ⟨res, Vf, ?_, h2, h3, h4⟩
      simp only [Graph.traverse, hnd]
      rw [← hkids]
      exact h1

/-- `Graph::get_connected_component` on a point of a well-formed graph returns,
each once, the payloads of the nodes of the component of the point. -/
theorem Graph.get_connected_component_spec {g : Graph} (hwf : g.Wf) {a : Int} {x : Nat}
    (ha : g.M.lookup a = some (some x)) :
    ∃ g1 res, g.get_connected_component a = .ok (g1, res) ∧ g1.Wf ∧ g.Compressed g1 ∧
      res.Nodup ∧ ∀ q, q ∈ res ↔ g.Connected a q := by
  have hx := (hwf.registry.lookup_lt ha).1
  obtain ⟨g1, r, hg1, hr, hwf1, hc1⟩ := Graph.cg_get_root_spec hwf hx
  have hr1 : Reach g1.par x r := (hc1.reach_iff _ _).2 hr
  have hrl : r < g1.nodes.length := hwf1.forest.cg_reach_lt hr1 (by rw [hc1.length_eq]; exact hx)
  have hinit : g1.DfsInv r [r] [] := by
    refine ⟨List.nodup_singleton r, ?_, ?_, ?_, List.nodup_nil, ?_, ?_⟩
    · intro s hs
      simp only [List.mem_singleton] at hs
      subst hs; exact hrl
    · intro s hs t ht _
      simp only [List.mem_singleton] at hs ht
      rw [hs, ht]
    · intro v hv; cases hv
    · intro v hv; cases hv
    · intro y
      simp
  obtain ⟨res, Vf, h1, h2, h3, h4⟩ := Graph.traverse_spec hwf1 r g1.nodes.length [r] [] []
    hinit rfl (by simp)
  have hVlt : ∀ y ∈ Vf, y < g1.nodes.length := by
    intro y hy
    have hanc := (h4 y).1 hy
    cases hanc with
    | self => exact hrl
    | step hp _ => exact Graph.cg_par_eq_some hp
  refine ⟨g1, res, ?_, hwf1, hc1, ?_, ?_⟩
  · simp only [Graph.get_connected_component, Graph.at_of_lookup ha, hg1, h1]
  · have hinj : ∀ y1 ∈ Vf, ∀ y2 ∈ Vf, g1.payload y1 = g1.payload y2 → y1 = y2 := by
      intro y1 hy1 y2 hy2 heq
      have hl1 := hVlt y1 hy1
      have hp1 : g1.payload y1 = some g1.nodes[y1].index := by
        simp only [Graph.payload, List.getElem?_eq_getElem hl1]
      have e1 := hwf1.registry.lookup_of_payload hp1
      have e2 := hwf1.registry.lookup_of_payload (heq ▸ hp1)
      rw [e1] at e2
      simpa using e2
    have hnd : (Vf.map g1.payload).Nodup := List.Nodup.map_on hinj h3
    rw [h2] at hnd
    exact List.Nodup.of_map _ hnd
  · intro q
    have hq : q ∈ res ↔ some q ∈ Vf.map g1.payload := by
      rw [h2]
      simp
    rw [hq, List.mem_map]
    constructor
    · rintro ⟨y, hy, hpay⟩
      have hanc := (h4 y).1 hy
      have hreach : Reach g1.par y r := hanc.to_reach hr1.root_none
      have hlk := hwf1.registry.lookup_of_payload hpay
      rw [hc1.M_eq] at hlk
      exact ⟨x, y, r, ha, hlk, hr, (hc1.reach_iff _ _).1 hreach⟩
    · rintro ⟨x2, y, r2, e1, e2, e3, e4⟩
      rw [ha] at e1
      cases e1
      have : r2 = r := Reach.unique e3 hr
      subst this
      refine ⟨y, (h4 y).2 (Anc.of_reach ((hc1.reach_iff _ _).2 e4)), ?_⟩
      have := (hwf.registry.lookup_lt e2).2
      rw [hc1.payload_eq]
      exact this

/-! ## `compute_cores`: the sorted order, the collecting loop and the scatter -/

theorem zip_radii_getElem? (radii : VectorXd) (j : Nat) :
    (List.zipWith (fun (r : ℚ) (i : Nat) => (⟨r, (i : Int)⟩ : KnnPoint)) radii
      (List.range radii.length))[j]? =
      (radii[j]?).map fun r => (⟨r, (j : Int)⟩ : KnnPoint) := by
  rw [List.getElem?_zipWith]
  by_cases hj : j < radii.length
  · simp [List.getElem?_eq_getElem hj, List.getElem?_range hj]
  · simp [List.getElem?_eq_none (not_lt.1 hj)]

/-- The array that `std::sort` returns is a sorted order of the points. -/
theorem knn_sorted_of_sort {sort : List KnnPoint → List KnnPoint} (hs : SortsByDist sort)
    (radii : VectorXd) :
    KnnSorted radii (sort (List.zipWith (fun (r : ℚ) (i : Nat) => (⟨r, (i : Int)⟩ : KnnPoint))
      radii (List.range radii.length))) := by
  obtain ⟨hperm, hsorted⟩ := hs (List.zipWith (fun (r : ℚ) (i : Nat) =>
    (⟨r, (i : Int)⟩ : KnnPoint)) radii (List.range radii.length))
  refine ⟨?_, ?_, ?_, hsorted⟩
  · rw [hperm.length_eq]
    simp
  · intro j kp hj
    have hmem : kp ∈ List.zipWith (fun (r : ℚ) (i : Nat) => (⟨r, (i : Int)⟩ : KnnPoint)) radii
        (List.range radii.length) := hperm.subset (List.getElem?_mem hj)
    obtain ⟨m, hm⟩ := List.mem_iff_getElem?.1 hmem
    rw [zip_radii_getElem?] at hm
    cases hr : radii[m]? with
    | none => rw [hr] at hm; cases hm
    | some r =>
      rw [hr] at hm
      simp only [Option.map_some', Option.some.injEq] at hm
      subst hm
      exact ⟨m, rfl, hr⟩
  · have hmap : (List.zipWith (fun (r : ℚ) (i : Nat) => (⟨r, (i : Int)⟩ : KnnPoint)) radii
        (List.range radii.length)).map (fun kp => kp.idx) =
        (List.range radii.length).map (fun (i : Nat) => (i : Int)) := by
      apply List.ext_getElem?
      intro j
      rw [List.getElem?_map, zip_radii_getElem?, List.getElem?_map]
      by_cases hj : j < radii.length
      · simp [List.getElem?_eq_getElem hj, List.getElem?_range hj]
      · have hr : (List.range radii.length)[j]? = none :=
          List.getElem?_eq_none (by simp; omega)
        simp [List.getElem?_eq_none (not_lt.1 hj), hr]
    have hnd : ((List.range radii.length).map (fun (i : Nat) => (i : Int))).Nodup :=
      List.Nodup.map (fun a b h => by simpa using h) (List.nodup_range _)
    rw [← hmap] at hnd
    exact (hperm.map _).nodup_iff.2 hnd

theorem KnnSorted.sorted_at {radii : VectorXd} {knn : List KnnPoint} (h : KnnSorted radii knn)
    {j1 j2 : Nat} {k1 k2 : KnnPoint} (h1 : knn[j1]? = some k1) (h2 : knn[j2]? = some k2)
    (hle : j1 ≤ j2) : k1.dist ≤ k2.dist := by
  rcases Nat.lt_or_eq_of_le hle with hlt | rfl
  · have hl1 := (List.getElem?_eq_some.1 h1).1
    have hl2 := (List.getElem?_eq_some.1 h2).1
    have := List.pairwise_iff_getElem.1 h.sorted j1 j2 hl1 hl2 hlt
    rw [(List.getElem?_eq_some.1 h1).2, (List.getElem?_eq_some.1 h2).2] at this
    exact this
  · rw [h1] at h2
    cases h2
    exact le_refl _

theorem KnnSorted.idx_inj {radii : VectorXd} {knn : List KnnPoint} (h : KnnSorted radii knn)
    {j1 j2 : Nat} {k1 k2 : KnnPoint} (h1 : knn[j1]? = some k1) (h2 : knn[j2]? = some k2)
    (heq : k1.idx = k2.idx) : j1 = j2 := by
  have hl1 := (List.getElem?_eq_some.1 h1).1
  have hl2 := (List.getElem?_eq_some.1 h2).1
  have hm1 : j1 < (knn.map fun kp => kp.idx).length := by simpa using hl1
  have hm2 : j2 < (knn.map fun kp => kp.idx).length := by simpa using hl2
  have e : (knn.map fun kp => kp.idx).get ⟨j1, hm1⟩ = (knn.map fun kp => kp.idx).get ⟨j2, hm2⟩ := by
    simp only [List.get_eq_getElem, List.getElem_map]
    rw [(List.getElem?_eq_some.1 h1).2, (List.getElem?_eq_some.1 h2).2]
    exact heq
  have := (List.Nodup.get_inj_iff h.idx_nodup).1 e
  simpa using congrArg Fin.val this

theorem take_succ_set {α : Type} (l : List α) (n : Nat) (a : α) (h : n < l.length) :
    (l.set n a).take (n + 1) = l.take n ++ [a] := by
  apply List.ext_getElem?
  intro j
  by_cases hj : j < n
  · rw [List.getElem?_take_of_lt (by omega), List.getElem?_set_ne (by omega),
      List.getElem?_append_left (by simp; omega), List.getElem?_take_of_lt hj]
  · by_cases hjn : j = n
    · subst hjn
      rw [List.getElem?_take_of_lt (by omega), List.getElem?_set_self h,
        List.getElem?_append_right (by simp)]
      simp [Nat.min_eq_left (le_of_lt h)]
    · rw [List.getElem?_eq_none (by simp; omega), List.getElem?_eq_none (by simp; omega)]

/-- The loop over the members of a component writes the members whose radius is
at most `di`, in order, into the next free slots of `m_hat`, and the current
cluster id into the same slots of `cluster_membership`. -/
theorem collect_spec (radii : VectorXd) (di : ℚ) (K : Int) :
    ∀ (res m_hat cm : List Int) (ncp : Nat),
      (∀ q ∈ res, 0 ≤ q ∧ q.toNat < radii.length) → ncp + res.length ≤ m_hat.length →
      m_hat.length = cm.length →
      ∃ (m2 c2 : List Int) (ncp2 : Nat), collect radii di K res m_hat cm ncp = .ok (m2, c2, ncp2) ∧
        m2.length = m_hat.length ∧ c2.length = cm.length ∧
        ncp2 = ncp + (res.filter (fun q => decide (radii.getD q.toNat 0 ≤ di))).length ∧
        m2.take ncp2 = m_hat.take ncp ++
          res.filter (fun q => decide (radii.getD q.toNat 0 ≤ di)) ∧
        (∀ t, t < ncp → c2[t]? = cm[t]?) ∧ (∀ t, ncp ≤ t → t < ncp2 → c2[t]? = some K) := by
  intro res
  induction res with
  | nil =>
    intro m_hat cm ncp _ _ _
    exact ⟨m_hat, cm, ncp, rfl, rfl, rfl, by simp, by simp, fun _ _ => rfl,
      fun t h1 h2 => by omega⟩
  | cons q rest ih =>
    intro m_hat cm ncp hres hbound hlen
    obtain ⟨hq0, hql⟩ := hres q (List.mem_cons_self _ _)
    have hrest : ∀ q2 ∈ rest, 0 ≤ q2 ∧ q2.toNat < radii.length :=
      fun q2 h => hres q2 (List.mem_cons_of_mem _ h)
    have hrd : readAt radii q = .ok radii[q.toNat] := by
      simp [readAt, not_lt.2 hq0, List.getElem?_eq_getElem hql]
    have hgetD : radii.getD q.toNat 0 = radii[q.toNat] := by
      simp [List.getD_eq_getElem?_getD, List.getElem?_eq_getElem hql]
    simp only [List.length_cons] at hbound
    by_cases hle : radii[q.toNat] ≤ di
    · have h1 : ncp < cm.length ∧ ncp < m_hat.length := by omega
      obtain ⟨m2, c2, ncp2, hc, hl1, hl2, hle2, htake, hold, hnew⟩ :=
        ih (m_hat.set ncp q) (cm.set ncp K) (ncp + 1) hrest (by simp; omega) (by simp [hlen])
      have hfil : (q :: rest).filter (fun q => decide (radii.getD q.toNat 0 ≤ di)) =
          q :: rest.filter (fun q => decide (radii.getD q.toNat 0 ≤ di)) := by
        rw [List.filter_cons, hgetD]
        simp [hle]
      refine ⟨m2, c2, ncp2, ?_, by simpa using hl1, by simpa using hl2, by
        rw [hfil, hle2]; simp; omega, ?_, ?_, ?_⟩
      · simp only [collect, hrd, hle, if_true, h1, and_self]
        exact hc
      · rw [htake, take_succ_set _ _ _ h1.2, List.filter_cons, hgetD]
        simp [hle]
      · intro t ht
        rw [hold t (by omega), List.getElem?_set_ne (by omega)]
      · intro t ht1 ht2
        by_cases htn : t = ncp
        · subst htn
          rw [hold t (by omega), List.getElem?_set_self h1.1]
        · exact hnew t (by omega) ht2
    · obtain ⟨m2, c2, ncp2, hc, hl1, hl2, hle2, htake, hold, hnew⟩ :=
        ih m_hat cm ncp hrest (by omega) hlen
      have hfil : (q :: rest).filter (fun q => decide (radii.getD q.toNat 0 ≤ di)) =
          rest.filter (fun q => decide (radii.getD q.toNat 0 ≤ di)) := by
        rw [List.filter_cons, hgetD]
        simp [hle]
      refine ⟨m2, c2, ncp2, ?_, hl1, hl2, by rw [hfil]; exact hle2, ?_, hold, hnew⟩
      · simp only [collect, hrd, hle, if_false]
        exact hc
      · rw [htake, List.filter_cons, hgetD]
        simp [hle]

/-- The scatter loop over slots that hold pairwise distinct points writes the
cluster id of every slot at its point and nothing else. -/
theorem scatter_spec (m_hat cm : List Int) : ∀ (ts : List Nat) (R : VectorXi),
    (∀ t ∈ ts, ∃ p c, m_hat[t]? = some p ∧ cm[t]? = some c ∧ 0 ≤ p ∧ p.toNat < R.length) →
    (ts.map fun t => m_hat[t]?).Nodup →
    ∃ R2, scatter m_hat cm ts R = .ok R2 ∧ R2.length = R.length ∧
      (∀ t ∈ ts, ∀ p c, m_hat[t]? = some p → cm[t]? = some c → R2[p.toNat]? = some c) ∧
      (∀ q, (∀ t ∈ ts, ∀ p, m_hat[t]? = some p → p.toNat ≠ q) → R2[q]? = R[q]?) := by
  intro ts
  induction ts with
  | nil =>
    intro R _ _
    exact ⟨R, rfl, rfl, fun t ht => (by cases ht), fun q _ => rfl⟩
  | cons t rest ih =>
    intro R hts hnd
    obtain ⟨p, c, hp, hc, hp0, hpl⟩ := hts t (List.mem_cons_self _ _)
    rw [List.map_cons, List.nodup_cons] at hnd
    obtain ⟨hnotin, hnd2⟩ := hnd
    obtain ⟨R2, hR2, hlen2, hset2, hkeep2⟩ := ih (R.set p.toNat c) (by
      intro t2 ht2
      obtain ⟨p2, c2, h1, h2, h3, h4⟩ := hts t2 (List.mem_cons_of_mem _ ht2)
      exact ⟨p2, c2, h1, h2, h3, by simpa using h4⟩) hnd2
    refine ⟨R2, ?_, by simpa using hlen2, ?_, ?_⟩
    · simp only [scatter, hp, hc, hp0, hpl, and_self, if_true]
      exact hR2
    · intro t2 ht2 p2 c2 h1 h2
      rcases List.mem_cons.1 ht2 with rfl | ht2
      · rw [hp] at h1; rw [hc] at h2
        cases h1; cases h2
        rw [hkeep2 p.toNat, List.getElem?_set_self hpl]
        intro t3 ht3 p3 hp3 heq
        apply hnotin
        rw [List.mem_map]
        refine ⟨t3, ht3, ?_⟩
        obtain ⟨p4, _, h5, _, h6, _⟩ := hts t3 (List.mem_cons_of_mem _ ht3)
        rw [hp3] at h5
        cases h5
        rw [hp3, hp]
        congr 1
        omega
      · exact hset2 t2 ht2 p2 c2 h1 h2
    · intro q hq
      rw [hkeep2 q (fun t2 ht2 p2 hp2 => hq t2 (List.mem_cons_of_mem _ ht2) p2 hp2)]
      rw [List.getElem?_set_ne]
      exact hq t (List.mem_cons_self _ _) p hp

/-! ## The pruning loop of `compute_cores` -/

theorem readAt_ofNat {α : Type} (v : List α) (m : Nat) (a : α) (h : v[m]? = some a) :
    readAt v (m : Int) = .ok a := by
  simp [readAt, h]

theorem Graph.empty_wf : Graph.empty.Wf := by
  refine ⟨⟨?_, ?_, ?_⟩, ⟨?_, ?_⟩, ⟨?_, ?_, ?_, ?_⟩⟩
  · intro x p h
    simp [Graph.par, Graph.empty] at h
  · intro x p h
    simp [Graph.par, Graph.empty] at h
  · intro x h
    simp [Graph.empty] at h
  · intro x y
    simp [Graph.kids, Graph.par, Graph.empty]
  · intro x
    simp [Graph.kids, Graph.empty]
  · intro x nd h
    simp [Graph.empty] at h
  · intro k p h
    simp [Graph.empty] at h
  · intro r h
    simp [Graph.empty] at h
  · simp [Graph.empty]

/-- Every key of the registry is the index of a point. -/
theorem SweepInv.key_range {radii : VectorXd} {knn : List KnnPoint} (hk : KnnSorted radii knn)
    {s : Chosen} {lp : Nat} (hinv : SweepInv knn s lp) (q : Int)
    (hq : (s.graph.M.lookup q).isSome) :
    ∃ m : Nat, q = (m : Int) ∧ m < radii.length ∧ ∃ x, s.graph.M.lookup q = some (some x) := by
  obtain ⟨j, kp, _, hj, rfl⟩ := (hinv.in_graph q).1 hq
  obtain ⟨m, hm, hr⟩ := hk.entry j kp hj
  refine ⟨m, hm, (List.getElem?_eq_some.1 hr).1, ?_⟩
  obtain ⟨p, hp⟩ := Option.isSome_iff_exists.1 hq
  obtain ⟨x, nd, hx, _, _⟩ := hinv.wf.registry.node_key _ _ hp
  exact ⟨x, by rw [hp, hx]⟩

/-- Replacing the graph by one with the same nodes and registry in which no
seen point is lost keeps the state of the sweep. -/
theorem SweepInv.of_graph {knn : List KnnPoint} {s : Chosen} {lp : Nat}
    (hinv : SweepInv knn s lp) {g1 : Graph} (hwf : g1.Wf)
    (hlen : g1.nodes.length = s.graph.nodes.length) (hM : g1.M = s.graph.M)
    (hseen : ∀ q, s.graph.SeenPoint q → g1.SeenPoint q) (lc : Nat) :
    SweepInv knn { s with graph := g1, last_considered := lc } lp := by
  refine ⟨hwf, hinv.pruned_le, ?_, ?_, hinv.m_hat_len, hinv.cm_len, hinv.chosen_le, ?_,
    hinv.collected_nodup, hinv.ids, hinv.ids_used, hinv.clusters_nonneg⟩
  · show g1.nodes.length = lp
    rw [hlen]; exact hinv.nodes_len
  · intro q
    show (g1.M.lookup q).isSome ↔ _
    rw [hM]; exact hinv.in_graph q
  · intro t p ht hp
    exact hseen p (hinv.collected_seen t p ht hp)

/-- The loop over the neighbor row of the pruned point: every edge it adds is
between two nodes of the graph, so it returns, and the graph keeps its nodes,
its registry and its seen points. -/
theorem add_mutual_edges_spec (sorted_neigbors : RowMatrixXi) (p : Int) :
    ∀ (row : List Int) (g : Graph) (x : Nat), g.Wf → g.M.lookup p = some (some x) →
      (∀ q, (g.M.lookup q).isSome → ∃ m : Nat, q = (m : Int) ∧ m < sorted_neigbors.length) →
      ∃ g1, add_mutual_edges sorted_neigbors p row g = .ok g1 ∧ g1.Wf ∧
        g1.nodes.length = g.nodes.length ∧ g1.M = g.M ∧
        (∀ q, g.SeenPoint q → g1.SeenPoint q) := by
  intro row
  induction row with
  | nil =>
    intro g x hwf _ _
    exact ⟨g, rfl, hwf, rfl, rfl, fun _ h => h⟩
  | cons nb rest ih =>
    intro g x hwf hp hkeys
    by_cases hnb : (g.M.lookup nb).isSome
    · obtain ⟨m, hm, hmlt⟩ := hkeys nb hnb
      have hrow : readAt sorted_neigbors nb = .ok (sorted_neigbors.get ⟨m, hmlt⟩) := by
        rw [hm]
        exact readAt_ofNat _ _ _ (List.getElem?_eq_getElem hmlt)
      by_cases hb : binary_search (sorted_neigbors.get ⟨m, hmlt⟩) p = true
      · obtain ⟨v, hv⟩ := Option.isSome_iff_exists.1 hnb
        obtain ⟨y, nd, hy, _, _⟩ := hwf.registry.node_key _ _ hv
        rw [hy] at hv
        obtain ⟨g4, h1, h2, h3, h4, _, h6, _, _⟩ := Graph.cg_add_edge_spec hwf hp hv
        obtain ⟨g5, k1, k2, k3, k4, k5⟩ := ih g4 x h2 (by rw [h4]; exact hp) (by
          intro q hq
          rw [h4] at hq
          exact hkeys q hq)
        refine ⟨g5, ?_, k2, by rw [k3, h3], by rw [k4, h4], fun q hq => k5 q (h6 q hq)⟩
        simp only [add_mutual_edges, hnb, if_true, hrow, hb, h1]
        exact k1
      · obtain ⟨g5, k1, k2, k3, k4, k5⟩ := ih g x hwf hp hkeys
        refine ⟨g5, ?_, k2, k3, k4, k5⟩
        simp only [add_mutual_edges, hnb, if_true, hrow, hb]
        exact k1
    · obtain ⟨g5, k1, k2, k3, k4, k5⟩ := ih g x hwf hp hkeys
      refine ⟨g5, ?_, k2, k3, k4, k5⟩
      simp only [add_mutual_edges, hnb]
      exact k1

/-- The pruning loop at a sweep position: it returns within `n + 1 - last_pruned`
rounds, keeps the state of the sweep, and stops at the end of the order or at a
point whose radius is not below `mul grow di`. -/
theorem prune_loop_spec {radii : VectorXd} {knn : List KnnPoint} (hk : KnnSorted radii knn)
    {neighbors : RowMatrixXi} (hrows : neighbors.length = radii.length)
    (sorted_neigbors : RowMatrixXi) (hsl : sorted_neigbors.length = radii.length)
    (mul : ℚ → ℚ → ℚ) (grow di : ℚ) :
    ∀ (fuel : Nat) (s : Chosen) (lp : Nat), SweepInv knn s lp → knn.length + 1 ≤ fuel + lp →
      ∃ g1 lp1, prune_loop mul grow neighbors sorted_neigbors knn knn.length di fuel s.graph lp =
          .ok (g1, lp1) ∧
        SweepInv knn { s with graph := g1 } lp1 ∧ lp ≤ lp1 ∧
        ∀ kp, knn[lp1]? = some kp → ¬ (mul grow di > kp.dist) := by
  intro fuel
  induction fuel with
  | zero =>
    intro s lp hinv hf
    have := hinv.pruned_le
    omega
  | succ fuel ih =>
    intro s lp hinv hf
    by_cases hlt : lp < knn.length
    · have hkp : knn[lp]? = some (knn.get ⟨lp, hlt⟩) := List.getElem?_eq_getElem hlt
      generalize knn.get ⟨lp, hlt⟩ = kp at hkp
      by_cases hc : mul grow di > kp.dist
      · obtain ⟨m, hm, hr⟩ := hk.entry lp kp hkp
        have hmlt : m < radii.length := (List.getElem?_eq_some.1 hr).1
        have hfresh : s.graph.M.lookup kp.idx = none := by
          cases hlk : s.graph.M.lookup kp.idx with
          | none => rfl
          | some v =>
            exfalso
            obtain ⟨j, kq, hj, hkq, he⟩ := (hinv.in_graph kp.idx).1 (by rw [hlk]; rfl)
            have := hk.idx_inj hkq hkp he
            omega
        have hwf1 := Graph.add_node_wf hinv.wf hfresh
        have hrow : readAt neighbors kp.idx = .ok (neighbors.get ⟨m, by omega⟩) := by
          rw [hm]
          exact readAt_ofNat _ _ _ (List.getElem?_eq_getElem (by omega))
        have hin1 : ∀ q : Int, ((s.graph.add_node kp.idx).M.lookup q).isSome ↔
            ∃ (j : Nat) (kq : KnnPoint), j < lp + 1 ∧ knn[j]? = some kq ∧ kq.idx = q := by
          intro q
          rw [Graph.lookup_add_node]
          by_cases hq : q = kp.idx
          · simp only [hq, if_true, Option.isSome_some, true_iff]
            exact ⟨lp, kp, by omega, hkp, rfl⟩
          · simp only [hq, if_false]
            rw [hinv.in_graph q]
            constructor
            · rintro ⟨j, kq, h1, h2, h3⟩
              exact ⟨j, kq, by omega, h2, h3⟩
            · rintro ⟨j, kq, h1, h2, h3⟩
              refine ⟨j, kq, ?_, h2, h3⟩
              rcases Nat.lt_succ_iff_lt_or_eq.1 h1 with h | h
              · exact h
              · exfalso
                subst h
                rw [hkp] at h2
                cases h2
                exact hq h3.symm
        obtain ⟨g2, e1, e2, e3, e4, e5⟩ := add_mutual_edges_spec sorted_neigbors kp.idx
          (neighbors.get ⟨m, by omega⟩) (s.graph.add_node kp.idx) s.graph.nodes.length hwf1
          (by rw [Graph.lookup_add_node]; simp) (by
            intro q hq
            obtain ⟨j, kq, _, h2, h3⟩ := (hin1 q).1 hq
            obtain ⟨m2, hm2, hr2⟩ := hk.entry j kq h2
            exact ⟨m2, by rw [← h3, hm2], by
              rw [hsl]; exact (List.getElem?_eq_some.1 hr2).1⟩)
        have hinv2 : SweepInv knn { s with graph := g2 } (lp + 1) := by
          refine ⟨e2, by omega, ?_, ?_, hinv.m_hat_len, hinv.cm_len, hinv.chosen_le, ?_,
            hinv.collected_nodup, hinv.ids, hinv.ids_used, hinv.clusters_nonneg⟩
          · show g2.nodes.length = lp + 1
            rw [e3, Graph.length_add_node, hinv.nodes_len]
          · intro q
            show (g2.M.lookup q).isSome ↔ _
            rw [e4]
            exact hin1 q
          · intro t p ht hp
            exact e5 p (Graph.SeenPoint.add_node hfresh (hinv.collected_seen t p ht hp))
        obtain ⟨g3, lp3, r1, r2, r3, r4⟩ := ih { s with graph := g2 } (lp + 1) hinv2 (by omega)
        refine ⟨g3, lp3, ?_, r2, by omega, r4⟩
        simp only [prune_loop, hlt, if_true, hkp, hc, hrow, e1]
        exact r1
      · refine ⟨s.graph, lp, ?_, hinv, le_refl _, ?_⟩
        · simp only [prune_loop, hlt, if_true, hkp, hc, if_false]
        · intro kq hkq
          rw [hkp] at hkq
          cases hkq
          exact hc
    · refine ⟨s.graph, lp, ?_, hinv, le_refl _, ?_⟩
      · simp only [prune_loop, hlt, if_false]
      · intro kq hkq
        exact absurd (List.getElem?_eq_some.1 hkq).1 hlt

/-! ## The consideration loop of `compute_cores` -/

theorem mem_take_iff_slot {α : Type} (l : List α) (n : Nat) (q : α) :
    q ∈ l.take n ↔ ∃ t, t < n ∧ l[t]? = some q := by
  rw [List.mem_iff_getElem?]
  constructor
  · rintro ⟨t, ht⟩
    rw [List.getElem?_take] at ht
    by_cases h : t < n
    · rw [if_pos h] at ht
      exact ⟨t, h, ht⟩
    · rw [if_neg h] at ht
      cases ht
  · rintro ⟨t, h, ht⟩
    exact ⟨t, by rw [List.getElem?_take, if_pos h]; exact ht⟩

/-- A list of distinct payloads of the graph is no longer than the list of nodes. -/
theorem Graph.Registry.length_le_of_keys {g : Graph} (hr : g.Registry) {l : List Int}
    (hl : l.Nodup) (hin : ∀ q ∈ l, ∃ x, g.M.lookup q = some (some x)) :
    l.length ≤ g.nodes.length := by
  have hf : ∀ q ∈ l, g.M.lookup q = some (some (((g.M.lookup q).getD none).getD 0)) := by
    intro q hq
    obtain ⟨x, hx⟩ := hin q hq
    rw [hx]
    rfl
  have hmap : (l.map fun q => ((g.M.lookup q).getD none).getD 0).Nodup := by
    refine List.Nodup.map_on ?_ hl
    intro a ha b hb hab
    have h1 := (hr.lookup_lt (hf a ha)).2
    have h2 := (hr.lookup_lt (hf b hb)).2
    simp only at hab
    rw [hab, h2] at h1
    cases h1
    rfl
  have := length_le_of_nodup_lt hmap (by
    intro v hv
    obtain ⟨q, hq, rfl⟩ := List.mem_map.1 hv
    exact (hr.lookup_lt (hf q hq)).1)
  simpa using this

/-- A point connected to a seen point is seen. -/
theorem Graph.SeenPoint.of_connected {g : Graph} {p q : Int} (hc : g.Connected p q)
    (hq : g.SeenPoint q) : g.SeenPoint p := by
  obtain ⟨a, b, r, ha, hb, hra, hrb⟩ := hc
  obtain ⟨y, r2, hy, hr2, hmem⟩ := hq
  rw [hb] at hy
  cases hy
  have := Reach.unique hrb hr2
  subst this
  exact ⟨a, r, ha, hra, hmem⟩

/-- The consideration loop at the sweep position `i`, entered after the pruning
loop has stopped: a point it reaches is already a node of the graph and lies
before position `i`, so the loop returns within `i + 1 - last_considered`
rounds and keeps the state of the sweep. -/
theorem consider_loop_spec {mul : ℚ → ℚ → ℚ} {radii : VectorXd} {knn : List KnnPoint} (hk : KnnSorted radii knn)
    (hrad : ∀ r ∈ radii, 0 ≤ r) {grow shrink : ℚ} (hgrow : ∀ r ∈ radii, r ≤ mul grow r) (hshr : ∀ r ∈ radii, mul r shrink ≤ r) {i : Nat} {ki : KnnPoint} (hki : knn[i]? = some ki) {lp : Nat}
    (hpost : ∀ kp, knn[lp]? = some kp → ¬ (mul grow ki.dist > kp.dist)) :
    ∀ (fuel : Nat) (s : Chosen), SweepInv knn s lp → s.last_considered ≤ i →
      i + 1 ≤ fuel + s.last_considered →
      ∃ s1, consider_loop mul shrink radii knn ki.dist fuel s = .ok s1 ∧ SweepInv knn s1 lp ∧
        s1.last_considered ≤ i := by
  intro fuel
  induction fuel with
  | zero =>
    intro s hinv hle hf
    omega
  | succ fuel ih =>
    intro s hinv hle hf
    have hilt : i < knn.length := (List.getElem?_eq_some.1 hki).1
    have hlc : s.last_considered < knn.length := by omega
    have hkp : knn[s.last_considered]? = some (knn.get ⟨s.last_considered, hlc⟩) :=
      List.getElem?_eq_getElem hlc
    generalize knn.get ⟨s.last_considered, hlc⟩ = kp at hkp
    by_cases hc : mul ki.dist shrink > kp.dist
    · obtain ⟨m, hm, hr⟩ := hk.entry _ kp hkp
      have hkp0 : 0 ≤ kp.dist := hrad _ (List.getElem?_mem hr)
      have hkim : ki.dist ∈ radii := by
        obtain ⟨_, _, hri⟩ := hk.entry _ ki hki
        exact List.getElem?_mem hri
      have hlt1 : kp.dist < ki.dist := lt_of_lt_of_le hc (hshr _ hkim)
      have hdi : 0 < ki.dist := lt_of_le_of_lt hkp0 hlt1
      have hlci : s.last_considered < i := by
        rcases Nat.lt_or_eq_of_le hle with h | h
        · exact h
        · exfalso
          rw [h, hki] at hkp
          cases hkp
          exact lt_irrefl _ hlt1
      have hlclp : s.last_considered < lp := by
        by_contra h
        push_neg at h
        have hlpn : lp < knn.length := by omega
        have hkq : knn[lp]? = some (knn.get ⟨lp, hlpn⟩) := List.getElem?_eq_getElem hlpn
        have h1 := hpost _ hkq
        have h2 := hk.sorted_at hkq hkp h
        apply h1
        exact lt_of_le_of_lt h2 (lt_of_lt_of_le hlt1 (hgrow _ hkim))
      have hin : (s.graph.M.lookup kp.idx).isSome :=
        (hinv.in_graph _).2 ⟨s.last_considered, kp, hlclp, hkp, rfl⟩
      obtain ⟨_, _, _, x, hx⟩ := hinv.key_range hk _ hin
      obtain ⟨g1, b, c1, c2, c3, c4, c5, c6, c7, c8⟩ := Graph.component_seen_spec hinv.wf hx
      cases b with
      | true =>
        have hinv1 := hinv.of_graph c2 c3 c4 (fun q hq => (c8 q).2 (Or.inl hq))
          (s.last_considered + 1)
        obtain ⟨s1, r1, r2, r3⟩ := ih _ hinv1 (by show s.last_considered + 1 ≤ i; omega)
          (by show i + 1 ≤ fuel + (s.last_considered + 1); omega)
        refine ⟨s1, ?_, r2, r3⟩
        simp only [consider_loop, hkp, hc, if_true, c1]
        exact r1
      | false =>
        have hns : ¬ s.graph.SeenPoint kp.idx := by
          intro h
          have := c7.2 h
          cases this
        have hx1 : g1.M.lookup kp.idx = some (some x) := by rw [c4]; exact hx
        obtain ⟨g2, res, d1, d2, d3, d4, d5⟩ := Graph.get_connected_component_spec c2 hx1
        have hconn : ∀ q, q ∈ res → s.graph.Connected kp.idx q := by
          intro q hq
          obtain ⟨a, b, r, h1, h2, h3, h4⟩ := (d5 q).1 hq
          exact ⟨a, b, r, by rw [← c4]; exact h1, by rw [← c4]; exact h2, (c6 _ _).1 h3,
            (c6 _ _).1 h4⟩
        have hresM : ∀ q ∈ res, ∃ y, s.graph.M.lookup q = some (some y) := by
          intro q hq
          obtain ⟨_, b, _, _, h2, _, _⟩ := hconn q hq
          exact ⟨b, h2⟩
        have hrange : ∀ q ∈ res, 0 ≤ q ∧ q.toNat < radii.length := by
          intro q hq
          obtain ⟨y, hy⟩ := hresM q hq
          obtain ⟨m2, hm2, hlt2, _⟩ := hinv.key_range hk q (by rw [hy]; rfl)
          subst hm2
          exact ⟨Int.natCast_nonneg _, by simpa using hlt2⟩
        have hdisj : (s.m_hat.take s.n_chosen_points).Disjoint res := by
          intro q hq1 hq2
          obtain ⟨t, ht, hqt⟩ := (mem_take_iff_slot _ _ _).1 hq1
          exact hns (Graph.SeenPoint.of_connected (hconn q hq2) (hinv.collected_seen t q ht hqt))
        have hnd : (s.m_hat.take s.n_chosen_points ++ res).Nodup :=
          List.Nodup.append hinv.collected_nodup d4 hdisj
        have hcount : s.n_chosen_points + res.length ≤ s.m_hat.length := by
          have h1 := hinv.wf.registry.length_le_of_keys hnd (by
            intro q hq
            rcases List.mem_append.1 hq with h | h
            · obtain ⟨t, ht, hqt⟩ := (mem_take_iff_slot _ _ _).1 h
              obtain ⟨y, _, hy, _, _⟩ := hinv.collected_seen t q ht hqt
              exact ⟨y, hy⟩
            · exact hresM q h)
          rw [List.length_append, List.length_take, hinv.nodes_len, hinv.m_hat_len] at h1
          have h2 := hinv.chosen_le
          have h3 := hinv.pruned_le
          rw [hinv.m_hat_len]
          rw [min_eq_left h2] at h1
          omega
        obtain ⟨m2, cm2, ncp2, f1, f2, f3, f4, f5, f6, f7⟩ := collect_spec radii ki.dist
          s.n_chosen_clusters res s.m_hat s.cluster_membership s.n_chosen_points hrange hcount
          (by rw [hinv.m_hat_len, hinv.cm_len])
        have hpin : kp.idx ∈ res.filter (fun q => decide (radii.getD q.toNat 0 ≤ ki.dist)) := by
          rw [List.mem_filter]
          refine ⟨(d5 _).2 (Graph.SeenPoint.refl_connected c2 hx1), ?_⟩
          rw [hm, Int.toNat_ofNat, List.getD_eq_getElem?_getD, hr]
          simpa using le_of_lt hlt1
        have hpos : 0 < (res.filter (fun q => decide (radii.getD q.toNat 0 ≤ ki.dist))).length :=
          List.length_pos_of_mem hpin
        have hfle := List.length_filter_le (fun q => decide (radii.getD q.toNat 0 ≤ ki.dist)) res
        have hseen2 : ∀ q, g2.SeenPoint q ↔ (s.graph.SeenPoint q ∨ s.graph.Connected kp.idx q) := by
          intro q
          rw [Graph.SeenPoint.seen_of_compressed d3]
          exact c8 q
        have hinv2 : SweepInv knn
            { graph := g2
              m_hat := m2
              cluster_membership := cm2
              n_chosen_points := ncp2
              n_chosen_clusters := s.n_chosen_clusters + 1
              last_considered := s.last_considered + 1 } lp := by
          refine ⟨d2, hinv.pruned_le, ?_, ?_, ?_, ?_, ?_, ?_, ?_, ?_, ?_, ?_⟩
          · show g2.nodes.length = lp
            rw [d3.length_eq, c3]; exact hinv.nodes_len
          · intro q
            show (g2.M.lookup q).isSome ↔ _
            rw [d3.M_eq, c4]; exact hinv.in_graph q
          · show m2.length = _
            rw [f2]; exact hinv.m_hat_len
          · show cm2.length = _
            rw [f3]; exact hinv.cm_len
          · show ncp2 ≤ _
            rw [← hinv.m_hat_len]
            omega
          · intro t p ht hp
            have hmem : p ∈ m2.take ncp2 := (mem_take_iff_slot _ _ _).2 ⟨t, ht, hp⟩
            rw [f5] at hmem
            rcases List.mem_append.1 hmem with h | h
            · obtain ⟨t2, ht2, hq2⟩ := (mem_take_iff_slot _ _ _).1 h
              exact (hseen2 p).2 (Or.inl (hinv.collected_seen t2 p ht2 hq2))
            · exact (hseen2 p).2 (Or.inr (hconn p (List.mem_filter.1 h).1))
          · show (m2.take ncp2).Nodup
            rw [f5]
            refine List.Nodup.append hinv.collected_nodup (d4.filter _) ?_
            intro q hq1 hq2
            exact hdisj hq1 (List.mem_filter.1 hq2).1
          · intro t ht
            show ∃ c : Int, cm2[t]? = some c ∧ 0 ≤ c ∧ c < s.n_chosen_clusters + 1
            by_cases hto : t < s.n_chosen_points
            · obtain ⟨c, h1, h2, h3⟩ := hinv.ids t hto
              exact ⟨c, by rw [f6 t hto]; exact h1, h2, by omega⟩
            · exact ⟨s.n_chosen_clusters, f7 t (by omega) ht, hinv.clusters_nonneg, by omega⟩
          · intro c h0 h1
            show ∃ t : Nat, t < ncp2 ∧ cm2[t]? = some c
            by_cases hcK : c < s.n_chosen_clusters
            · obtain ⟨t, h2, h3⟩ := hinv.ids_used c h0 hcK
              exact ⟨t, by omega, by rw [f6 t h2]; exact h3⟩
            · have : c = s.n_chosen_clusters := by
                have h1' : c < s.n_chosen_clusters + 1 := h1
                omega
              subst this
              exact ⟨s.n_chosen_points, by omega, f7 _ (le_refl _) (by omega)⟩
          · show 0 ≤ s.n_chosen_clusters + 1
            have := hinv.clusters_nonneg
            omega
        obtain ⟨s1, r1, r2, r3⟩ := ih _ hinv2 (by show s.last_considered + 1 ≤ i; omega)
          (by show i + 1 ≤ fuel + (s.last_considered + 1); omega)
        refine ⟨s1, ?_, r2, r3⟩
        simp only [consider_loop, hkp, hc, if_true, c1, d1, f1]
        exact r1
    · refine ⟨s, ?_, hinv, hle⟩
      simp only [consider_loop, hkp, hc, if_false]

/-! ## `compute_cores` on a valid input -/

/-- The sweep over the positions `i, ..., i + k - 1` of the sorted order: both
inner loops return within their `n + 1` rounds at every position. -/
theorem sweep_spec {mul : ℚ → ℚ → ℚ} {radii : VectorXd} {knn : List KnnPoint} (hk : KnnSorted radii knn)
    (hrad : ∀ r ∈ radii, 0 ≤ r) {neighbors : RowMatrixXi}
    (hrows : neighbors.length = radii.length) (sorted_neigbors : RowMatrixXi)
    (hsl : sorted_neigbors.length = radii.length) {grow shrink : ℚ} (hgrow : ∀ r ∈ radii, r ≤ mul grow r)
    (hshr : ∀ r ∈ radii, mul r shrink ≤ r) :
    ∀ (k i : Nat) (s : Chosen) (lp : Nat), SweepInv knn s lp → s.last_considered ≤ i →
      i + k ≤ knn.length →
      ∃ s1 lp1, sweep mul grow shrink radii neighbors sorted_neigbors knn knn.length
          (List.range' i k) s lp = .ok (s1, lp1) ∧ SweepInv knn s1 lp1 := by
  intro k
  induction k with
  | zero =>
    intro i s lp hinv _ _
    exact ⟨s, lp, rfl, hinv⟩
  | succ k ih =>
    intro i s lp hinv hle hik
    have hilt : i < knn.length := by omega
    have hki : knn[i]? = some (knn.get ⟨i, hilt⟩) := List.getElem?_eq_getElem hilt
    generalize knn.get ⟨i, hilt⟩ = ki at hki
    obtain ⟨g1, lp1, p1, p2, _, p4⟩ := prune_loop_spec hk hrows sorted_neigbors hsl mul grow ki.dist
      (knn.length + 1) s lp hinv (by omega)
    obtain ⟨s1, q1, q2, q3⟩ := consider_loop_spec hk hrad hgrow hshr hki p4 (knn.length + 1)
      { s with graph := g1 } p2 hle (by omega)
    obtain ⟨s2, lp2, r1, r2⟩ := ih (i + 1) s1 lp1 q2 (by omega) (by omega)
    refine ⟨s2, lp2, ?_, r2⟩
    rw [List.range'_succ]
    simp only [sweep, hki, p1, q1]
    exact r1

theorem nodup_slots {α : Type} (l : List α) (n : Nat) (hn : n ≤ l.length)
    (hnd : (l.take n).Nodup) : ((List.range n).map fun t => l[t]?).Nodup := by
  have key : ∀ a b, a < b → b < n → l[a]? ≠ l[b]? := by
    intro a b hab hb
    have := (List.nodup_iff_getElem?_ne_getElem?.1 hnd) a b hab (by
      rw [List.length_take]; exact lt_min hb (by omega))
    rwa [List.getElem?_take_of_lt (by omega), List.getElem?_take_of_lt hb] at this
  refine List.Nodup.map_on ?_ (List.nodup_range n)
  intro a ha b hb hab
  rw [List.mem_range] at ha hb
  rcases Nat.lt_trichotomy a b with h | h | h
  · exact absurd hab (key a b h hb)
  · exact h
  · exact absurd hab.symm (key b a h ha)

/-- The state of the sweep before its first step. -/
theorem SweepInv.start (knn : List KnnPoint) :
    SweepInv knn ⟨Graph.empty, List.replicate knn.length 0, List.replicate knn.length 0, 0, 0, 0⟩
      0 := by
  refine ⟨Graph.empty_wf, Nat.zero_le _, rfl, ?_, by simp, by simp, Nat.zero_le _, ?_, by simp,
    ?_, ?_, le_refl _⟩
  · intro q
    simp [Graph.empty]
  · intro t p ht
    exact absurd ht (Nat.not_lt_zero _)
  · intro t ht
    exact absurd ht (Nat.not_lt_zero _)
  · intro c h0 h1
    exact absurd h1 (not_lt.2 h0)

/-- The thresholds of the sweep under the laws of the arithmetic: the computed
pruning threshold of a radius is not below the radius, and the computed
consideration threshold is not above it. -/
theorem ArithLaw.thresholds {ar : Arith} {radii : VectorXd} (har : ArithLaw ar radii)
    {dim : Int} (hdim : 1 ≤ dim) {beta epsilon : ℚ} (hb0 : 0 < beta) (hb1 : beta < 1)
    (heps : 0 < epsilon) (hrad : ∀ r ∈ radii, 0 ≤ r) :
    (∀ r ∈ radii, r ≤ ar.mul (ar.pow (ar.add 1 epsilon) (ar.div 1 dim)) r) ∧
    (∀ r ∈ radii, ar.mul r (ar.pow (ar.sub 1 beta) (ar.div 1 dim)) ≤ r) := by
  have hdq : (1 : ℚ) ≤ (dim : ℚ) := by exact_mod_cast hdim
  have hy : (0 : ℚ) < ar.div 1 (dim : ℚ) := har.div_pos _ hdq
  exact ⟨fun r hr => har.mul_ge _ (har.grow_ge _ _ heps hy) r hr (hrad r hr),
    fun r hr => har.mul_le _ (har.shrink_le _ _ hb0 hb1 hy) r hr (hrad r hr)⟩

/-- `compute_cores` on non-negative radii with one neighbor row per point: the
sweep returns, the scatter returns, and the output holds exactly the ids below
the number of extracted components next to the sentinel. -/
theorem compute_cores_spec {ar : Arith} {sort : List KnnPoint → List KnnPoint}
    {radii : VectorXd} (har : ArithLaw ar radii) (hsort : SortsByDist sort) {dim : Int} (hdim : 1 ≤ dim)
    {neighbors : RowMatrixXi} {beta epsilon : ℚ} (hb0 : 0 < beta)
    (hb1 : beta < 1) (heps : 0 < epsilon) (hrows : neighbors.length = radii.length)
    (hrad : ∀ r ∈ radii, 0 ≤ r) :
    ∃ (s : Chosen) (out : VectorXi),
      compute_cores_sweep ar sort dim radii neighbors beta epsilon = .ok s ∧
      compute_cores ar sort dim radii neighbors beta epsilon = .ok out ∧
      out.length = radii.length ∧ 0 ≤ s.n_chosen_clusters ∧
      (∀ v : Int, v ∈ out → v = -1 ∨ (0 ≤ v ∧ v < s.n_chosen_clusters)) ∧
      (∀ c : Int, 0 ≤ c → c < s.n_chosen_clusters → c ∈ out) ∧
      (s.m_hat.take s.n_chosen_points).Nodup ∧ s.n_chosen_points ≤ radii.length ∧
      (∀ t, t < s.n_chosen_points → ∃ p c, s.m_hat[t]? = some p ∧
        s.cluster_membership[t]? = some c ∧ 0 ≤ p ∧ out[p.toNat]? = some c) := by
  obtain ⟨hgrow, hshr⟩ := har.thresholds hdim hb0 hb1 heps hrad
  have hk := knn_sorted_of_sort hsort radii
  generalize hknn : sort (List.zipWith (fun (r : ℚ) (i : Nat) => (⟨r, (i : Int)⟩ : KnnPoint))
    radii (List.range radii.length)) = knn at hk
  obtain ⟨s, lp, e1, hinv⟩ := sweep_spec hk hrad hrows
    (neighbors.map fun row => row.insertionSort (· ≤ ·)) (by simp [hrows]) hgrow hshr
    knn.length 0 _ 0 (SweepInv.start knn) (le_refl _) (by omega)
  rw [← List.range_eq_range', hk.len] at e1
  have hsweep : compute_cores_sweep ar sort dim radii neighbors beta epsilon = .ok s := by
    simp only [compute_cores_sweep, ne_eq, hrows, not_true_eq_false, if_false, hknn, e1]
  have hslot : ∀ t, t < s.n_chosen_points → ∃ p c, s.m_hat[t]? = some p ∧
      s.cluster_membership[t]? = some c ∧ 0 ≤ p ∧ p.toNat < radii.length ∧ 0 ≤ c ∧
      c < s.n_chosen_clusters := by
    intro t ht
    have htl : t < s.m_hat.length := by
      rw [hinv.m_hat_len]; exact lt_of_lt_of_le ht hinv.chosen_le
    obtain ⟨c, hc, hc0, hc1⟩ := hinv.ids t ht
    have hp : s.m_hat[t]? = some (s.m_hat.get ⟨t, htl⟩) := List.getElem?_eq_getElem htl
    obtain ⟨x, _, hx, _, _⟩ := hinv.collected_seen t _ ht hp
    obtain ⟨m, hm, hmlt, _⟩ := hinv.key_range hk (s.m_hat.get ⟨t, htl⟩) (by rw [hx]; rfl)
    refine ⟨_, c, hp, hc, ?_, ?_, hc0, hc1⟩
    · rw [hm]; exact Int.natCast_nonneg _
    · rw [hm]; simpa using hmlt
  obtain ⟨out, o1, o2, o3, o4⟩ := scatter_spec s.m_hat s.cluster_membership
    (List.range s.n_chosen_points) (List.replicate radii.length (-1)) (by
      intro t ht
      obtain ⟨p, c, h1, h2, h3, h4, _, _⟩ := hslot t (List.mem_range.1 ht)
      exact ⟨p, c, h1, h2, h3, by simpa using h4⟩)
    (nodup_slots _ _ (by rw [hinv.m_hat_len]; exact hinv.chosen_le) hinv.collected_nodup)
  have hlen : out.length = radii.length := by simpa using o2
  refine ⟨s, out, hsweep, ?_, hlen, hinv.clusters_nonneg, ?_, ?_, hinv.collected_nodup, ?_, ?_⟩
  · simp only [compute_cores, hsweep, o1]
  · intro v hv
    obtain ⟨q, hq⟩ := List.mem_iff_getElem?.1 hv
    have hql : q < radii.length := by
      rw [← hlen]; exact (List.getElem?_eq_some.1 hq).1
    by_cases hex : ∃ t, t < s.n_chosen_points ∧ ∃ p, s.m_hat[t]? = some p ∧ p.toNat = q
    · obtain ⟨t, ht, p, hp, hpq⟩ := hex
      obtain ⟨p2, c, h1, h2, _, _, h5, h6⟩ := hslot t ht
      rw [hp] at h1
      cases h1
      have := o3 t (List.mem_range.2 ht) p c hp h2
      rw [hpq, hq] at this
      cases this
      exact Or.inr ⟨h5, h6⟩
    · have := o4 q (by
        intro t ht p hp hpq
        exact hex ⟨t, List.mem_range.1 ht, p, hp, hpq⟩)
      rw [hq, List.getElem?_replicate, if_pos hql] at this
      cases this
      exact Or.inl rfl
  · intro c h0 h1
    obtain ⟨t, ht, hc⟩ := hinv.ids_used c h0 h1
    obtain ⟨p, c2, h2, h3, _, _, _, _⟩ := hslot t ht
    rw [hc] at h3
    cases h3
    exact List.getElem?_mem (o3 t (List.mem_range.2 ht) p c h2 hc)
  · rw [← hk.len]; exact hinv.chosen_le
  · intro t ht
    obtain ⟨p, c, h1, h2, h3, _, _, _⟩ := hslot t ht
    exact ⟨p, c, h1, h2, h3, o3 t (List.mem_range.2 ht) p c h1 h2⟩

/-- The per-id groups that `cluster_remaining` builds from a vector holding the
sentinel and exactly the ids below `K`: there are `K` of them and none is
empty. -/
theorem modal_sets_nonempty {out : VectorXi} {K : Int} (hne : out ≠ []) (hK : 0 ≤ K)
    (hval : ∀ v : Int, v ∈ out → v = -1 ∨ (0 ≤ v ∧ v < K))
    (hused : ∀ c : Int, 0 ≤ c → c < K → c ∈ out) :
    ∃ mx ms, maxCoeff out = .ok mx ∧ mx + 1 = K ∧
      fill_modal_sets out (List.range out.length) (List.replicate (mx + 1).toNat []) = .ok ms ∧
      ms.length = K.toNat ∧ ∀ grp ∈ ms, grp ≠ [] := by
  obtain ⟨mx, hmx, hmem, hle⟩ := maxCoeff_spec hne
  have hmxK : mx + 1 = K := by
    rcases hval mx hmem with h | ⟨h0, h1⟩
    · by_cases hK0 : K = 0
      · omega
      · have := hle (K - 1) (hused (K - 1) (by omega) (by omega))
        omega
    · have := hle (K - 1) (hused (K - 1) (by omega) (by omega))
      omega
  obtain ⟨ms, hms, hmslen, hmsall⟩ := fill_modal_sets_spec out (List.range out.length)
    (List.replicate (mx + 1).toNat []) (by
      intro i hi
      rw [List.mem_range] at hi
      refine ⟨out[i], List.getElem?_eq_getElem hi, ?_⟩
      intro h0
      have := hle out[i] (List.getElem_mem _)
      simp only [List.length_replicate]
      omega)
  simp only [List.length_replicate] at hmslen
  refine ⟨mx, ms, hmx, hmxK, hms, by rw [hmslen, hmxK], ?_⟩
  intro grp hgrp
  obtain ⟨c, hc⟩ := List.mem_iff_getElem?.1 hgrp
  have hcl : c < (mx + 1).toNat := by
    rw [← hmslen]; exact (List.getElem?_eq_some.1 hc).1
  rw [hmsall c [] (by simp [hcl])] at hc
  cases hc
  have hcm : (c : Int) ∈ out := hused c (Int.natCast_nonneg _) (by omega)
  obtain ⟨i, hi, hic⟩ := List.getElem_of_mem hcm
  have hmemi : i ∈ (List.range out.length).filter
      fun i => decide (out[i]? = some (c : Int)) := by
    rw [List.mem_filter]
    exact ⟨List.mem_range.2 hi, by simp [List.getElem?_eq_getElem hi, hic]⟩
  simp only [List.nil_append, ne_eq, List.map_eq_nil_iff]
  exact List.ne_nil_of_mem hmemi

/-! ## The ids of `compute_cores` -/

theorem pow_one_law : PowLaw pow_one :=
  fun _ _ _ => ⟨fun h => h, fun h0 h1 => ⟨h0, h1⟩⟩

/-- The arithmetic without rounding keeps the laws that the sweep needs, for
every `std::pow` that keeps a base above 1 above 1 and a base in `(0, 1)` in
`(0, 1)`. -/
theorem exact_arith_law {pow : ℚ → ℚ → ℚ} (hpow : PowLaw pow) (radii : VectorXd) :
    ArithLaw (Arith.exact pow) radii := by
  refine ⟨?_, ?_, ?_, ?_, ?_⟩
  · intro d hd
    show (0 : ℚ) < 1 / d
    exact div_pos one_pos (by linarith)
  · intro e y he hy
    show 1 ≤ pow (1 + e) y
    exact le_of_lt ((hpow _ _ hy).1 (by linarith))
  · intro b y hb0 hb1 hy
    show pow (1 - b) y ≤ 1
    exact le_of_lt ((hpow _ _ hy).2 (by linarith) (by linarith)).2
  · intro g hg r _ hr
    show r ≤ g * r
    nlinarith
  · intro s hs r _ hr
    show r * s ≤ r
    nlinarith

theorem cores_input_scenario :
    CoresInput 1 [1, 1 / 2, 1 / 2, 2] [[1], [0, 2], [1, 3], [2]] (1 / 10) (1 / 10) := by
  refine ⟨?_, rfl, ?_, by norm_num, by norm_num, by norm_num, le_refl _⟩
  · intro r hr
    simp only [List.mem_cons, List.mem_singleton, List.not_mem_nil, or_false] at hr
    rcases hr with rfl | rfl | rfl | rfl <;> norm_num
  · decide

/-- C6. On every valid input (non-negative radii, one neighbor row per point,
neighbor indices in `[0, n)`, `0 < beta < 1`, `epsilon > 0`, `dim ≥ 1`), for
every double arithmetic that keeps the laws `ArithLaw`, among them the
arithmetic without rounding with a `std::pow` that keeps a base above 1 above 1
and a base in `(0, 1)` in `(0, 1)`, and every `std::sort` that orders by radius,
`compute_cores` returns a
vector `out` of length `n`; with `K` the number of components extracted during
the sweep, every entry of `out` is `-1` or an id in `[0, K)`, every id in
`[0, K)` occurs in `out`, the collected points are pairwise distinct, there are
at most `n` of them, every collected point carries in `out` the id it was
collected with, and, when there is at least one point, the `K` per-id groups
that `cluster_remaining` builds from `out` are all non-empty. -/
theorem compute_cores_ids_exact {ar : Arith} {sort : List KnnPoint → List KnnPoint}
    {radii : VectorXd} (har : ArithLaw ar radii) (hsort : SortsByDist sort) {dim : Int}
    {neighbors : RowMatrixXi} {beta epsilon : ℚ}
    (hv : CoresInput dim radii neighbors beta epsilon) :
    ∃ (s : Chosen) (out : VectorXi),
      compute_cores_sweep ar sort dim radii neighbors beta epsilon = .ok s ∧
      compute_cores ar sort dim radii neighbors beta epsilon = .ok out ∧
      out.length = radii.length ∧
      (∀ v : Int, v ∈ out → v = -1 ∨ (0 ≤ v ∧ v < s.n_chosen_clusters)) ∧
      (∀ c : Int, 0 ≤ c → c < s.n_chosen_clusters → c ∈ out) ∧
      (s.m_hat.take s.n_chosen_points).Nodup ∧ s.n_chosen_points ≤ radii.length ∧
      (∀ t, t < s.n_chosen_points → ∃ p c, s.m_hat[t]? = some p ∧
        s.cluster_membership[t]? = some c ∧ 0 ≤ p ∧ out[p.toNat]? = some c) ∧
      (radii ≠ [] → ∃ mx ms, maxCoeff out = .ok mx ∧ mx + 1 = s.n_chosen_clusters ∧
        fill_modal_sets out (List.range radii.length) (List.replicate (mx + 1).toNat []) =
          .ok ms ∧
        ms.length = s.n_chosen_clusters.toNat ∧ ∀ grp ∈ ms, grp ≠ []) := by
  obtain ⟨s, out, h1, h2, h3, h4, h5, h6, h7, h8, h9⟩ := compute_cores_spec har hsort
    hv.dim_pos hv.beta_pos hv.beta_lt hv.epsilon_pos hv.rows_eq hv.radii_nonneg
  refine ⟨s, out, h1, h2, h3, h5, h6, h7, h8, h9, ?_⟩
  intro hne
  have hout : out ≠ [] := by
    intro h0
    rw [h0] at h3
    exact hne (List.length_eq_zero.1 h3.symm)
  have := modal_sets_nonempty hout h4 h5 h6
  rwa [h3] at this

/-- Witness of C6 on the literal scenario, with `std::pow` at exponent one and
a stable sort. -/
theorem compute_cores_ids_exact_witness :
    ∃ (s : Chosen) (out : VectorXi),
      compute_cores_sweep (Arith.exact pow_one) stable_sort 1 [1, 1 / 2, 1 / 2, 2]
        [[1], [0, 2], [1, 3], [2]] (1 / 10) (1 / 10) = .ok s ∧
      compute_cores (Arith.exact pow_one) stable_sort 1 [1, 1 / 2, 1 / 2, 2] [[1], [0, 2], [1, 3], [2]]
        (1 / 10) (1 / 10) = .ok out ∧
      out.length = ([1, 1 / 2, 1 / 2, 2] : VectorXd).length ∧
      (∀ v : Int, v ∈ out → v = -1 ∨ (0 ≤ v ∧ v < s.n_chosen_clusters)) ∧
      (∀ c : Int, 0 ≤ c → c < s.n_chosen_clusters → c ∈ out) ∧
      (s.m_hat.take s.n_chosen_points).Nodup ∧
      s.n_chosen_points ≤ ([1, 1 / 2, 1 / 2, 2] : VectorXd).length ∧
      (∀ t, t < s.n_chosen_points → ∃ p c, s.m_hat[t]? = some p ∧
        s.cluster_membership[t]? = some c ∧ 0 ≤ p ∧ out[p.toNat]? = some c) ∧
      (([1, 1 / 2, 1 / 2, 2] : VectorXd) ≠ [] → ∃ mx ms, maxCoeff out = .ok mx ∧
        mx + 1 = s.n_chosen_clusters ∧
        fill_modal_sets out (List.range ([1, 1 / 2, 1 / 2, 2] : VectorXd).length)
          (List.replicate (mx + 1).toNat []) = .ok ms ∧
        ms.length = s.n_chosen_clusters.toNat ∧ ∀ grp ∈ ms, grp ≠ []) :=
  compute_cores_ids_exact (exact_arith_law pow_one_law _) stable_sort_sorts cores_input_scenario

/-! ## The basic forest: what a call changes, exactly -/

theorem GraphBasic.get_root_ok_lt {g : GraphBasic} {x : Nat} {v : GraphBasic × Ptr}
    (h : g.get_root (some x) = .ok v) : x < g.M.length := by
  by_contra hx
  have hnone : g.M[x]? = none := List.getElem?_eq_none (by omega)
  unfold GraphBasic.get_root at h
  cases hl : g.M.length with
  | zero =>
    rw [hl] at h
    simp [GraphBasic.get_root_fuel] at h
  | succ k =>
    rw [hl] at h
    simp [GraphBasic.get_root_fuel, hnone] at h

/-- The node `get_root` is called on points at the returned root afterwards,
unless it is that root. -/
theorem GraphBasic.get_root_par {g : GraphBasic} (hwf : g.Wf) {x p : Nat}
    (hp : g.par x = some p) :
    ∃ g1 r, g.get_root (some x) = .ok (g1, some r) ∧ g1.par x = some r := by
  have hx : x < g.M.length := GraphBasic.lt_of_par hp
  obtain ⟨nd, hnd, hndp⟩ := GraphBasic.par_eq_some hp
  have hpl := hwf.parent_lt x p hp
  have hrk := hwf.rank_lt x p hp
  have hroots := hwf.roots_pos hx
  obtain ⟨k, hk⟩ : ∃ k, g.M.length = k + 1 := ⟨g.M.length - 1, by omega⟩
  obtain ⟨g1, r, h1, _, hwf1, hc1⟩ := GraphBasic.get_root_fuel_spec hwf k p hpl (by omega)
  refine ⟨g1.set_parent x (some r), r, ?_, ?_⟩
  · unfold GraphBasic.get_root
    rw [hk]
    simp only [GraphBasic.get_root_fuel, hnd, hndp, h1]
  · rw [GraphBasic.par_set_parent _ _ _ _ (by rw [hc1.length_eq]; exact hx), if_pos rfl]

/-- The part of `add_edge` after the roots are known, on two different nodes:
the parent link and the rank it writes. -/
theorem GraphBasic.link_exact {g : GraphBasic} {r1 r2 : Nat} (hl1 : r1 < g.M.length)
    (hl2 : r2 < g.M.length) (hne : r1 ≠ r2) :
    ∃ g4, g.link (some r1) (some r2) = .ok g4 ∧ g4.M.length = g.M.length ∧
      (∀ y, g4.par y = if g.rk r1 > g.rk r2 then (if y = r2 then some r1 else g.par y)
        else (if y = r1 then some r2 else g.par y)) ∧
      (∀ y, g4.rk y = if y = r2 ∧ g.rk r1 = g.rk r2 then g.rk y + 1 else g.rk y) ∧
      (g.par r1 = none → g.par r2 = none → g4.roots + 1 = g.roots) := by
  have hn1 : g.M[r1]? = some g.M[r1] := List.getElem?_eq_getElem hl1
  have hn2 : g.M[r2]? = some g.M[r2] := List.getElem?_eq_getElem hl2
  have hk1 : g.rk r1 = g.M[r1].rank := GraphBasic.rk_eq_of_getElem? hn1
  have hk2 : g.rk r2 = g.M[r2].rank := GraphBasic.rk_eq_of_getElem? hn2
  simp only [GraphBasic.link, ne_eq, hne, not_false_eq_true, if_true, hn1, hn2]
  rw [← hk1, ← hk2]
  by_cases hgt : g.rk r1 > g.rk r2
  · have hneq : ¬ g.rk r1 = g.rk r2 := by omega
    simp only [hgt, if_true, hneq, if_false, and_false]
    refine ⟨_, rfl, GraphBasic.length_set_parent _ _ _,
      fun y => GraphBasic.par_set_parent g r2 (some r1) y hl2,
      fun y => GraphBasic.rk_set_parent g r2 (some r1) y, ?_⟩
    intro _ h2
    have := GraphBasic.roots_set_parent g r2 (some r1) hl2
    rw [h2] at this
    simpa using this
  · simp only [hgt, if_false]
    have hlen := GraphBasic.length_set_parent g r1 (some r2)
    have hroots : g.par r1 = none → (g.set_parent r1 (some r2)).roots + 1 = g.roots := by
      intro h1
      have := GraphBasic.roots_set_parent g r1 (some r2) hl1
      rw [h1] at this
      simpa using this
    by_cases heq : g.rk r1 = g.rk r2
    · simp only [heq, if_true, and_true]
      refine ⟨_, rfl, by rw [GraphBasic.length_incr_rank, hlen], ?_, ?_, ?_⟩
      · intro y
        rw [GraphBasic.par_incr_rank, GraphBasic.par_set_parent _ _ _ _ hl1]
      · intro y
        rw [GraphBasic.rk_incr_rank _ _ _ (by rw [hlen]; exact hl2), GraphBasic.rk_set_parent]
      · intro h1 _
        rw [GraphBasic.roots_incr_rank]
        exact hroots h1
    · simp only [heq, if_false, and_false]
      exact ⟨_, rfl, hlen, fun y => GraphBasic.par_set_parent g r1 (some r2) y hl1,
        fun y => GraphBasic.rk_set_parent g r1 (some r2) y, fun h1 _ => hroots h1⟩

/-- `add_edge` between two nodes of a well-formed forest whose roots are `r1`
and `r2`: nothing but path compression happens when the roots are equal;
otherwise one root gets the other as parent, the first under the second unless
the first has the larger rank, and the rank of the second grows by one when the
ranks are equal. -/
theorem GraphBasic.add_edge_exact {g : GraphBasic} (hwf : g.Wf) {a b : Nat}
    (ha : a < g.M.length) (hb : b < g.M.length) {r1 r2 : Nat} (hr1 : Reach g.par a r1)
    (hr2 : Reach g.par b r2) :
    ∃ g4, g.add_edge (a : Int) (b : Int) = .ok g4 ∧ g4.Wf ∧ g4.M.length = g.M.length ∧
      (r1 = r2 → g.Compressed g4) ∧
      (r1 ≠ r2 → g4.roots + 1 = g.roots ∧
        (∀ y, g4.rk y = if y = r2 ∧ g.rk r1 = g.rk r2 then g.rk y + 1 else g.rk y) ∧
        (g.rk r1 > g.rk r2 → g4.par r2 = some r1 ∧ g4.par r1 = none) ∧
        (¬ g.rk r1 > g.rk r2 → g4.par r1 = some r2 ∧ g4.par r2 = none)) := by
  obtain ⟨g1, s1, hg1, hs1, hwf1, hc1⟩ := GraphBasic.get_root_spec hwf ha
  have := Reach.unique hs1 hr1
  subst this
  have hb1 : b < g1.M.length := by rw [hc1.length_eq]; exact hb
  obtain ⟨g2, s2, hg2, hs2, hwf2, hc2⟩ := GraphBasic.get_root_spec hwf1 hb1
  have := Reach.unique ((hc1.reach_iff _ _).1 hs2) hr2
  subst this
  have hc := hc1.trans hc2
  have hl1 : s1 < g2.M.length := by
    rw [hc.length_eq]; exact hwf.reach_lt hr1 ha
  have hl2 : s2 < g2.M.length := by
    rw [hc.length_eq]; exact hwf.reach_lt hr2 hb
  have h01 : g2.par s1 = none := ((hc.reach_iff _ _).2 hr1).root_none
  have h02 : g2.par s2 = none := ((hc.reach_iff _ _).2 hr2).root_none
  have hnn : ¬ ((a : Int) < 0 ∨ (b : Int) < 0) := by omega
  obtain ⟨g4, e4, hwf4, hlen4, heq4, _⟩ := GraphBasic.link_spec hwf2 h01 h02 hl1 hl2
  have hres : g.add_edge (a : Int) (b : Int) = .ok g4 := by
    simp only [GraphBasic.add_edge, hnn, if_false, Int.toNat_ofNat, hg1, hg2]
    exact e4
  refine ⟨g4, hres, hwf4, by rw [hlen4, hc.length_eq], ?_, ?_⟩
  · intro h
    rw [heq4 h]
    exact hc
  · intro hne
    obtain ⟨g5, e5, _, hpar5, hrk5, hroots5⟩ := GraphBasic.link_exact hl1 hl2 hne
    rw [e4] at e5
    cases e5
    refine ⟨by rw [← hc.roots_eq]; exact hroots5 h01 h02, ?_, ?_, ?_⟩
    · intro y
      rw [hrk5, hc.rk_eq, hc.rk_eq, hc.rk_eq]
    · intro hgt
      have hgt2 : g2.rk s1 > g2.rk s2 := by rw [hc.rk_eq, hc.rk_eq]; exact hgt
      constructor
      · rw [hpar5, if_pos hgt2, if_pos rfl]
      · rw [hpar5, if_pos hgt2, if_neg hne]; exact h01
    · intro hgt
      have hgt2 : ¬ g2.rk s1 > g2.rk s2 := by rw [hc.rk_eq, hc.rk_eq]; exact hgt
      constructor
      · rw [hpar5, if_neg hgt2, if_pos rfl]
      · rw [hpar5, if_neg hgt2, if_neg (Ne.symm hne)]; exact h02

/-- One call that returns keeps the forest well formed and splits no set. -/
theorem GraphBasic.call_spec {g g1 : GraphBasic} (hwf : g.Wf) {c : GraphBasic.Call}
    (h : g.call c = .ok g1) : g1.Wf ∧ g.Coarser g1 := by
  cases c with
  | add_edge a b =>
    simp only [GraphBasic.call] at h
    by_cases hneg : a < 0 ∨ b < 0
    · simp only [GraphBasic.add_edge, hneg, if_true] at h
      cases h
      exact ⟨hwf, GraphBasic.Coarser.self g⟩
    · have hdef := h
      simp only [GraphBasic.add_edge, hneg, if_false] at hdef
      cases h1 : g.get_root (some a.toNat) with
      | error e => rw [h1] at hdef; cases hdef
      | ok v1 =>
        have ha := GraphBasic.get_root_ok_lt h1
        obtain ⟨g1a, r1, e1, _, hwf1, hc1⟩ := GraphBasic.get_root_spec hwf ha
        rw [e1] at hdef
        simp only at hdef
        cases h2 : g1a.get_root (some b.toNat) with
        | error e => rw [h2] at hdef; cases hdef
        | ok v2 =>
          have hb := GraphBasic.get_root_ok_lt h2
          rw [hc1.length_eq] at hb
          obtain ⟨g4, e4, hwf4, hco4, _⟩ := GraphBasic.add_edge_coarser hwf ha hb
          have han : ((a.toNat : Nat) : Int) = a := Int.toNat_of_nonneg (by omega)
          have hbn : ((b.toNat : Nat) : Int) = b := Int.toNat_of_nonneg (by omega)
          rw [han, hbn, h] at e4
          cases e4
          exact ⟨hwf4, hco4⟩
  | get_root node =>
    simp only [GraphBasic.call] at h
    cases node with
    | none =>
      have : g.get_root none = .ok (g, none) := by
        unfold GraphBasic.get_root
        cases g.M.length <;> rfl
      rw [this] at h
      cases h
      exact ⟨hwf, GraphBasic.Coarser.self g⟩
    | some x =>
      cases h1 : g.get_root (some x) with
      | error e => rw [h1] at h; cases h
      | ok v =>
        have hx := GraphBasic.get_root_ok_lt h1
        obtain ⟨g1a, r1, e1, _, hwf1, hc1⟩ := GraphBasic.get_root_spec hwf hx
        rw [e1] at h
        cases h
        exact ⟨hwf1, hc1.length_eq, fun x y hxy => (hc1.same_set x y).2 hxy⟩

/-- A sequence of calls that returns keeps the forest well formed and splits
no set. -/
theorem GraphBasic.calls_spec : ∀ (cs : List GraphBasic.Call) (g g1 : GraphBasic), g.Wf →
    g.calls cs = .ok g1 → g1.Wf ∧ g.Coarser g1 := by
  intro cs
  induction cs with
  | nil =>
    intro g g1 hwf h
    cases h
    exact ⟨hwf, GraphBasic.Coarser.self g⟩
  | cons c cs ih =>
    intro g g1 hwf h
    simp only [GraphBasic.calls] at h
    cases hc : g.call c with
    | error e => rw [hc] at h; cases h
    | ok g2 =>
      rw [hc] at h
      obtain ⟨hwf2, hco2⟩ := GraphBasic.call_spec hwf hc
      obtain ⟨hwf1, hco1⟩ := ih g2 g1 hwf2 h
      exact ⟨hwf1, hco2.chain hco1⟩

/-- One call on indices of points returns. -/
theorem GraphBasic.call_returns {g : GraphBasic} (hwf : g.Wf) {c : GraphBasic.Call}
    (hc : c.InRange g.M.length) : ∃ g1, g.call c = .ok g1 := by
  cases c with
  | add_edge a b =>
    simp only [GraphBasic.call]
    by_cases hneg : a < 0 ∨ b < 0
    · exact ⟨g, by simp only [GraphBasic.add_edge, hneg, if_true]⟩
    · rcases hc with h | ⟨h1, h2⟩
      · exact absurd h hneg
      · have han : ((a.toNat : Nat) : Int) = a := Int.toNat_of_nonneg (by omega)
        have hbn : ((b.toNat : Nat) : Int) = b := Int.toNat_of_nonneg (by omega)
        obtain ⟨g4, e4, _⟩ := GraphBasic.add_edge_coarser hwf (a := a.toNat) (b := b.toNat)
          (by omega) (by omega)
        rw [han, hbn] at e4
        exact ⟨g4, e4⟩
  | get_root node =>
    simp only [GraphBasic.call]
    cases node with
    | none =>
      have : g.get_root none = .ok (g, none) := by
        unfold GraphBasic.get_root
        cases g.M.length <;> rfl
      rw [this]
      exact ⟨g, rfl⟩
    | some x =>
      obtain ⟨g1, r, e1, _⟩ := GraphBasic.get_root_spec hwf (hc x rfl)
      rw [e1]
      exact ⟨g1, rfl⟩

/-- A sequence of calls on indices of points returns. -/
theorem GraphBasic.calls_return : ∀ (cs : List GraphBasic.Call) (g : GraphBasic), g.Wf →
    (∀ c ∈ cs, c.InRange g.M.length) → ∃ g1, g.calls cs = .ok g1 := by
  intro cs
  induction cs with
  | nil =>
    intro g _ _
    exact ⟨g, rfl⟩
  | cons c cs ih =>
    intro g hwf hin
    obtain ⟨g2, h2⟩ := GraphBasic.call_returns hwf (hin c (List.mem_cons_self _ _))
    obtain ⟨hwf2, hco2⟩ := GraphBasic.call_spec hwf h2
    obtain ⟨g1, h1⟩ := ih g2 hwf2 (by
      intro c2 hc2
      rw [hco2.length_eq]
      exact hin c2 (List.mem_cons_of_mem _ hc2))
    exact ⟨g1, by simp only [GraphBasic.calls, h2]; exact h1⟩

/-- Every forest made of `GraphBasic(n)` by calls is well formed and has `n`
nodes. -/
theorem GraphBasic.Reachable.wf {n : Nat} {g : GraphBasic} (h : g.Reachable n) :
    g.Wf ∧ g.M.length = n := by
  obtain ⟨cs, hcs⟩ := h
  obtain ⟨hwf, hco⟩ := GraphBasic.calls_spec cs _ _ (GraphBasic.new_wf n) hcs
  exact ⟨hwf, by rw [hco.length_eq, GraphBasic.new_length]⟩

theorem GraphBasic.find_same_of_same_set {g : GraphBasic} (hwf : g.Wf) {a b : Nat}
    (ha : a < g.M.length) (hb : b < g.M.length) (h : g.SameSet a b) :
    ∃ r, g.find a = .ok (some r) ∧ g.find b = .ok (some r) := by
  obtain ⟨r, h1, h2⟩ := GraphBasic.find_spec hwf ha
  obtain ⟨r2, h3, h4⟩ := GraphBasic.find_spec hwf hb
  obtain ⟨s, h5, h6⟩ := h
  have e1 := Reach.unique h2 h5
  have e2 := Reach.unique h4 h6
  subst e1; subst e2
  exact ⟨_, h1, h3⟩

/-! ## The component graph: what a call changes, exactly -/

theorem Graph.Connected.conn_symm {g : Graph} {p q : Int} (h : g.Connected p q) :
    g.Connected q p := by
  obtain ⟨x, y, r, h1, h2, h3, h4⟩ := h
  exact ⟨y, x, r, h2, h1, h4, h3⟩

theorem Graph.Connected.conn_trans {g : Graph} {p q s : Int} (h1 : g.Connected p q)
    (h2 : g.Connected q s) : g.Connected p s := by
  obtain ⟨x, y, r, a1, a2, a3, a4⟩ := h1
  obtain ⟨y2, z, r2, b1, b2, b3, b4⟩ := h2
  rw [a2] at b1
  cases b1
  have := Reach.unique a4 b3
  subst this
  exact ⟨x, z, _, a1, b2, a3, b4⟩

theorem Graph.Connected.present_left {g : Graph} {p q : Int} (h : g.Connected p q) :
    ∃ x, g.M.lookup p = some (some x) := by
  obtain ⟨x, _, _, h1, _⟩ := h
  exact ⟨x, h1⟩

theorem Graph.Connected.iff_root {g : Graph} {p q : Int} {x y r1 r2 : Nat}
    (hp : g.M.lookup p = some (some x)) (hq : g.M.lookup q = some (some y))
    (hx : Reach g.par x r1) (hy : Reach g.par y r2) : g.Connected p q ↔ r1 = r2 := by
  constructor
  · rintro ⟨x2, y2, r, h1, h2, h3, h4⟩
    rw [hp] at h1; cases h1
    rw [hq] at h2; cases h2
    rw [Reach.unique hx h3, Reach.unique hy h4]
  · rintro rfl
    exact ⟨x, y, r1, hp, hq, hx, hy⟩

theorem Graph.at_eq_some {g : Graph} {p : Int} {x : Nat} (h : g.at p = some x) :
    g.M.lookup p = some (some x) := by
  unfold Graph.at at h
  split at h
  · next q hq => rw [hq, h]
  · cases h

theorem Graph.get_root_none (g : Graph) : g.get_root none = .error .undefined := by
  unfold Graph.get_root
  cases g.nodes.length <;> rfl

/-- A call of `get_root` that returns was made on a node of the graph; it
returns a node of the graph and keeps the number of nodes. -/
theorem Graph.get_root_fuel_lt : ∀ (fuel : Nat) (g : Graph) (x : Nat) (g1 : Graph) (r : Nat),
    g.get_root_fuel fuel (some x) = .ok (g1, r) →
    g1.nodes.length = g.nodes.length ∧ x < g.nodes.length ∧ r < g.nodes.length := by
  intro fuel
  induction fuel with
  | zero =>
    intro g x g1 r h
    simp [Graph.get_root_fuel] at h
  | succ f ih =>
    intro g x g1 r h
    cases hnd : g.nodes[x]? with
    | none => simp [Graph.get_root_fuel, hnd] at h
    | some nd =>
      have hx : x < g.nodes.length := (List.getElem?_eq_some.1 hnd).1
      cases hp : nd.parent with
      | none =>
        simp only [Graph.get_root_fuel, hnd, hp] at h
        cases h
        exact ⟨rfl, hx, hx⟩
      | some p =>
        simp only [Graph.get_root_fuel, hnd, hp] at h
        cases hrec : Graph.get_root_fuel f
            (g.modify_node p fun pn => { pn with children := pn.children.erase x }) (some p) with
        | error e => rw [hrec] at h; cases h
        | ok v =>
          obtain ⟨g2, r2⟩ := v
          rw [hrec] at h
          simp only at h
          cases h
          obtain ⟨h1, _, h3⟩ := ih _ _ _ _ hrec
          rw [Graph.length_modify_node] at h1 h3
          exact ⟨by rw [Graph.length_modify_node, Graph.length_modify_node, h1], hx, h3⟩

theorem Graph.cg_get_root_ok_lt {g : Graph} {x : Nat} {g1 : Graph} {r : Nat}
    (h : g.get_root (some x) = .ok (g1, r)) : x < g.nodes.length :=
  (Graph.get_root_fuel_lt _ _ _ _ _ h).2.1

/-- A node with a parent is, after `get_root` on it, a child of the returned
root: its parent link is the root and it is in the child set of the root. -/
theorem Graph.get_root_fuel_kid : ∀ (fuel : Nat) (g : Graph) (x p : Nat) (g1 : Graph) (r : Nat),
    g.get_root_fuel fuel (some x) = .ok (g1, r) → g.par x = some p →
    g1.par x = some r ∧ x ∈ g1.kids r := by
  intro fuel g x p g1 r h hp
  cases fuel with
  | zero => simp [Graph.get_root_fuel] at h
  | succ f =>
    have hx := Graph.cg_par_eq_some hp
    have hnd : g.nodes[x]? = some g.nodes[x] := List.getElem?_eq_getElem hx
    have hp2 := hp
    unfold Graph.par at hp2
    rw [hnd] at hp2
    simp only at hp2
    simp only [Graph.get_root_fuel, hnd, hp2] at h
    cases hrec : Graph.get_root_fuel f
        (g.modify_node p fun pn => { pn with children := pn.children.erase x }) (some p) with
    | error e => rw [hrec] at h; cases h
    | ok v =>
      obtain ⟨g2, r2⟩ := v
      rw [hrec] at h
      simp only at h
      cases h
      obtain ⟨h1, _, h3⟩ := Graph.get_root_fuel_lt _ _ _ _ _ hrec
      rw [Graph.length_modify_node] at h1 h3
      have hx2 : x < g2.nodes.length := by rw [h1]; exact hx
      have hr3 : r < (g2.modify_node x fun n => { n with parent := some r }).nodes.length := by
        rw [Graph.length_modify_node, h1]; exact h3
      constructor
      · have e := Graph.par_modify_node_same
          (g2.modify_node x fun n => { n with parent := some r }) r
          (fun rn => { rn with children := set_insert rn.children x }) (fun _ => rfl) x
        rw [e, Graph.par_modify_parent g2 x (some r) x hx2, if_pos rfl]
      · rw [Graph.kids_modify_children _ r (fun l => set_insert l x) r hr3, if_pos rfl,
          mem_set_insert]
        exact Or.inr rfl

/-- `merge_components` on two different roots of a well-formed graph. -/
theorem Graph.merge_components_exact {g : Graph} (hwf : g.Wf) {parent child : Nat}
    (hp : parent < g.nodes.length) (hc : child < g.nodes.length) (hne : child ≠ parent)
    (hp0 : g.par parent = none) (hc0 : g.par child = none)
    (hrank : g.rk child ≤ g.rk parent) :
    (g.merge_components parent child).Wf ∧
    (g.merge_components parent child).nodes.length = g.nodes.length ∧
    (g.merge_components parent child).M = g.M ∧
    (∀ z, (g.merge_components parent child).payload z = g.payload z) ∧
    (∀ z s, Reach (g.merge_components parent child).par z s ↔
      ∃ t, Reach g.par z t ∧ s = if t = child then parent else t) ∧
    (g.merge_components parent child).par child = some parent ∧
    (g.merge_components parent child).par parent = none ∧
    (∀ z, (g.merge_components parent child).rk z =
      if z = parent ∧ g.rk parent = g.rk child then g.rk z + 1 else g.rk z) ∧
    (g.merge_components parent child).intersecting_sets =
      merged_seen g.intersecting_sets parent child ∧
    (g.merge_components parent child).roots + 1 = g.roots ∧
    child ∈ (g.merge_components parent child).kids parent := by
  obtain ⟨hwf4, hreach⟩ := Graph.merge_components_spec hwf hp hc hne hp0 hc0 hrank
  obtain ⟨hlen, hpar, hrk, hkids, hpay, hroots, hM, hS⟩ := Graph.merge_components_view g hp hc
  refine ⟨hwf4, hlen, hM, hpay, hreach, by rw [hpar, if_pos rfl], by
    rw [hpar, if_neg (Ne.symm hne)]; exact hp0, hrk, hS, ?_, ?_⟩
  · rw [hc0] at hroots
    simpa using hroots
  · rw [hkids, if_pos rfl, mem_set_insert]
    exact Or.inr rfl

/-- `Graph::add_edge` between two points of a well-formed graph whose nodes
resolve to the roots `r1` and `r2`: nothing but path compression happens when
the roots are equal; otherwise `merge_components` makes one root the parent of
the other, the second the parent of the first unless the first has the larger
rank. -/
theorem Graph.cg_add_edge_exact {g : Graph} (hwf : g.Wf) {a b : Int} {x y : Nat}
    (ha : g.M.lookup a = some (some x)) (hb : g.M.lookup b = some (some y)) {r1 r2 : Nat}
    (hr1 : Reach g.par x r1) (hr2 : Reach g.par y r2) :
    ∃ g4, g.add_edge a b = .ok g4 ∧ g4.Wf ∧ g4.nodes.length = g.nodes.length ∧ g4.M = g.M ∧
      (∀ z, g4.payload z = g.payload z) ∧
      (r1 = r2 → g.Compressed g4) ∧
      (r1 ≠ r2 → ∃ parent child,
        ((parent = r1 ∧ child = r2 ∧ g.rk r2 < g.rk r1) ∨
          (parent = r2 ∧ child = r1 ∧ g.rk r1 ≤ g.rk r2)) ∧
        (∀ z s, Reach g4.par z s ↔ ∃ t, Reach g.par z t ∧ s = if t = child then parent else t) ∧
        g4.par child = some parent ∧ g4.par parent = none ∧
        (∀ z, g4.rk z = if z = parent ∧ g.rk parent = g.rk child then g.rk z + 1 else g.rk z) ∧
        g4.intersecting_sets = merged_seen g.intersecting_sets parent child ∧
        g4.roots + 1 = g.roots ∧ child ∈ g4.kids parent) := by
  have hx := (hwf.registry.lookup_lt ha).1
  have hy := (hwf.registry.lookup_lt hb).1
  obtain ⟨g1, s1, hg1, hs1, hwf1, hc1⟩ := Graph.cg_get_root_spec hwf hx
  have := Reach.unique hs1 hr1
  subst this
  have hb1 : g1.M.lookup b = some (some y) := by rw [hc1.M_eq]; exact hb
  have hy1 : y < g1.nodes.length := by rw [hc1.length_eq]; exact hy
  obtain ⟨g2, s2, hg2, hs2, hwf2, hc2⟩ := Graph.cg_get_root_spec hwf1 hy1
  have := Reach.unique ((hc1.reach_iff _ _).1 hs2) hr2
  subst this
  have hc := hc1.trans_graph hc2
  have hr1' : Reach g2.par x s1 := (hc.reach_iff _ _).2 hr1
  have hr2' : Reach g2.par y s2 := (hc.reach_iff _ _).2 hr2
  have hx2 : x < g2.nodes.length := by rw [hc.length_eq]; exact hx
  have hy2 : y < g2.nodes.length := by rw [hc.length_eq]; exact hy
  have hl1 : s1 < g2.nodes.length := hwf2.forest.cg_reach_lt hr1' hx2
  have hl2 : s2 < g2.nodes.length := hwf2.forest.cg_reach_lt hr2' hy2
  by_cases hne : s1 = s2
  · refine ⟨g2, by
      simp only [Graph.add_edge, Graph.at_of_lookup ha, hg1, Graph.at_of_lookup hb1, hg2, ne_eq,
        hne, not_true_eq_false, if_false], hwf2, hc.length_eq, hc.M_eq, hc.payload_eq,
      fun _ => hc, fun h => absurd hne h⟩
  · have hn1 : g2.nodes[s1]? = some g2.nodes[s1] := List.getElem?_eq_getElem hl1
    have hn2 : g2.nodes[s2]? = some g2.nodes[s2] := List.getElem?_eq_getElem hl2
    have hk1 : g2.rk s1 = g2.nodes[s1].rank := Graph.cg_rk_eq_of_getElem? hn1
    have hk2 : g2.rk s2 = g2.nodes[s2].rank := Graph.cg_rk_eq_of_getElem? hn2
    have e1 : g2.rk s1 = g.rk s1 := hc.rk_eq s1
    have e2 : g2.rk s2 = g.rk s2 := hc.rk_eq s2
    by_cases hgt : g2.nodes[s1].rank > g2.nodes[s2].rank
    · have hres : g.add_edge a b = .ok (g2.merge_components s1 s2) := by
        simp only [Graph.add_edge, Graph.at_of_lookup ha, hg1, Graph.at_of_lookup hb1, hg2, ne_eq,
          hne, not_false_eq_true, if_true, hn1, hn2, hgt]
      obtain ⟨m1, m2, m3, m4, m5, m6, m7, m8, m9, m10, m11⟩ :=
        Graph.merge_components_exact hwf2 hl1 hl2 (Ne.symm hne)
          hr1'.root_none hr2'.root_none (by omega)
      refine ⟨_, hres, m1, by rw [m2, hc.length_eq], by rw [m3, hc.M_eq],
        fun z => by rw [m4, hc.payload_eq], fun h => absurd h hne, fun _ => ⟨s1, s2,
          Or.inl ⟨rfl, rfl, by omega⟩, ?_, m6, m7, ?_, by rw [m9, hc.seen_eq],
          by rw [m10, hc.roots_eq], m11⟩⟩
      · intro z s
        rw [m5]
        constructor
        · rintro ⟨t, ht, hs⟩
          exact ⟨t, (hc.reach_iff _ _).1 ht, hs⟩
        · rintro ⟨t, ht, hs⟩
          exact ⟨t, (hc.reach_iff _ _).2 ht, hs⟩
      · intro z
        rw [m8]
        simp only [hc.rk_eq]
    · have hres : g.add_edge a b = .ok (g2.merge_components s2 s1) := by
        simp only [Graph.add_edge, Graph.at_of_lookup ha, hg1, Graph.at_of_lookup hb1, hg2, ne_eq,
          hne, not_false_eq_true, if_true, hn1, hn2, hgt, if_false]
      obtain ⟨m1, m2, m3, m4, m5, m6, m7, m8, m9, m10, m11⟩ :=
        Graph.merge_components_exact hwf2 hl2 hl1 hne
          hr2'.root_none hr1'.root_none (by omega)
      refine ⟨_, hres, m1, by rw [m2, hc.length_eq], by rw [m3, hc.M_eq],
        fun z => by rw [m4, hc.payload_eq], fun h => absurd h hne, fun _ => ⟨s2, s1,
          Or.inr ⟨rfl, rfl, by omega⟩, ?_, m6, m7, ?_, by rw [m9, hc.seen_eq],
          by rw [m10, hc.roots_eq], m11⟩⟩
      · intro z s
        rw [m5]
        constructor
        · rintro ⟨t, ht, hs⟩
          exact ⟨t, (hc.reach_iff _ _).1 ht, hs⟩
        · rintro ⟨t, ht, hs⟩
          exact ⟨t, (hc.reach_iff _ _).2 ht, hs⟩
      · intro z
        rw [m8]
        simp only [hc.rk_eq]

/-! ## The component graph: components and seen marks after a call -/

theorem Linked.lift {E F : Int → Int → Prop} (h : ∀ a b, E a b → Linked F a b) {p q : Int}
    (hl : Linked E p q) : Linked F p q := by
  induction hl with
  | same p => exact Linked.same p
  | edge he => exact h _ _ he
  | flip _ ih => exact Linked.flip ih
  | chain _ _ ih1 ih2 => exact Linked.chain ih1 ih2

theorem Linked.mono {E F : Int → Int → Prop} (h : ∀ a b, E a b → F a b) {p q : Int}
    (hl : Linked E p q) : Linked F p q :=
  hl.lift fun a b he => Linked.edge (h a b he)

/-- A chain of edges between points of one component stays in the component. -/
theorem Linked.to_connected {g : Graph} {E : Int → Int → Prop}
    (hE : ∀ a b, E a b → g.Connected a b) {p q : Int} (hl : Linked E p q) :
    (g.Connected p p ∨ g.Connected q q) → g.Connected p q := by
  induction hl with
  | same p =>
    intro h
    rcases h with h | h <;> exact h
  | edge he =>
    intro _
    exact hE _ _ he
  | flip _ ih =>
    intro h
    exact (ih h.symm).conn_symm
  | chain _ _ ih1 ih2 =>
    rename_i a b c _ _
    intro h
    rcases h with h | h
    · have h1 := ih1 (Or.inl h)
      have hb : g.Connected b b := h1.conn_symm.conn_trans h1
      exact h1.conn_trans (ih2 (Or.inl hb))
    · have h2 := ih2 (Or.inr h)
      have hb : g.Connected b b := h2.conn_trans h2.conn_symm
      exact (ih1 (Or.inr hb)).conn_trans h2

/-- The components and the seen marks after `Graph::add_edge`: two points are
in one component exactly when they were, or the edge joins their components;
a point is in a seen component exactly when its new component holds a point
whose component was seen. -/
theorem Graph.add_edge_conn {g : Graph} (hwf : g.Wf) {a b : Int} {x y : Nat}
    (ha : g.M.lookup a = some (some x)) (hb : g.M.lookup b = some (some y)) :
    ∃ g4, g.add_edge a b = .ok g4 ∧ g4.Wf ∧ g4.nodes.length = g.nodes.length ∧ g4.M = g.M ∧
      (∀ p q, g4.Connected p q ↔
        (g.Connected p q ∨ (g.Connected p a ∧ g.Connected q b) ∨
          (g.Connected p b ∧ g.Connected q a))) ∧
      (∀ p, g4.SeenPoint p ↔ ∃ q, g4.Connected p q ∧ g.SeenPoint q) := by
  obtain ⟨r1, hr1⟩ := hwf.forest.cg_exists_reach x
  obtain ⟨r2, hr2⟩ := hwf.forest.cg_exists_reach y
  obtain ⟨g4, e4, hwf4, hlen4, hM4, hpay4, heq, hne⟩ := Graph.cg_add_edge_exact hwf ha hb hr1 hr2
  refine ⟨g4, e4, hwf4, hlen4, hM4, ?_⟩
  by_cases h12 : r1 = r2
  · have hc := heq h12
    have hab : g.Connected a b := ⟨x, y, r1, ha, hb, hr1, h12 ▸ hr2⟩
    constructor
    · intro p q
      rw [Graph.Connected.connected_of_compressed hc]
      constructor
      · exact fun h => Or.inl h
      · rintro (h | ⟨h1, h2⟩ | ⟨h1, h2⟩)
        · exact h
        · exact (h1.conn_trans hab).conn_trans h2.conn_symm
        · exact (h1.conn_trans hab.conn_symm).conn_trans h2.conn_symm
    · intro p
      rw [Graph.SeenPoint.seen_of_compressed hc]
      constructor
      · rintro ⟨z, r, h1, h2, h3⟩
        exact ⟨p, (Graph.Connected.connected_of_compressed hc).2 ⟨z, z, r, h1, h1, h2, h2⟩,
          z, r, h1, h2, h3⟩
      · rintro ⟨q, h1, h2⟩
        exact Graph.SeenPoint.of_connected ((Graph.Connected.connected_of_compressed hc).1 h1) h2
  · obtain ⟨parent, child, hor, hreach, _, hp0, _, hS, _, _⟩ := hne h12
    have hpc : parent ≠ child := by rcases hor with ⟨h1, h2, _⟩ | ⟨h1, h2, _⟩ <;> omega
    have hxl := (hwf.registry.lookup_lt ha).1
    have hyl := (hwf.registry.lookup_lt hb).1
    have hr1l := hwf.forest.cg_reach_lt hr1 hxl
    have hr2l := hwf.forest.cg_reach_lt hr2 hyl
    have hconn : ∀ p q, g4.Connected p q ↔
        (g.Connected p q ∨ (g.Connected p a ∧ g.Connected q b) ∨
          (g.Connected p b ∧ g.Connected q a)) := by
      intro p q
      constructor
      · rintro ⟨x2, y2, s, h1, h2, h3, h4⟩
        rw [hM4] at h1 h2
        obtain ⟨tx, htx, hsx⟩ := (hreach _ _).1 h3
        obtain ⟨ty, hty, hsy⟩ := (hreach _ _).1 h4
        by_cases hxy : tx = ty
        · subst hxy
          exact Or.inl ⟨x2, y2, tx, h1, h2, htx, hty⟩
        · have hcase : (tx = r1 ∧ ty = r2) ∨ (tx = r2 ∧ ty = r1) := by
            rw [hsx] at hsy
            rcases hor with ⟨e1, e2, _⟩ | ⟨e1, e2, _⟩ <;> split_ifs at hsy <;> omega
          rcases hcase with ⟨e1, e2⟩ | ⟨e1, e2⟩
          · subst e1; subst e2
            exact Or.inr (Or.inl ⟨⟨x2, x, _, h1, ha, htx, hr1⟩, ⟨y2, y, _, h2, hb, hty, hr2⟩⟩)
          · subst e1; subst e2
            exact Or.inr (Or.inr ⟨⟨x2, y, _, h1, hb, htx, hr2⟩, ⟨y2, x, _, h2, ha, hty, hr1⟩⟩)
      · rintro (⟨x2, y2, t, h1, h2, h3, h4⟩ | ⟨⟨x2, xa, t, h1, h2, h3, h4⟩,
          ⟨y2, yb, t2, k1, k2, k3, k4⟩⟩ | ⟨⟨x2, yb, t, h1, h2, h3, h4⟩,
          ⟨y2, xa, t2, k1, k2, k3, k4⟩⟩)
        · exact ⟨x2, y2, _, by rw [hM4]; exact h1, by rw [hM4]; exact h2,
            (hreach _ _).2 ⟨t, h3, rfl⟩, (hreach _ _).2 ⟨t, h4, rfl⟩⟩
        · rw [ha] at h2; cases h2
          rw [hb] at k2; cases k2
          have e1 := Reach.unique h4 hr1
          have e2 := Reach.unique k4 hr2
          subst e1; subst e2
          refine ⟨x2, y2, _, by rw [hM4]; exact h1, by rw [hM4]; exact k1,
            (hreach _ _).2 ⟨t, h3, rfl⟩, (hreach _ _).2 ⟨t2, k3, ?_⟩⟩
          rcases hor with ⟨e1, e2, _⟩ | ⟨e1, e2, _⟩ <;> split_ifs <;> omega
        · rw [hb] at h2; cases h2
          rw [ha] at k2; cases k2
          have e1 := Reach.unique h4 hr2
          have e2 := Reach.unique k4 hr1
          subst e1; subst e2
          refine ⟨x2, y2, _, by rw [hM4]; exact h1, by rw [hM4]; exact k1,
            (hreach _ _).2 ⟨t, h3, rfl⟩, (hreach _ _).2 ⟨t2, k3, ?_⟩⟩
          rcases hor with ⟨e1, e2, _⟩ | ⟨e1, e2, _⟩ <;> split_ifs <;> omega
    have hpl : parent < g.nodes.length := by
      rcases hor with ⟨e1, _, _⟩ | ⟨e1, _, _⟩ <;> omega
    have hcl : child < g.nodes.length := by
      rcases hor with ⟨_, e1, _⟩ | ⟨_, e1, _⟩ <;> omega
    have hc0 : g.par child = none := by
      rcases hor with ⟨_, e1, _⟩ | ⟨_, e1, _⟩
      · rw [e1]; exact hr2.root_none
      · rw [e1]; exact hr1.root_none
    have hp0g : g.par parent = none := by
      rcases hor with ⟨e1, _, _⟩ | ⟨e1, _, _⟩
      · rw [e1]; exact hr1.root_none
      · rw [e1]; exact hr2.root_none
    have hkeyp := hwf.registry.key_node parent _ (List.getElem?_eq_getElem hpl)
    have hkeyc := hwf.registry.key_node child _ (List.getElem?_eq_getElem hcl)
    refine ⟨hconn, ?_⟩
    intro p
    constructor
    · rintro ⟨z, s, h1, h2, h3⟩
      rw [hM4] at h1
      rw [hS, mem_merged_seen hwf.registry.seen_nodup] at h3
      obtain ⟨t, ht, hs⟩ := (hreach _ _).1 h2
      rcases h3 with ⟨h3, h4⟩ | ⟨h3, h4⟩
      · by_cases htc : t = child
        · rw [if_pos htc] at hs
          rw [hs] at h2 h3
          exact ⟨_, ⟨z, parent, parent, by rw [hM4]; exact h1, by rw [hM4]; exact hkeyp, h2,
            Reach.root hp0⟩, parent, parent, hkeyp, Reach.root hp0g, h3⟩
        · rw [if_neg htc] at hs
          subst hs
          exact ⟨p, ⟨z, z, s, by rw [hM4]; exact h1, by rw [hM4]; exact h1, h2, h2⟩,
            z, s, h1, ht, h3⟩
      · subst h3
        refine ⟨_, ⟨z, child, s, by rw [hM4]; exact h1, by rw [hM4]; exact hkeyc, h2,
          (hreach _ _).2 ⟨child, Reach.root hc0, by rw [if_pos rfl]⟩⟩,
          child, child, hkeyc, Reach.root hc0, h4⟩
    · rintro ⟨q, ⟨z, y2, s, h1, h2, h3, h4⟩, ⟨y3, t, k1, k2, k3⟩⟩
      rw [hM4] at h2
      rw [h2] at k1
      cases k1
      refine ⟨z, s, h1, h3, ?_⟩
      rw [hS, mem_merged_seen hwf.registry.seen_nodup]
      obtain ⟨t2, ht2, hs2⟩ := (hreach _ _).1 h4
      have := Reach.unique ht2 k2
      subst this
      by_cases htc : t2 = child
      · rw [if_pos htc] at hs2
        exact Or.inr ⟨hs2, htc ▸ k3⟩
      · rw [if_neg htc] at hs2
        subst hs2
        exact Or.inl ⟨k3, htc⟩

/-- The components after `add_node` with a new payload: the new node is alone. -/
theorem Graph.add_node_conn {g : Graph} (hwf : g.Wf) {k : Int} (hk : g.M.lookup k = none)
    (p q : Int) :
    (g.add_node k).Connected p q ↔ (g.Connected p q ∨ (p = k ∧ q = k)) := by
  have hN : g.par g.nodes.length = none := Graph.cg_par_none_of_ge (le_refl _)
  have hreach : ∀ z s, Reach (g.add_node k).par z s ↔ Reach g.par z s := fun z s =>
    ⟨fun h => Reach.congr (fun y => (Graph.par_add_node g k y).symm) h,
      fun h => Reach.congr (Graph.par_add_node g k) h⟩
  constructor
  · rintro ⟨x, y, r, h1, h2, h3, h4⟩
    rw [Graph.lookup_add_node] at h1 h2
    rw [hreach] at h3 h4
    by_cases hp : p = k
    · by_cases hq : q = k
      · exact Or.inr ⟨hp, hq⟩
      · exfalso
        rw [if_pos hp] at h1
        rw [if_neg hq] at h2
        cases h1
        have e := Reach.self_of_root hN h3
        have hy := (hwf.registry.lookup_lt h2).1
        have := hwf.forest.cg_reach_lt h4 hy
        omega
    · rw [if_neg hp] at h1
      by_cases hq : q = k
      · exfalso
        rw [if_pos hq] at h2
        cases h2
        have e := Reach.self_of_root hN h4
        have hx := (hwf.registry.lookup_lt h1).1
        have := hwf.forest.cg_reach_lt h3 hx
        omega
      · rw [if_neg hq] at h2
        exact Or.inl ⟨x, y, r, h1, h2, h3, h4⟩
  · rintro (⟨x, y, r, h1, h2, h3, h4⟩ | ⟨rfl, rfl⟩)
    · have hp : p ≠ k := by
        rintro rfl
        rw [hk] at h1; cases h1
      have hq : q ≠ k := by
        rintro rfl
        rw [hk] at h2; cases h2
      exact ⟨x, y, r, by rw [Graph.lookup_add_node, if_neg hp]; exact h1,
        by rw [Graph.lookup_add_node, if_neg hq]; exact h2, (hreach _ _).2 h3, (hreach _ _).2 h4⟩
    · exact ⟨g.nodes.length, g.nodes.length, g.nodes.length,
        by rw [Graph.lookup_add_node, if_pos rfl], by rw [Graph.lookup_add_node, if_pos rfl],
        (hreach _ _).2 (Reach.root hN), (hreach _ _).2 (Reach.root hN)⟩

/-- The seen marks after `add_node` with a new payload: the new node is in no
seen component. -/
theorem Graph.add_node_seen {g : Graph} (hwf : g.Wf) {k : Int} (hk : g.M.lookup k = none)
    (p : Int) : (g.add_node k).SeenPoint p ↔ g.SeenPoint p := by
  have hN : g.par g.nodes.length = none := Graph.cg_par_none_of_ge (le_refl _)
  constructor
  · rintro ⟨x, r, h1, h2, h3⟩
    rw [Graph.lookup_add_node] at h1
    have h2' : Reach g.par x r := Reach.congr (fun y => (Graph.par_add_node g k y).symm) h2
    have h3' : r ∈ g.intersecting_sets := h3
    by_cases hp : p = k
    · exfalso
      rw [if_pos hp] at h1
      cases h1
      have e := Reach.self_of_root hN h2'
      have := (hwf.registry.seen_root r h3').1
      omega
    · rw [if_neg hp] at h1
      exact ⟨x, r, h1, h2', h3'⟩
  · exact Graph.SeenPoint.add_node hk

/-! ## The component graph after a sequence of calls -/

theorem Graph.added_append (l1 l2 : List Graph.Call) :
    Graph.added (l1 ++ l2) = Graph.added l1 ++ Graph.added l2 := by
  induction l1 with
  | nil => rfl
  | cons c l1 ih => cases c <;> simp [Graph.added, ih]

theorem Graph.edges_append (l1 l2 : List Graph.Call) :
    Graph.edges (l1 ++ l2) = Graph.edges l1 ++ Graph.edges l2 := by
  induction l1 with
  | nil => rfl
  | cons c l1 ih => cases c <;> simp [Graph.edges, ih]

theorem Graph.marked_append (l1 l2 : List Graph.Call) :
    Graph.marked (l1 ++ l2) = Graph.marked l1 ++ Graph.marked l2 := by
  induction l1 with
  | nil => rfl
  | cons c l1 ih => cases c <;> simp [Graph.marked, ih]

theorem Graph.Registry.lookup_none {g : Graph} (hr : g.Registry) {p : Int}
    (h : ¬ ∃ x, g.M.lookup p = some (some x)) : g.M.lookup p = none := by
  cases hl : g.M.lookup p with
  | none => rfl
  | some v =>
    exfalso
    obtain ⟨x, _, hx, _, _⟩ := hr.node_key p v hl
    exact h ⟨x, by rw [hl, hx]⟩

/-- A chain of edges that starts outside the set the edges lie in goes nowhere. -/
theorem Linked.inside {E : Int → Int → Prop} {A : Int → Prop}
    (hE : ∀ a b, E a b → A a ∧ A b) {p q : Int} (hl : Linked E p q) :
    p = q ∨ (A p ∧ A q) := by
  induction hl with
  | same p => exact Or.inl rfl
  | edge he => exact Or.inr (hE _ _ he)
  | flip _ ih =>
    rcases ih with h | ⟨h1, h2⟩
    · exact Or.inl h.symm
    · exact Or.inr ⟨h2, h1⟩
  | chain _ _ ih1 ih2 =>
    rcases ih1 with h | ⟨h1, h2⟩
    · subst h; exact ih2
    · rcases ih2 with h | ⟨h3, h4⟩
      · subst h; exact Or.inr ⟨h1, h2⟩
      · exact Or.inr ⟨h1, h4⟩

theorem Graph.Connected.conn_of_same {g g1 : Graph} (hM : g1.M = g.M)
    (hreach : ∀ y s, Reach g1.par y s ↔ Reach g.par y s) (p q : Int) :
    g1.Connected p q ↔ g.Connected p q := by
  constructor
  · rintro ⟨x, y, r, h1, h2, h3, h4⟩
    exact ⟨x, y, r, by rw [← hM]; exact h1, by rw [← hM]; exact h2, (hreach _ _).1 h3,
      (hreach _ _).1 h4⟩
  · rintro ⟨x, y, r, h1, h2, h3, h4⟩
    exact ⟨x, y, r, by rw [hM]; exact h1, by rw [hM]; exact h2, (hreach _ _).2 h3,
      (hreach _ _).2 h4⟩

/-- A call of `add_edge` that returns was made on two payloads of the graph. -/
theorem Graph.add_edge_ok_present {g g4 : Graph} (hwf : g.Wf) {a b : Int}
    (h : g.add_edge a b = .ok g4) :
    ∃ x y, g.M.lookup a = some (some x) ∧ g.M.lookup b = some (some y) := by
  cases hat : g.at a with
  | none =>
    simp [Graph.add_edge, hat, Graph.get_root_none] at h
  | some x =>
    have ha := Graph.at_eq_some hat
    obtain ⟨g1, r1, e1, _, _, hc1⟩ := Graph.cg_get_root_spec hwf (hwf.registry.lookup_lt ha).1
    cases hbt : g1.at b with
    | none =>
      simp [Graph.add_edge, hat, e1, hbt, Graph.get_root_none] at h
    | some y =>
      have hb := Graph.at_eq_some hbt
      rw [hc1.M_eq] at hb
      exact ⟨x, y, ha, hb⟩

theorem Graph.component_seen_ok_present {g : Graph} {v : Graph × Bool} {n : Int}
    (h : g.component_seen n = .ok v) : ∃ x, g.M.lookup n = some (some x) := by
  cases hat : g.at n with
  | none =>
    simp [Graph.component_seen, hat, Graph.get_root_none] at h
  | some x => exact ⟨x, Graph.at_eq_some hat⟩

theorem Graph.get_connected_component_ok_present {g : Graph} {v : Graph × List Int} {n : Int}
    (h : g.get_connected_component n = .ok v) : ∃ x, g.M.lookup n = some (some x) := by
  cases hat : g.at n with
  | none =>
    simp [Graph.get_connected_component, hat, Graph.get_root_none] at h
  | some x => exact ⟨x, Graph.at_eq_some hat⟩

/-- A graph with the nodes, the map, the seen-set and the root of every node of
`g` has the history of `g`. -/
theorem Graph.HistInv.hist_of_compressed {cs : List Graph.Call} {g g1 : Graph}
    (h : Graph.HistInv cs g) (hwf1 : g1.Wf) (hc : g.Compressed g1) : Graph.HistInv cs g1 := by
  refine ⟨hwf1, ?_, h.edges_in, ?_, ?_, h.marked_in⟩
  · intro p
    rw [hc.M_eq]
    exact h.keys p
  · intro p q
    rw [Graph.Connected.connected_of_compressed hc]
    exact h.conn p q
  · intro p
    rw [Graph.SeenPoint.seen_of_compressed hc, h.seen p]
    constructor
    · rintro ⟨m, hm, hcm⟩
      exact ⟨m, hm, (Graph.Connected.connected_of_compressed hc).2 hcm⟩
    · rintro ⟨m, hm, hcm⟩
      exact ⟨m, hm, (Graph.Connected.connected_of_compressed hc).1 hcm⟩

/-- One more call that returns: the history of the graph grows by the call. -/
theorem Graph.HistInv.hist_step {pre : List Graph.Call} {g g1 : Graph}
    (h : Graph.HistInv pre g) {c : Graph.Call} (hc : g.call c = .ok g1)
    (hnd : (Graph.added (pre ++ [c])).Nodup) : Graph.HistInv (pre ++ [c]) g1 := by
  have hwf := h.wf
  cases c with
  | add_node k =>
    simp only [Graph.call] at hc
    cases hc
    have hA : Graph.added (pre ++ [Graph.Call.add_node k]) = Graph.added pre ++ [k] := by
      rw [Graph.added_append]; rfl
    have hEd : Graph.edges (pre ++ [Graph.Call.add_node k]) = Graph.edges pre := by
      rw [Graph.edges_append]; simp [Graph.edges]
    have hMk : Graph.marked (pre ++ [Graph.Call.add_node k]) = Graph.marked pre := by
      rw [Graph.marked_append]; simp [Graph.marked]
    rw [hA] at hnd
    have hkA : k ∉ Graph.added pre := by
      intro hk
      have := List.nodup_append.1 hnd
      exact this.2.2 hk (List.mem_singleton.2 rfl)
    have hk : g.M.lookup k = none :=
      hwf.registry.lookup_none fun hx => hkA ((h.keys k).1 hx)
    have hconn := Graph.add_node_conn hwf hk
    refine ⟨Graph.add_node_wf hwf hk, ?_, ?_, ?_, ?_, ?_⟩
    · intro p
      rw [hA, Graph.lookup_add_node, List.mem_append, List.mem_singleton, ← h.keys p]
      by_cases hp : p = k
      · simp [hp]
      · simp [hp]
    · intro a b hab
      rw [hEd] at hab
      rw [hA]
      obtain ⟨h1, h2⟩ := h.edges_in a b hab
      exact ⟨List.mem_append_left _ h1, List.mem_append_left _ h2⟩
    · intro p q
      rw [hconn, hA, hEd, h.conn p q]
      simp only [List.mem_append, List.mem_singleton]
      constructor
      · rintro (⟨h1, h2, h3⟩ | ⟨rfl, rfl⟩)
        · exact ⟨Or.inl h1, Or.inl h2, h3⟩
        · exact ⟨Or.inr rfl, Or.inr rfl, Linked.same _⟩
      · rintro ⟨h1, h2, h3⟩
        rcases Linked.inside (A := fun a => a ∈ Graph.added pre) h.edges_in h3 with
          e | ⟨e1, e2⟩
        · subst e
          rcases h1 with h1 | h1
          · exact Or.inl ⟨h1, h1, h3⟩
          · exact Or.inr ⟨h1, h1⟩
        · exact Or.inl ⟨e1, e2, h3⟩
    · intro p
      rw [Graph.add_node_seen hwf hk, hMk, h.seen p]
      constructor
      · rintro ⟨m, hm, hcm⟩
        exact ⟨m, hm, (hconn p m).2 (Or.inl hcm)⟩
      · rintro ⟨m, hm, hcm⟩
        rcases (hconn p m).1 hcm with h1 | ⟨_, h2⟩
        · exact ⟨m, hm, h1⟩
        · exact absurd (h2 ▸ h.marked_in m hm) hkA
    · intro m hm
      rw [hMk] at hm
      rw [hA]
      exact List.mem_append_left _ (h.marked_in m hm)
  | add_edge a b =>
    simp only [Graph.call] at hc
    have hA : Graph.added (pre ++ [Graph.Call.add_edge a b]) = Graph.added pre := by
      rw [Graph.added_append]; simp [Graph.added]
    have hEd : Graph.edges (pre ++ [Graph.Call.add_edge a b]) = Graph.edges pre ++ [(a, b)] := by
      rw [Graph.edges_append]; rfl
    have hMk : Graph.marked (pre ++ [Graph.Call.add_edge a b]) = Graph.marked pre := by
      rw [Graph.marked_append]; simp [Graph.marked]
    obtain ⟨x, y, ha, hb⟩ := Graph.add_edge_ok_present hwf hc
    obtain ⟨g4, e4, hwf4, _, hM4, hconn, hseen⟩ := Graph.add_edge_conn hwf ha hb
    rw [hc] at e4
    cases e4
    have haA : a ∈ Graph.added pre := (h.keys a).1 ⟨x, ha⟩
    have hbA : b ∈ Graph.added pre := (h.keys b).1 ⟨y, hb⟩
    have haa : g.Connected a a := Graph.SeenPoint.refl_connected hwf ha
    have hbb : g.Connected b b := Graph.SeenPoint.refl_connected hwf hb
    have hmono : ∀ p q, g.Connected p q → g1.Connected p q := fun p q hpq =>
      (hconn p q).2 (Or.inl hpq)
    have hconn2 : ∀ p q : Int, g1.Connected p q ↔
        (p ∈ Graph.added pre ∧ q ∈ Graph.added pre ∧
          Linked (fun a2 b2 => (a2, b2) ∈ Graph.edges pre ++ [(a, b)]) p q) := by
      intro p q
      constructor
      · intro hpq
        rcases (hconn p q).1 hpq with h1 | ⟨h1, h2⟩ | ⟨h1, h2⟩
        · obtain ⟨k1, k2, k3⟩ := (h.conn p q).1 h1
          exact ⟨k1, k2, k3.mono fun _ _ he => List.mem_append_left _ he⟩
        · obtain ⟨k1, _, k3⟩ := (h.conn p a).1 h1
          obtain ⟨l1, _, l3⟩ := (h.conn q b).1 h2
          refine ⟨k1, l1, Linked.chain (k3.mono fun _ _ he => List.mem_append_left _ he)
            (Linked.chain (Linked.edge (List.mem_append_right _ (List.mem_singleton.2 rfl)))
              (Linked.flip (l3.mono fun _ _ he => List.mem_append_left _ he)))⟩
        · obtain ⟨k1, _, k3⟩ := (h.conn p b).1 h1
          obtain ⟨l1, _, l3⟩ := (h.conn q a).1 h2
          refine ⟨k1, l1, Linked.chain (k3.mono fun _ _ he => List.mem_append_left _ he)
            (Linked.chain (Linked.flip
              (Linked.edge (List.mem_append_right _ (List.mem_singleton.2 rfl))))
              (Linked.flip (l3.mono fun _ _ he => List.mem_append_left _ he)))⟩
      · rintro ⟨h1, _, h3⟩
        refine Linked.to_connected ?_ h3 (Or.inl ?_)
        · intro a2 b2 he
          rcases List.mem_append.1 he with he | he
          · obtain ⟨k1, k2⟩ := h.edges_in a2 b2 he
            exact hmono _ _ ((h.conn a2 b2).2 ⟨k1, k2, Linked.edge he⟩)
          · rw [List.mem_singleton] at he
            cases he
            exact (hconn a b).2 (Or.inr (Or.inl ⟨haa, hbb⟩))
        · obtain ⟨z, hz⟩ := (h.keys p).2 h1
          exact hmono _ _ (Graph.SeenPoint.refl_connected hwf hz)
    refine ⟨hwf4, ?_, ?_, ?_, ?_, ?_⟩
    · intro p
      rw [hM4, hA]
      exact h.keys p
    · intro a2 b2 hab
      rw [hEd] at hab
      rw [hA]
      rcases List.mem_append.1 hab with he | he
      · exact h.edges_in a2 b2 he
      · rw [List.mem_singleton] at he
        cases he
        exact ⟨haA, hbA⟩
    · intro p q
      rw [hA, hEd]
      exact hconn2 p q
    · intro p
      rw [hseen, hMk]
      constructor
      · rintro ⟨q, h1, h2⟩
        obtain ⟨m, hm, hcm⟩ := (h.seen q).1 h2
        exact ⟨m, hm, h1.conn_trans (hmono _ _ hcm)⟩
      · rintro ⟨m, hm, hcm⟩
        obtain ⟨z, hz⟩ := (h.keys m).2 (h.marked_in m hm)
        exact ⟨m, hcm, (h.seen m).2 ⟨m, hm, Graph.SeenPoint.refl_connected hwf hz⟩⟩
    · intro m hm
      rw [hMk] at hm
      rw [hA]
      exact h.marked_in m hm
  | get_root node =>
    simp only [Graph.call] at hc
    have hA : Graph.added (pre ++ [Graph.Call.get_root node]) = Graph.added pre := by
      rw [Graph.added_append]; simp [Graph.added]
    have hEd : Graph.edges (pre ++ [Graph.Call.get_root node]) = Graph.edges pre := by
      rw [Graph.edges_append]; simp [Graph.edges]
    have hMk : Graph.marked (pre ++ [Graph.Call.get_root node]) = Graph.marked pre := by
      rw [Graph.marked_append]; simp [Graph.marked]
    cases node with
    | none => simp [Graph.get_root_none] at hc
    | some x =>
      cases hr : g.get_root (some x) with
      | error e => rw [hr] at hc; cases hc
      | ok v =>
        obtain ⟨g2, r⟩ := v
        obtain ⟨g3, r3, e3, _, hwf3, hc3⟩ := Graph.cg_get_root_spec hwf (Graph.cg_get_root_ok_lt hr)
        rw [e3] at hc
        cases hc
        have := h.hist_of_compressed hwf3 hc3
        exact ⟨this.wf, by rw [hA]; exact this.keys, by rw [hA, hEd]; exact this.edges_in,
          by rw [hA, hEd]; exact this.conn, by rw [hMk]; exact this.seen,
          by rw [hA, hMk]; exact this.marked_in⟩
  | get_connected_component n =>
    simp only [Graph.call] at hc
    have hA : Graph.added (pre ++ [Graph.Call.get_connected_component n]) =
        Graph.added pre := by
      rw [Graph.added_append]; simp [Graph.added]
    have hEd : Graph.edges (pre ++ [Graph.Call.get_connected_component n]) =
        Graph.edges pre := by
      rw [Graph.edges_append]; simp [Graph.edges]
    have hMk : Graph.marked (pre ++ [Graph.Call.get_connected_component n]) =
        Graph.marked pre := by
      rw [Graph.marked_append]; simp [Graph.marked]
    cases hr : g.get_connected_component n with
    | error e => rw [hr] at hc; cases hc
    | ok v =>
      obtain ⟨x, hx⟩ := Graph.get_connected_component_ok_present hr
      obtain ⟨g3, res, e3, hwf3, hc3, _⟩ := Graph.get_connected_component_spec hwf hx
      rw [e3] at hc
      cases hc
      have := h.hist_of_compressed hwf3 hc3
      exact ⟨this.wf, by rw [hA]; exact this.keys, by rw [hA, hEd]; exact this.edges_in,
        by rw [hA, hEd]; exact this.conn, by rw [hMk]; exact this.seen,
        by rw [hA, hMk]; exact this.marked_in⟩
  | component_seen n =>
    simp only [Graph.call] at hc
    have hA : Graph.added (pre ++ [Graph.Call.component_seen n]) = Graph.added pre := by
      rw [Graph.added_append]; simp [Graph.added]
    have hEd : Graph.edges (pre ++ [Graph.Call.component_seen n]) = Graph.edges pre := by
      rw [Graph.edges_append]; simp [Graph.edges]
    have hMk : Graph.marked (pre ++ [Graph.Call.component_seen n]) =
        Graph.marked pre ++ [n] := by
      rw [Graph.marked_append]; rfl
    cases hr : g.component_seen n with
    | error e => rw [hr] at hc; cases hc
    | ok v =>
      obtain ⟨x, hx⟩ := Graph.component_seen_ok_present hr
      obtain ⟨g3, b, e3, hwf3, _, hM3, _, hreach3, _, hseen3⟩ :=
        Graph.component_seen_spec hwf hx
      rw [e3] at hc
      cases hc
      have hconn := Graph.Connected.conn_of_same hM3 hreach3
      refine ⟨hwf3, ?_, ?_, ?_, ?_, ?_⟩
      · intro p
        rw [hM3, hA]
        exact h.keys p
      · rw [hA, hEd]
        exact h.edges_in
      · intro p q
        rw [hconn, hA, hEd]
        exact h.conn p q
      · intro p
        rw [hseen3, hMk, h.seen p]
        constructor
        · rintro (⟨m, hm, hcm⟩ | hnp)
          · exact ⟨m, List.mem_append_left _ hm, (hconn p m).2 hcm⟩
          · exact ⟨n, List.mem_append_right _ (List.mem_singleton.2 rfl),
              (hconn p n).2 hnp.conn_symm⟩
        · rintro ⟨m, hm, hcm⟩
          rcases List.mem_append.1 hm with hm | hm
          · exact Or.inl ⟨m, hm, (hconn p m).1 hcm⟩
          · rw [List.mem_singleton] at hm
            subst hm
            exact Or.inr ((hconn p m).1 hcm).conn_symm
      · intro m hm
        rw [hMk] at hm
        rw [hA]
        rcases List.mem_append.1 hm with hm | hm
        · exact h.marked_in m hm
        · rw [List.mem_singleton] at hm
          subst hm
          exact (h.keys m).1 ⟨x, hx⟩

/-- A sequence of calls that returns: the history of the graph grows by the
sequence. -/
theorem Graph.HistInv.hist_run : ∀ (cs pre : List Graph.Call) (g g1 : Graph),
    Graph.HistInv pre g → g.calls cs = .ok g1 → (Graph.added (pre ++ cs)).Nodup →
    Graph.HistInv (pre ++ cs) g1 := by
  intro cs
  induction cs with
  | nil =>
    intro pre g g1 h hc _
    cases hc
    rw [List.append_nil]
    exact h
  | cons c cs ih =>
    intro pre g g1 h hc hnd
    simp only [Graph.calls] at hc
    cases h2 : g.call c with
    | error e => rw [h2] at hc; cases hc
    | ok g2 =>
      rw [h2] at hc
      have hpre : pre ++ c :: cs = (pre ++ [c]) ++ cs := by simp
      rw [hpre] at hnd ⊢
      have hnd2 : (Graph.added (pre ++ [c])).Nodup := by
        rw [Graph.added_append] at hnd
        exact (List.nodup_append.1 hnd).1
      exact ih (pre ++ [c]) g2 g1 (h.hist_step h2 hnd2) hc hnd

theorem Graph.HistInv.hist_start : Graph.HistInv [] Graph.empty := by
  refine ⟨Graph.empty_wf, ?_, ?_, ?_, ?_, ?_⟩
  · intro p
    simp [Graph.empty, Graph.added]
  · intro a b h
    simp [Graph.edges] at h
  · intro p q
    simp [Graph.Connected, Graph.empty, Graph.added]
  · intro p
    simp [Graph.SeenPoint, Graph.empty, Graph.marked]
  · intro m h
    simp [Graph.marked] at h

/-- Every graph made of the empty graph by calls has the history of the calls;
in particular it is well formed. -/
theorem Graph.Reachable.hist {cs : List Graph.Call} {g : Graph} (h : g.Reachable cs) :
    Graph.HistInv cs g := by
  have := Graph.HistInv.hist_run cs [] Graph.empty g Graph.HistInv.hist_start h.1 (by
    simpa using h.2)
  simpa using this

/-! ## The two disjoint-set structures under arbitrary calls -/

theorem GraphBasic.reachable_pair :
    GraphBasic.Reachable 2 ⟨[⟨0, 0, some 1⟩, ⟨1, 1, none⟩]⟩ :=
  ⟨[GraphBasic.Call.add_edge 0 1], by decide⟩

theorem Graph.reachable_pair_graph :
    Graph.Reachable [Graph.Call.add_node 0, Graph.Call.add_node 1, Graph.Call.add_edge 0 1]
      ⟨[⟨0, 0, some 1, []⟩, ⟨1, 1, none, [0]⟩], [(1, some 1), (0, some 0)], []⟩ :=
  ⟨by decide, by decide⟩

theorem Graph.reachable_two :
    Graph.Reachable [Graph.Call.add_node 0, Graph.Call.add_node 1]
      ⟨[⟨0, 0, none, []⟩, ⟨1, 0, none, []⟩], [(1, some 1), (0, some 0)], []⟩ :=
  ⟨by decide, by decide⟩

/-- C13. In every forest made of `GraphBasic(n)` by calls, `add_edge(a, b)` on
two indices below `n` returns, and afterwards `get_root` returns one and the
same node for `a` and for `b`; every further sequence of `add_edge` and
`get_root` calls on indices of points returns, and after every sequence of
calls that returns `get_root` still returns one and the same node for `a` and
`b`. -/
theorem union_closure_stable {n : Nat} {g : GraphBasic} (hg : g.Reachable n) {a b : Nat}
    (ha : a < n) (hb : b < n) :
    ∃ g1, g.add_edge (a : Int) (b : Int) = .ok g1 ∧
      (∃ r, g1.find a = .ok (some r) ∧ g1.find b = .ok (some r)) ∧
      (∀ cs : List GraphBasic.Call, (∀ c ∈ cs, c.InRange n) → ∃ g2, g1.calls cs = .ok g2) ∧
      (∀ (cs : List GraphBasic.Call) (g2 : GraphBasic), g1.calls cs = .ok g2 →
        ∃ r, g2.find a = .ok (some r) ∧ g2.find b = .ok (some r)) := by
  obtain ⟨hwf, hlen⟩ := hg.wf
  obtain ⟨g1, e1, hwf1, hco1, hab⟩ := GraphBasic.add_edge_coarser hwf (by rw [hlen]; exact ha)
    (by rw [hlen]; exact hb)
  have hlen1 : g1.M.length = n := by rw [hco1.length_eq, hlen]
  refine ⟨g1, e1, ?_, ?_, ?_⟩
  · exact GraphBasic.find_same_of_same_set hwf1 (by rw [hlen1]; exact ha)
      (by rw [hlen1]; exact hb) hab
  · intro cs hcs
    exact GraphBasic.calls_return cs g1 hwf1 (by rw [hlen1]; exact hcs)
  · intro cs g2 h2
    obtain ⟨hwf2, hco2⟩ := GraphBasic.calls_spec cs g1 g2 hwf1 h2
    exact GraphBasic.find_same_of_same_set hwf2 (by rw [hco2.length_eq, hlen1]; exact ha)
      (by rw [hco2.length_eq, hlen1]; exact hb) (hco2.mono _ _ hab)

/-- Witness of C13: the union of points 0 and 1 in the forest left by one
earlier union. -/
theorem union_closure_stable_witness :
    ∃ g1, (⟨[⟨0, 0, some 1⟩, ⟨1, 1, none⟩]⟩ : GraphBasic).add_edge ((0 : Nat) : Int)
        ((1 : Nat) : Int) = .ok g1 ∧
      (∃ r, g1.find 0 = .ok (some r) ∧ g1.find 1 = .ok (some r)) ∧
      (∀ cs : List GraphBasic.Call, (∀ c ∈ cs, c.InRange 2) → ∃ g2, g1.calls cs = .ok g2) ∧
      (∀ (cs : List GraphBasic.Call) (g2 : GraphBasic), g1.calls cs = .ok g2 →
        ∃ r, g2.find 0 = .ok (some r) ∧ g2.find 1 = .ok (some r)) :=
  union_closure_stable GraphBasic.reachable_pair (by decide) (by decide)

/-- C14. In both structures, in every state made by calls and for every node
`x`: `get_root(x)` returns the parentless node `r` that `x` resolves to along
the parent links; afterwards every node resolves to the root it resolved to
before, `x` points at `r` directly unless it is `r`, and a second `get_root(x)`
returns `r` again. -/
theorem find_root_idempotent {n : Nat} {gb : GraphBasic} (hb : gb.Reachable n)
    {cs : List Graph.Call} {g : Graph} (hg : g.Reachable cs) :
    (∀ x, x < n → ∃ g1 r, gb.get_root (some x) = .ok (g1, some r) ∧ Reach gb.par x r ∧
      gb.par r = none ∧ (∀ y s, Reach g1.par y s ↔ Reach gb.par y s) ∧
      (x ≠ r → g1.par x = some r) ∧ ∃ g2, g1.get_root (some x) = .ok (g2, some r)) ∧
    (∀ x, x < g.nodes.length → ∃ g1 r, g.get_root (some x) = .ok (g1, r) ∧ Reach g.par x r ∧
      g.par r = none ∧ (∀ y s, Reach g1.par y s ↔ Reach g.par y s) ∧
      (x ≠ r → g1.par x = some r) ∧ ∃ g2, g1.get_root (some x) = .ok (g2, r)) := by
  constructor
  · intro x hx
    obtain ⟨hwf, hlen⟩ := hb.wf
    obtain ⟨g1, r, e1, hr, hwf1, hc1⟩ := GraphBasic.get_root_spec hwf (by rw [hlen]; exact hx)
    refine ⟨g1, r, e1, hr, hr.root_none, hc1.reach_iff, ?_, ?_⟩
    · intro hne
      cases hr with
      | root _ => exact absurd rfl hne
      | step hp _ =>
        obtain ⟨g3, r3, e3, h3⟩ := GraphBasic.get_root_par hwf hp
        rw [e1] at e3
        cases e3
        exact h3
    · obtain ⟨g2, r2, e2, hr2, _, _⟩ := GraphBasic.get_root_spec hwf1 (x := x)
        (by rw [hc1.length_eq, hlen]; exact hx)
      have := Reach.unique ((hc1.reach_iff _ _).1 hr2) hr
      subst this
      exact ⟨g2, e2⟩
  · intro x hx
    have hwf := hg.hist.wf
    obtain ⟨g1, r, e1, hr, hwf1, hc1⟩ := Graph.cg_get_root_spec hwf hx
    refine ⟨g1, r, e1, hr, hr.root_none, hc1.reach_iff, ?_, ?_⟩
    · intro hne
      cases hr with
      | root _ => exact absurd rfl hne
      | step hp _ => exact (Graph.get_root_fuel_kid _ _ _ _ _ _ e1 hp).1
    · obtain ⟨g2, r2, e2, hr2, _, _⟩ := Graph.cg_get_root_spec hwf1 (x := x)
        (by rw [hc1.length_eq]; exact hx)
      have := Reach.unique ((hc1.reach_iff _ _).1 hr2) hr
      subst this
      exact ⟨g2, e2⟩

/-- Witness of C14: the forest and the graph left by one union of two points. -/
theorem find_root_idempotent_witness :
    (∀ x, x < 2 → ∃ g1 r,
      (⟨[⟨0, 0, some 1⟩, ⟨1, 1, none⟩]⟩ : GraphBasic).get_root (some x) = .ok (g1, some r) ∧
      Reach (⟨[⟨0, 0, some 1⟩, ⟨1, 1, none⟩]⟩ : GraphBasic).par x r ∧
      (⟨[⟨0, 0, some 1⟩, ⟨1, 1, none⟩]⟩ : GraphBasic).par r = none ∧
      (∀ y s, Reach g1.par y s ↔ Reach (⟨[⟨0, 0, some 1⟩, ⟨1, 1, none⟩]⟩ : GraphBasic).par y s) ∧
      (x ≠ r → g1.par x = some r) ∧ ∃ g2, g1.get_root (some x) = .ok (g2, some r)) ∧
    (∀ x, x < (⟨[⟨0, 0, some 1, []⟩, ⟨1, 1, none, [0]⟩], [(1, some 1), (0, some 0)],
        []⟩ : Graph).nodes.length → ∃ g1 r,
      (⟨[⟨0, 0, some 1, []⟩, ⟨1, 1, none, [0]⟩], [(1, some 1), (0, some 0)],
        []⟩ : Graph).get_root (some x) = .ok (g1, r) ∧
      Reach (⟨[⟨0, 0, some 1, []⟩, ⟨1, 1, none, [0]⟩], [(1, some 1), (0, some 0)],
        []⟩ : Graph).par x r ∧
      (⟨[⟨0, 0, some 1, []⟩, ⟨1, 1, none, [0]⟩], [(1, some 1), (0, some 0)],
        []⟩ : Graph).par r = none ∧
      (∀ y s, Reach g1.par y s ↔ Reach (⟨[⟨0, 0, some 1, []⟩, ⟨1, 1, none, [0]⟩],
        [(1, some 1), (0, some 0)], []⟩ : Graph).par y s) ∧
      (x ≠ r → g1.par x = some r) ∧ ∃ g2, g1.get_root (some x) = .ok (g2, r)) :=
  find_root_idempotent GraphBasic.reachable_pair Graph.reachable_pair_graph

/-- C15. In every graph made of the empty graph by calls whose `add_node`
calls have pairwise distinct payloads, and for every payload `n` that was
added: `get_connected_component(n)` returns a list without repetition that
holds exactly the payloads of the nodes resolving to the root of `n`, and these
are exactly the added payloads that a chain of `add_edge` calls joins to `n`. -/
theorem component_coverage {cs : List Graph.Call} {g : Graph} (hg : g.Reachable cs) {n : Int}
    (hn : n ∈ Graph.added cs) :
    ∃ g1 res, g.get_connected_component n = .ok (g1, res) ∧ res.Nodup ∧
      (∀ q, q ∈ res ↔ g.Connected n q) ∧
      (∀ q, q ∈ res ↔
        (q ∈ Graph.added cs ∧ Linked (fun a b => (a, b) ∈ Graph.edges cs) n q)) := by
  have hist := hg.hist
  obtain ⟨x, hx⟩ := (hist.keys n).2 hn
  obtain ⟨g1, res, e1, _, _, hnd, hmem⟩ := Graph.get_connected_component_spec hist.wf hx
  refine ⟨g1, res, e1, hnd, hmem, ?_⟩
  intro q
  rw [hmem, hist.conn]
  constructor
  · rintro ⟨_, h2, h3⟩
    exact ⟨h2, h3⟩
  · rintro ⟨h2, h3⟩
    exact ⟨hn, h2, h3⟩

/-- Witness of C15: the component of payload 0 after the union of 0 and 1. -/
theorem component_coverage_witness :
    ∃ g1 res, (⟨[⟨0, 0, some 1, []⟩, ⟨1, 1, none, [0]⟩], [(1, some 1), (0, some 0)],
        []⟩ : Graph).get_connected_component 0 = .ok (g1, res) ∧ res.Nodup ∧
      (∀ q, q ∈ res ↔ (⟨[⟨0, 0, some 1, []⟩, ⟨1, 1, none, [0]⟩], [(1, some 1), (0, some 0)],
        []⟩ : Graph).Connected 0 q) ∧
      (∀ q, q ∈ res ↔
        (q ∈ Graph.added [Graph.Call.add_node 0, Graph.Call.add_node 1,
            Graph.Call.add_edge 0 1] ∧
          Linked (fun a b => (a, b) ∈ Graph.edges [Graph.Call.add_node 0,
            Graph.Call.add_node 1, Graph.Call.add_edge 0 1]) 0 q)) :=
  component_coverage Graph.reachable_pair_graph (by decide)

/-- C16. In every graph made of the empty graph by calls whose `add_node`
calls have pairwise distinct payloads, `y` is in the child set of `x` exactly
when the parent link of `y` is `x`; and `get_root` on a node with a parent
leaves that node in the child set of the returned root and of no other node,
in a graph whose child sets are again those of the parent links. -/
theorem child_sets_consistent {cs : List Graph.Call} {g : Graph} (hg : g.Reachable cs) :
    (∀ x y, y ∈ g.kids x ↔ g.par y = some x) ∧
    (∀ x p, g.par x = some p → ∃ g1 r, g.get_root (some x) = .ok (g1, r) ∧
      Reach g.par x r ∧ g1.par x = some r ∧ (∀ z, x ∈ g1.kids z ↔ z = r) ∧
      (∀ u v, v ∈ g1.kids u ↔ g1.par v = some u)) := by
  have hwf := hg.hist.wf
  refine ⟨hwf.kid_iff, ?_⟩
  intro x p hp
  obtain ⟨g1, r, e1, hr, hwf1, _⟩ := Graph.cg_get_root_spec hwf (Graph.cg_par_eq_some hp)
  have hpar := (Graph.get_root_fuel_kid _ _ _ _ _ _ e1 hp).1
  refine ⟨g1, r, e1, hr, hpar, ?_, hwf1.kid_iff⟩
  intro z
  rw [hwf1.kid_iff, hpar]
  constructor
  · intro h
    cases h
    rfl
  · rintro rfl
    rfl

/-- Witness of C16: the graph left by the union of two points. -/
theorem child_sets_consistent_witness :
    (∀ x y, y ∈ (⟨[⟨0, 0, some 1, []⟩, ⟨1, 1, none, [0]⟩], [(1, some 1), (0, some 0)],
        []⟩ : Graph).kids x ↔
      (⟨[⟨0, 0, some 1, []⟩, ⟨1, 1, none, [0]⟩], [(1, some 1), (0, some 0)],
        []⟩ : Graph).par y = some x) ∧
    (∀ x p, (⟨[⟨0, 0, some 1, []⟩, ⟨1, 1, none, [0]⟩], [(1, some 1), (0, some 0)],
        []⟩ : Graph).par x = some p → ∃ g1 r,
      (⟨[⟨0, 0, some 1, []⟩, ⟨1, 1, none, [0]⟩], [(1, some 1), (0, some 0)],
        []⟩ : Graph).get_root (some x) = .ok (g1, r) ∧
      Reach (⟨[⟨0, 0, some 1, []⟩, ⟨1, 1, none, [0]⟩], [(1, some 1), (0, some 0)],
        []⟩ : Graph).par x r ∧ g1.par x = some r ∧ (∀ z, x ∈ g1.kids z ↔ z = r) ∧
      (∀ u v, v ∈ g1.kids u ↔ g1.par v = some u)) :=
  child_sets_consistent Graph.reachable_pair_graph

/-- C17. In every graph made of the empty graph by calls whose `add_node`
calls have pairwise distinct payloads, and for every added payload `n`:
`component_seen(n)` returns `false` exactly when no payload of the component of
`n` was passed to `component_seen` by an earlier call; and whatever calls
follow, `component_seen(m)` returns `true` for every `m` that is then in the
component of `n`. -/
theorem seen_test_and_set {cs : List Graph.Call} {g : Graph} (hg : g.Reachable cs) {n : Int}
    (hn : n ∈ Graph.added cs) :
    ∃ g1 b, g.component_seen n = .ok (g1, b) ∧
      (b = false ↔ ¬ ∃ m ∈ Graph.marked cs, g.Connected n m) ∧
      (∀ (cs2 : List Graph.Call) (g2 : Graph) (m : Int),
        g2.Reachable (cs ++ Graph.Call.component_seen n :: cs2) → g2.Connected n m →
        ∃ g3, g2.component_seen m = .ok (g3, true)) := by
  have hist := hg.hist
  obtain ⟨x, hx⟩ := (hist.keys n).2 hn
  obtain ⟨g1, b, e1, _, _, _, _, _, hb, _⟩ := Graph.component_seen_spec hist.wf hx
  refine ⟨g1, b, e1, ?_, ?_⟩
  · rw [← hist.seen n, ← hb]
    cases b <;> simp
  · intro cs2 g2 m hg2 hnm
    have hist2 := hg2.hist
    obtain ⟨y, hy⟩ := hnm.conn_symm.present_left
    obtain ⟨g3, b3, e3, _, _, _, _, _, hb3, _⟩ := Graph.component_seen_spec hist2.wf hy
    have hseen : g2.SeenPoint m := by
      rw [hist2.seen]
      refine ⟨n, ?_, hnm.conn_symm⟩
      rw [Graph.marked_append]
      exact List.mem_append_right _ (List.mem_cons_self _ _)
    have : b3 = true := hb3.2 hseen
    subst this
    exact ⟨g3, e3⟩

/-- Witness of C17: `component_seen(0)` after the union of 0 and 1. -/
theorem seen_test_and_set_witness :
    ∃ g1 b, (⟨[⟨0, 0, some 1, []⟩, ⟨1, 1, none, [0]⟩], [(1, some 1), (0, some 0)],
        []⟩ : Graph).component_seen 0 = .ok (g1, b) ∧
      (b = false ↔ ¬ ∃ m ∈ Graph.marked [Graph.Call.add_node 0, Graph.Call.add_node 1,
          Graph.Call.add_edge 0 1],
        (⟨[⟨0, 0, some 1, []⟩, ⟨1, 1, none, [0]⟩], [(1, some 1), (0, some 0)],
          []⟩ : Graph).Connected 0 m) ∧
      (∀ (cs2 : List Graph.Call) (g2 : Graph) (m : Int),
        g2.Reachable ([Graph.Call.add_node 0, Graph.Call.add_node 1,
          Graph.Call.add_edge 0 1] ++ Graph.Call.component_seen 0 :: cs2) →
        g2.Connected 0 m → ∃ g3, g2.component_seen m = .ok (g3, true)) :=
  seen_test_and_set Graph.reachable_pair_graph (by decide)

/-- The claimed tie-break of C18 fails: the union of the two singletons 0 and
1, both of rank 0, leaves node 0, the root of the first argument, with node 1
as parent, and gives node 1 the rank 1, in the basic forest and in the
component graph alike. -/
theorem tie_attaches_first_under_second :
    (GraphBasic.new 2).add_edge 0 1 = .ok ⟨[⟨0, 0, some 1⟩, ⟨1, 1, none⟩]⟩ ∧
    (⟨[⟨0, 0, none, []⟩, ⟨1, 0, none, []⟩], [(1, some 1), (0, some 0)], []⟩ : Graph).add_edge
      0 1 = .ok ⟨[⟨0, 0, some 1, []⟩, ⟨1, 1, none, [0]⟩], [(1, some 1), (0, some 0)], []⟩ := by
  decide

/-- C18, amended. In both structures, in every state made by calls, when
`add_edge(a, b)` finds two different roots `r1` of `a` and `r2` of `b`: if the
ranks are equal, `r1` gets `r2` as parent, `r2` stays a root and its rank grows
by one, no other rank changes; if the ranks differ, the root of lower rank gets
the root of higher rank as parent, which stays a root, and no rank changes. -/
theorem union_by_rank {n : Nat} {gb : GraphBasic} (hgb : gb.Reachable n) {a b r1 r2 : Nat}
    (ha : a < n) (hb : b < n) (hr1 : Reach gb.par a r1) (hr2 : Reach gb.par b r2)
    (hne : r1 ≠ r2) {cs : List Graph.Call} {g : Graph} (hg : g.Reachable cs) {p q : Int}
    {x y s1 s2 : Nat} (hp : g.M.lookup p = some (some x)) (hq : g.M.lookup q = some (some y))
    (hs1 : Reach g.par x s1) (hs2 : Reach g.par y s2) (hne2 : s1 ≠ s2) :
    (∃ g4, gb.add_edge (a : Int) (b : Int) = .ok g4 ∧
      (gb.rk r1 = gb.rk r2 → g4.par r1 = some r2 ∧ g4.par r2 = none ∧
        g4.rk r2 = gb.rk r2 + 1 ∧ ∀ z, z ≠ r2 → g4.rk z = gb.rk z) ∧
      (gb.rk r1 > gb.rk r2 → g4.par r2 = some r1 ∧ g4.par r1 = none ∧
        ∀ z, g4.rk z = gb.rk z) ∧
      (gb.rk r1 < gb.rk r2 → g4.par r1 = some r2 ∧ g4.par r2 = none ∧
        ∀ z, g4.rk z = gb.rk z)) ∧
    (∃ g4, g.add_edge p q = .ok g4 ∧
      (g.rk s1 = g.rk s2 → g4.par s1 = some s2 ∧ g4.par s2 = none ∧
        g4.rk s2 = g.rk s2 + 1 ∧ ∀ z, z ≠ s2 → g4.rk z = g.rk z) ∧
      (g.rk s1 > g.rk s2 → g4.par s2 = some s1 ∧ g4.par s1 = none ∧
        ∀ z, g4.rk z = g.rk z) ∧
      (g.rk s1 < g.rk s2 → g4.par s1 = some s2 ∧ g4.par s2 = none ∧
        ∀ z, g4.rk z = g.rk z)) := by
  constructor
  · obtain ⟨hwf, hlen⟩ := hgb.wf
    obtain ⟨g4, e4, _, _, _, h4⟩ := GraphBasic.add_edge_exact hwf (by rw [hlen]; exact ha)
      (by rw [hlen]; exact hb) hr1 hr2
    obtain ⟨_, hrk, hgt, hle⟩ := h4 hne
    refine ⟨g4, e4, ?_, ?_, ?_⟩
    · intro heq
      obtain ⟨k1, k2⟩ := hle (by omega)
      refine ⟨k1, k2, by rw [hrk, if_pos ⟨rfl, heq⟩], ?_⟩
      intro z hz
      rw [hrk, if_neg (fun h => hz h.1)]
    · intro h
      obtain ⟨k1, k2⟩ := hgt h
      refine ⟨k1, k2, ?_⟩
      intro z
      rw [hrk, if_neg (fun h2 => by omega)]
    · intro h
      obtain ⟨k1, k2⟩ := hle (by omega)
      refine ⟨k1, k2, ?_⟩
      intro z
      rw [hrk, if_neg (fun h2 => by omega)]
  · have hwf := hg.hist.wf
    obtain ⟨g4, e4, _, _, _, _, _, h4⟩ := Graph.cg_add_edge_exact hwf hp hq hs1 hs2
    obtain ⟨parent, child, hor, _, hpc, hp0, hrk, _⟩ := h4 hne2
    refine ⟨g4, e4, ?_, ?_, ?_⟩
    · intro heq
      rcases hor with ⟨e1, e2, h3⟩ | ⟨e1, e2, _⟩
      · omega
      · subst e1; subst e2
        refine ⟨hpc, hp0, by rw [hrk, if_pos ⟨rfl, heq.symm⟩], ?_⟩
        intro z hz
        rw [hrk, if_neg (fun h => hz h.1)]
    · intro h
      rcases hor with ⟨e1, e2, h3⟩ | ⟨e1, e2, _⟩
      · subst e1; subst e2
        refine ⟨hpc, hp0, ?_⟩
        intro z
        rw [hrk, if_neg (fun h2 => by omega)]
      · omega
    · intro h
      rcases hor with ⟨e1, e2, h3⟩ | ⟨e1, e2, _⟩
      · omega
      · subst e1; subst e2
        refine ⟨hpc, hp0, ?_⟩
        intro z
        rw [hrk, if_neg (fun h2 => by omega)]

/-- Witness of C18, amended: the union of the singletons 0 and 1 in the fresh
forest and in the graph of two fresh nodes. -/
theorem union_by_rank_witness :
    (∃ g4, (GraphBasic.new 2).add_edge ((0 : Nat) : Int) ((1 : Nat) : Int) = .ok g4 ∧
      ((GraphBasic.new 2).rk 0 = (GraphBasic.new 2).rk 1 → g4.par 0 = some 1 ∧
        g4.par 1 = none ∧ g4.rk 1 = (GraphBasic.new 2).rk 1 + 1 ∧
        ∀ z, z ≠ 1 → g4.rk z = (GraphBasic.new 2).rk z) ∧
      ((GraphBasic.new 2).rk 0 > (GraphBasic.new 2).rk 1 → g4.par 1 = some 0 ∧
        g4.par 0 = none ∧ ∀ z, g4.rk z = (GraphBasic.new 2).rk z) ∧
      ((GraphBasic.new 2).rk 0 < (GraphBasic.new 2).rk 1 → g4.par 0 = some 1 ∧
        g4.par 1 = none ∧ ∀ z, g4.rk z = (GraphBasic.new 2).rk z)) ∧
    (∃ g4, (⟨[⟨0, 0, none, []⟩, ⟨1, 0, none, []⟩], [(1, some 1), (0, some 0)],
        []⟩ : Graph).add_edge 0 1 = .ok g4 ∧
      ((⟨[⟨0, 0, none, []⟩, ⟨1, 0, none, []⟩], [(1, some 1), (0, some 0)], []⟩ : Graph).rk 0 =
        (⟨[⟨0, 0, none, []⟩, ⟨1, 0, none, []⟩], [(1, some 1), (0, some 0)], []⟩ : Graph).rk 1 →
        g4.par 0 = some 1 ∧ g4.par 1 = none ∧
        g4.rk 1 = (⟨[⟨0, 0, none, []⟩, ⟨1, 0, none, []⟩], [(1, some 1), (0, some 0)],
          []⟩ : Graph).rk 1 + 1 ∧
        ∀ z, z ≠ 1 → g4.rk z = (⟨[⟨0, 0, none, []⟩, ⟨1, 0, none, []⟩],
          [(1, some 1), (0, some 0)], []⟩ : Graph).rk z) ∧
      ((⟨[⟨0, 0, none, []⟩, ⟨1, 0, none, []⟩], [(1, some 1), (0, some 0)], []⟩ : Graph).rk 0 >
        (⟨[⟨0, 0, none, []⟩, ⟨1, 0, none, []⟩], [(1, some 1), (0, some 0)], []⟩ : Graph).rk 1 →
        g4.par 1 = some 0 ∧ g4.par 0 = none ∧
        ∀ z, g4.rk z = (⟨[⟨0, 0, none, []⟩, ⟨1, 0, none, []⟩],
          [(1, some 1), (0, some 0)], []⟩ : Graph).rk z) ∧
      ((⟨[⟨0, 0, none, []⟩, ⟨1, 0, none, []⟩], [(1, some 1), (0, some 0)], []⟩ : Graph).rk 0 <
        (⟨[⟨0, 0, none, []⟩, ⟨1, 0, none, []⟩], [(1, some 1), (0, some 0)], []⟩ : Graph).rk 1 →
        g4.par 0 = some 1 ∧ g4.par 1 = none ∧
        ∀ z, g4.rk z = (⟨[⟨0, 0, none, []⟩, ⟨1, 0, none, []⟩],
          [(1, some 1), (0, some 0)], []⟩ : Graph).rk z)) :=
  union_by_rank (⟨[], rfl⟩ : GraphBasic.Reachable 2 (GraphBasic.new 2)) (by decide) (by decide)
    (Reach.root (by decide)) (Reach.root (by decide)) (by decide) Graph.reachable_two
    (by decide) (by decide) (Reach.root (by decide)) (Reach.root (by decide)) (by decide)

/-- C20. In every forest made of `GraphBasic(n)` by `add_edge` and `get_root`
calls, every index below `n` reaches along the parent links exactly one
parentless node, which is an index below `n`, and `get_root` returns that node
(the recursion comes back within as many levels as there are nodes). In
`GraphBasic(n)` itself every node is parentless and `get_root` of node `i`
returns node `i`; and `add_edge` with a negative argument returns the forest
unchanged. -/
theorem forest_acyclic {n : Nat} {g : GraphBasic} (hg : g.Reachable n) :
    (∀ i, i < n → ∃ r, r < n ∧ Reach g.par i r ∧ g.par r = none ∧
      ∀ s, Reach g.par i s → s = r) ∧
    (∀ i, i < n → ∃ g1 r, g.get_root (some i) = .ok (g1, some r) ∧ Reach g.par i r) ∧
    (GraphBasic.new n).M.length = n ∧
    (∀ i, i < n → (GraphBasic.new n).par i = none ∧
      (GraphBasic.new n).find i = .ok (some i)) ∧
    (∀ a b : Int, a < 0 ∨ b < 0 → g.add_edge a b = .ok g) := by
  obtain ⟨hwf, hlen⟩ := hg.wf
  refine ⟨?_, ?_, GraphBasic.new_length n, ?_, ?_⟩
  · intro i hi
    obtain ⟨r, hr⟩ := hwf.exists_reach i
    refine ⟨r, ?_, hr, hr.root_none, fun s hs => Reach.unique hs hr⟩
    rw [← hlen]
    exact hwf.reach_lt hr (by rw [hlen]; exact hi)
  · intro i hi
    obtain ⟨g1, r, e1, hr, _, _⟩ := GraphBasic.get_root_spec hwf (x := i) (by rw [hlen]; exact hi)
    exact ⟨g1, r, e1, hr⟩
  · intro i hi
    refine ⟨GraphBasic.new_par n i, ?_⟩
    obtain ⟨r, h1, h2⟩ := GraphBasic.find_spec (GraphBasic.new_wf n) (i := i)
      (by rw [GraphBasic.new_length]; exact hi)
    have := Reach.self_of_root (GraphBasic.new_par n i) h2
    subst this
    exact h1
  · intro a b hab
    simp only [GraphBasic.add_edge, hab, if_true]

/-- Witness of C20: the forest left by the union of points 0 and 1. -/
theorem forest_acyclic_witness :
    (∀ i, i < 2 → ∃ r, r < 2 ∧
      Reach (⟨[⟨0, 0, some 1⟩, ⟨1, 1, none⟩]⟩ : GraphBasic).par i r ∧
      (⟨[⟨0, 0, some 1⟩, ⟨1, 1, none⟩]⟩ : GraphBasic).par r = none ∧
      ∀ s, Reach (⟨[⟨0, 0, some 1⟩, ⟨1, 1, none⟩]⟩ : GraphBasic).par i s → s = r) ∧
    (∀ i, i < 2 → ∃ g1 r,
      (⟨[⟨0, 0, some 1⟩, ⟨1, 1, none⟩]⟩ : GraphBasic).get_root (some i) = .ok (g1, some r) ∧
      Reach (⟨[⟨0, 0, some 1⟩, ⟨1, 1, none⟩]⟩ : GraphBasic).par i r) ∧
    (GraphBasic.new 2).M.length = 2 ∧
    (∀ i, i < 2 → (GraphBasic.new 2).par i = none ∧
      (GraphBasic.new 2).find i = .ok (some i)) ∧
    (∀ a b : Int, a < 0 ∨ b < 0 →
      (⟨[⟨0, 0, some 1⟩, ⟨1, 1, none⟩]⟩ : GraphBasic).add_edge a b =
        .ok ⟨[⟨0, 0, some 1⟩, ⟨1, 1, none⟩]⟩) :=
  forest_acyclic GraphBasic.reachable_pair

/-! ## The pruning loop: which components it builds -/

theorem Graph.present_iff {g : Graph} (hwf : g.Wf) (p : Int) :
    (g.M.lookup p).isSome ↔ ∃ x, g.M.lookup p = some (some x) := by
  constructor
  · intro h
    obtain ⟨v, hv⟩ := Option.isSome_iff_exists.1 h
    obtain ⟨x, _, hx, _, _⟩ := hwf.registry.node_key _ _ hv
    exact ⟨x, by rw [hv, hx]⟩
  · rintro ⟨x, hx⟩
    rw [hx]
    rfl

/-- The loop over the neighbor row of the pruned point `p`: the components it
leaves are those of the graph it started from joined by the edges from `p` to
the points of the row that are in the graph and have `p` in their sorted row. -/
theorem add_mutual_edges_conn (sorted_neigbors : RowMatrixXi) (p : Int) :
    ∀ (row : List Int) (g : Graph) (x : Nat), g.Wf → g.M.lookup p = some (some x) →
      (∀ q, (g.M.lookup q).isSome → ∃ m : Nat, q = (m : Int) ∧ m < sorted_neigbors.length) →
      ∃ g1, add_mutual_edges sorted_neigbors p row g = .ok g1 ∧ g1.Wf ∧
        g1.nodes.length = g.nodes.length ∧ g1.M = g.M ∧
        (∀ a b, g.Connected a b → g1.Connected a b) ∧
        (∀ a b, g1.Connected a b ↔ ((g.M.lookup a).isSome ∧
          Linked (fun a b => g.Connected a b ∨ (a = p ∧ b ∈ row ∧ (g.M.lookup b).isSome ∧
            ∃ srow, readAt sorted_neigbors b = .ok srow ∧ binary_search srow p = true))
            a b)) ∧
        (∀ q, g1.SeenPoint q ↔ ∃ q2, g1.Connected q q2 ∧ g.SeenPoint q2) := by
  intro row
  induction row with
  | nil =>
    intro g x hwf _ _
    refine ⟨g, rfl, hwf, rfl, rfl, fun _ _ h => h, ?_, ?_⟩
    · intro a b
      constructor
      · intro h
        obtain ⟨z, hz⟩ := h.present_left
        exact ⟨by rw [hz]; rfl, Linked.edge (Or.inl h)⟩
      · rintro ⟨h1, h2⟩
        obtain ⟨z, hz⟩ := (Graph.present_iff hwf a).1 h1
        refine Linked.to_connected ?_ h2 (Or.inl (Graph.SeenPoint.refl_connected hwf hz))
        rintro a2 b2 (h | ⟨_, h, _⟩)
        · exact h
        · cases h
    · intro q
      constructor
      · rintro ⟨z, r, h1, h2, h3⟩
        exact ⟨q, ⟨z, z, r, h1, h1, h2, h2⟩, z, r, h1, h2, h3⟩
      · rintro ⟨q2, h1, h2⟩
        exact Graph.SeenPoint.of_connected h1 h2
  | cons nb rest ih =>
    intro g x hwf hp hkeys
    -- the case in which the round adds no edge
    have hskip : (¬ ((g.M.lookup nb).isSome ∧
        ∃ srow, readAt sorted_neigbors nb = .ok srow ∧ binary_search srow p = true)) →
        add_mutual_edges sorted_neigbors p (nb :: rest) g =
          add_mutual_edges sorted_neigbors p rest g →
        ∃ g1, add_mutual_edges sorted_neigbors p (nb :: rest) g = .ok g1 ∧ g1.Wf ∧
          g1.nodes.length = g.nodes.length ∧ g1.M = g.M ∧
          (∀ a b, g.Connected a b → g1.Connected a b) ∧
          (∀ a b, g1.Connected a b ↔ ((g.M.lookup a).isSome ∧
            Linked (fun a b => g.Connected a b ∨ (a = p ∧ b ∈ nb :: rest ∧
              (g.M.lookup b).isSome ∧
              ∃ srow, readAt sorted_neigbors b = .ok srow ∧ binary_search srow p = true))
              a b)) ∧
          (∀ q, g1.SeenPoint q ↔ ∃ q2, g1.Connected q q2 ∧ g.SeenPoint q2) := by
      intro hno heq
      obtain ⟨g5, k1, k2, k3, k4, k5, k6, k7⟩ := ih g x hwf hp hkeys
      refine ⟨g5, by rw [heq]; exact k1, k2, k3, k4, k5, ?_, k7⟩
      intro a b
      rw [k6]
      constructor
      · rintro ⟨h1, h2⟩
        refine ⟨h1, h2.mono ?_⟩
        rintro a2 b2 (h | ⟨e1, e2, e3⟩)
        · exact Or.inl h
        · exact Or.inr ⟨e1, List.mem_cons_of_mem _ e2, e3⟩
      · rintro ⟨h1, h2⟩
        refine ⟨h1, h2.mono ?_⟩
        rintro a2 b2 (h | ⟨e1, e2, e3, e4⟩)
        · exact Or.inl h
        · rcases List.mem_cons.1 e2 with rfl | e2
          · exact absurd ⟨e3, e4⟩ hno
          · exact Or.inr ⟨e1, e2, e3, e4⟩
    by_cases hnb : (g.M.lookup nb).isSome
    · obtain ⟨m, hm, hmlt⟩ := hkeys nb hnb
      have hrow : readAt sorted_neigbors nb = .ok (sorted_neigbors.get ⟨m, hmlt⟩) := by
        rw [hm]
        exact readAt_ofNat _ _ _ (List.getElem?_eq_getElem hmlt)
      by_cases hb : binary_search (sorted_neigbors.get ⟨m, hmlt⟩) p = true
      · obtain ⟨y, hy⟩ := (Graph.present_iff hwf nb).1 hnb
        obtain ⟨g4, h1, h2, h3, h4, c4, s4⟩ := Graph.add_edge_conn hwf hp hy
        have hpp : g.Connected p p := Graph.SeenPoint.refl_connected hwf hp
        have hnn : g.Connected nb nb := Graph.SeenPoint.refl_connected hwf hy
        have hmono4 : ∀ a b, g.Connected a b → g4.Connected a b := fun a b h =>
          (c4 a b).2 (Or.inl h)
        obtain ⟨g5, k1, k2, k3, k4, k5, k6, k7⟩ := ih g4 x h2 (by rw [h4]; exact hp) (by
          intro q hq
          rw [h4] at hq
          exact hkeys q hq)
        refine ⟨g5, ?_, k2, by rw [k3, h3], by rw [k4, h4],
          fun a b h => k5 a b (hmono4 a b h), ?_, ?_⟩
        · simp only [add_mutual_edges, hnb, if_true, hrow, hb, h1]
          exact k1
        · intro a b
          rw [k6, h4]
          constructor
          · rintro ⟨e1, e2⟩
            refine ⟨e1, e2.lift ?_⟩
            rintro a2 b2 (h | ⟨f1, f2, f3, f4⟩)
            · rcases (c4 a2 b2).1 h with h | ⟨u1, u2⟩ | ⟨u1, u2⟩
              · exact Linked.edge (Or.inl h)
              · exact Linked.chain (Linked.edge (Or.inl u1)) (Linked.chain
                  (Linked.edge (Or.inr ⟨rfl, List.mem_cons_self _ _, hnb, _, hrow, hb⟩))
                  (Linked.flip (Linked.edge (Or.inl u2))))
              · exact Linked.chain (Linked.edge (Or.inl u1)) (Linked.chain
                  (Linked.flip
                    (Linked.edge (Or.inr ⟨rfl, List.mem_cons_self _ _, hnb, _, hrow, hb⟩)))
                  (Linked.flip (Linked.edge (Or.inl u2))))
            · exact Linked.edge (Or.inr ⟨f1, List.mem_cons_of_mem _ f2, f3, f4⟩)
          · rintro ⟨e1, e2⟩
            refine ⟨e1, e2.lift ?_⟩
            rintro a2 b2 (h | ⟨f1, f2, f3, f4⟩)
            · exact Linked.edge (Or.inl (hmono4 _ _ h))
            · rcases List.mem_cons.1 f2 with rfl | f2
              · subst f1
                exact Linked.edge (Or.inl ((c4 _ _).2 (Or.inr (Or.inl ⟨hpp, hnn⟩))))
              · exact Linked.edge (Or.inr ⟨f1, f2, f3, f4⟩)
        · intro q
          rw [k7]
          constructor
          · rintro ⟨q2, e1, e2⟩
            obtain ⟨q3, e3, e4⟩ := (s4 q2).1 e2
            exact ⟨q3, e1.conn_trans (k5 _ _ e3), e4⟩
          · rintro ⟨q2, e1, e2⟩
            obtain ⟨z, _, hz, _, _⟩ := id e2
            exact ⟨q2, e1, (s4 q2).2 ⟨q2, hmono4 _ _ (Graph.SeenPoint.refl_connected hwf hz), e2⟩⟩
      · refine hskip ?_ ?_
        · rintro ⟨_, srow, h1, h2⟩
          rw [hrow] at h1
          cases h1
          exact hb h2
        · simp only [add_mutual_edges, hnb, if_true, hrow]
          rw [if_neg hb]
    · refine hskip (fun h => hnb h.1) ?_
      simp [add_mutual_edges, hnb]

theorem readAt_map {α β : Type} (f : α → β) (v : List α) (k : Int) (b : β)
    (h : readAt (v.map f) k = .ok b) : ∃ a, readAt v k = .ok a ∧ b = f a := by
  unfold readAt at h ⊢
  by_cases hk : k < 0
  · simp [hk] at h
  · simp only [hk, if_false, List.getElem?_map] at h ⊢
    cases hv : v[k.toNat]? with
    | none => rw [hv] at h; simp at h
    | some a =>
      rw [hv] at h
      simp only [Option.map_some'] at h
      cases h
      exact ⟨a, rfl, rfl⟩

theorem readAt_map_ok {α β : Type} (f : α → β) (v : List α) (k : Int) (a : α)
    (h : readAt v k = .ok a) : readAt (v.map f) k = .ok (f a) := by
  unfold readAt at h ⊢
  by_cases hk : k < 0
  · simp [hk] at h
  · simp only [hk, if_false, List.getElem?_map] at h ⊢
    cases hv : v[k.toNat]? with
    | none => rw [hv] at h; simp at h
    | some a2 =>
      rw [hv] at h
      simp only at h
      cases h
      rfl

theorem binary_search_sorted (row : List Int) (p : Int) :
    binary_search (row.insertionSort (· ≤ ·)) p = true ↔ p ∈ row := by
  unfold binary_search
  exact List.elem_iff.trans (List.perm_insertionSort _ row).mem_iff

theorem Among.among_succ {knn : List KnnPoint} {lp : Nat} {p : Int} (h : Among knn lp p) :
    Among knn (lp + 1) p := by
  obtain ⟨j, kp, h1, h2, h3⟩ := h
  exact ⟨j, kp, by omega, h2, h3⟩

theorem Among.among_le {knn : List KnnPoint} {lp lp2 : Nat} (hle : lp ≤ lp2) {p : Int}
    (h : Among knn lp p) : Among knn lp2 p := by
  obtain ⟨j, kp, h1, h2, h3⟩ := h
  exact ⟨j, kp, by omega, h2, h3⟩

theorem MutualEdge.mutual_le {neighbors : RowMatrixXi} {knn : List KnnPoint} {lp lp2 : Nat}
    (hle : lp ≤ lp2) {p q : Int} (h : MutualEdge neighbors knn lp p q) :
    MutualEdge neighbors knn lp2 p q :=
  ⟨h.1.among_le hle, h.2.1.among_le hle, h.2.2⟩

/-! ## The pruning loop keeps the components of the mutual k-NN edges -/

/-- One round of the pruning loop: the point at position `last_pruned` of the
sorted order enters the graph with its mutual k-NN edges to the points already
there. -/
theorem prune_step_hist {mul : ℚ → ℚ → ℚ} {radii : VectorXd} {knn : List KnnPoint} (hk : KnnSorted radii knn)
    {neighbors : RowMatrixXi} (hrows : neighbors.length = radii.length) {shrink : ℚ}
    {s : Chosen} {lp : Nat} (hinv : SweepInv knn s lp)
    (hh : SweepHist mul shrink neighbors knn s lp) {kp : KnnPoint} (hkp : knn[lp]? = some kp) :
    ∃ row g2, readAt neighbors kp.idx = .ok row ∧
      add_mutual_edges (neighbors.map fun row => row.insertionSort (· ≤ ·)) kp.idx row
        (s.graph.add_node kp.idx) = .ok g2 ∧
      SweepInv knn { s with graph := g2 } (lp + 1) ∧
      SweepHist mul shrink neighbors knn { s with graph := g2 } (lp + 1) := by
  have hlt : lp < knn.length := (List.getElem?_eq_some.1 hkp).1
  obtain ⟨m, hm, hr⟩ := hk.entry lp kp hkp
  have hmlt : m < radii.length := (List.getElem?_eq_some.1 hr).1
  have hfresh : s.graph.M.lookup kp.idx = none := by
    cases hlk : s.graph.M.lookup kp.idx with
    | none => rfl
    | some v =>
      exfalso
      obtain ⟨j, kq, hj, hkq, he⟩ := (hinv.in_graph kp.idx).1 (by rw [hlk]; rfl)
      have := hk.idx_inj hkq hkp he
      omega
  have hwf1 := Graph.add_node_wf hinv.wf hfresh
  have hrow : readAt neighbors kp.idx = .ok (neighbors.get ⟨m, by omega⟩) := by
    rw [hm]
    exact readAt_ofNat _ _ _ (List.getElem?_eq_getElem (by omega))
  have hin1 : ∀ q : Int, ((s.graph.add_node kp.idx).M.lookup q).isSome ↔
      Among knn (lp + 1) q := by
    intro q
    rw [Graph.lookup_add_node]
    by_cases hq : q = kp.idx
    · simp only [hq, if_true, Option.isSome_some, true_iff]
      exact ⟨lp, kp, by omega, hkp, rfl⟩
    · simp only [hq, if_false]
      rw [hinv.in_graph q]
      constructor
      · rintro ⟨j, kq, h1, h2, h3⟩
        exact ⟨j, kq, by omega, h2, h3⟩
      · rintro ⟨j, kq, h1, h2, h3⟩
        refine ⟨j, kq, ?_, h2, h3⟩
        rcases Nat.lt_succ_iff_lt_or_eq.1 h1 with h | h
        · exact h
        · exfalso
          subst h
          rw [hkp] at h2
          cases h2
          exact hq h3.symm
  have hold : ∀ q : Int, Among knn (lp + 1) q → q ≠ kp.idx → Among knn lp q := by
    rintro q ⟨j, kq, h1, h2, h3⟩ hq
    refine ⟨j, kq, ?_, h2, h3⟩
    rcases Nat.lt_succ_iff_lt_or_eq.1 h1 with h | h
    · exact h
    · exfalso
      subst h
      rw [hkp] at h2
      cases h2
      exact hq h3.symm
  obtain ⟨g2, e1, e2, e3, e4, e5, e6, e7⟩ := add_mutual_edges_conn
    (neighbors.map fun row => row.insertionSort (· ≤ ·)) kp.idx
    (neighbors.get ⟨m, by omega⟩) (s.graph.add_node kp.idx) s.graph.nodes.length hwf1
    (by rw [Graph.lookup_add_node]; simp) (by
      intro q hq
      obtain ⟨j, kq, _, h2, h3⟩ := (hin1 q).1 hq
      obtain ⟨m2, hm2, hr2⟩ := hk.entry j kq h2
      exact ⟨m2, by rw [← h3, hm2], by
        rw [List.length_map, hrows]; exact (List.getElem?_eq_some.1 hr2).1⟩)
  have c1 := Graph.add_node_conn hinv.wf hfresh
  have s1 := Graph.add_node_seen hinv.wf hfresh
  have hmono : ∀ a b, s.graph.Connected a b → g2.Connected a b := fun a b h =>
    e5 a b ((c1 a b).2 (Or.inl h))
  have hpres : ∀ q, Among knn lp q → s.graph.Connected q q := by
    intro q hq
    obtain ⟨z, hz⟩ := (Graph.present_iff hinv.wf q).1 ((hinv.in_graph q).2 hq)
    exact Graph.SeenPoint.refl_connected hinv.wf hz
  have hseen2 : ∀ q, g2.SeenPoint q ↔
      ∃ (l : Nat) (kl : KnnPoint), l < s.last_considered ∧ knn[l]? = some kl ∧
        g2.Connected q kl.idx := by
    intro q
    rw [e7]
    constructor
    · rintro ⟨q2, h1, h2⟩
      obtain ⟨l, kl, hl, hkl, hc⟩ := (hh.seen q2).1 ((s1 q2).1 h2)
      exact ⟨l, kl, hl, hkl, h1.conn_trans (hmono _ _ hc)⟩
    · rintro ⟨l, kl, hl, hkl, hc⟩
      refine ⟨kl.idx, hc, (s1 _).2 ((hh.seen _).2 ⟨l, kl, hl, hkl, ?_⟩)⟩
      exact hpres _ ⟨l, kl, (hh.considered l kl hl hkl).1, hkl, rfl⟩
  refine ⟨_, g2, hrow, e1, ?_, ?_, hseen2, ?_⟩
  · refine ⟨e2, by omega, ?_, ?_, hinv.m_hat_len, hinv.cm_len, hinv.chosen_le, ?_,
      hinv.collected_nodup, hinv.ids, hinv.ids_used, hinv.clusters_nonneg⟩
    · show g2.nodes.length = lp + 1
      rw [e3, Graph.length_add_node, hinv.nodes_len]
    · intro q
      show (g2.M.lookup q).isSome ↔ _
      rw [e4]
      exact hin1 q
    · intro t p ht hp
      obtain ⟨l, kl, hl, hkl, hc⟩ := (hh.seen p).1 (hinv.collected_seen t p ht hp)
      exact (hseen2 p).2 ⟨l, kl, hl, hkl, hmono _ _ hc⟩
  · intro a b
    show g2.Connected a b ↔ _
    rw [e6]
    constructor
    · rintro ⟨h1, h2⟩
      have hA : Among knn (lp + 1) a := (hin1 a).1 h1
      have hL : Linked (MutualEdge neighbors knn (lp + 1)) a b := by
        refine h2.lift ?_
        rintro a2 b2 (h | ⟨f1, f2, f3, srow, f4, f5⟩)
        · rcases (c1 a2 b2).1 h with h | ⟨rfl, rfl⟩
          · exact ((hh.conn a2 b2).1 h).2.2.mono fun _ _ he => he.mutual_le (Nat.le_succ _)
          · exact Linked.same _
        · subst f1
          obtain ⟨row2, g1, g2e⟩ := readAt_map _ _ _ _ f4
          subst g2e
          exact Linked.edge ⟨⟨lp, kp, by omega, hkp, rfl⟩, (hin1 b2).1 f3, ⟨_, hrow, f2⟩,
            ⟨row2, g1, (binary_search_sorted _ _).1 f5⟩⟩
      have hB : Among knn (lp + 1) b := by
        have hab : g2.Connected a b := (e6 a b).2 ⟨h1, h2⟩
        obtain ⟨z, hz⟩ := hab.conn_symm.present_left
        rw [e4] at hz
        exact (hin1 b).1 (by rw [hz]; rfl)
      exact ⟨hA, hB, hL⟩
    · rintro ⟨hA, _, hL⟩
      refine ⟨(hin1 a).2 hA, hL.lift ?_⟩
      rintro a2 b2 ⟨A1, A2, ⟨ra, hra, hb2⟩, ⟨rb, hrb, ha2⟩⟩
      by_cases ha : a2 = kp.idx
      · subst ha
        rw [hrow] at hra
        cases hra
        exact Linked.edge (Or.inr ⟨rfl, hb2, (hin1 b2).2 A2, _, readAt_map_ok _ _ _ _ hrb,
          (binary_search_sorted _ _).2 ha2⟩)
      · by_cases hb : b2 = kp.idx
        · subst hb
          rw [hrow] at hrb
          cases hrb
          exact Linked.flip (Linked.edge (Or.inr ⟨rfl, ha2, (hin1 a2).2 A1, _,
            readAt_map_ok _ _ _ _ hra, (binary_search_sorted _ _).2 hb2⟩))
        · have B1 := hold a2 A1 ha
          have B2 := hold b2 A2 hb
          exact Linked.edge (Or.inl ((c1 a2 b2).2 (Or.inl ((hh.conn a2 b2).2
            ⟨B1, B2, Linked.edge ⟨B1, B2, ⟨ra, hra, hb2⟩, ⟨rb, hrb, ha2⟩⟩⟩))))
  · intro l kl hl hkl
    obtain ⟨h1, h2⟩ := hh.considered l kl hl hkl
    exact ⟨by omega, h2⟩

/-- The pruning loop at a sweep position: it returns within
`n + 1 - last_pruned` rounds, every point it prunes has a radius below
`mul grow di`, it stops at the end of the order or at a point whose radius is not
below `mul grow di`, and the graph it leaves has the components of the mutual
k-NN edges among the pruned points. -/
theorem prune_loop_hist {radii : VectorXd} {knn : List KnnPoint} (hk : KnnSorted radii knn)
    {neighbors : RowMatrixXi} (hrows : neighbors.length = radii.length) {shrink : ℚ}
    (mul : ℚ → ℚ → ℚ) (grow di : ℚ) :
    ∀ (fuel : Nat) (s : Chosen) (lp : Nat), SweepInv knn s lp →
      SweepHist mul shrink neighbors knn s lp → knn.length + 1 ≤ fuel + lp →
      ∃ g1 lp1, prune_loop mul grow neighbors (neighbors.map fun row => row.insertionSort (· ≤ ·))
          knn knn.length di fuel s.graph lp = .ok (g1, lp1) ∧
        SweepInv knn { s with graph := g1 } lp1 ∧
        SweepHist mul shrink neighbors knn { s with graph := g1 } lp1 ∧ lp ≤ lp1 ∧
        (∀ (j : Nat) (kj : KnnPoint), lp ≤ j → j < lp1 → knn[j]? = some kj →
          mul grow di > kj.dist) ∧
        ∀ kp, knn[lp1]? = some kp → ¬ (mul grow di > kp.dist) := by
  intro fuel
  induction fuel with
  | zero =>
    intro s lp hinv _ hf
    have := hinv.pruned_le
    omega
  | succ fuel ih =>
    intro s lp hinv hh hf
    by_cases hlt : lp < knn.length
    · have hkp : knn[lp]? = some (knn.get ⟨lp, hlt⟩) := List.getElem?_eq_getElem hlt
      generalize knn.get ⟨lp, hlt⟩ = kp at hkp
      by_cases hc : mul grow di > kp.dist
      · obtain ⟨row, g2, hrow, e1, hinv2, hh2⟩ := prune_step_hist hk hrows hinv hh hkp
        obtain ⟨g3, lp3, r1, r2, r3, r4, r5, r6⟩ := ih { s with graph := g2 } (lp + 1) hinv2 hh2
          (by omega)
        refine ⟨g3, lp3, ?_, r2, r3, by omega, ?_, r6⟩
        · simp only [prune_loop, hlt, if_true, hkp, hc, hrow, e1]
          exact r1
        · intro j kj h1 h2 h3
          rcases Nat.lt_or_ge lp j with h | h
          · exact r5 j kj h h2 h3
          · have : j = lp := by omega
            subst this
            rw [hkp] at h3
            cases h3
            exact hc
      · refine ⟨s.graph, lp, ?_, hinv, hh, le_refl _, ?_, ?_⟩
        · simp only [prune_loop, hlt, if_true, hkp, hc, if_false]
        · intro j kj h1 h2 _
          omega
        · intro kq hkq
          rw [hkp] at hkq
          cases hkq
          exact hc
    · refine ⟨s.graph, lp, ?_, hinv, hh, le_refl _, ?_, ?_⟩
      · simp only [prune_loop, hlt, if_false]
      · intro j kj h1 h2 _
        omega
      · intro kq hkq
        exact absurd (List.getElem?_eq_some.1 hkq).1 hlt

/-! ## The consideration loop, one round at a time, and two sweeps side by side -/

/-- The consideration cursor passes a point: the components stay, and the
component of the point becomes seen. -/
theorem SweepHist.advance {mul : ℚ → ℚ → ℚ} {shrink : ℚ} {neighbors : RowMatrixXi} {knn : List KnnPoint}
    {s s1 : Chosen} {lp : Nat} (hh : SweepHist mul shrink neighbors knn s lp) {kp : KnnPoint}
    (hkp : knn[s.last_considered]? = some kp)
    (hlc : s1.last_considered = s.last_considered + 1)
    (hconn : ∀ a b, s1.graph.Connected a b ↔ s.graph.Connected a b)
    (hseen : ∀ q, s1.graph.SeenPoint q ↔ (s.graph.SeenPoint q ∨ s.graph.Connected kp.idx q))
    (hlt : s.last_considered < lp)
    (hthr : ∃ (i : Nat) (ki : KnnPoint), knn[i]? = some ki ∧ mul ki.dist shrink > kp.dist) :
    SweepHist mul shrink neighbors knn s1 lp := by
  refine ⟨?_, ?_, ?_⟩
  · intro p q
    rw [hconn]
    exact hh.conn p q
  · intro p
    rw [hseen, hlc, hh.seen p]
    constructor
    · rintro (⟨l, kl, hl, hkl, hc⟩ | hc)
      · exact ⟨l, kl, by omega, hkl, (hconn _ _).2 hc⟩
      · exact ⟨s.last_considered, kp, by omega, hkp, (hconn _ _).2 hc.conn_symm⟩
    · rintro ⟨l, kl, hl, hkl, hc⟩
      rcases Nat.lt_succ_iff_lt_or_eq.1 hl with h | h
      · exact Or.inl ⟨l, kl, h, hkl, (hconn _ _).1 hc⟩
      · subst h
        rw [hkp] at hkl
        cases hkl
        exact Or.inr ((hconn _ _).1 hc).conn_symm
  · intro l kl hl hkl
    rw [hlc] at hl
    rcases Nat.lt_succ_iff_lt_or_eq.1 hl with h | h
    · exact hh.considered l kl h hkl
    · subst h
      rw [hkp] at hkl
      cases hkl
      exact ⟨hlt, hthr⟩

/-- One turn of the consideration loop whose condition holds, for the loop and
for the loop with its record of reads: both go on from the same next state,
which keeps the invariants, and the point read lies below both `i` and
`last_pruned`. -/
theorem consider_step_full {mul : ℚ → ℚ → ℚ} {radii : VectorXd} {knn : List KnnPoint} (hk : KnnSorted radii knn)
    (hrad : ∀ r ∈ radii, 0 ≤ r) {grow shrink : ℚ} (hgrow : ∀ r ∈ radii, r ≤ mul grow r) (hshr : ∀ r ∈ radii, mul r shrink ≤ r) {neighbors : RowMatrixXi} {i : Nat} {ki : KnnPoint}
    (hki : knn[i]? = some ki) {lp : Nat}
    (hpost : ∀ kp, knn[lp]? = some kp → ¬ (mul grow ki.dist > kp.dist)) {s : Chosen}
    (hinv : SweepInv knn s lp) (hh : SweepHist mul shrink neighbors knn s lp)
    (hle : s.last_considered ≤ i) {kp : KnnPoint} (hkp : knn[s.last_considered]? = some kp)
    (hc : mul ki.dist shrink > kp.dist) :
    ∃ (s1 : Chosen) (fresh : Bool),
      (∀ fuel, consider_loop mul shrink radii knn ki.dist (fuel + 1) s =
        consider_loop mul shrink radii knn ki.dist fuel s1) ∧
      (∀ (j l fuel : Nat), consider_loop_reads mul shrink radii knn ki.dist j l (fuel + 1) s =
        CursorRead.before ⟨j, s.last_considered, l, true, fresh⟩
          (consider_loop_reads mul shrink radii knn ki.dist j l fuel s1)) ∧
      SweepInv knn s1 lp ∧ SweepHist mul shrink neighbors knn s1 lp ∧
      s1.last_considered = s.last_considered + 1 ∧ s.last_considered < i ∧
      s.last_considered < lp ∧
      (s.graph.SeenPoint kp.idx → s1.n_chosen_clusters = s.n_chosen_clusters) ∧
      (¬ s.graph.SeenPoint kp.idx → s1.n_chosen_clusters = s.n_chosen_clusters + 1) ∧
      (fresh = true ↔ ¬ s.graph.SeenPoint kp.idx) ∧
      ∀ p : Int, p ∈ s1.m_hat.take s1.n_chosen_points ↔
        (p ∈ s.m_hat.take s.n_chosen_points ∨
          (fresh = true ∧ s.graph.Connected kp.idx p ∧ radii.getD p.toNat 0 ≤ ki.dist)) := by
  have hilt : i < knn.length := (List.getElem?_eq_some.1 hki).1
  obtain ⟨m, hm, hr⟩ := hk.entry _ kp hkp
  have hkp0 : 0 ≤ kp.dist := hrad _ (List.getElem?_mem hr)
  have hkim : ki.dist ∈ radii := by
    obtain ⟨_, _, hri⟩ := hk.entry _ ki hki
    exact List.getElem?_mem hri
  have hlt1 : kp.dist < ki.dist := lt_of_lt_of_le hc (hshr _ hkim)
  have hdi : 0 < ki.dist := lt_of_le_of_lt hkp0 hlt1
  have hlci : s.last_considered < i := by
    rcases Nat.lt_or_eq_of_le hle with h | h
    · exact h
    · exfalso
      rw [h, hki] at hkp
      cases hkp
      exact lt_irrefl _ hlt1
  have hlclp : s.last_considered < lp := by
    by_contra h
    push_neg at h
    have hlpn : lp < knn.length := by omega
    have hkq : knn[lp]? = some (knn.get ⟨lp, hlpn⟩) := List.getElem?_eq_getElem hlpn
    have h1 := hpost _ hkq
    have h2 := hk.sorted_at hkq hkp h
    apply h1
    exact lt_of_le_of_lt h2 (lt_of_lt_of_le hlt1 (hgrow _ hkim))
  have hthr : ∃ (i : Nat) (ki : KnnPoint), knn[i]? = some ki ∧ mul ki.dist shrink > kp.dist :=
    ⟨i, ki, hki, hc⟩
  have hin : (s.graph.M.lookup kp.idx).isSome :=
    (hinv.in_graph _).2 ⟨s.last_considered, kp, hlclp, hkp, rfl⟩
  obtain ⟨_, _, _, x, hx⟩ := hinv.key_range hk _ hin
  obtain ⟨g1, b, c1, c2, c3, c4, c5, c6, c7, c8⟩ := Graph.component_seen_spec hinv.wf hx
  have hconn1 := Graph.Connected.conn_of_same c4 c6
  cases b with
  | true =>
    have hinv1 := hinv.of_graph c2 c3 c4 (fun q hq => (c8 q).2 (Or.inl hq))
      (s.last_considered + 1)
    refine ⟨_, false, ?_, ?_, hinv1, hh.advance hkp rfl hconn1 c8 hlclp hthr, rfl, hlci, hlclp,
      fun _ => rfl, ?_, ?_, ?_⟩
    · intro fuel
      simp only [consider_loop, hkp, hc, if_true, c1]
    · intro j l fuel
      simp only [consider_loop_reads, hkp, hc, if_true, c1]
    · intro hns
      exact absurd (c7.1 rfl) hns
    · exact ⟨fun h => Bool.noConfusion h, fun hns => absurd (c7.1 rfl) hns⟩
    · intro p
      exact ⟨Or.inl, fun h => h.elim id (fun h2 => by cases h2.1)⟩
  | false =>
    have hns : ¬ s.graph.SeenPoint kp.idx := by
      intro h
      have := c7.2 h
      cases this
    have hx1 : g1.M.lookup kp.idx = some (some x) := by rw [c4]; exact hx
    obtain ⟨g2, res, d1, d2, d3, d4, d5⟩ := Graph.get_connected_component_spec c2 hx1
    have hconn : ∀ q, q ∈ res → s.graph.Connected kp.idx q := by
      intro q hq
      exact (hconn1 _ _).1 ((d5 q).1 hq)
    have hresM : ∀ q ∈ res, ∃ y, s.graph.M.lookup q = some (some y) := by
      intro q hq
      obtain ⟨_, b, _, _, h2, _, _⟩ := hconn q hq
      exact ⟨b, h2⟩
    have hrange : ∀ q ∈ res, 0 ≤ q ∧ q.toNat < radii.length := by
      intro q hq
      obtain ⟨y, hy⟩ := hresM q hq
      obtain ⟨m2, hm2, hlt2, _⟩ := hinv.key_range hk q (by rw [hy]; rfl)
      subst hm2
      exact ⟨Int.natCast_nonneg _, by simpa using hlt2⟩
    have hdisj : (s.m_hat.take s.n_chosen_points).Disjoint res := by
      intro q hq1 hq2
      obtain ⟨t, ht, hqt⟩ := (mem_take_iff_slot _ _ _).1 hq1
      exact hns (Graph.SeenPoint.of_connected (hconn q hq2) (hinv.collected_seen t q ht hqt))
    have hnd : (s.m_hat.take s.n_chosen_points ++ res).Nodup :=
      List.Nodup.append hinv.collected_nodup d4 hdisj
    have hcount : s.n_chosen_points + res.length ≤ s.m_hat.length := by
      have h1 := hinv.wf.registry.length_le_of_keys hnd (by
        intro q hq
        rcases List.mem_append.1 hq with h | h
        · obtain ⟨t, ht, hqt⟩ := (mem_take_iff_slot _ _ _).1 h
          obtain ⟨y, _, hy, _, _⟩ := hinv.collected_seen t q ht hqt
          exact ⟨y, hy⟩
        · exact hresM q h)
      rw [List.length_append, List.length_take, hinv.nodes_len, hinv.m_hat_len] at h1
      have h2 := hinv.chosen_le
      have h3 := hinv.pruned_le
      rw [hinv.m_hat_len]
      rw [min_eq_left h2] at h1
      omega
    obtain ⟨m2, cm2, ncp2, f1, f2, f3, f4, f5, f6, f7⟩ := collect_spec radii ki.dist
      s.n_chosen_clusters res s.m_hat s.cluster_membership s.n_chosen_points hrange hcount
      (by rw [hinv.m_hat_len, hinv.cm_len])
    have hpin : kp.idx ∈ res.filter (fun q => decide (radii.getD q.toNat 0 ≤ ki.dist)) := by
      rw [List.mem_filter]
      refine ⟨(d5 _).2 (Graph.SeenPoint.refl_connected c2 hx1), ?_⟩
      rw [hm, Int.toNat_ofNat, List.getD_eq_getElem?_getD, hr]
      simpa using le_of_lt hlt1
    have hpos : 0 < (res.filter (fun q => decide (radii.getD q.toNat 0 ≤ ki.dist))).length :=
      List.length_pos_of_mem hpin
    have hfle := List.length_filter_le (fun q => decide (radii.getD q.toNat 0 ≤ ki.dist)) res
    have hseen2 : ∀ q, g2.SeenPoint q ↔ (s.graph.SeenPoint q ∨ s.graph.Connected kp.idx q) := by
      intro q
      rw [Graph.SeenPoint.seen_of_compressed d3]
      exact c8 q
    have hconn2 : ∀ a b, g2.Connected a b ↔ s.graph.Connected a b := by
      intro a b
      rw [Graph.Connected.connected_of_compressed d3]
      exact hconn1 a b
    have hinv2 : SweepInv knn
        { graph := g2
          m_hat := m2
          cluster_membership := cm2
          n_chosen_points := ncp2
          n_chosen_clusters := s.n_chosen_clusters + 1
          last_considered := s.last_considered + 1 } lp := by
      refine ⟨d2, hinv.pruned_le, ?_, ?_, ?_, ?_, ?_, ?_, ?_, ?_, ?_, ?_⟩
      · show g2.nodes.length = lp
        rw [d3.length_eq, c3]; exact hinv.nodes_len
      · intro q
        show (g2.M.lookup q).isSome ↔ _
        rw [d3.M_eq, c4]; exact hinv.in_graph q
      · show m2.length = _
        rw [f2]; exact hinv.m_hat_len
      · show cm2.length = _
        rw [f3]; exact hinv.cm_len
      · show ncp2 ≤ _
        rw [← hinv.m_hat_len]
        omega
      · intro t p ht hp
        have hmem : p ∈ m2.take ncp2 := (mem_take_iff_slot _ _ _).2 ⟨t, ht, hp⟩
        rw [f5] at hmem
        rcases List.mem_append.1 hmem with h | h
        · obtain ⟨t2, ht2, hq2⟩ := (mem_take_iff_slot _ _ _).1 h
          exact (hseen2 p).2 (Or.inl (hinv.collected_seen t2 p ht2 hq2))
        · exact (hseen2 p).2 (Or.inr (hconn p (List.mem_filter.1 h).1))
      · show (m2.take ncp2).Nodup
        rw [f5]
        refine List.Nodup.append hinv.collected_nodup (d4.filter _) ?_
        intro q hq1 hq2
        exact hdisj hq1 (List.mem_filter.1 hq2).1
      · intro t ht
        show ∃ c : Int, cm2[t]? = some c ∧ 0 ≤ c ∧ c < s.n_chosen_clusters + 1
        by_cases hto : t < s.n_chosen_points
        · obtain ⟨c, h1, h2, h3⟩ := hinv.ids t hto
          exact ⟨c, by rw [f6 t hto]; exact h1, h2, by omega⟩
        · exact ⟨s.n_chosen_clusters, f7 t (by omega) ht, hinv.clusters_nonneg, by omega⟩
      · intro c h0 h1
        show ∃ t : Nat, t < ncp2 ∧ cm2[t]? = some c
        by_cases hcK : c < s.n_chosen_clusters
        · obtain ⟨t, h2, h3⟩ := hinv.ids_used c h0 hcK
          exact ⟨t, by omega, by rw [f6 t h2]; exact h3⟩
        · have : c = s.n_chosen_clusters := by
            have h1' : c < s.n_chosen_clusters + 1 := h1
            omega
          subst this
          exact ⟨s.n_chosen_points, by omega, f7 _ (le_refl _) (by omega)⟩
      · show 0 ≤ s.n_chosen_clusters + 1
        have := hinv.clusters_nonneg
        omega
    refine ⟨_, true, ?_, ?_, hinv2, hh.advance hkp rfl hconn2 hseen2 hlclp hthr, rfl, hlci,
      hlclp, fun h => absurd h hns, fun _ => rfl, ⟨fun _ => hns, fun _ => rfl⟩, ?_⟩
    · intro fuel
      simp only [consider_loop, hkp, hc, if_true, c1, d1, f1]
    · intro j l fuel
      simp only [consider_loop_reads, hkp, hc, if_true, c1, d1, f1]
    · intro p
      show p ∈ m2.take ncp2 ↔ _
      rw [f5, List.mem_append, List.mem_filter]
      constructor
      · rintro (h | ⟨h1, h2⟩)
        · exact Or.inl h
        · exact Or.inr ⟨rfl, hconn p h1, by simpa using h2⟩
      · rintro (h | ⟨_, h1, h2⟩)
        · exact Or.inl h
        · exact Or.inr ⟨(d5 p).2 ((hconn1 _ _).2 h1), by simpa using h2⟩

/-- One round of the consideration loop at the sweep position `i`, entered
after the pruning loop has stopped, on a point whose radius is below the
threshold: the point lies before position `i` and is a node of the graph, the
round leaves a state of the sweep, and it hands out a new cluster id exactly
when the component of the point was not seen. -/
theorem consider_step_hist {mul : ℚ → ℚ → ℚ} {radii : VectorXd} {knn : List KnnPoint} (hk : KnnSorted radii knn)
    (hrad : ∀ r ∈ radii, 0 ≤ r) {grow shrink : ℚ} (hgrow : ∀ r ∈ radii, r ≤ mul grow r) (hshr : ∀ r ∈ radii, mul r shrink ≤ r) {neighbors : RowMatrixXi} {i : Nat} {ki : KnnPoint}
    (hki : knn[i]? = some ki) {lp : Nat}
    (hpost : ∀ kp, knn[lp]? = some kp → ¬ (mul grow ki.dist > kp.dist)) {s : Chosen}
    (hinv : SweepInv knn s lp) (hh : SweepHist mul shrink neighbors knn s lp)
    (hle : s.last_considered ≤ i) {kp : KnnPoint} (hkp : knn[s.last_considered]? = some kp)
    (hc : mul ki.dist shrink > kp.dist) :
    ∃ s1, (∀ fuel, consider_loop mul shrink radii knn ki.dist (fuel + 1) s =
        consider_loop mul shrink radii knn ki.dist fuel s1) ∧
      SweepInv knn s1 lp ∧ SweepHist mul shrink neighbors knn s1 lp ∧
      s1.last_considered = s.last_considered + 1 ∧ s.last_considered < i ∧
      s.last_considered < lp ∧
      (s.graph.SeenPoint kp.idx → s1.n_chosen_clusters = s.n_chosen_clusters) ∧
      (¬ s.graph.SeenPoint kp.idx → s1.n_chosen_clusters = s.n_chosen_clusters + 1) := by
  obtain ⟨s1, _, h1, _, h2, h3, h4, h5, h6, h7, h8, _⟩ :=
    consider_step_full hk hrad hgrow hshr hki hpost hinv hh hle hkp hc
  exact ⟨s1, h1, h2, h3, h4, h5, h6, h7, h8⟩

/-- The consideration loops of two sweeps that differ in `grow` only, run side
by side from the same cursor position: both return, the cursors stay equal,
and the sweep with the larger graph hands out no more cluster ids. -/
theorem consider_loop_pair {mul : ℚ → ℚ → ℚ} {radii : VectorXd} {knn : List KnnPoint} (hk : KnnSorted radii knn)
    (hrad : ∀ r ∈ radii, 0 ≤ r) {grow1 grow2 shrink : ℚ} (hg1 : ∀ r ∈ radii, r ≤ mul grow1 r) (hg2 : ∀ r ∈ radii, r ≤ mul grow2 r)
    (hshr : ∀ r ∈ radii, mul r shrink ≤ r) {neighbors : RowMatrixXi} {i : Nat} {ki : KnnPoint}
    (hki : knn[i]? = some ki) {lp1 lp2 : Nat} (hlp : lp1 ≤ lp2)
    (hpost1 : ∀ kp, knn[lp1]? = some kp → ¬ (mul grow1 ki.dist > kp.dist))
    (hpost2 : ∀ kp, knn[lp2]? = some kp → ¬ (mul grow2 ki.dist > kp.dist)) :
    ∀ (fuel : Nat) (s1 s2 : Chosen), SweepInv knn s1 lp1 →
      SweepHist mul shrink neighbors knn s1 lp1 → SweepInv knn s2 lp2 →
      SweepHist mul shrink neighbors knn s2 lp2 → s1.last_considered = s2.last_considered →
      s2.n_chosen_clusters ≤ s1.n_chosen_clusters → s1.last_considered ≤ i →
      i + 1 ≤ fuel + s1.last_considered →
      ∃ t1 t2, consider_loop mul shrink radii knn ki.dist fuel s1 = .ok t1 ∧
        consider_loop mul shrink radii knn ki.dist fuel s2 = .ok t2 ∧
        SweepInv knn t1 lp1 ∧ SweepHist mul shrink neighbors knn t1 lp1 ∧
        SweepInv knn t2 lp2 ∧ SweepHist mul shrink neighbors knn t2 lp2 ∧
        t1.last_considered = t2.last_considered ∧
        t2.n_chosen_clusters ≤ t1.n_chosen_clusters ∧ t1.last_considered ≤ i := by
  intro fuel
  induction fuel with
  | zero =>
    intro s1 s2 _ _ _ _ _ _ hle hf
    omega
  | succ fuel ih =>
    intro s1 s2 hinv1 hh1 hinv2 hh2 hlc hK hle hf
    have hilt : i < knn.length := (List.getElem?_eq_some.1 hki).1
    have hlcn : s1.last_considered < knn.length := by omega
    have hkp : knn[s1.last_considered]? = some (knn.get ⟨s1.last_considered, hlcn⟩) :=
      List.getElem?_eq_getElem hlcn
    generalize knn.get ⟨s1.last_considered, hlcn⟩ = kp at hkp
    have hkp2 : knn[s2.last_considered]? = some kp := by rw [← hlc]; exact hkp
    by_cases hc : mul ki.dist shrink > kp.dist
    · obtain ⟨u1, a1, a2, a3, a4, a5, _, a7, a8⟩ :=
        consider_step_hist hk hrad hg1 hshr hki hpost1 hinv1 hh1 hle hkp hc
      obtain ⟨u2, b1, b2, b3, b4, _, _, b7, b8⟩ :=
        consider_step_hist hk hrad hg2 hshr hki hpost2 hinv2 hh2 (by rw [← hlc]; exact hle)
          hkp2 hc
      have hseen : s1.graph.SeenPoint kp.idx → s2.graph.SeenPoint kp.idx := by
        intro h
        obtain ⟨l, kl, hl, hkl, hcn⟩ := (hh1.seen _).1 h
        obtain ⟨c1, c2, c3⟩ := (hh1.conn _ _).1 hcn
        exact (hh2.seen _).2 ⟨l, kl, by rw [← hlc]; exact hl, hkl,
          (hh2.conn _ _).2 ⟨c1.among_le hlp, c2.among_le hlp, c3.mono fun _ _ he => he.mutual_le hlp⟩⟩
      have hK2 : u2.n_chosen_clusters ≤ u1.n_chosen_clusters := by
        by_cases h2 : s2.graph.SeenPoint kp.idx
        · rw [b7 h2]
          by_cases h1 : s1.graph.SeenPoint kp.idx
          · rw [a7 h1]; exact hK
          · rw [a8 h1]; omega
        · rw [b8 h2, a8 (fun h1 => h2 (hseen h1))]
          omega
      obtain ⟨t1, t2, r1, r2, r3⟩ := ih u1 u2 a2 a3 b2 b3 (by rw [a4, b4, hlc]) hK2
        (by rw [a4]; omega) (by rw [a4]; omega)
      exact ⟨t1, t2, by rw [a1]; exact r1, by rw [b1]; exact r2, r3⟩
    · refine ⟨s1, s2, ?_, ?_, hinv1, hh1, hinv2, hh2, hlc, hK, hle⟩
      · simp only [consider_loop, hkp, hc, if_false]
      · simp only [consider_loop, hkp2, hc, if_false]

/-- Two sweeps that differ in `grow` only, run side by side over the positions
`i, ..., i + k - 1`: both return, the sweep with the larger `grow` has pruned at
least as many points, the consideration cursors are equal, and the sweep with
the larger `grow` has handed out no more cluster ids. -/
theorem sweep_pair {mul : ℚ → ℚ → ℚ} {radii : VectorXd} {knn : List KnnPoint} (hk : KnnSorted radii knn)
    (hrad : ∀ r ∈ radii, 0 ≤ r) {neighbors : RowMatrixXi}
    (hrows : neighbors.length = radii.length) {grow1 grow2 shrink : ℚ} (hg1 : ∀ r ∈ radii, r ≤ mul grow1 r)
    (hg12 : ∀ r ∈ radii, mul grow1 r ≤ mul grow2 r) (hshr : ∀ r ∈ radii, mul r shrink ≤ r) :
    ∀ (k i : Nat) (s1 : Chosen) (lp1 : Nat) (s2 : Chosen) (lp2 : Nat), SweepInv knn s1 lp1 →
      SweepHist mul shrink neighbors knn s1 lp1 → SweepInv knn s2 lp2 →
      SweepHist mul shrink neighbors knn s2 lp2 → lp1 ≤ lp2 →
      s1.last_considered = s2.last_considered →
      s2.n_chosen_clusters ≤ s1.n_chosen_clusters → s1.last_considered ≤ i →
      i + k ≤ knn.length →
      ∃ t1 l1 t2 l2,
        sweep mul grow1 shrink radii neighbors (neighbors.map fun row => row.insertionSort (· ≤ ·))
          knn knn.length (List.range' i k) s1 lp1 = .ok (t1, l1) ∧
        sweep mul grow2 shrink radii neighbors (neighbors.map fun row => row.insertionSort (· ≤ ·))
          knn knn.length (List.range' i k) s2 lp2 = .ok (t2, l2) ∧
        SweepInv knn t1 l1 ∧ SweepHist mul shrink neighbors knn t1 l1 ∧
        SweepInv knn t2 l2 ∧ SweepHist mul shrink neighbors knn t2 l2 ∧ l1 ≤ l2 ∧
        t1.last_considered = t2.last_considered ∧
        t2.n_chosen_clusters ≤ t1.n_chosen_clusters := by
  intro k
  induction k with
  | zero =>
    intro i s1 lp1 s2 lp2 h1 h2 h3 h4 h5 h6 h7 _ _
    exact ⟨s1, lp1, s2, lp2, rfl, rfl, h1, h2, h3, h4, h5, h6, h7⟩
  | succ k ih =>
    intro i s1 lp1 s2 lp2 hinv1 hh1 hinv2 hh2 hlp hlc hK hle hik
    have hilt : i < knn.length := by omega
    have hki : knn[i]? = some (knn.get ⟨i, hilt⟩) := List.getElem?_eq_getElem hilt
    generalize knn.get ⟨i, hilt⟩ = ki at hki
    obtain ⟨m, _, hr⟩ := hk.entry i ki hki
    have hdi : 0 ≤ ki.dist := hrad _ (List.getElem?_mem hr)
    obtain ⟨g1, l1, p1, p2, p3, p4, p5, p6⟩ := prune_loop_hist hk hrows mul grow1 ki.dist
      (knn.length + 1) s1 lp1 hinv1 hh1 (by omega)
    obtain ⟨g2, l2, q1, q2, q3, q4, _, q6⟩ := prune_loop_hist hk hrows mul grow2 ki.dist
      (knn.length + 1) s2 lp2 hinv2 hh2 (by omega)
    have hl12 : l1 ≤ l2 := by
      by_contra h
      push_neg at h
      have hl1n := p2.pruned_le
      have hl2n : l2 < knn.length := by omega
      have hkq : knn[l2]? = some (knn.get ⟨l2, hl2n⟩) := List.getElem?_eq_getElem hl2n
      have h1 := p5 l2 _ (by omega) h hkq
      have h2 := q6 _ hkq
      apply h2
      have : mul grow1 ki.dist ≤ mul grow2 ki.dist := hg12 _ (List.getElem?_mem hr)
      exact lt_of_lt_of_le h1 this
    obtain ⟨u1, u2, c1, c2, c3, c4, c5, c6, c7, c8, c9⟩ := consider_loop_pair hk hrad hg1
      (fun r hr => le_trans (hg1 r hr) (hg12 r hr)) hshr hki hl12 p6 q6 (knn.length + 1)
      { s1 with graph := g1 } { s2 with graph := g2 } p2 p3 q2 q3 hlc hK hle
      (by show i + 1 ≤ knn.length + 1 + s1.last_considered; omega)
    obtain ⟨t1, m1, t2, m2, r1, r2, r3⟩ := ih (i + 1) u1 l1 u2 l2 c3 c4 c5 c6 hl12 c7 c8
      (by omega) (by omega)
    refine ⟨t1, m1, t2, m2, ?_, ?_, r3⟩
    · rw [List.range'_succ]
      simp only [sweep, hki, p1, c1]
      exact r1
    · rw [List.range'_succ]
      simp only [sweep, hki, q1, c2]
      exact r2

/-- The state of the sweep before its first step has an empty graph. -/
theorem SweepHist.hist_init (mul : ℚ → ℚ → ℚ) (shrink : ℚ) (neighbors : RowMatrixXi) (knn : List KnnPoint) :
    SweepHist mul shrink neighbors knn
      ⟨Graph.empty, List.replicate knn.length 0, List.replicate knn.length 0, 0, 0, 0⟩ 0 := by
  refine ⟨?_, ?_, ?_⟩
  · intro p q
    constructor
    · rintro ⟨x, _, _, h, _⟩
      simp [Graph.empty] at h
    · rintro ⟨⟨j, _, h, _⟩, _⟩
      exact absurd h (Nat.not_lt_zero _)
  · intro p
    constructor
    · rintro ⟨x, _, h, _⟩
      simp [Graph.empty] at h
    · rintro ⟨l, _, h, _⟩
      exact absurd h (Nat.not_lt_zero _)
  · intro l kl h
    exact absurd h (Nat.not_lt_zero _)

/-! ## `compute_cores` under two values of `epsilon` -/

/-- The sweeps of `compute_cores` under `grow1 ≤ grow2`, stopped after the
first `i` positions of the sorted order. -/
theorem sweep_prefix_pair {mul : ℚ → ℚ → ℚ} {radii : VectorXd} {knn : List KnnPoint} (hk : KnnSorted radii knn)
    (hrad : ∀ r ∈ radii, 0 ≤ r) {neighbors : RowMatrixXi}
    (hrows : neighbors.length = radii.length) {grow1 grow2 shrink : ℚ} (hg1 : ∀ r ∈ radii, r ≤ mul grow1 r)
    (hg12 : ∀ r ∈ radii, mul grow1 r ≤ mul grow2 r) (hshr : ∀ r ∈ radii, mul r shrink ≤ r) {i : Nat}
    (hi : i ≤ radii.length) :
    ∃ t1 l1 t2 l2,
      sweep mul grow1 shrink radii neighbors (neighbors.map fun row => row.insertionSort (· ≤ ·))
        knn radii.length (List.range i)
        ⟨Graph.empty, List.replicate radii.length 0, List.replicate radii.length 0, 0, 0, 0⟩ 0 =
        .ok (t1, l1) ∧
      sweep mul grow2 shrink radii neighbors (neighbors.map fun row => row.insertionSort (· ≤ ·))
        knn radii.length (List.range i)
        ⟨Graph.empty, List.replicate radii.length 0, List.replicate radii.length 0, 0, 0, 0⟩ 0 =
        .ok (t2, l2) ∧
      SweepInv knn t1 l1 ∧ SweepHist mul shrink neighbors knn t1 l1 ∧
      SweepInv knn t2 l2 ∧ SweepHist mul shrink neighbors knn t2 l2 ∧ l1 ≤ l2 ∧
      t1.last_considered = t2.last_considered ∧
      t2.n_chosen_clusters ≤ t1.n_chosen_clusters := by
  have h := sweep_pair hk hrad hrows hg1 hg12 hshr i 0 _ 0 _ 0 (SweepInv.start knn)
    (SweepHist.hist_init mul shrink neighbors knn) (SweepInv.start knn)
    (SweepHist.hist_init mul shrink neighbors knn) (le_refl _) rfl (le_refl _) (le_refl _)
    (by rw [hk.len]; omega)
  rw [← List.range_eq_range', hk.len] at h
  exact h

/-- `compute_cores` on non-negative radii with one neighbor row per point: the
state after the sweep, what its cursors say about the graph, and the entries of
the output that the scatter does not write. -/
theorem compute_cores_hist {ar : Arith} {sort : List KnnPoint → List KnnPoint}
    {radii : VectorXd} (har : ArithLaw ar radii) (hsort : SortsByDist sort) {dim : Int} (hdim : 1 ≤ dim)
    {neighbors : RowMatrixXi} {beta epsilon : ℚ} (hb0 : 0 < beta)
    (hb1 : beta < 1) (heps : 0 < epsilon) (hrows : neighbors.length = radii.length)
    (hrad : ∀ r ∈ radii, 0 ≤ r) :
    ∃ (s : Chosen) (lp : Nat) (out : VectorXi),
      compute_cores_sweep ar sort dim radii neighbors beta epsilon = .ok s ∧
      compute_cores ar sort dim radii neighbors beta epsilon = .ok out ∧
      SweepInv (sort (List.zipWith (fun (r : ℚ) (i : Nat) => (⟨r, (i : Int)⟩ : KnnPoint))
        radii (List.range radii.length))) s lp ∧
      SweepHist ar.mul (ar.pow (ar.sub 1 beta) (ar.div 1 dim)) neighbors
        (sort (List.zipWith (fun (r : ℚ) (i : Nat) => (⟨r, (i : Int)⟩ : KnnPoint))
          radii (List.range radii.length))) s lp ∧
      ∀ q, q < radii.length →
        (∀ t, t < s.n_chosen_points → ∀ p, s.m_hat[t]? = some p → p.toNat ≠ q) →
        out[q]? = some (-1) := by
  obtain ⟨hgrow, hshr⟩ := har.thresholds hdim hb0 hb1 heps hrad
  have hk := knn_sorted_of_sort hsort radii
  generalize hknn : sort (List.zipWith (fun (r : ℚ) (i : Nat) => (⟨r, (i : Int)⟩ : KnnPoint))
    radii (List.range radii.length)) = knn at hk
  obtain ⟨s, lp, _, _, e1, _, hinv, hh, _⟩ := sweep_prefix_pair hk hrad hrows hgrow (fun _ _ => le_refl _)
    hshr (le_refl radii.length)
  have hsweep : compute_cores_sweep ar sort dim radii neighbors beta epsilon = .ok s := by
    simp only [compute_cores_sweep, ne_eq, hrows, not_true_eq_false, if_false, hknn, e1]
  have hslot : ∀ t, t < s.n_chosen_points → ∃ p c, s.m_hat[t]? = some p ∧
      s.cluster_membership[t]? = some c ∧ 0 ≤ p ∧ p.toNat < radii.length := by
    intro t ht
    have htl : t < s.m_hat.length := by
      rw [hinv.m_hat_len]; exact lt_of_lt_of_le ht hinv.chosen_le
    obtain ⟨c, hc, _, _⟩ := hinv.ids t ht
    have hp : s.m_hat[t]? = some (s.m_hat.get ⟨t, htl⟩) := List.getElem?_eq_getElem htl
    obtain ⟨x, _, hx, _, _⟩ := hinv.collected_seen t _ ht hp
    obtain ⟨m, hm, hmlt, _⟩ := hinv.key_range hk (s.m_hat.get ⟨t, htl⟩) (by rw [hx]; rfl)
    refine ⟨_, c, hp, hc, ?_, ?_⟩
    · rw [hm]; exact Int.natCast_nonneg _
    · rw [hm]; simpa using hmlt
  obtain ⟨out, o1, _, _, o4⟩ := scatter_spec s.m_hat s.cluster_membership
    (List.range s.n_chosen_points) (List.replicate radii.length (-1)) (by
      intro t ht
      obtain ⟨p, c, h1, h2, h3, h4⟩ := hslot t (List.mem_range.1 ht)
      exact ⟨p, c, h1, h2, h3, by simpa using h4⟩)
    (nodup_slots _ _ (by rw [hinv.m_hat_len]; exact hinv.chosen_le) hinv.collected_nodup)
  refine ⟨s, lp, out, hsweep, by simp only [compute_cores, hsweep, o1], hinv, hh, ?_⟩
  intro q hq hfree
  rw [o4 q (fun t ht p hp => hfree t (List.mem_range.1 ht) p hp), List.getElem?_replicate,
    if_pos hq]

/-- The number of different cluster ids in a vector that holds the sentinel and
exactly the ids below `K`. -/
theorem distinct_ids_length {out : VectorXi} {K : Int} (hK : 0 ≤ K)
    (hval : ∀ v : Int, v ∈ out → v = -1 ∨ (0 ≤ v ∧ v < K))
    (hused : ∀ c : Int, 0 ≤ c → c < K → c ∈ out) :
    ((out.filter fun c => decide (0 ≤ c)).dedup).length = K.toNat := by
  have hperm : ((out.filter fun c => decide (0 ≤ c)).dedup).Perm
      ((List.range K.toNat).map fun (c : Nat) => (c : Int)) := by
    rw [List.perm_ext_iff_of_nodup (List.nodup_dedup _)
      ((List.nodup_range _).map (fun a b h => by exact_mod_cast h))]
    intro c
    rw [List.mem_dedup, List.mem_filter, List.mem_map]
    constructor
    · rintro ⟨h1, h2⟩
      have h0 : 0 ≤ c := by simpa using h2
      rcases hval c h1 with h | ⟨_, h⟩
      · omega
      · exact ⟨c.toNat, List.mem_range.2 (by omega), Int.toNat_of_nonneg h0⟩
    · rintro ⟨k, hk, rfl⟩
      rw [List.mem_range] at hk
      exact ⟨hused _ (Int.natCast_nonneg _) (by omega), by simp⟩
  rw [hperm.length_eq]
  simp

/-! ## `compute_cores`: the effect of `epsilon`, and the points left unassigned -/

theorem pow_one_mono : PowMono pow_one :=
  fun _ _ _ _ _ h => h

/-- The arithmetic without rounding keeps the monotonicity that the comparison
of two values of `epsilon` needs, for every `std::pow` that does not decrease
in its base. -/
theorem exact_arith_mono {pow : ℚ → ℚ → ℚ} (hmono : PowMono pow) (radii : VectorXd) :
    ArithMono (Arith.exact pow) radii := by
  refine ⟨?_, ?_⟩
  · intro e1 e2 y hy he1 h12
    show pow (1 + e1) y ≤ pow (1 + e2) y
    exact hmono _ _ _ hy (by linarith) (by linarith)
  · intro g1 g2 hg r _ hr
    show g1 * r ≤ g2 * r
    exact mul_le_mul_of_nonneg_right hg hr

theorem cores_input_equal : CoresInput 1 [1, 1] [[1], [0]] (1 / 10) (1 / 10) := by
  refine ⟨?_, rfl, ?_, by norm_num, by norm_num, by norm_num, le_refl _⟩
  · intro r hr
    simp only [List.mem_cons, List.mem_singleton, List.not_mem_nil, or_false] at hr
    rcases hr with rfl | rfl <;> norm_num
  · decide

/-- C11. On a valid input, for every double arithmetic that keeps the laws
`ArithLaw` and the monotonicity `ArithMono`, among them the arithmetic without
rounding with a `std::pow` that keeps a base above 1 above 1 and a base in
`(0, 1)` in `(0, 1)` and does not decrease in its base, every `std::sort` that
orders by radius, and `epsilon2 > epsilon1 > 0`: after every
number `i` of sweep positions both sweeps have returned, the sweep under
`epsilon2` has pruned at least as many points of the sorted order, each graph
has exactly the components of the mutual k-NN edges among its pruned points,
every such edge under `epsilon1` is one under `epsilon2`, and points in one
component under `epsilon1` are in one component under `epsilon2`; and the
number of different cluster ids in the output, which is the number of extracted
components, is under `epsilon2` at most what it is under `epsilon1`. -/
theorem cores_monotone_in_epsilon {ar : Arith} {sort : List KnnPoint → List KnnPoint}
    {radii : VectorXd} (har : ArithLaw ar radii) (hmono : ArithMono ar radii)
    (hsort : SortsByDist sort) {dim : Int} {neighbors : RowMatrixXi} {beta eps1 eps2 : ℚ}
    (hv : CoresInput dim radii neighbors beta eps1) (h12 : eps1 < eps2) :
    (∀ knn : List KnnPoint,
      knn = sort (List.zipWith (fun (r : ℚ) (i : Nat) => (⟨r, (i : Int)⟩ : KnnPoint)) radii
        (List.range radii.length)) →
      ∀ i, i ≤ radii.length → ∃ s1 lp1 s2 lp2,
        sweep ar.mul (ar.pow (ar.add 1 eps1) (ar.div 1 dim))
          (ar.pow (ar.sub 1 beta) (ar.div 1 dim)) radii neighbors
          (neighbors.map fun row => row.insertionSort (· ≤ ·)) knn radii.length (List.range i)
          ⟨Graph.empty, List.replicate radii.length 0, List.replicate radii.length 0, 0, 0, 0⟩
          0 = .ok (s1, lp1) ∧
        sweep ar.mul (ar.pow (ar.add 1 eps2) (ar.div 1 dim))
          (ar.pow (ar.sub 1 beta) (ar.div 1 dim)) radii neighbors
          (neighbors.map fun row => row.insertionSort (· ≤ ·)) knn radii.length (List.range i)
          ⟨Graph.empty, List.replicate radii.length 0, List.replicate radii.length 0, 0, 0, 0⟩
          0 = .ok (s2, lp2) ∧
        lp1 ≤ lp2 ∧
        (∀ p q, s1.graph.Connected p q ↔
          (Among knn lp1 p ∧ Among knn lp1 q ∧ Linked (MutualEdge neighbors knn lp1) p q)) ∧
        (∀ p q, s2.graph.Connected p q ↔
          (Among knn lp2 p ∧ Among knn lp2 q ∧ Linked (MutualEdge neighbors knn lp2) p q)) ∧
        (∀ p q, MutualEdge neighbors knn lp1 p q → MutualEdge neighbors knn lp2 p q) ∧
        (∀ p q, s1.graph.Connected p q → s2.graph.Connected p q)) ∧
    (∃ s1 s2 out1 out2,
      compute_cores_sweep ar sort dim radii neighbors beta eps1 = .ok s1 ∧
      compute_cores_sweep ar sort dim radii neighbors beta eps2 = .ok s2 ∧
      compute_cores ar sort dim radii neighbors beta eps1 = .ok out1 ∧
      compute_cores ar sort dim radii neighbors beta eps2 = .ok out2 ∧
      ((out1.filter fun c => decide (0 ≤ c)).dedup).length = s1.n_chosen_clusters.toNat ∧
      ((out2.filter fun c => decide (0 ≤ c)).dedup).length = s2.n_chosen_clusters.toNat ∧
      s2.n_chosen_clusters ≤ s1.n_chosen_clusters ∧
      ((out2.filter fun c => decide (0 ≤ c)).dedup).length ≤
        ((out1.filter fun c => decide (0 ≤ c)).dedup).length) := by
  have hdq : (1 : ℚ) ≤ (dim : ℚ) := by exact_mod_cast hv.dim_pos
  have hy : (0 : ℚ) < ar.div 1 (dim : ℚ) := har.div_pos _ hdq
  have he1 := hv.epsilon_pos
  obtain ⟨hg1, hshr⟩ := har.thresholds hv.dim_pos hv.beta_pos hv.beta_lt hv.epsilon_pos
    hv.radii_nonneg
  have hg12 : ∀ r ∈ radii, ar.mul (ar.pow (ar.add 1 eps1) (ar.div 1 (dim : ℚ))) r ≤
      ar.mul (ar.pow (ar.add 1 eps2) (ar.div 1 (dim : ℚ))) r := fun r hr =>
    hmono.mul_mono _ _ (hmono.grow_mono _ _ _ hy he1 (le_of_lt h12)) r hr
      (hv.radii_nonneg r hr)
  have hk := knn_sorted_of_sort hsort radii
  constructor
  · intro knn hknn i hi
    rw [← hknn] at hk
    obtain ⟨t1, l1, t2, l2, e1, e2, _, hh1, _, hh2, hl, _, _⟩ :=
      sweep_prefix_pair hk hv.radii_nonneg hv.rows_eq hg1 hg12 hshr hi
    refine ⟨t1, l1, t2, l2, e1, e2, hl, hh1.conn, hh2.conn, fun p q h => h.mutual_le hl, ?_⟩
    intro p q h
    obtain ⟨c1, c2, c3⟩ := (hh1.conn p q).1 h
    exact (hh2.conn p q).2 ⟨c1.among_le hl, c2.among_le hl, c3.mono fun _ _ he => he.mutual_le hl⟩
  · obtain ⟨t1, l1, t2, l2, e1, e2, _, _, _, _, _, _, hK⟩ :=
      sweep_prefix_pair hk hv.radii_nonneg hv.rows_eq hg1 hg12 hshr (le_refl radii.length)
    have hsweep1 : compute_cores_sweep ar sort dim radii neighbors beta eps1 = .ok t1 := by
      simp only [compute_cores_sweep, ne_eq, hv.rows_eq, not_true_eq_false, if_false, e1]
    have hsweep2 : compute_cores_sweep ar sort dim radii neighbors beta eps2 = .ok t2 := by
      simp only [compute_cores_sweep, ne_eq, hv.rows_eq, not_true_eq_false, if_false, e2]
    obtain ⟨u1, out1, a1, a2, _, a4, a5, a6, _⟩ := compute_cores_spec har hsort hv.dim_pos
      hv.beta_pos hv.beta_lt hv.epsilon_pos hv.rows_eq hv.radii_nonneg
    obtain ⟨u2, out2, b1, b2, _, b4, b5, b6, _⟩ := compute_cores_spec har hsort hv.dim_pos
      hv.beta_pos hv.beta_lt (lt_trans he1 h12) hv.rows_eq hv.radii_nonneg
    rw [hsweep1] at a1
    cases a1
    rw [hsweep2] at b1
    cases b1
    have d1 := distinct_ids_length a4 a5 a6
    have d2 := distinct_ids_length b4 b5 b6
    refine ⟨t1, t2, out1, out2, hsweep1, hsweep2, a2, b2, d1, d2, hK, ?_⟩
    rw [d1, d2]
    omega

/-- Witness of C11 on the literal scenario, with `epsilon` 1/10 and 2/10. -/
theorem cores_monotone_in_epsilon_witness :
    (∀ knn : List KnnPoint,
      knn = stable_sort (List.zipWith (fun (r : ℚ) (i : Nat) => (⟨r, (i : Int)⟩ : KnnPoint))
        [1, 1 / 2, 1 / 2, 2] (List.range ([1, 1 / 2, 1 / 2, 2] : VectorXd).length)) →
      ∀ i, i ≤ ([1, 1 / 2, 1 / 2, 2] : VectorXd).length → ∃ s1 lp1 s2 lp2,
        sweep (Arith.exact pow_one).mul
          ((Arith.exact pow_one).pow ((Arith.exact pow_one).add 1 (1 / 10))
            ((Arith.exact pow_one).div 1 ((1 : Int) : ℚ)))
          ((Arith.exact pow_one).pow ((Arith.exact pow_one).sub 1 (1 / 10))
            ((Arith.exact pow_one).div 1 ((1 : Int) : ℚ))) [1, 1 / 2, 1 / 2, 2]
          [[1], [0, 2], [1, 3], [2]]
          (([[1], [0, 2], [1, 3], [2]] : RowMatrixXi).map fun row =>
            row.insertionSort (· ≤ ·)) knn
          ([1, 1 / 2, 1 / 2, 2] : VectorXd).length (List.range i)
          ⟨Graph.empty, List.replicate ([1, 1 / 2, 1 / 2, 2] : VectorXd).length 0,
            List.replicate ([1, 1 / 2, 1 / 2, 2] : VectorXd).length 0, 0, 0, 0⟩
          0 = .ok (s1, lp1) ∧
        sweep (Arith.exact pow_one).mul
          ((Arith.exact pow_one).pow ((Arith.exact pow_one).add 1 (2 / 10))
            ((Arith.exact pow_one).div 1 ((1 : Int) : ℚ)))
          ((Arith.exact pow_one).pow ((Arith.exact pow_one).sub 1 (1 / 10))
            ((Arith.exact pow_one).div 1 ((1 : Int) : ℚ))) [1, 1 / 2, 1 / 2, 2]
          [[1], [0, 2], [1, 3], [2]]
          (([[1], [0, 2], [1, 3], [2]] : RowMatrixXi).map fun row =>
            row.insertionSort (· ≤ ·)) knn
          ([1, 1 / 2, 1 / 2, 2] : VectorXd).length (List.range i)
          ⟨Graph.empty, List.replicate ([1, 1 / 2, 1 / 2, 2] : VectorXd).length 0,
            List.replicate ([1, 1 / 2, 1 / 2, 2] : VectorXd).length 0, 0, 0, 0⟩
          0 = .ok (s2, lp2) ∧
        lp1 ≤ lp2 ∧
        (∀ p q, s1.graph.Connected p q ↔
          (Among knn lp1 p ∧ Among knn lp1 q ∧
            Linked (MutualEdge [[1], [0, 2], [1, 3], [2]] knn lp1) p q)) ∧
        (∀ p q, s2.graph.Connected p q ↔
          (Among knn lp2 p ∧ Among knn lp2 q ∧
            Linked (MutualEdge [[1], [0, 2], [1, 3], [2]] knn lp2) p q)) ∧
        (∀ p q, MutualEdge [[1], [0, 2], [1, 3], [2]] knn lp1 p q →
          MutualEdge [[1], [0, 2], [1, 3], [2]] knn lp2 p q) ∧
        (∀ p q, s1.graph.Connected p q → s2.graph.Connected p q)) ∧
    (∃ s1 s2 out1 out2,
      compute_cores_sweep (Arith.exact pow_one) stable_sort 1 [1, 1 / 2, 1 / 2, 2] [[1], [0, 2], [1, 3], [2]]
        (1 / 10) (1 / 10) = .ok s1 ∧
      compute_cores_sweep (Arith.exact pow_one) stable_sort 1 [1, 1 / 2, 1 / 2, 2] [[1], [0, 2], [1, 3], [2]]
        (1 / 10) (2 / 10) = .ok s2 ∧
      compute_cores (Arith.exact pow_one) stable_sort 1 [1, 1 / 2, 1 / 2, 2] [[1], [0, 2], [1, 3], [2]]
        (1 / 10) (1 / 10) = .ok out1 ∧
      compute_cores (Arith.exact pow_one) stable_sort 1 [1, 1 / 2, 1 / 2, 2] [[1], [0, 2], [1, 3], [2]]
        (1 / 10) (2 / 10) = .ok out2 ∧
      ((out1.filter fun c => decide (0 ≤ c)).dedup).length = s1.n_chosen_clusters.toNat ∧
      ((out2.filter fun c => decide (0 ≤ c)).dedup).length = s2.n_chosen_clusters.toNat ∧
      s2.n_chosen_clusters ≤ s1.n_chosen_clusters ∧
      ((out2.filter fun c => decide (0 ≤ c)).dedup).length ≤
        ((out1.filter fun c => decide (0 ≤ c)).dedup).length) :=
  cores_monotone_in_epsilon (exact_arith_law pow_one_law _) (exact_arith_mono pow_one_mono _)
    stable_sort_sorts cores_input_scenario
    (by norm_num)

/-! ## The cursors of the sweep at every read -/

/-- At a read of a pruned point, the component of the point read is seen
exactly when it holds a point the consideration cursor has passed. -/
theorem SweepHist.seen_iff_before {mul : ℚ → ℚ → ℚ} {shrink : ℚ} {neighbors : RowMatrixXi}
    {knn : List KnnPoint} {s : Chosen} {lp : Nat} (hh : SweepHist mul shrink neighbors knn s lp)
    (hlclp : s.last_considered < lp) {kp : KnnPoint} (hkp : knn[s.last_considered]? = some kp)
    (i : Nat) (e f : Bool) :
    s.graph.SeenPoint kp.idx ↔ SeenBefore neighbors knn ⟨i, s.last_considered, lp, e, f⟩ := by
  constructor
  · intro h
    obtain ⟨l, kl, hl, hkl, hc⟩ := (hh.seen kp.idx).1 h
    exact ⟨l, kl, kp, hl, hkl, hkp, ((hh.conn _ _).1 hc).2.2⟩
  · rintro ⟨l, kl, kr, hl, hkl, hkr, hlink⟩
    have hl' : l < s.last_considered := hl
    have hkr' : knn[s.last_considered]? = some kr := hkr
    rw [hkp] at hkr'
    cases hkr'
    exact (hh.seen kp.idx).2 ⟨l, kl, hl', hkl, (hh.conn _ _).2
      ⟨⟨s.last_considered, kp, hlclp, hkp, rfl⟩, ⟨l, kl, by omega, hkl, rfl⟩, hlink⟩⟩

/-- At a read of a pruned point, the points of the component of the point read
are the pruned points joined to it by mutual k-NN edges. -/
theorem SweepHist.connected_iff_linked {mul : ℚ → ℚ → ℚ} {shrink : ℚ}
    {neighbors : RowMatrixXi} {knn : List KnnPoint} {s : Chosen} {lp : Nat}
    (hh : SweepHist mul shrink neighbors knn s lp) (hlclp : s.last_considered < lp)
    {kp : KnnPoint} (hkp : knn[s.last_considered]? = some kp) (p : Int) :
    s.graph.Connected kp.idx p ↔
      (Among knn lp p ∧ Linked (MutualEdge neighbors knn lp) kp.idx p) := by
  rw [hh.conn]
  exact ⟨fun h => ⟨h.2.1, h.2.2⟩,
    fun h => ⟨⟨s.last_considered, kp, hlclp, hkp, rfl⟩, h.1, h.2⟩⟩

/-- The consideration loop at sweep position `i` with its record of reads: it
returns what `consider_loop` returns, every read keeps to `ReadOk`, the cursor
only grows from read to read, and the points collected are those of the
components extracted at the reads. -/
theorem consider_loop_reads_spec {mul : ℚ → ℚ → ℚ} {radii : VectorXd} {knn : List KnnPoint}
    (hk : KnnSorted radii knn) (hrad : ∀ r ∈ radii, 0 ≤ r) {grow shrink : ℚ}
    (hgrow : ∀ r ∈ radii, r ≤ mul grow r) (hshr : ∀ r ∈ radii, mul r shrink ≤ r)
    {neighbors : RowMatrixXi} {i : Nat} {ki : KnnPoint} (hki : knn[i]? = some ki) {lp : Nat}
    (hlp : lp ≤ knn.length)
    (hpost : ∀ kp, knn[lp]? = some kp → ¬ (mul grow ki.dist > kp.dist)) :
    ∀ (fuel : Nat) (s : Chosen), SweepInv knn s lp → SweepHist mul shrink neighbors knn s lp →
      s.last_considered ≤ i → i + 1 ≤ fuel + s.last_considered →
      ∃ s1 rs, consider_loop_reads mul shrink radii knn ki.dist i lp fuel s = .ok (s1, rs) ∧
        consider_loop mul shrink radii knn ki.dist fuel s = .ok s1 ∧
        SweepInv knn s1 lp ∧ SweepHist mul shrink neighbors knn s1 lp ∧
        s1.last_considered ≤ i ∧ s.last_considered ≤ s1.last_considered ∧
        (∀ r ∈ rs, r.i = i ∧ r.last_pruned = lp ∧ s.last_considered ≤ r.last_considered ∧
          r.last_considered ≤ s1.last_considered ∧ ReadOk mul grow shrink neighbors knn r) ∧
        rs.Pairwise (fun a b => a.i ≤ b.i ∧ a.last_considered ≤ b.last_considered ∧
          a.last_pruned ≤ b.last_pruned) ∧
        ∀ p : Int, p ∈ s1.m_hat.take s1.n_chosen_points ↔
          (p ∈ s.m_hat.take s.n_chosen_points ∨ ∃ r ∈ rs, Collects radii neighbors knn r p) := by
  have hilt : i < knn.length := (List.getElem?_eq_some.1 hki).1
  have hprune : mul grow ki.dist > ki.dist → i < lp := by
    intro hd
    by_contra h
    push_neg at h
    have hl1n : lp < knn.length := by omega
    have hkq : knn[lp]? = some (knn.get ⟨lp, hl1n⟩) := List.getElem?_eq_getElem hl1n
    have h1 := hpost _ hkq
    have h2 := hk.sorted_at hkq hki h
    exact h1 (lt_of_le_of_lt h2 hd)
  intro fuel
  induction fuel with
  | zero =>
    intro s _ _ hle hf
    omega
  | succ fuel ih =>
    intro s hinv hh hle hf
    have hlt : s.last_considered < knn.length := by omega
    have hkp : knn[s.last_considered]? = some (knn.get ⟨s.last_considered, hlt⟩) :=
      List.getElem?_eq_getElem hlt
    generalize knn.get ⟨s.last_considered, hlt⟩ = kp at hkp
    by_cases hc : mul ki.dist shrink > kp.dist
    · obtain ⟨s1, fresh, e1, e2, hinv1, hh1, hlc1, hlci, hlclp, _, _, hfresh, htake⟩ :=
        consider_step_full hk hrad hgrow hshr hki hpost hinv hh hle hkp hc
      obtain ⟨s2, rs, a1, a2, a3, a4, a5, a6, a7, a8, a9⟩ := ih s1 hinv1 hh1 (by omega)
        (by omega)
      have hcol : ∀ p : Int,
          Collects radii neighbors knn ⟨i, s.last_considered, lp, true, fresh⟩ p ↔
            (fresh = true ∧ s.graph.Connected kp.idx p ∧ radii.getD p.toNat 0 ≤ ki.dist) := by
        intro p
        rw [hh.connected_iff_linked hlclp hkp p]
        constructor
        · rintro ⟨b1, ki2, kl2, b2, b3, b4, b5, b6⟩
          have b2' : knn[i]? = some ki2 := b2
          have b3' : knn[s.last_considered]? = some kl2 := b3
          rw [hki] at b2'
          rw [hkp] at b3'
          cases b2'
          cases b3'
          exact ⟨b1, ⟨b4, b5⟩, b6⟩
        · rintro ⟨b1, ⟨b4, b5⟩, b6⟩
          exact ⟨b1, ki, kp, hki, hkp, b4, b5, b6⟩
      refine ⟨s2, ⟨i, s.last_considered, lp, true, fresh⟩ :: rs, ?_, ?_, a3, a4, a5, by omega,
        ?_, ?_, ?_⟩
      · rw [e2 i lp fuel, a1]
        rfl
      · rw [e1 fuel, a2]
      · intro r hr
        rcases List.mem_cons.1 hr with h | h
        · subst h
          refine ⟨rfl, rfl, le_refl _, by show s.last_considered ≤ _; omega, ?_⟩
          refine ⟨hilt, le_of_lt hlci, hlp, le_of_lt hlclp, fun _ => ⟨hlclp, hlci⟩,
            fun _ _ _ => hlclp, ?_, ?_⟩
          · intro ki2 kl2 b2 b3
            have b2' : knn[i]? = some ki2 := b2
            have b3' : knn[s.last_considered]? = some kl2 := b3
            rw [hki] at b2'
            rw [hkp] at b3'
            cases b2'
            cases b3'
            exact ⟨fun _ => hc, fun _ => rfl⟩
          · show fresh = true ↔ _
            rw [hfresh, hh.seen_iff_before hlclp hkp i true fresh]
            exact ⟨fun h => ⟨rfl, h⟩, fun h => h.2⟩
        · obtain ⟨b1, b2, b3, b4, b5⟩ := a7 r h
          exact ⟨b1, b2, by omega, b4, b5⟩
      · refine List.Pairwise.cons ?_ a8
        intro r hr
        obtain ⟨b1, b2, b3, _, _⟩ := a7 r hr
        refine ⟨?_, ?_, ?_⟩
        · show i ≤ r.i
          omega
        · show s.last_considered ≤ r.last_considered
          omega
        · show lp ≤ r.last_pruned
          omega
      · intro p
        rw [a9 p, htake p]
        constructor
        · rintro ((h | h) | ⟨r, hr, h⟩)
          · exact Or.inl h
          · exact Or.inr ⟨_, List.mem_cons_self _ _, (hcol p).2 h⟩
          · exact Or.inr ⟨r, List.mem_cons_of_mem _ hr, h⟩
        · rintro (h | ⟨r, hr, h⟩)
          · exact Or.inl (Or.inl h)
          · rcases List.mem_cons.1 hr with h2 | h2
            · subst h2
              exact Or.inl (Or.inr ((hcol p).1 h))
            · exact Or.inr ⟨r, h2, h⟩
    · refine ⟨s, [⟨i, s.last_considered, lp, false, false⟩], ?_, ?_, hinv, hh, hle, le_refl _,
        ?_, List.pairwise_singleton _ _, ?_⟩
      · simp only [consider_loop_reads, hkp, hc, if_false]
      · simp only [consider_loop, hkp, hc, if_false]
      · intro r hr
        rw [List.mem_singleton] at hr
        subst hr
        refine ⟨rfl, rfl, le_refl _, le_refl _, ?_⟩
        refine ⟨hilt, hle, hlp, ?_, fun h => Bool.noConfusion h, ?_, ?_,
          ⟨fun h => Bool.noConfusion h, fun h => Bool.noConfusion h.1⟩⟩
        · show s.last_considered ≤ lp
          rcases Nat.eq_zero_or_pos s.last_considered with h0 | h0
          · omega
          · have hl : s.last_considered - 1 < knn.length := by omega
            have := (hh.considered (s.last_considered - 1) _ (by omega)
              (List.getElem?_eq_getElem hl)).1
            omega
        · intro ki2 b2 b3
          have b2' : knn[i]? = some ki2 := b2
          rw [hki] at b2'
          cases b2'
          have := hprune b3
          show s.last_considered < lp
          omega
        · intro ki2 kl2 b2 b3
          have b2' : knn[i]? = some ki2 := b2
          have b3' : knn[s.last_considered]? = some kl2 := b3
          rw [hki] at b2'
          rw [hkp] at b3'
          cases b2'
          cases b3'
          exact ⟨fun h => Bool.noConfusion h, fun h => absurd h hc⟩
      · intro p
        constructor
        · exact Or.inl
        · rintro (h | ⟨r, hr, h⟩)
          · exact h
          · rw [List.mem_singleton] at hr
            subst hr
            exact Bool.noConfusion h.1

/-- The sweep with its record of reads, from a state that keeps the invariants:
it returns what `sweep` returns, every read keeps to `ReadOk`, no cursor ever
decreases, and the points collected are those of the components extracted at
the reads. -/
theorem sweep_reads_spec {mul : ℚ → ℚ → ℚ} {radii : VectorXd} {knn : List KnnPoint}
    (hk : KnnSorted radii knn) (hrad : ∀ r ∈ radii, 0 ≤ r) {neighbors : RowMatrixXi}
    (hrows : neighbors.length = radii.length) {grow shrink : ℚ}
    (hgrow : ∀ r ∈ radii, r ≤ mul grow r) (hshr : ∀ r ∈ radii, mul r shrink ≤ r) :
    ∀ (k i : Nat) (s : Chosen) (lp : Nat), SweepInv knn s lp →
      SweepHist mul shrink neighbors knn s lp → s.last_considered ≤ i → i + k ≤ knn.length →
      ∃ t l rs,
        sweep_reads mul grow shrink radii neighbors
          (neighbors.map fun row => row.insertionSort (· ≤ ·)) knn knn.length (List.range' i k)
          s lp = .ok (t, l, rs) ∧
        sweep mul grow shrink radii neighbors
          (neighbors.map fun row => row.insertionSort (· ≤ ·))
          knn knn.length (List.range' i k) s lp = .ok (t, l) ∧
        SweepInv knn t l ∧ SweepHist mul shrink neighbors knn t l ∧ lp ≤ l ∧
        s.last_considered ≤ t.last_considered ∧
        (∀ r ∈ rs, i ≤ r.i ∧ s.last_considered ≤ r.last_considered ∧
          r.last_considered ≤ t.last_considered ∧ lp ≤ r.last_pruned ∧ r.last_pruned ≤ l ∧
          ReadOk mul grow shrink neighbors knn r) ∧
        rs.Pairwise (fun a b => a.i ≤ b.i ∧ a.last_considered ≤ b.last_considered ∧
          a.last_pruned ≤ b.last_pruned) ∧
        ∀ p : Int, p ∈ t.m_hat.take t.n_chosen_points ↔
          (p ∈ s.m_hat.take s.n_chosen_points ∨ ∃ r ∈ rs, Collects radii neighbors knn r p) := by
  intro k
  induction k with
  | zero =>
    intro i s lp h1 h2 _ _
    refine ⟨s, lp, [], rfl, rfl, h1, h2, le_refl _, le_refl _,
      fun r hr => absurd hr (List.not_mem_nil _), List.Pairwise.nil, ?_⟩
    intro p
    constructor
    · exact Or.inl
    · rintro (h | ⟨r, hr, _⟩)
      · exact h
      · exact absurd hr (List.not_mem_nil _)
  | succ k ih =>
    intro i s lp hinv hh hle hik
    have hilt : i < knn.length := by omega
    have hki : knn[i]? = some (knn.get ⟨i, hilt⟩) := List.getElem?_eq_getElem hilt
    generalize knn.get ⟨i, hilt⟩ = ki at hki
    obtain ⟨g1, l1, p1, p2, p3, p4, _, p6⟩ := prune_loop_hist hk hrows mul grow ki.dist
      (knn.length + 1) s lp hinv hh (by omega)
    obtain ⟨s1, rs1, c1, c2, c3, c4, c5, c6, c7, c8, c9⟩ := consider_loop_reads_spec hk hrad
      hgrow hshr hki p2.pruned_le p6 (knn.length + 1) { s with graph := g1 } p2 p3 hle
      (by show i + 1 ≤ knn.length + 1 + s.last_considered; omega)
    have c6' : s.last_considered ≤ s1.last_considered := c6
    obtain ⟨t, l, rs2, r1, r2, r3, r4, r5, r6, r7, r8, r9⟩ := ih (i + 1) s1 l1 c3 c4 (by omega)
      (by omega)
    refine ⟨t, l, rs1 ++ rs2, ?_, ?_, r3, r4, by omega, by omega, ?_, ?_, ?_⟩
    · rw [List.range'_succ]
      simp only [sweep_reads, hki, p1, c1, r1]
    · rw [List.range'_succ]
      simp only [sweep, hki, p1, c2]
      exact r2
    · intro r hr
      rcases List.mem_append.1 hr with h | h
      · obtain ⟨b1, b2, b3, b4, b5⟩ := c7 r h
        have b3' : s.last_considered ≤ r.last_considered := b3
        exact ⟨by omega, b3', by omega, by omega, by omega, b5⟩
      · obtain ⟨b1, b2, b3, b4, b5, b6⟩ := r7 r h
        exact ⟨by omega, by omega, b3, by omega, b5, b6⟩
    · rw [List.pairwise_append]
      refine ⟨c8, r8, ?_⟩
      intro a ha b hb
      obtain ⟨a1, a2, _, a4, _⟩ := c7 a ha
      obtain ⟨b1, b2, _, b4, _, _⟩ := r7 b hb
      exact ⟨by omega, by omega, by omega⟩
    · intro p
      rw [r9 p, c9 p]
      constructor
      · rintro ((h | ⟨r, hr, h⟩) | ⟨r, hr, h⟩)
        · exact Or.inl h
        · exact Or.inr ⟨r, List.mem_append_left _ hr, h⟩
        · exact Or.inr ⟨r, List.mem_append_right _ hr, h⟩
      · rintro (h | ⟨r, hr, h⟩)
        · exact Or.inl (Or.inl h)
        · rcases List.mem_append.1 hr with h2 | h2
          · exact Or.inl (Or.inr ⟨r, h2, h⟩)
          · exact Or.inr ⟨r, h2, h⟩

/-- The sweep of `compute_cores` with its record of reads, on non-negative
radii with one neighbor row per point: the sweep and the scatter return, every
read keeps to `ReadOk`, no cursor ever decreases, and a point is left at the
sentinel exactly when no read collects it. -/
theorem compute_cores_reads_spec {ar : Arith} {sort : List KnnPoint → List KnnPoint}
    {radii : VectorXd} (har : ArithLaw ar radii) (hsort : SortsByDist sort) {dim : Int}
    (hdim : 1 ≤ dim) {neighbors : RowMatrixXi} {beta epsilon : ℚ} (hb0 : 0 < beta)
    (hb1 : beta < 1) (heps : 0 < epsilon) (hrows : neighbors.length = radii.length)
    (hrad : ∀ r ∈ radii, 0 ≤ r) :
    ∃ (s : Chosen) (lp : Nat) (rs : List CursorRead) (out : VectorXi),
      compute_cores_reads ar sort dim radii neighbors beta epsilon = .ok (s, lp, rs) ∧
      compute_cores_sweep ar sort dim radii neighbors beta epsilon = .ok s ∧
      compute_cores ar sort dim radii neighbors beta epsilon = .ok out ∧
      lp ≤ radii.length ∧
      (∀ r ∈ rs, r.last_considered ≤ s.last_considered ∧ r.last_pruned ≤ lp ∧
        ReadOk ar.mul (ar.pow (ar.add 1 epsilon) (ar.div 1 dim))
          (ar.pow (ar.sub 1 beta) (ar.div 1 dim)) neighbors
          (sort (List.zipWith (fun (r : ℚ) (i : Nat) => (⟨r, (i : Int)⟩ : KnnPoint))
            radii (List.range radii.length))) r) ∧
      rs.Pairwise (fun a b => a.i ≤ b.i ∧ a.last_considered ≤ b.last_considered ∧
        a.last_pruned ≤ b.last_pruned) ∧
      ∀ p : Nat, p < radii.length →
        (out[p]? = some (-1) ↔ ¬ ∃ r ∈ rs, Collects radii neighbors
          (sort (List.zipWith (fun (r : ℚ) (i : Nat) => (⟨r, (i : Int)⟩ : KnnPoint))
            radii (List.range radii.length))) r (p : Int)) := by
  obtain ⟨hgrow, hshr⟩ := har.thresholds hdim hb0 hb1 heps hrad
  obtain ⟨s0, lp0, out, f1, f2, finv, _, ffree⟩ := compute_cores_hist har hsort hdim hb0 hb1
    heps hrows hrad
  obtain ⟨s1, out1, g1, g2, _, _, _, _, _, _, gslot⟩ := compute_cores_spec har hsort hdim hb0
    hb1 heps hrows hrad
  rw [f1] at g1
  cases g1
  rw [f2] at g2
  cases g2
  have hk := knn_sorted_of_sort hsort radii
  generalize hknn : sort (List.zipWith (fun (r : ℚ) (i : Nat) => (⟨r, (i : Int)⟩ : KnnPoint))
    radii (List.range radii.length)) = knn at hk finv
  have h := sweep_reads_spec hk hrad hrows hgrow hshr radii.length 0 _ 0 (SweepInv.start knn)
    (SweepHist.hist_init ar.mul (ar.pow (ar.sub 1 beta) (ar.div 1 dim)) neighbors knn)
    (Nat.zero_le _) (by rw [hk.len]; omega)
  rw [← List.range_eq_range', hk.len] at h
  obtain ⟨t, l, rs, e1, e2, hinv, _, _, _, hr, hp, htake⟩ := h
  have hsw : compute_cores_sweep ar sort dim radii neighbors beta epsilon = .ok t := by
    simp only [compute_cores_sweep, ne_eq, hrows, not_true_eq_false, if_false, hknn, e2]
  rw [f1] at hsw
  cases hsw
  have hl : l ≤ radii.length := by rw [← hk.len]; exact hinv.pruned_le
  refine ⟨s0, l, rs, out, ?_, f1, f2, hl, ?_, hp, ?_⟩
  · simp only [compute_cores_reads, ne_eq, hrows, not_true_eq_false, if_false, hknn, e1]
  · intro r hr1
    obtain ⟨_, _, b3, _, b5, b6⟩ := hr r hr1
    exact ⟨b3, b5, b6⟩
  · intro p hp1
    have htake0 : ∀ q : Int, q ∈ s0.m_hat.take s0.n_chosen_points ↔
        ∃ r ∈ rs, Collects radii neighbors knn r q := by
      intro q
      rw [htake q]
      constructor
      · rintro (h | h)
        · simp at h
        · exact h
      · exact Or.inr
    rw [← htake0]
    constructor
    · intro hout hmem
      obtain ⟨t2, ht2, hq⟩ := (mem_take_iff_slot _ _ _).1 hmem
      obtain ⟨p2, c, a1, a2, a3, a4⟩ := gslot t2 ht2
      rw [hq] at a1
      cases a1
      obtain ⟨c2, a5, a6, _⟩ := finv.ids t2 ht2
      rw [a2] at a5
      cases a5
      rw [Int.toNat_ofNat, hout] at a4
      cases a4
      omega
    · intro hnot
      refine ffree p hp1 ?_
      intro t2 ht2 p2 hp2 hpe
      apply hnot
      have hmem : p2 ∈ s0.m_hat.take s0.n_chosen_points :=
        (mem_take_iff_slot _ _ _).2 ⟨t2, ht2, hp2⟩
      obtain ⟨x, _, hx, _, _⟩ := finv.collected_seen t2 p2 ht2 hp2
      obtain ⟨m2, hm2, _, _⟩ := finv.key_range hk p2 (by rw [hx]; rfl)
      have : p2 = (p : Int) := by
        rw [hm2] at hpe ⊢
        simp only [Int.toNat_ofNat] at hpe
        rw [hpe]
      rw [← this]
      exact hmem

/-! ## The sinks of the ascent -/

/-- The hypothesis `FallbackDescends` is what the decrease of the radius along
the ascent links needs: on a valid input on which the ascent target of every
unassigned point is `-1` or a point of strictly smaller radius, the fallback
descends. -/
theorem fallback_descends_of_targets {norm : SquaredNorm} {dataset : RowMatrixXd}
    {radii : VectorXd} {neighbors : RowMatrixXi} {cores : VectorXi}
    (hv : ValidInput dataset radii neighbors cores)
    (h : ∀ (i : Nat) (c t : Int) (ri : ℚ), cores[i]? = some c → c < 0 →
      radii[i]? = some ri → ascent_target norm dataset radii neighbors i = .ok t → 0 ≤ t →
      ∃ rt, radii[t.toNat]? = some rt ∧ rt < ri) :
    FallbackDescends norm dataset radii neighbors cores := by
  intro i c ri xi row hc hneg hri hxi hrow hnone hex
  by_cases hsome : ∃ (j : Nat) (rj : ℚ) (xj : List ℚ) (dj : ℚ), radii[j]? = some rj ∧
      rj < ri ∧ dataset[j]? = some xj ∧ norm xj xi = some dj
  · exact Or.inl hsome
  · refine Or.inr ?_
    have hrange : ∀ k ∈ row, 0 ≤ k ∧ k.toNat < radii.length := by
      intro k hk
      obtain ⟨hk0, hk1⟩ := hv.nbr_range row (List.getElem?_mem hrow) k hk
      rw [hv.radii_len]
      exact ⟨hk0, by omega⟩
    have hscan : scan_neighbors radii ri row = .ok (-1) := by
      rcases scan_neighbors_spec radii ri row hrange with
        ⟨t, pre, post, rt, hsplit, _, hrt, hlt, _⟩ | ⟨_, h2⟩
      · have ht : t ∈ row := by rw [hsplit]; simp
        exact absurd hlt (hnone t ht rt hrt)
      · exact h2
    have htgt : ascent_target norm dataset radii neighbors i = .ok 0 := by
      rw [ascent_target_of_fallback hri hrow hxi hscan]
      refine fallback_overflow norm dataset radii xi ri hv.radii_len hex ?_
      intro j rj xj hj hlt hxj
      cases hn : norm xj xi with
      | none => rfl
      | some dj => exact absurd ⟨j, rj, xj, dj, hj, hlt, hxj, hn⟩ hsome
    obtain ⟨rt, hrt, hlt⟩ := h i c 0 ri hc hneg hri htgt (le_refl _)
    exact ⟨rt, hrt, hlt⟩

/-- The claim of C12 fails on two points of radius 1/2 and 1 that are each the
neighbor of the other, with `beta = epsilon = 1/10` and `dim = 1`: the radius 1
of point 1 exceeds the threshold `radii[i] * 9/10` of both sweep positions and
the consideration cursor stops at position 1 of the sorted order, where point 1
stands, yet point 1 gets the cluster id 0: it is in the component of point 0
when that component is extracted. -/
theorem unreached_point_assigned :
    compute_cores (Arith.exact pow_one) stable_sort 1 [1 / 2, 1] [[1], [0]] (1 / 10) (1 / 10) =
      .ok [0, 0] ∧
    (∀ ri ∈ ([1 / 2, 1] : VectorXd), ri * pow_one (1 - 1 / 10) (1 / ((1 : Int) : ℚ)) < 1) ∧
    stable_sort (List.zipWith (fun (r : ℚ) (i : Nat) => (⟨r, (i : Int)⟩ : KnnPoint))
      [1 / 2, 1] (List.range 2)) = [⟨1 / 2, 0⟩, ⟨1, 1⟩] ∧
    (compute_cores_sweep (Arith.exact pow_one) stable_sort 1 [1 / 2, 1] [[1], [0]] (1 / 10)
      (1 / 10)).toOption.map Chosen.last_considered = some 1 := by
  decide!

/-- C12, amended. On a valid input, for every arithmetic of doubles `ar` that
obeys `ArithLaw` and every `std::sort` that orders by radius, with `rs` the
evaluations of the condition of the consideration loop of the sweep in the
order in which they happen, `shrink` the computed `pow(1 - beta, 1 / dim)` and
`knn_radii` the sorted radii: the loop body runs at an evaluation exactly when
the computed threshold `knn_radii[i].dist * shrink` is above the radius of the
point under the consideration cursor; the component of that point is extracted
exactly when the body runs and the component, taken in the graph of the points
pruned so far, holds no point that the cursor passed before; and a point `p`
keeps the sentinel `-1` if and only if no extraction collects it, that is, at
no extraction is `p` a pruned point joined by mutual k-NN edges among the pruned
points to the point under the cursor with `radii[p] ≤ knn_radii[i].dist`. A
point whose radius is below the computed threshold of no sweep position is
never the point under the cursor when the body runs, so it keeps `-1` unless it
is collected with the component of another point. -/
theorem unassigned_iff_never_collected {ar : Arith} {sort : List KnnPoint → List KnnPoint}
    {radii : VectorXd} (har : ArithLaw ar radii) (hsort : SortsByDist sort) {dim : Int}
    {neighbors : RowMatrixXi} {beta epsilon : ℚ}
    (hv : CoresInput dim radii neighbors beta epsilon) :
    ∃ (s : Chosen) (lp : Nat) (rs : List CursorRead) (out : VectorXi),
      compute_cores_reads ar sort dim radii neighbors beta epsilon = .ok (s, lp, rs) ∧
      compute_cores_sweep ar sort dim radii neighbors beta epsilon = .ok s ∧
      compute_cores ar sort dim radii neighbors beta epsilon = .ok out ∧
      (∀ r ∈ rs, ∀ ki kl : KnnPoint,
        (sort (List.zipWith (fun (r : ℚ) (i : Nat) => (⟨r, (i : Int)⟩ : KnnPoint))
          radii (List.range radii.length)))[r.i]? = some ki →
        (sort (List.zipWith (fun (r : ℚ) (i : Nat) => (⟨r, (i : Int)⟩ : KnnPoint))
          radii (List.range radii.length)))[r.last_considered]? = some kl →
        (r.entered = true ↔ ar.mul ki.dist (ar.pow (ar.sub 1 beta) (ar.div 1 dim)) > kl.dist)) ∧
      (∀ r ∈ rs, (r.fresh = true ↔ (r.entered = true ∧ ¬ SeenBefore neighbors
        (sort (List.zipWith (fun (r : ℚ) (i : Nat) => (⟨r, (i : Int)⟩ : KnnPoint))
          radii (List.range radii.length))) r))) ∧
      (∀ p : Nat, p < radii.length →
        (out[p]? = some (-1) ↔ ¬ ∃ r ∈ rs, Collects radii neighbors
          (sort (List.zipWith (fun (r : ℚ) (i : Nat) => (⟨r, (i : Int)⟩ : KnnPoint))
          radii (List.range radii.length))) r (p : Int))) ∧
      (∀ (pos : Nat) (kp : KnnPoint),
        (sort (List.zipWith (fun (r : ℚ) (i : Nat) => (⟨r, (i : Int)⟩ : KnnPoint))
          radii (List.range radii.length)))[pos]? = some kp →
        (∀ ki ∈ (sort (List.zipWith (fun (r : ℚ) (i : Nat) => (⟨r, (i : Int)⟩ : KnnPoint))
          radii (List.range radii.length))),
          ¬ ar.mul ki.dist (ar.pow (ar.sub 1 beta) (ar.div 1 dim)) > kp.dist) →
        ∀ r ∈ rs, r.entered = true → r.last_considered ≠ pos) := by
  obtain ⟨s, lp, rs, out, h1, h2, h3, _, h5, _, h7⟩ := compute_cores_reads_spec har hsort
    hv.dim_pos hv.beta_pos hv.beta_lt hv.epsilon_pos hv.rows_eq hv.radii_nonneg
  refine ⟨s, lp, rs, out, h1, h2, h3, ?_, ?_, h7, ?_⟩
  · intro r hr ki kl hki hkl
    exact (h5 r hr).2.2.entered_iff ki kl hki hkl
  · intro r hr
    exact (h5 r hr).2.2.fresh_iff
  · intro pos kp hkp hall r hr hent hpos
    have hok := (h5 r hr).2.2
    have hki := List.getElem?_eq_getElem hok.i_lt
    rw [← hpos] at hkp
    exact hall _ (List.getElem?_mem hki) ((hok.entered_iff _ kp hki hkp).1 hent)

/-- Three points of radius 1/2, 10 and 1, the first two each the neighbor of the
other and the third its own neighbor, with `beta = epsilon = 1/10` and
`dim = 1`: a valid input of `compute_cores`. -/
theorem cores_input_apart : CoresInput 1 [1 / 2, 10, 1] [[1], [0], [2]] (1 / 10) (1 / 10) := by
  refine ⟨?_, rfl, ?_, by norm_num, by norm_num, by norm_num, le_refl _⟩
  · intro r hr
    simp only [List.mem_cons, List.mem_singleton, List.not_mem_nil, or_false] at hr
    rcases hr with rfl | rfl | rfl <;> norm_num
  · decide

/-- Witness of C12, amended, on three points of radius 1/2, 10 and 1 of which
the first two are each the neighbor of the other, with exact arithmetic,
`std::pow` at exponent one and a stable sort: point 1 is never collected and
keeps the sentinel. -/
theorem unassigned_iff_never_collected_witness :
    compute_cores (Arith.exact pow_one) stable_sort 1 [1 / 2, 10, 1] [[1], [0], [2]] (1 / 10)
      (1 / 10) = .ok [0, -1, 1] ∧
    ∃ (s : Chosen) (lp : Nat) (rs : List CursorRead) (out : VectorXi),
      compute_cores_reads (Arith.exact pow_one) stable_sort 1 [1 / 2, 10, 1]
        [[1], [0], [2]] (1 / 10) (1 / 10) = .ok (s, lp, rs) ∧
      compute_cores_sweep (Arith.exact pow_one) stable_sort 1 [1 / 2, 10, 1]
        [[1], [0], [2]] (1 / 10) (1 / 10) = .ok s ∧
      compute_cores (Arith.exact pow_one) stable_sort 1 [1 / 2, 10, 1]
        [[1], [0], [2]] (1 / 10) (1 / 10) = .ok out ∧
      (∀ r ∈ rs, ∀ ki kl : KnnPoint,
        (stable_sort (List.zipWith (fun (r : ℚ) (i : Nat) => (⟨r, (i : Int)⟩ : KnnPoint))
          [1 / 2, 10, 1] (List.range ([1 / 2, 10, 1] : VectorXd).length)))[r.i]? = some ki →
        (stable_sort (List.zipWith (fun (r : ℚ) (i : Nat) => (⟨r, (i : Int)⟩ : KnnPoint))
          [1 / 2, 10, 1] (List.range ([1 / 2, 10, 1] : VectorXd).length)))[r.last_considered]? = some kl →
        (r.entered = true ↔ (Arith.exact pow_one).mul ki.dist
          ((Arith.exact pow_one).pow ((Arith.exact pow_one).sub 1 (1 / 10))
            ((Arith.exact pow_one).div 1 ((1 : Int) : ℚ))) > kl.dist)) ∧
      (∀ r ∈ rs, (r.fresh = true ↔ (r.entered = true ∧ ¬ SeenBefore [[1], [0], [2]]
        (stable_sort (List.zipWith (fun (r : ℚ) (i : Nat) => (⟨r, (i : Int)⟩ : KnnPoint))
          [1 / 2, 10, 1] (List.range ([1 / 2, 10, 1] : VectorXd).length))) r))) ∧
      (∀ p : Nat, p < ([1 / 2, 10, 1] : VectorXd).length →
        (out[p]? = some (-1) ↔ ¬ ∃ r ∈ rs, Collects [1 / 2, 10, 1] [[1], [0], [2]]
          (stable_sort (List.zipWith (fun (r : ℚ) (i : Nat) => (⟨r, (i : Int)⟩ : KnnPoint))
          [1 / 2, 10, 1] (List.range ([1 / 2, 10, 1] : VectorXd).length))) r (p : Int))) ∧
      (∀ (pos : Nat) (kp : KnnPoint),
        (stable_sort (List.zipWith (fun (r : ℚ) (i : Nat) => (⟨r, (i : Int)⟩ : KnnPoint))
          [1 / 2, 10, 1] (List.range ([1 / 2, 10, 1] : VectorXd).length)))[pos]? = some kp →
        (∀ ki ∈ (stable_sort (List.zipWith (fun (r : ℚ) (i : Nat) => (⟨r, (i : Int)⟩ : KnnPoint))
          [1 / 2, 10, 1] (List.range ([1 / 2, 10, 1] : VectorXd).length))),
          ¬ (Arith.exact pow_one).mul ki.dist
            ((Arith.exact pow_one).pow ((Arith.exact pow_one).sub 1 (1 / 10))
              ((Arith.exact pow_one).div 1 ((1 : Int) : ℚ))) > kp.dist) →
        ∀ r ∈ rs, r.entered = true → r.last_considered ≠ pos) :=
  ⟨by decide!, unassigned_iff_never_collected (exact_arith_law pow_one_law _) stable_sort_sorts
    cores_input_apart⟩

/-! ## C22: the cursors of the sweep -/

/-- The claim of C22 fails on two points of radius 0 and 1 that are each the
neighbor of the other, with `beta = epsilon = 1/10` and `dim = 1`, a valid
input: at sweep position 0 the pruning loop adds nothing, as `11/10 * 0 > 0`
fails, and the condition of the consideration loop then reads
`knn_radii[last_considered]` with `last_considered = 0 = last_pruned`, so that
the point read is not in the graph yet. The condition fails at that read and
the body does not run on the point. -/
theorem read_at_unpruned_position :
    CoresInput 1 [0, 1] [[1], [0]] (1 / 10) (1 / 10) ∧
    (compute_cores_reads (Arith.exact pow_one) stable_sort 1 [0, 1] [[1], [0]] (1 / 10)
      (1 / 10)).toOption.map (fun r => r.2.2) =
      some [⟨0, 0, 0, false, false⟩, ⟨1, 0, 2, true, true⟩, ⟨1, 1, 2, false, false⟩] ∧
    ¬ ((⟨0, 0, 0, false, false⟩ : CursorRead).last_considered <
      (⟨0, 0, 0, false, false⟩ : CursorRead).last_pruned) := by
  refine ⟨⟨?_, rfl, by decide, by norm_num, by norm_num, by norm_num, le_refl _⟩, by decide!,
    by decide⟩
  intro r hr
  simp only [List.mem_cons, List.mem_singleton, List.not_mem_nil, or_false] at hr
  rcases hr with rfl | rfl <;> norm_num

/-- C22, amended. On a valid input (non-negative radii, one neighbor row per
point, neighbor indices in `[0, n)`, `0 < beta < 1`, `epsilon > 0`,
`dim ≥ 1`), for every arithmetic of doubles `ar` that obeys `ArithLaw` and
every `std::sort` that orders by radius, the sweep returns, and with `rs` the
reads of `knn_radii[last_considered]` by the condition of the consideration
loop, in the order in which they happen: at every read
`last_considered ≤ i < n`, so the unguarded read is in bounds, and
`last_considered ≤ last_pruned ≤ n`, so the point read is pruned or the first
point that is not; at every read on which the body runs, where the point is
passed to `component_seen` and `get_connected_component`,
`last_considered < last_pruned` and `last_considered < i`; at every read at a
sweep position `i` whose computed pruning threshold
`pow(1 + epsilon, 1 / dim) * knn_radii[i].dist` is above `knn_radii[i].dist`,
`last_considered < last_pruned`; and from one read to any later one neither
`i` nor `last_considered` nor `last_pruned` decreases, up to their final
values. -/
theorem sweep_cursors_safe {ar : Arith} {sort : List KnnPoint → List KnnPoint}
    {radii : VectorXd} (har : ArithLaw ar radii) (hsort : SortsByDist sort) {dim : Int}
    {neighbors : RowMatrixXi} {beta epsilon : ℚ}
    (hv : CoresInput dim radii neighbors beta epsilon) :
    ∃ (s : Chosen) (lp : Nat) (rs : List CursorRead),
      compute_cores_reads ar sort dim radii neighbors beta epsilon = .ok (s, lp, rs) ∧
      compute_cores_sweep ar sort dim radii neighbors beta epsilon = .ok s ∧
      (∀ r ∈ rs, r.last_considered ≤ r.i ∧ r.i < radii.length ∧
        r.last_considered ≤ r.last_pruned ∧ r.last_pruned ≤ radii.length) ∧
      (∀ r ∈ rs, r.entered = true →
        r.last_considered < r.last_pruned ∧ r.last_considered < r.i) ∧
      (∀ r ∈ rs, ∀ kr,
        (sort (List.zipWith (fun (r : ℚ) (i : Nat) => (⟨r, (i : Int)⟩ : KnnPoint))
          radii (List.range radii.length)))[r.i]? = some kr →
        ar.mul (ar.pow (ar.add 1 epsilon) (ar.div 1 dim)) kr.dist > kr.dist →
        r.last_considered < r.last_pruned) ∧
      rs.Pairwise (fun a b => a.i ≤ b.i ∧ a.last_considered ≤ b.last_considered ∧
        a.last_pruned ≤ b.last_pruned) ∧
      (∀ r ∈ rs, r.last_considered ≤ s.last_considered ∧ r.last_pruned ≤ lp) := by
  obtain ⟨s, lp, rs, out, h1, h2, _, _, h5, h6, _⟩ := compute_cores_reads_spec har hsort
    hv.dim_pos hv.beta_pos hv.beta_lt hv.epsilon_pos hv.rows_eq hv.radii_nonneg
  have hlen := (knn_sorted_of_sort hsort radii).len
  refine ⟨s, lp, rs, h1, h2, ?_, ?_, ?_, h6, ?_⟩
  · intro r hr
    have hok := (h5 r hr).2.2
    exact ⟨hok.lc_le, hlen ▸ hok.i_lt, hok.lc_le_lp, hlen ▸ hok.lp_le⟩
  · intro r hr
    exact (h5 r hr).2.2.entered_lt
  · intro r hr kr hkr hgt
    exact (h5 r hr).2.2.pruned_lt kr hkr hgt
  · intro r hr
    exact ⟨(h5 r hr).1, (h5 r hr).2.1⟩

/-- Witness of C22, amended, on the literal scenario, with exact arithmetic,
`std::pow` at exponent one and a stable sort. -/
theorem sweep_cursors_safe_witness :
    ∃ (s : Chosen) (lp : Nat) (rs : List CursorRead),
      compute_cores_reads (Arith.exact pow_one) stable_sort 1 [1, 1 / 2, 1 / 2, 2]
        [[1], [0, 2], [1, 3], [2]] (1 / 10) (1 / 10) = .ok (s, lp, rs) ∧
      compute_cores_sweep (Arith.exact pow_one) stable_sort 1 [1, 1 / 2, 1 / 2, 2]
        [[1], [0, 2], [1, 3], [2]] (1 / 10) (1 / 10) = .ok s ∧
      (∀ r ∈ rs, r.last_considered ≤ r.i ∧ r.i < ([1, 1 / 2, 1 / 2, 2] : VectorXd).length ∧
        r.last_considered ≤ r.last_pruned ∧
        r.last_pruned ≤ ([1, 1 / 2, 1 / 2, 2] : VectorXd).length) ∧
      (∀ r ∈ rs, r.entered = true →
        r.last_considered < r.last_pruned ∧ r.last_considered < r.i) ∧
      (∀ r ∈ rs, ∀ kr,
        (stable_sort (List.zipWith (fun (r : ℚ) (i : Nat) => (⟨r, (i : Int)⟩ : KnnPoint))
          [1, 1 / 2, 1 / 2, 2] (List.range ([1, 1 / 2, 1 / 2, 2] : VectorXd).length)))[r.i]? = some kr →
        (Arith.exact pow_one).mul ((Arith.exact pow_one).pow
          ((Arith.exact pow_one).add 1 (1 / 10))
          ((Arith.exact pow_one).div 1 ((1 : Int) : ℚ))) kr.dist > kr.dist →
        r.last_considered < r.last_pruned) ∧
      rs.Pairwise (fun a b => a.i ≤ b.i ∧ a.last_considered ≤ b.last_considered ∧
        a.last_pruned ≤ b.last_pruned) ∧
      (∀ r ∈ rs, r.last_considered ≤ s.last_considered ∧ r.last_pruned ≤ lp) :=
  sweep_cursors_safe (exact_arith_law pow_one_law _) stable_sort_sorts cores_input_scenario

/-! ## C21: the sinks of the ascent are never merged -/

/-- Three points of a line far apart, of which the last is a core point: a
valid input of `cluster_remaining`. -/
theorem valid_three_apart :
    ValidInput [[0], [10 ^ 200], [-(10 ^ 200)]] [3, 2, 1] [[2], [1], [2]] [-1, -1, 0] := by
  refine ⟨by decide, by decide, by decide, by decide, by decide, by decide, ?_⟩
  intro c hc k h0 h1
  simp only [List.mem_cons, List.mem_singleton, List.not_mem_nil, or_false] at hc
  have : k = 0 := by omega
  subst this
  simp

/-- The ascent can reach a sink from every point although a fallback meets
distances that have all overflowed: on the three points far apart the fallback
of point 1 writes index 0, whose radius is larger, point 0 has the core point 2
in its neighbor row, and the labels are `[0, 0, 0]`. -/
theorem three_apart_reach :
    ¬ FallbackDescends squaredNorm [[0], [10 ^ 200], [-(10 ^ 200)]] [3, 2, 1] [[2], [1], [2]]
      [-1, -1, 0] ∧
    AscentReaches squaredNorm [[0], [10 ^ 200], [-(10 ^ 200)]] [3, 2, 1] [[2], [1], [2]]
      [-1, -1, 0] ∧
    cluster_remaining squaredNorm [[0], [10 ^ 200], [-(10 ^ 200)]] [3, 2, 1] [[2], [1], [2]]
      [-1, -1, 0] = .ok [0, 0, 0] := by
  have hsink : IsSink [3, 2, 1] [-1, -1, 0] 2 := Or.inl ⟨0, by simp, le_refl _⟩
  have h0 : Ascends squaredNorm [[0], [10 ^ 200], [-(10 ^ 200)]] [3, 2, 1] [[2], [1], [2]]
      [-1, -1, 0] 0 2 :=
    Ascends.link (c := -1) (t := 2) (by simp) (by decide) (by decide!) (by decide)
      (Ascends.here 2)
  have h1 : Ascends squaredNorm [[0], [10 ^ 200], [-(10 ^ 200)]] [3, 2, 1] [[2], [1], [2]]
      [-1, -1, 0] 1 2 :=
    Ascends.link (c := -1) (t := 0) (by simp) (by decide) (by decide!) (by decide) h0
  refine ⟨?_, ?_, by decide!⟩
  · intro h
    rcases h 1 (-1) 2 [10 ^ 200] [1] (by simp) (by decide) (by simp) (by simp) (by simp)
      (by
        intro k hk rk hrk
        simp only [List.mem_singleton] at hk
        subst hk
        simp at hrk
        subst hrk
        exact lt_irrefl _)
      ⟨1, by simp, by norm_num⟩ with ⟨j, rj, xj, dj, hj, hlt, hxj, hn⟩ | ⟨r0, hr0, hlt⟩
    · have hj2 : j = 2 := by
        rcases j with _ | _ | _ | j
        · simp at hj
          subst hj
          norm_num at hlt
        · simp at hj
          subst hj
          exact absurd hlt (lt_irrefl _)
        · rfl
        · simp at hj
      subst hj2
      simp at hxj
      subst hxj
      have hinf : squaredNorm [-(10 ^ 200)] [10 ^ 200] = none := by decide!
      rw [hinf] at hn
      cases hn
    · simp at hr0
      subst hr0
      norm_num at hlt
  · intro x hx
    match x, hx with
    | 0, _ => exact ⟨2, h0, hsink⟩
    | 1, _ => exact ⟨2, h1, hsink⟩
    | 2, _ => exact ⟨2, Ascends.here 2, hsink⟩
    | (k + 3), hx => simp at hx

end quickshift
